import Mathlib

/-! Scalar Bezier-curve algebra of the variable-width stroker.

Shallow embedding of `samplecode/SampleVariableWidthStroker.cpp`
(`choose`, the class `ScalarBezCurve` and the class `SkVarWidthStroker`),
followed by the properties that the specification states.

Conventions of the embedding

* `float` weights and parameters are taken as elements of an arbitrary linearly
  ordered field `K` (exact arithmetic); every theorem therefore holds for the
  reals, and the definitions can be evaluated over the rationals.
* `std::vector<float>` is a `List K`.  A read `v[i]` is `v.getD i 0` and a write
  `v[i] = x` is `v.set i x`.  Out-of-range accesses are undefined in the source;
  the theorems carry a length hypothesis (`InBounds c`, or `n + 1 ≤ ws.length`
  for the curve `⟨n, ws⟩`) under which every access is in range, and the
  concrete evaluations use curves built by the constructors, on which every
  access is in range as well.
* `uint64_t` arithmetic is arithmetic on `Nat` reduced modulo `2 ^ 64`; the
  conversion of a `uint64_t` to `float` is the cast into `K`.
* `int` loop counters are `Nat` (they only take non-negative values); the field
  `fDegree` is an `Int` because the default constructor stores `-1`.
* A failed `SkASSERT` is the result `none`.
* `sqrtf` is a parameter of the functions of the stroker that take a square
  root; the theorems assume that it returns the non-negative root of every
  non-negative number, and their concrete instances use the square root of the
  reals.
* The methods of the stroker that change `fInner` and `fOuter` take the state
  of the stroker and return the new state.
* A division by zero gives `0` in `K`, where the source gets an infinity or a
  NaN.  It occurs only where a wrapped `choose` or the divisor of the miter
  join is zero, and the evaluations that meet one say so.
* The loop of `strokeSegment` is a recursion on the number of rounds left of
  `kMaxIters`; `strokeSegmentRounds` counts the rounds of the same run, and
  `Item.Covers` relates a work item to the dyadic range it stands for.
* The literal `0.001f` of `ZeroSet` is the binary32 number `8589935 / 2^33`
  (`kTol`), a little above one thousandth.
* `Item.Tapered` describes the work items that `strokeSegment` meets on a line
  under the distance function `100 (1 - t)^32` of degree `32`.
* `stackChain` says that the candidate quads of the items on the stack of
  `strokeSegment` join end to start, and `appendSegmentsReversed` is the path
  that `appendPathReversed` is expected to build.
-/

namespace VarWidthStroker

/-- Reduction of a natural number to the range of `uint64_t`. -/
def u64 (x : Nat) : Nat := x % 2 ^ 64

/-- The function `choose(n, k)` of the source: `result` starts at `1` and, for
`i = 1 .. k`, is multiplied by `n + 1 - i` and then divided by `i`, all in
`uint64_t`. -/
def choose (n k : Nat) : Nat :=
  (List.range' 1 k).foldl (fun result i => u64 (result * u64 (n + 1 + 2 ^ 64 - i)) / i) 1

/-- The loop of `choose(n, k)` carried out over unbounded integers, as C14 reads
it: the recurrence of `choose` without the reduction modulo `2 ^ 64`. -/
def chooseExact (n k : Nat) : Nat :=
  (List.range' 1 k).foldl (fun result i => result * (n + 1 - i) / i) 1

/-- A scalar Bezier curve: the members `fDegree` and `fWeights` of the class. -/
structure ScalarBezCurve (K : Type) where
  fDegree : Int
  fWeights : List K
deriving DecidableEq

namespace ScalarBezCurve

variable {K : Type} [LinearOrderedField K]

/-- Constant `kDegreeInvalid`. -/
def kDegreeInvalid : Int := -1

/-- Constructor `ScalarBezCurve()`: an empty curve of invalid degree. -/
def mkEmpty : ScalarBezCurve K := ⟨kDegreeInvalid, []⟩

/-- Constructor `ScalarBezCurve(int degree)`: `fWeights.resize(degree + 1, 0)`.
The assertion `degree >= 0` of the constructor is not part of the value; the
theorems that depend on it carry `0 ≤ degree` as a hypothesis. -/
def mkDegree (degree : Int) : ScalarBezCurve K :=
  ⟨degree, List.replicate (degree + 1).toNat 0⟩

/-- Constructor `ScalarBezCurve(int degree, const std::vector<float>& weights)`:
it delegates to `ScalarBezCurve(degree)` and then inserts `weights` at
`fWeights.begin()`, in front of the `degree + 1` zeros already there. -/
def mkWeights (degree : Int) (weights : List K) : ScalarBezCurve K :=
  ⟨degree, weights ++ (mkDegree degree : ScalarBezCurve K).fWeights⟩

/-- Every index `0 .. fDegree` is a valid index of `fWeights`. -/
def InBounds (c : ScalarBezCurve K) : Prop :=
  0 ≤ c.fDegree ∧ c.fDegree + 1 ≤ (c.fWeights.length : Int)

instance (c : ScalarBezCurve K) : Decidable (InBounds c) := by
  unfold InBounds; infer_instance

/-- Method `degree()`. -/
def degree (c : ScalarBezCurve K) : Int := c.fDegree

/-- Method `weights()`. -/
def weights (c : ScalarBezCurve K) : List K := c.fWeights

/-- The inner loop shared by `Eval` and `Split`:
`for (i = degree; i >= k; i--) w[i] = w[i-1] * (1 - t) + w[i] * t`. -/
def casteljauRow (t : K) (degree k : Nat) (w : List K) : List K :=
  (List.range' k (degree + 1 - k)).reverse.foldl
    (fun r i => r.set i (r.getD (i - 1) 0 * (1 - t) + r.getD i 0 * t)) w

/-- Static method `Eval(curve, t)`: de Casteljau evaluation in place on a copy of
the weights, `k = 1 .. fDegree`; the value is `result.fWeights[fDegree]`. -/
def Eval (curve : ScalarBezCurve K) (t : K) : K :=
  let n := curve.fDegree.toNat
  ((List.range' 1 n).foldl (fun r k => casteljauRow t n k r) curve.fWeights).getD n 0

/-- Method `eval(t)`. -/
def eval (c : ScalarBezCurve K) (t : K) : K := Eval c t

/-- The loop `for (k = 1; k <= degree; k++)` of `Split` after `m` rounds, on the
triple `(result, left, right)` of weight vectors: one de Casteljau row on
`result`, then `left[k] = result[k]` and `right[degree - k] = result[degree]`. -/
def splitLoop (t : K) (n m : Nat) (init : List K × List K × List K) :
    List K × List K × List K :=
  (List.range' 1 m).foldl
    (fun (st : List K × List K × List K) k =>
      let result := casteljauRow t n k st.1
      (result, st.2.1.set k (result.getD k 0), st.2.2.set (n - k) (result.getD n 0)))
    init

/-- Static method `Split(curve, t, left, right)`; the two output parameters are
returned as a pair.  Both start as `ScalarBezCurve(degree)` and receive the
first, respectively the last, weight of the curve before the loop runs. -/
def Split (curve : ScalarBezCurve K) (t : K) : ScalarBezCurve K × ScalarBezCurve K :=
  let degree := curve.fDegree
  let n := degree.toNat
  let left0 := (mkDegree degree : ScalarBezCurve K).fWeights.set 0 (curve.fWeights.getD 0 0)
  let right0 := (mkDegree degree : ScalarBezCurve K).fWeights.set n (curve.fWeights.getD n 0)
  let st := splitLoop t n n (curve.fWeights, left0, right0)
  (⟨degree, st.2.1⟩, ⟨degree, st.2.2⟩)

/-- Method `split(t, left, right)`. -/
def split (c : ScalarBezCurve K) (t : K) : ScalarBezCurve K × ScalarBezCurve K := Split c t

/-- The blending factor used by `ElevateDegree`, `Mul` and `AddSquares`:
`(choose(p, x) * choose(q, y)) / static_cast<float>(choose(p + q, z))`, the
product being taken in `uint64_t` before the conversion. -/
def blend (p x q y z : Nat) : K :=
  (u64 (choose p x * choose q y) : K) / (choose (p + q) z : K)

/-- Static method `ElevateDegree(curve, newDegree)`.  The assertion
`newDegree >= curve.degree()` is the failure `none`.  Otherwise the curve itself
is returned when the degrees agree, and else the weights
`elevated[i] = ∑ j = max(0, i - r) .. min(n, i), curve[j] * f` are accumulated in
place in a fresh `ScalarBezCurve(newDegree)`. -/
def ElevateDegree (curve : ScalarBezCurve K) (newDegree : Int) : Option (ScalarBezCurve K) :=
  if newDegree < curve.degree then none
  else if newDegree = curve.degree then some curve
  else
    let r := (newDegree - curve.fDegree).toNat
    let n := curve.fDegree.toNat
    some ⟨newDegree,
      (List.range (n + r + 1)).foldl
        (fun e i =>
          (List.range' (i - r) (min n i + 1 - (i - r))).foldl
            (fun e j => e.set i (e.getD i 0 + curve.fWeights.getD j 0 * blend n j r (i - j) i))
            (e.set i 0))
        (mkDegree newDegree : ScalarBezCurve K).fWeights⟩

/-- Method `elevateDegree(newDegree)`: nothing happens when the degree is
already `newDegree`; otherwise the weights of `ElevateDegree(*this, newDegree)`
and the new degree are stored. -/
def elevateDegree (c : ScalarBezCurve K) (newDegree : Int) : Option (ScalarBezCurve K) :=
  if newDegree = c.fDegree then some c
  else (ElevateDegree c newDegree).map (fun e => ⟨newDegree, e.fWeights⟩)

/-- Static method `Mul(a, b)` on two curves.  With `n = a.degree()` and
`m = b.degree()`, weight `k` of the result accumulates
`a[i] * b[k - i] * f` for `i = max(0, k - n) .. min(k, m)`, where
`f = choose(m, i) * choose(n, k - i) / choose(m + n, k)`. -/
def Mul (a b : ScalarBezCurve K) : ScalarBezCurve K :=
  let n := a.degree.toNat
  let m := b.degree.toNat
  let newDegree := a.degree + b.degree
  ⟨newDegree,
    (List.range (newDegree + 1).toNat).foldl
      (fun res k =>
        (List.range' (k - n) (min k m + 1 - (k - n))).foldl
          (fun res i => res.set k (res.getD k 0 +
            a.fWeights.getD i 0 * b.fWeights.getD (k - i) 0 * blend m i n (k - i) k))
          (res.set k 0))
      (mkDegree newDegree : ScalarBezCurve K).fWeights⟩

/-- Static method `AddSquares(a, b)`: the loops of `Mul(a, a)` and `Mul(b, b)`
fused, with the bounds and factors taken from `n = a.degree()` and
`m = b.degree()` exactly as in `Mul(a, b)`. -/
def AddSquares (a b : ScalarBezCurve K) : ScalarBezCurve K :=
  let n := a.degree.toNat
  let m := b.degree.toNat
  let newDegree := a.degree + b.degree
  ⟨newDegree,
    (List.range (newDegree + 1).toNat).foldl
      (fun res k =>
        let sq := (List.range' (k - n) (min k m + 1 - (k - n))).foldl
          (fun (sq : K × K) i =>
            (sq.1 + a.fWeights.getD i 0 * a.fWeights.getD (k - i) 0 * blend m i n (k - i) k,
             sq.2 + b.fWeights.getD i 0 * b.fWeights.getD (k - i) 0 * blend m i n (k - i) k))
          (0, 0)
        res.set k (sq.1 + sq.2))
      (mkDegree newDegree : ScalarBezCurve K).fWeights⟩

/-- Method `extremumWeight()`: the running pair `(f, sign)` starts at `(0, 1)`
and is replaced at every weight with `|w| > f`; the value is `sign * f`. -/
def extremumWeight (c : ScalarBezCurve K) : K :=
  let st := c.fWeights.foldl
    (fun (st : K × Int) w => if |w| > st.1 then (|w|, if w ≥ 0 then 1 else -1) else st)
    ((0 : K), (1 : Int))
  (st.2 : K) * st.1

/-- Static method `Mul(curve, f)`: every weight `0 .. fDegree` is multiplied by
the constant `f`. -/
def MulScalar (curve : ScalarBezCurve K) (f : K) : ScalarBezCurve K :=
  ⟨curve.fDegree,
    (List.range (curve.fDegree + 1).toNat).foldl
      (fun w k => w.set k (w.getD k 0 * f)) curve.fWeights⟩

/-- Method `sub(other)`.  The assertion `other.fDegree == fDegree` is the failure
`none`; otherwise `fWeights[k] -= other.fWeights[k]` for `k = 0 .. fDegree`. -/
def sub (c other : ScalarBezCurve K) : Option (ScalarBezCurve K) :=
  if other.fDegree = c.fDegree then
    some ⟨c.fDegree,
      (List.range (c.fDegree + 1).toNat).foldl
        (fun w k => w.set k (w.getD k 0 - other.fWeights.getD k 0)) c.fWeights⟩
  else none

/-- Static method `Sub(a, b)`: a copy of `a` from which `b` is subtracted by
`sub`. -/
def Sub (a b : ScalarBezCurve K) : Option (ScalarBezCurve K) := a.sub b

/-- Method `sub(float f)`: `fWeights[k] -= f` for `k = 0 .. fDegree`. -/
def subScalar (c : ScalarBezCurve K) (f : K) : ScalarBezCurve K :=
  ⟨c.fDegree,
    (List.range (c.fDegree + 1).toNat).foldl (fun w k => w.set k (w.getD k 0 - f)) c.fWeights⟩

/-- Modelled from the spec: `SkScalarNearlyZero(x)` of `include/core/SkScalar.h`
is not among the source files.  It is `|x| <= SK_ScalarNearlyZero` with the
tolerance `SK_ScalarNearlyZero = 1 / (1 << 12) = 1/4096`. -/
def SkScalarNearlyZero (x : K) : Bool := decide (|x| ≤ 1 / 4096)

/-- The scan at the head of `ZeroSetRec`: `lenP` accumulates
`|w[i] - w[i-1]|` for `i = 1 .. fDegree`, `allPos` starts as `w[0] >= 0` and is
and-ed with `w[i] >= 0`, `allNeg` starts as `w[0] < 0` and is and-ed with
`w[i] < 0`.  The triple is `(lenP, allPos, allNeg)`. -/
def zeroSetScan (curve : ScalarBezCurve K) : K × Bool × Bool :=
  (List.range' 1 curve.fDegree.toNat).foldl
    (fun (st : K × Bool × Bool) i =>
      (st.1 + |curve.fWeights.getD i 0 - curve.fWeights.getD (i - 1) 0|,
       st.2.1 && decide (curve.fWeights.getD i 0 ≥ 0),
       st.2.2 && decide (curve.fWeights.getD i 0 < 0)))
    ((0 : K), decide (curve.fWeights.getD 0 0 ≥ 0), decide (curve.fWeights.getD 0 0 < 0))

/-- Private method `ZeroSetRec(curve, tmin, tmax, tol, result)`.  The first
argument bounds the depth of the recursion (`none` when it is exhausted); the
vector behind the pointer `result` is passed in and returned.  In this order:
a flat control polygon (`lenP <= tol`) pushes the midpoint of the interval;
weights of one sign return; a nearly empty interval returns; otherwise the
curve is split at `0.5` and the left half, then the right half, is searched. -/
def ZeroSetRec : Nat → ScalarBezCurve K → K → K → K → List K → Option (List K)
  | 0, _, _, _, _, _ => none
  | fuel + 1, curve, tmin, tmax, tol, result =>
    let st := zeroSetScan curve
    if st.1 ≤ tol then some (result ++ [(tmin + tmax) * (1 / 2)])
    else if st.2.1 || st.2.2 then some result
    else if SkScalarNearlyZero (tmax - tmin) then some result
    else
      let lr := Split curve (1 / 2)
      let tmid := (tmin + tmax) * (1 / 2)
      (ZeroSetRec fuel lr.1 tmin tmid tol result).bind
        (fun result1 => ZeroSetRec fuel lr.2 tmid tmax tol result1)

/-- The constant of `ZeroSet`, `constexpr float kTol = 0.001f`.  The literal is a
binary32 number, the float nearest to one thousandth: `8589935 / 2^33`
(`0.0010000000474974513...`, a little above `1/1000`). -/
def kTol : K := 8589935 / 8589934592

/-- Static method `ZeroSet(curve)`: `ZeroSetRec(curve, 0, 1, kTol, &result)` with
`kTol = 0.001f` and an empty `result`.  The first argument is the depth allowed
to the recursion. -/
def ZeroSet (fuel : Nat) (curve : ScalarBezCurve K) : Option (List K) :=
  ZeroSetRec fuel curve 0 1 kTol []

/-- Method `zeroSet()`. -/
def zeroSet (fuel : Nat) (c : ScalarBezCurve K) : Option (List K) := ZeroSet fuel c

end ScalarBezCurve

/-! ## Sequences of weights and the de Casteljau triangle -/

section Definitions

variable {K : Type} [LinearOrderedField K]

/-- The sequence of weights read from a vector. -/
def seqOf (l : List K) : Nat → K := fun i => l.getD i 0

/-- The de Casteljau triangle of a sequence: `dc w t k i` is the level-`k` point
built from `w i, .., w (i + k)`. -/
def dc (w : Nat → K) (t : K) : Nat → Nat → K
  | 0, i => w i
  | k + 1, i => dc w t k i * (1 - t) + dc w t k (i + 1) * t

/-- The Bernstein-form value `∑ i ≤ n, w i * C(n,i) * t^i * (1-t)^(n-i)`. -/
def bernstein (w : Nat → K) (n : Nat) (t : K) : K :=
  ∑ i in Finset.range (n + 1), w i * (n.choose i : K) * t ^ i * (1 - t) ^ (n - i)

end Definitions

/-! ## The stroker: points, paths and segments -/

/-- Modelled from the spec: the class `SkPoint` of `include/core/SkPoint.h` is not
among the source files.  A point or vector of the plane with the members `fX`
and `fY`. -/
structure SkPoint (K : Type) where
  fX : K
  fY : K
deriving DecidableEq

namespace SkPoint

variable {K : Type} [LinearOrderedField K]

/-- Modelled from the spec: `operator+` of `SkPoint`, the sum of two vectors. -/
def add (a b : SkPoint K) : SkPoint K := ⟨a.fX + b.fX, a.fY + b.fY⟩

/-- Modelled from the spec: `operator-` of `SkPoint`, the difference of two
vectors. -/
def sub (a b : SkPoint K) : SkPoint K := ⟨a.fX - b.fX, a.fY - b.fY⟩

/-- Modelled from the spec: `operator*` of `SkPoint`, the product with a scalar. -/
def scale (p : SkPoint K) (k : K) : SkPoint K := ⟨p.fX * k, p.fY * k⟩

/-- Modelled from the spec: `SkPoint::dot`, `a.fX * b.fX + a.fY * b.fY`. -/
def dot (a b : SkPoint K) : K := a.fX * b.fX + a.fY * b.fY

/-- Modelled from the spec: `SkPoint::cross`, `a.fX * b.fY - a.fY * b.fX`. -/
def cross (a b : SkPoint K) : K := a.fX * b.fY - a.fY * b.fX

/-- Modelled from the spec: `SkPoint::length`, the Euclidean length; the square
root function is the parameter `sqrtf`. -/
def length (sqrtf : K → K) (p : SkPoint K) : K := sqrtf (p.fX * p.fX + p.fY * p.fY)

/-- Modelled from the spec: `SkPoint::setLength(length)` of `src/core/SkPoint.cpp`
is not among the source files.  Both coordinates are multiplied by
`length / sqrt(fX * fX + fY * fY)`; when the result is the zero vector (or is not
finite, as for the zero vector itself) the point is set to `(0, 0)` and `false`
is returned, otherwise `true`. -/
def setLength (sqrtf : K → K) (p : SkPoint K) (length : K) : SkPoint K × Bool :=
  let dmag := sqrtf (p.fX * p.fX + p.fY * p.fY)
  let dscale := length / dmag
  let x := p.fX * dscale
  let y := p.fY * dscale
  if x = 0 ∧ y = 0 then (⟨0, 0⟩, false) else (⟨x, y⟩, true)

/-- Modelled from the spec: `SkPoint::normalize()` is `setLength(1)`. -/
def normalize (sqrtf : K → K) (p : SkPoint K) : SkPoint K × Bool := setLength sqrtf p 1

end SkPoint

/-- Modelled from the spec: the enumeration `SkPath::Verb` of
`include/core/SkPath.h`, in the order of its values `0 .. 6`. -/
inductive Verb where
  | kMove_Verb
  | kLine_Verb
  | kQuad_Verb
  | kConic_Verb
  | kCubic_Verb
  | kClose_Verb
  | kDone_Verb
deriving DecidableEq

/-- The conversion `static_cast<uint8_t>(verb)`. -/
def Verb.toNat : Verb → Nat
  | Verb.kMove_Verb => 0
  | Verb.kLine_Verb => 1
  | Verb.kQuad_Verb => 2
  | Verb.kConic_Verb => 3
  | Verb.kCubic_Verb => 4
  | Verb.kClose_Verb => 5
  | Verb.kDone_Verb => 6

/-- Modelled from the spec: the enumeration `SkPaint::Cap`. -/
inductive Cap where
  | kButt_Cap
  | kRound_Cap
  | kSquare_Cap
deriving DecidableEq

/-- Modelled from the spec: the enumeration `SkPaint::Join`. -/
inductive Join where
  | kMiter_Join
  | kRound_Join
  | kBevel_Join
deriving DecidableEq

/-- Modelled from the spec: what the stroker reads of an `SkPaint`: the stroke
width, the cap and the join. -/
structure SkPaint (K : Type) where
  fWidth : K
  fCap : Cap
  fJoin : Join

/-- Modelled from the spec: the class `SkPath` of `include/core/SkPath.h` is not
among the source files.  A path is its array of verbs, its array of points, and
the index of the point of the last `moveTo` (negative while a `moveTo` has to be
injected before the next segment). -/
structure SkPath (K : Type) where
  fVerbs : List Verb
  fPts : List (SkPoint K)
  fLastMoveToIndex : Int
deriving DecidableEq

namespace SkPath

variable {K : Type} [LinearOrderedField K]

/-- Modelled from the spec: an empty path, also the result of `rewind()`. -/
def empty : SkPath K := ⟨[], [], -1⟩

/-- Modelled from the spec: `SkPath::moveTo(p)` appends a move verb and its
point. -/
def moveTo (path : SkPath K) (p : SkPoint K) : SkPath K :=
  ⟨path.fVerbs ++ [Verb.kMove_Verb], path.fPts ++ [p], path.fPts.length⟩

/-- Modelled from the spec: `SkPath::injectMoveToIfNeeded()`: when no contour
is open, a move is appended, to `(0, 0)` on an empty path and else to the point
of the last `moveTo`. -/
def injectMoveToIfNeeded (path : SkPath K) : SkPath K :=
  if path.fLastMoveToIndex < 0 then
    if path.fVerbs.length = 0 then path.moveTo ⟨0, 0⟩
    else path.moveTo (path.fPts.getD (-(path.fLastMoveToIndex + 1)).toNat ⟨0, 0⟩)
  else path

/-- Modelled from the spec: `SkPath::lineTo(p)`. -/
def lineTo (path : SkPath K) (p : SkPoint K) : SkPath K :=
  let q := path.injectMoveToIfNeeded
  ⟨q.fVerbs ++ [Verb.kLine_Verb], q.fPts ++ [p], q.fLastMoveToIndex⟩

/-- Modelled from the spec: `SkPath::quadTo(p1, p2)`. -/
def quadTo (path : SkPath K) (p1 p2 : SkPoint K) : SkPath K :=
  let q := path.injectMoveToIfNeeded
  ⟨q.fVerbs ++ [Verb.kQuad_Verb], q.fPts ++ [p1, p2], q.fLastMoveToIndex⟩

/-- Modelled from the spec: `SkPath::close()` appends a close verb unless the
path is empty or already ends with one, and marks that the next segment needs
a `moveTo`. -/
def close (path : SkPath K) : SkPath K :=
  let verbs :=
    match path.fVerbs.getLast? with
    | none => path.fVerbs
    | some Verb.kClose_Verb => path.fVerbs
    | some _ => path.fVerbs ++ [Verb.kClose_Verb]
  ⟨verbs, path.fPts,
    if 0 ≤ path.fLastMoveToIndex then -(path.fLastMoveToIndex + 1) else path.fLastMoveToIndex⟩

/-- Modelled from the spec: `SkPath::getLastPt`, the last point of the path, or
`(0, 0)` when it has no point. -/
def getLastPt (path : SkPath K) : SkPoint K := path.fPts.getLastD ⟨0, 0⟩

/-- Modelled from the spec: `SkPath::isLastContourClosed()`: the path has a verb
and its last verb is a close. -/
def isLastContourClosed (path : SkPath K) : Bool :=
  decide (path.fVerbs.getLast? = some Verb.kClose_Verb)

/-- Modelled from the spec: `SkPath::getBounds()`, the bounding box of the control
points, as the quadruple `(fLeft, fTop, fRight, fBottom)`; a path without points
has the bounds `(0, 0, 0, 0)`. -/
def getBounds (path : SkPath K) : K × K × K × K :=
  match path.fPts with
  | [] => (0, 0, 0, 0)
  | p :: rest =>
    rest.foldl
      (fun b q => (min b.1 q.fX, min b.2.1 q.fY, max b.2.2.1 q.fX, max b.2.2.2 q.fY))
      (p.fX, p.fY, p.fX, p.fY)

/-- Modelled from the spec: `SkPath::countVerbs()`. -/
def countVerbs (path : SkPath K) : Nat := path.fVerbs.length

/-- Modelled from the spec: `SkPath::countPoints()`. -/
def countPoints (path : SkPath K) : Nat := path.fPts.length

/-- A path that is one open contour under construction: its first verb is a
move, every later verb is a line or a quad, and the contour is open
(`fLastMoveToIndex` is not negative), so that a segment appended to it injects
no move. -/
def OpenContour (path : SkPath K) : Prop :=
  ∃ mid : List Verb, path.fVerbs = Verb.kMove_Verb :: mid ∧
    (∀ x ∈ mid, x = Verb.kLine_Verb ∨ x = Verb.kQuad_Verb) ∧ 0 ≤ path.fLastMoveToIndex

end SkPath

/-- The helper struct `PathSegment`: a verb and the array `fPoints`, of which the
embedding keeps the entries that have been written. -/
structure PathSegment (K : Type) where
  fVerb : Verb
  fPoints : List (SkPoint K)
deriving DecidableEq

section Stroker

variable {K : Type} [LinearOrderedField K]

/-- Entry `i` of the array `fPoints` of a segment. -/
def PathSegment.pt (seg : PathSegment K) (i : Nat) : SkPoint K := seg.fPoints.getD i ⟨0, 0⟩

/-- Modelled from the spec: the segments that `SkPath::Iter(path, false)` returns
from `next` until `kDone_Verb`, given the verbs and points still to read, the
last point and the point of the last move.  A move yields its point (a move
that ends the path yields `kDone_Verb`), a line, quad, conic or cubic yields the
last point followed by its own points, and a close yields a closing line when
the last point is not the point of the last move, and then the close. -/
def iterSegments : List Verb → List (SkPoint K) → SkPoint K → SkPoint K → List (PathSegment K)
  | [], _, _, _ => []
  | Verb.kMove_Verb :: vs, pts, _, _ =>
    if vs = [] then []
    else ⟨Verb.kMove_Verb, [pts.getD 0 ⟨0, 0⟩]⟩ ::
      iterSegments vs (pts.drop 1) (pts.getD 0 ⟨0, 0⟩) (pts.getD 0 ⟨0, 0⟩)
  | Verb.kLine_Verb :: vs, pts, lastPt, moveTo =>
    ⟨Verb.kLine_Verb, [lastPt, pts.getD 0 ⟨0, 0⟩]⟩ ::
      iterSegments vs (pts.drop 1) (pts.getD 0 ⟨0, 0⟩) moveTo
  | Verb.kQuad_Verb :: vs, pts, lastPt, moveTo =>
    ⟨Verb.kQuad_Verb, [lastPt, pts.getD 0 ⟨0, 0⟩, pts.getD 1 ⟨0, 0⟩]⟩ ::
      iterSegments vs (pts.drop 2) (pts.getD 1 ⟨0, 0⟩) moveTo
  | Verb.kConic_Verb :: vs, pts, lastPt, moveTo =>
    ⟨Verb.kConic_Verb, [lastPt, pts.getD 0 ⟨0, 0⟩, pts.getD 1 ⟨0, 0⟩]⟩ ::
      iterSegments vs (pts.drop 2) (pts.getD 1 ⟨0, 0⟩) moveTo
  | Verb.kCubic_Verb :: vs, pts, lastPt, moveTo =>
    ⟨Verb.kCubic_Verb, [lastPt, pts.getD 0 ⟨0, 0⟩, pts.getD 1 ⟨0, 0⟩, pts.getD 2 ⟨0, 0⟩]⟩ ::
      iterSegments vs (pts.drop 3) (pts.getD 2 ⟨0, 0⟩) moveTo
  | Verb.kClose_Verb :: vs, pts, lastPt, moveTo =>
    if lastPt = moveTo then
      ⟨Verb.kClose_Verb, [moveTo]⟩ :: iterSegments vs pts moveTo moveTo
    else
      ⟨Verb.kLine_Verb, [lastPt, moveTo]⟩ :: ⟨Verb.kClose_Verb, [moveTo]⟩ ::
        iterSegments vs pts moveTo moveTo
  | Verb.kDone_Verb :: _, _, _, _ => []

/-- Function `rotate90`. -/
def rotate90 (p : SkPoint K) : SkPoint K := ⟨p.fY, -p.fX⟩

/-- Function `rotate180`: `p * -1`. -/
def rotate180 (p : SkPoint K) : SkPoint K := p.scale (-1)

/-- Function `isClockwise`: `a.cross(b) > 0`. -/
def isClockwise (a b : SkPoint K) : Bool := decide (a.cross b > 0)

/-- Function `setLength(p, len)` of the source, the version of
`SkPoint::setLength` that asserts on failure: the failure is `none`. -/
def setLength (sqrtf : K → K) (p : SkPoint K) (len : K) : Option (SkPoint K) :=
  if (p.setLength sqrtf len).2 then some (p.setLength sqrtf len).1 else none

/-- The table `lut` of `segmentDegree`, indexed by the value of the verb. -/
def segmentDegreeLut : List Int := [-1, 1, 2, -1, 3, -1]

/-- Static method `segmentDegree(seg)`: the entry of `lut` for the verb; the
assertion `deg > 0` (and a read behind the end of `lut`) is the failure `none`. -/
def segmentDegree (seg : PathSegment K) : Option Int :=
  match segmentDegreeLut.get? seg.fVerb.toNat with
  | some deg => if deg > 0 then some deg else none
  | none => none

/-- Static method `unitNormal(seg, t, tangentOut)`; the result is the pair of
the unit normal and the unit tangent.  A line uses the asserting `setLength`;
a quad takes the tangent at `t`, normalizes it without looking at the outcome,
and rotates it; any other verb is an assertion failure. -/
def unitNormal (sqrtf : K → K) (seg : PathSegment K) (t : K) :
    Option (SkPoint K × SkPoint K) :=
  match seg.fVerb with
  | Verb.kLine_Verb =>
    (setLength sqrtf ((seg.pt 1).sub (seg.pt 0)) 1).map (fun tangent => (rotate90 tangent, tangent))
  | Verb.kQuad_Verb =>
    let tangent :=
      if t = 0 then (seg.pt 1).sub (seg.pt 0)
      else if t = 1 then (seg.pt 2).sub (seg.pt 1)
      else ((((seg.pt 1).sub (seg.pt 0)).scale (1 - t)).add
        (((seg.pt 2).sub (seg.pt 1)).scale t)).scale 2
    let tangent1 := (tangent.normalize sqrtf).1
    some (rotate90 tangent1, tangent1)
  | _ => none

/-- The curve of degree `degree` whose weights `0 .. degree` are the coordinates
`coord` of the points of a segment: `ScalarBezCurve x(degree)` followed by
`x[i] = seg.fPoints[i].fX` (or `fY`) for `i = 0 .. degree`. -/
def coordCurve (coord : SkPoint K → K) (degree : Int) (pts : List (SkPoint K)) :
    ScalarBezCurve K :=
  ⟨degree,
    (List.range (degree + 1).toNat).foldl
      (fun w i => w.set i (coord (pts.getD i ⟨0, 0⟩)))
      (ScalarBezCurve.mkDegree degree : ScalarBezCurve K).fWeights⟩

/-- Static method `splitSegment(seg, t, segA, segB)`: the coordinate curves of
the segment are split at `t` and the two halves are read back as points. -/
def splitSegment (seg : PathSegment K) (t : K) : Option (PathSegment K × PathSegment K) :=
  (segmentDegree seg).map (fun degree =>
    let x := coordCurve SkPoint.fX degree seg.fPoints
    let y := coordCurve SkPoint.fY degree seg.fPoints
    let sx := x.split t
    let sy := y.split t
    (⟨seg.fVerb, (List.range (degree + 1).toNat).map
        (fun i => ⟨sx.1.fWeights.getD i 0, sy.1.fWeights.getD i 0⟩)⟩,
     ⟨seg.fVerb, (List.range (degree + 1).toNat).map
        (fun i => ⟨sx.2.fWeights.getD i 0, sy.2.fWeights.getD i 0⟩)⟩))

/-- Static method `approximateSegment(seg, distFnc, approxQuad)`: the control
polygon of the segment, moved by the unit normals at the ends (and their sum in
the middle) set to the lengths `distFnc(0)`, `distFnc(0.5)`, `distFnc(1)`.  The
source leaves `approxQuad->fVerb` unset; the embedding stores `kQuad_Verb`, which
no function reads. -/
def approximateSegment (sqrtf : K → K) (seg : PathSegment K) (distFnc : ScalarBezCurve K) :
    Option (PathSegment K) :=
  (unitNormal sqrtf seg 0).bind fun ns =>
  (unitNormal sqrtf seg 1).bind fun ne =>
  let offsetStart := (ns.1.setLength sqrtf (distFnc.eval 0)).1
  let offsetMid := ((ns.1.add ne.1).setLength sqrtf (distFnc.eval (1 / 2))).1
  let offsetEnd := (ne.1.setLength sqrtf (distFnc.eval 1)).1
  (segmentDegree seg).bind fun degree =>
  (if degree = 1 then
      some (seg.pt 0, ((seg.pt 0).add (seg.pt 1)).scale (1 / 2), seg.pt 1)
    else if degree = 2 then
      some (seg.pt 0, seg.pt 1, seg.pt 2)
    else if degree = 3 then
      some (seg.pt 0, ((seg.pt 1).add (seg.pt 2)).scale (1 / 2), seg.pt 3)
    else none).map fun sme =>
  ⟨Verb.kQuad_Verb, [sme.1.add offsetStart, sme.2.1.add offsetMid, sme.2.2.add offsetEnd]⟩

/-- The work item `Item` of `strokeSegment`: the segment, the distance function,
its square, and the coordinate curves of the segment. -/
structure Item (K : Type) where
  fSeg : PathSegment K
  fDistFnc : ScalarBezCurve K
  fDistFncSqd : ScalarBezCurve K
  fSegX : ScalarBezCurve K
  fSegY : ScalarBezCurve K

/-- The constructor `Item(seg, distFnc, distFncSqd)`. -/
def Item.make (seg : PathSegment K) (distFnc distFncSqd : ScalarBezCurve K) : Option (Item K) :=
  (segmentDegree seg).map fun segDegree =>
    ⟨seg, distFnc, distFncSqd, coordCurve SkPoint.fX segDegree seg.fPoints,
      coordCurve SkPoint.fY segDegree seg.fPoints⟩

/-- The error curve of one candidate of `strokeSegment`, together with the
square of the distance function after its elevation:
`eps = delta_x^2 + delta_y^2 - d^2`, all curves elevated to common degrees. -/
def errorCurve (item : Item K) (quadApprox : PathSegment K) :
    Option (ScalarBezCurve K × ScalarBezCurve K) :=
  let quadApproxX := coordCurve SkPoint.fX 2 quadApprox.fPoints
  let quadApproxY := coordCurve SkPoint.fY 2 quadApprox.fPoints
  let deltaDegree := max quadApproxX.degree item.fSegX.degree
  (item.fSegX.elevateDegree deltaDegree).bind fun segX =>
  (item.fSegY.elevateDegree deltaDegree).bind fun segY =>
  (quadApproxX.elevateDegree deltaDegree).bind fun qX =>
  (quadApproxY.elevateDegree deltaDegree).bind fun qY =>
  (ScalarBezCurve.Sub qX segX).bind fun deltaX =>
  (ScalarBezCurve.Sub qY segY).bind fun deltaY =>
  let E := ScalarBezCurve.AddSquares deltaX deltaY
  let commonDeg := max item.fDistFncSqd.degree E.degree
  (item.fDistFncSqd.elevateDegree commonDeg).bind fun distFncSqd =>
  (E.elevateDegree commonDeg).bind fun E1 =>
  (E1.sub distFncSqd).map fun E2 => (E2, distFncSqd)

/-- Constant `kMaxIters` of `strokeSegment`. -/
def kMaxIters : Nat := 5000

/-- The loop `while (!stack.empty())` of `strokeSegment`; the first argument is
the number of iterations left before `iter++ >= kMaxIters` breaks the loop.  The
head of the list is the top of the stack. -/
def strokeSegmentLoop (sqrtf : K → K) :
    Nat → List (Item K) → List (PathSegment K) → Option (List (PathSegment K))
  | 0, _, result => some result
  | _ + 1, [], result => some result
  | n + 1, item :: stack, result =>
    let kTol := |1 / 2 * item.fDistFnc.extremumWeight|
    (approximateSegment sqrtf item.fSeg item.fDistFnc).bind fun quadApprox =>
    (errorCurve item quadApprox).bind fun ed =>
    let maxAbsErr := |ed.1.extremumWeight|
    if maxAbsErr > kTol then
      (splitSegment item.fSeg (1 / 2)).bind fun lr =>
      let d := item.fDistFnc.split (1 / 2)
      let s := ed.2.split (1 / 2)
      (Item.make lr.2 d.2 s.2).bind fun right =>
      (Item.make lr.1 d.1 s.1).bind fun left =>
      strokeSegmentLoop sqrtf n (left :: right :: stack) result
    else
      strokeSegmentLoop sqrtf n stack (result ++ [quadApprox])

/-- Method `strokeSegment(seg, distFnc)`: the list of quads that approximate the
offset curve; the final assertion that the list is not empty is the failure
`none`. -/
def strokeSegment (sqrtf : K → K) (seg : PathSegment K) (distFnc : ScalarBezCurve K) :
    Option (List (PathSegment K)) :=
  (Item.make seg distFnc (ScalarBezCurve.Mul distFnc distFnc)).bind fun item =>
  (strokeSegmentLoop sqrtf kMaxIters [item] []).bind fun result =>
  if result = [] then none else some result

/-- The number of times the body of the loop of `strokeSegment` (the statements
after the test `iter++ >= kMaxIters`) is executed, for the arguments of
`strokeSegmentLoop`: the body runs while the budget and the stack are not
empty, and goes on with the stack that the round leaves.  A round that ends in
a failed assertion is counted and is the last one. -/
def strokeSegmentRounds (sqrtf : K → K) : Nat → List (Item K) → Nat
  | 0, _ => 0
  | _ + 1, [] => 0
  | n + 1, item :: stack =>
    let kTol := |1 / 2 * item.fDistFnc.extremumWeight|
    match (approximateSegment sqrtf item.fSeg item.fDistFnc).bind fun quadApprox =>
      (errorCurve item quadApprox).bind fun ed =>
      if |ed.1.extremumWeight| > kTol then
        (splitSegment item.fSeg (1 / 2)).bind fun lr =>
        let d := item.fDistFnc.split (1 / 2)
        let s := ed.2.split (1 / 2)
        (Item.make lr.2 d.2 s.2).bind fun right =>
        (Item.make lr.1 d.1 s.1).map fun left => left :: right :: stack
      else some stack with
    | none => 1
    | some stack1 => 1 + strokeSegmentRounds sqrtf n stack1

/-- The number of executions of the body of the loop in a call
`strokeSegment(seg, distFnc)`. -/
def strokeSegmentIters (sqrtf : K → K) (seg : PathSegment K) (distFnc : ScalarBezCurve K) :
    Nat :=
  match Item.make seg distFnc (ScalarBezCurve.Mul distFnc distFnc) with
  | none => 0
  | some item => strokeSegmentRounds sqrtf kMaxIters [item]

/-- The relation between a work item of `strokeSegment(seg, d)` and the dyadic
range `[j / 2^k, (j + 1) / 2^k]` it stands for, `n` being the degree of the
segment: the item carries the restriction of the segment and of the distance
function to that range, reparameterised to `[0, 1]`, and a curve of degree at
most `62` whose values are the squares of the values of the latter. -/
def Item.Covers (n : Nat) (seg : PathSegment K) (d : ScalarBezCurve K) (k j : Nat)
    (item : Item K) : Prop :=
  j < 2 ^ k ∧
  item.fSeg.fVerb = seg.fVerb ∧
  item.fSegX = coordCurve SkPoint.fX n item.fSeg.fPoints ∧
  item.fSegY = coordCurve SkPoint.fY n item.fSeg.fPoints ∧
  (∀ t, (coordCurve SkPoint.fX n item.fSeg.fPoints).eval t
    = (coordCurve SkPoint.fX n seg.fPoints).eval ((j + t) / 2 ^ k)) ∧
  (∀ t, (coordCurve SkPoint.fY n item.fSeg.fPoints).eval t
    = (coordCurve SkPoint.fY n seg.fPoints).eval ((j + t) / 2 ^ k)) ∧
  item.fDistFnc.InBounds ∧ item.fDistFnc.fDegree = d.fDegree ∧
  (item.fDistFnc = d ∨ (item.fDistFnc.fWeights.length : Int) = d.fDegree + 1) ∧
  (∀ t, item.fDistFnc.eval t = d.eval ((j + t) / 2 ^ k)) ∧
  item.fDistFncSqd.InBounds ∧ item.fDistFncSqd.fDegree ≤ 62 ∧
  (∀ t, item.fDistFncSqd.eval t = item.fDistFnc.eval t ^ 2)

/-- The stack of `strokeSegment` as a chain that starts at the point `A`: the
candidate quad of the item on top starts at `A`, and the candidate of every
other item starts where the candidate of the item above it ends. -/
def stackChain (sqrtf : K → K) : List (Item K) → SkPoint K → Prop
  | [], _ => True
  | it :: rest, A =>
    ∃ Q, approximateSegment sqrtf it.fSeg it.fDistFnc = some Q ∧ Q.pt 0 = A ∧
      stackChain sqrtf rest (Q.pt 2)

/-- The work item of `strokeSegment` for the range `[0, x]` of the line from
`(0, 0)` to `(1, 0)` under the distance function `100 (1 - t)^32`: the segment
is the line from `(0, 0)` to `(x, 0)`, the distance function has the degree `32`
and the weights `100 β^i` followed by zeros, the squared distance function has
the degree `64` and the weights `10000 β^i`.  In the run of the loop `β = 1 - x`;
the predicate keeps the two numbers apart. -/
def Item.Tapered (β x : K) (item : Item K) : Prop :=
  item.fSeg = ⟨Verb.kLine_Verb, [⟨0, 0⟩, ⟨x, 0⟩]⟩ ∧
  item.fSegX = ⟨1, [0, x]⟩ ∧ item.fSegY = ⟨1, [0, 0]⟩ ∧
  item.fDistFnc.fDegree = 32 ∧ 33 ≤ item.fDistFnc.fWeights.length ∧
  (∀ i, i ≤ 32 → item.fDistFnc.fWeights.getD i 0 = 100 * β ^ i) ∧
  (∀ i, 32 < i → item.fDistFnc.fWeights.getD i 0 = 0) ∧
  item.fDistFncSqd.fDegree = 64 ∧ 65 ≤ item.fDistFncSqd.fWeights.length ∧
  (∀ i, i ≤ 64 → item.fDistFncSqd.fWeights.getD i 0 = 10000 * β ^ i)

/-- The state of the class `SkVarWidthStroker`. -/
structure SkVarWidthStroker (K : Type) where
  fRadius : K
  fCap : Cap
  fJoin : Join
  fInner : SkPath K
  fOuter : SkPath K
  fVarWidth : ScalarBezCurve K
  fVarWidthInner : ScalarBezCurve K
  fCurrT : K

/-- Method `initForPath(path, paint)`. -/
def initForPath (st : SkVarWidthStroker K) (paint : SkPaint K) : SkVarWidthStroker K :=
  { st with
    fRadius := paint.fWidth / 2
    fCap := paint.fCap
    fJoin := paint.fJoin
    fInner := SkPath.empty
    fOuter := SkPath.empty
    fCurrT := 0 }

/-- Methods `strokeLine(line, needsMove)` and `strokeQuad(quad, needsMove)`,
which have the same body: the segment is stroked with the outer distance
function and with the negated inner one, and the quads are appended to `fOuter`
and `fInner`, after a `moveTo` to the first point when `needsMove`. -/
def strokeLine (sqrtf : K → K) (st : SkVarWidthStroker K) (line : PathSegment K)
    (needsMove : Bool) : Option (SkVarWidthStroker K) :=
  (strokeSegment sqrtf line st.fVarWidth).bind fun outer =>
  (strokeSegment sqrtf line (ScalarBezCurve.MulScalar st.fVarWidthInner (-1))).bind fun inner =>
  let fOuter0 :=
    if needsMove then st.fOuter.moveTo ((outer.headD ⟨Verb.kDone_Verb, []⟩).pt 0) else st.fOuter
  let fInner0 :=
    if needsMove then st.fInner.moveTo ((inner.headD ⟨Verb.kDone_Verb, []⟩).pt 0) else st.fInner
  some { st with
    fOuter := outer.foldl (fun path seg => path.quadTo (seg.pt 1) (seg.pt 2)) fOuter0
    fInner := inner.foldl (fun path seg => path.quadTo (seg.pt 1) (seg.pt 2)) fInner0 }

/-- Method `strokeQuad(quad, needsMove)`. -/
def strokeQuad (sqrtf : K → K) (st : SkVarWidthStroker K) (quad : PathSegment K)
    (needsMove : Bool) : Option (SkVarWidthStroker K) :=
  strokeLine sqrtf st quad needsMove

/-- The two places of a cap, `CapLocation`. -/
inductive CapLocation where
  | Start
  | End
deriving DecidableEq

/-- Method `endcap(loc)`: every cap style runs the butt cap, which closes
`fOuter` at the start, and at the end connects `fOuter` to the last point of
`fInner` by a line. -/
def endcap (st : SkVarWidthStroker K) (loc : CapLocation) : SkVarWidthStroker K :=
  let buttCap : SkVarWidthStroker K :=
    match loc with
    | CapLocation.Start => { st with fOuter := st.fOuter.close }
    | CapLocation.End => { st with fOuter := st.fOuter.lineTo st.fInner.getLastPt }
  match st.fCap with
  | Cap.kButt_Cap => buttCap
  | _ => buttCap

/-- The lambda `miterJoin` of `join`; all results are optional because of the
asserting `setLength` and of `unitNormal`.  `none` is an assertion failure; a
skipped join returns the state unchanged. -/
def miterJoin (sqrtf : K → K) (st : SkVarWidthStroker K) (prev curr : PathSegment K) :
    Option (SkVarWidthStroker K) :=
  let miterMidpt := curr.pt 0
  (unitNormal sqrtf prev 1).bind fun nb =>
  (unitNormal sqrtf curr 0).bind fun na =>
  let swapped := !isClockwise nb.1 na.1
  let before := if swapped then rotate180 nb.1 else nb.1
  let after := if swapped then rotate180 na.1 else na.1
  let cosTheta := before.dot after
  if ScalarBezCurve.SkScalarNearlyZero (1 - cosTheta) then some st
  else
    let sinHalfTheta := sqrtf (1 / 2 * (1 + cosTheta))
    let halfMiterLength := st.fRadius / sinHalfTheta
    let miterVec := ((before.add after).setLength sqrtf halfMiterLength).1
    (setLength sqrtf after st.fRadius).map fun dest =>
    let outer := if swapped then st.fInner else st.fOuter
    let inner := if swapped then st.fOuter else st.fInner
    let outer2 := (outer.lineTo (miterMidpt.add miterVec)).lineTo (miterMidpt.add dest)
    let inner2 := (inner.lineTo miterMidpt).lineTo (miterMidpt.sub dest)
    if swapped then { st with fInner := outer2, fOuter := inner2 }
    else { st with fOuter := outer2, fInner := inner2 }

/-- Method `join(prev, curr)`: every join style runs the miter join. -/
def join (sqrtf : K → K) (st : SkVarWidthStroker K) (prev curr : PathSegment K) :
    Option (SkVarWidthStroker K) :=
  match st.fJoin with
  | Join.kMiter_Join => miterJoin sqrtf st prev curr
  | _ => miterJoin sqrtf st prev curr

/-- The locals `before` and `after` of `miterJoin` as they stand after the
clockwise test: the unit normals of `prev` at `1` and of `curr` at `0`, both
turned by `rotate180` when `isClockwise(before, after)` is false. -/
def miterNormals (sqrtf : K → K) (prev curr : PathSegment K) : Option (SkPoint K × SkPoint K) :=
  (unitNormal sqrtf prev 1).bind fun nb =>
  (unitNormal sqrtf curr 0).map fun na =>
  if isClockwise nb.1 na.1 then (nb.1, na.1) else (rotate180 nb.1, rotate180 na.1)

/-- The local `cosTheta` of `miterJoin`: `before.dot(after)`. -/
def miterCosTheta (sqrtf : K → K) (prev curr : PathSegment K) : Option K :=
  (miterNormals sqrtf prev curr).map fun ba => ba.1.dot ba.2

/-- The test `SkScalarNearlyZero(1 - cosTheta)` of `miterJoin`, on which the join
returns without a change. -/
def miterSkipped (sqrtf : K → K) (prev curr : PathSegment K) : Option Bool :=
  (miterCosTheta sqrtf prev curr).map fun cosTheta =>
    ScalarBezCurve.SkScalarNearlyZero (1 - cosTheta)

/-- The local `sinHalfTheta` of `miterJoin`: `sqrtf(0.5 * (1 + cosTheta))`, the
divisor of `halfMiterLength = fRadius / sinHalfTheta`. -/
def miterSinHalfTheta (sqrtf : K → K) (prev curr : PathSegment K) : Option K :=
  (miterCosTheta sqrtf prev curr).map fun cosTheta => sqrtf (1 / 2 * (1 + cosTheta))

/-- The loop of `appendPathReversed` for the verbs taken from the last to the
first, on the pair of the point index `j` and the path `result`. -/
def appendReversedLoop (points : List (SkPoint K)) :
    List Verb → Int × SkPath K → Option (Int × SkPath K)
  | [], st => some st
  | verb :: rest, (j, result) =>
    match verb with
    | Verb.kLine_Verb =>
      if j - 1 ≥ 1 then
        appendReversedLoop points rest
          (j - 1, result.lineTo (points.getD (j - 1 - 1).toNat ⟨0, 0⟩))
      else none
    | Verb.kQuad_Verb =>
      if j - 1 ≥ 2 then
        appendReversedLoop points rest
          (j - 1 - 1, result.quadTo (points.getD (j - 1 - 1).toNat ⟨0, 0⟩)
            (points.getD (j - 1 - 2).toNat ⟨0, 0⟩))
      else none
    | Verb.kMove_Verb => appendReversedLoop points rest (j, result)
    | _ => none

/-- Static method `appendPathReversed(path, result)`. -/
def appendPathReversed (path : SkPath K) (result : SkPath K) : Option (SkPath K) :=
  (appendReversedLoop path.fPts path.fVerbs.reverse (path.countPoints, result)).map
    fun st => st.2

/-- The reading of C34 of what `appendPathReversed` appends to `result` for the
segments of a contour: for the segments from the last to the first, a verb of
the same kind with the points of the segment in reverse order, that is a line
to the start of the segment or a quad with its control point to its start;
another segment, such as the move, is not copied. -/
def appendSegmentsReversed (segs : List (PathSegment K)) (result : SkPath K) : SkPath K :=
  segs.foldr (fun seg r =>
    match seg.fVerb with
    | Verb.kLine_Verb => r.lineTo (seg.pt 0)
    | Verb.kQuad_Verb => r.quadTo (seg.pt 1) (seg.pt 0)
    | _ => r) result

/-- One round of the loop of `getFillPath` on the triple of the stroker, the
previous segment and the flag `firstSegment`: the join against the previous
segment unless this is the first one, then the stroking of a line or a quad; a
move continues with the next verb, any other verb is an assertion failure. -/
def getFillPathStep (sqrtf : K → K)
    (acc : Option (SkVarWidthStroker K × PathSegment K × Bool)) (segment : PathSegment K) :
    Option (SkVarWidthStroker K × PathSegment K × Bool) :=
  acc.bind fun s =>
  (if s.2.2 then some s.1 else join sqrtf s.1 s.2.1 segment).bind fun st1 =>
  match segment.fVerb with
  | Verb.kLine_Verb => (strokeLine sqrtf st1 segment s.2.2).map fun st2 => (st2, segment, false)
  | Verb.kQuad_Verb => (strokeQuad sqrtf st1 segment s.2.2).map fun st2 => (st2, segment, false)
  | Verb.kMove_Verb => some (st1, s.2.1, s.2.2)
  | _ => none

/-- Method `getFillPath(path, paint, varWidth, varWidthInner)`.  The segment
`prevSegment` is not read before the first stroked segment has been stored in
it.  A closed last contour is an assertion failure. -/
def getFillPath (sqrtf : K → K) (st : SkVarWidthStroker K) (path : SkPath K)
    (paint : SkPaint K) (varWidth varWidthInner : ScalarBezCurve K) : Option (SkPath K) :=
  let st0 : SkVarWidthStroker K :=
    { initForPath st paint with fVarWidth := varWidth, fVarWidthInner := varWidthInner }
  ((iterSegments path.fVerbs path.fPts ⟨0, 0⟩ ⟨0, 0⟩).foldl (getFillPathStep sqrtf)
      (some (st0, ⟨Verb.kDone_Verb, []⟩, true))).bind fun s =>
  if path.isLastContourClosed then none
  else
    let st1 := endcap s.1 CapLocation.End
    (appendPathReversed st1.fInner st1.fOuter).map fun outer =>
      (endcap { st1 with fOuter := outer } CapLocation.Start).fOuter

/-- Static method `identityVarWidth(strokeWidth)`:
`ScalarBezCurve(0, {strokeWidth / 2})`. -/
def identityVarWidth (strokeWidth : K) : ScalarBezCurve K :=
  ScalarBezCurve.mkWeights 0 [strokeWidth / 2]

/-- Method `getFillPath(path, paint)`: the fixed-width stroke. -/
def getFillPathFixed (sqrtf : K → K) (st : SkVarWidthStroker K) (path : SkPath K)
    (paint : SkPaint K) : Option (SkPath K) :=
  getFillPath sqrtf st path paint (identityVarWidth paint.fWidth) (identityVarWidth paint.fWidth)

end Stroker

/-! ## The binomial coefficients of `choose` -/

theorem choose_61_30 : Nat.choose 61 30 = 232714176627630544 := by
  rw [Nat.choose_eq_factorial_div_factorial (by norm_num)]
  decide

theorem choose_succ (n k : Nat) :
    choose n (k + 1) = u64 (choose n k * u64 (n + 1 + 2 ^ 64 - (1 + k))) / (1 + k) := by
  unfold choose
  rw [List.range'_concat, List.foldl_append]
  simp only [List.foldl_cons, List.foldl_nil, one_mul]

/-- No product formed by `choose(n, k)` reaches `2 ^ 64` when `n ≤ 62`. -/
theorem choose_mul_lt (n k : Nat) (hn : n ≤ 62) (hk : k + 1 ≤ n) :
    n.choose (k + 1) * (k + 1) < 2 ^ 64 := by
  obtain ⟨p, rfl⟩ : ∃ p, n = p + 1 := ⟨n - 1, by omega⟩
  rw [← Nat.succ_mul_choose_eq]
  have h1 : p.choose k ≤ Nat.choose 61 k := Nat.choose_le_choose k (by omega)
  have h2 : Nat.choose 61 k ≤ Nat.choose 61 (61 / 2) := Nat.choose_le_middle k 61
  have h3 : Nat.choose 61 (61 / 2) = 232714176627630544 := choose_61_30
  have h4 : p.choose k ≤ 232714176627630544 := by omega
  have h5 : p.succ ≤ 62 := hn
  calc p.succ * p.choose k ≤ 62 * 232714176627630544 := Nat.mul_le_mul h5 h4
    _ < 2 ^ 64 := by norm_num

/-- For `k ≤ n ≤ 62` the `uint64_t` loop of `choose` computes the binomial coefficient. -/
theorem choose_eq_binom (n : Nat) (hn : n ≤ 62) : ∀ k, k ≤ n → choose n k = n.choose k := by
  intro k
  induction k with
  | zero => intro _; rw [Nat.choose_zero_right]; rfl
  | succ k ih =>
    intro hk
    rw [choose_succ, ih (by omega)]
    have e1 : u64 (n + 1 + 2 ^ 64 - (1 + k)) = n - k := by
      unfold u64
      omega
    rw [e1, ← Nat.choose_succ_right_eq]
    have e2 : u64 (n.choose (k + 1) * (k + 1)) = n.choose (k + 1) * (k + 1) := by
      unfold u64
      exact Nat.mod_eq_of_lt (choose_mul_lt n k hn hk)
    rw [e2, show 1 + k = k + 1 by omega]
    exact Nat.mul_div_cancel _ (by omega)

set_option maxRecDepth 100000 in
/-- The `uint64_t` loop of `choose(63, 63)` ends at `0`. -/
theorem choose_63_63 : choose 63 63 = 0 := by decide

set_option maxRecDepth 100000 in
/-- The `uint64_t` loop of `choose(64, 64)` ends at `0`. -/
theorem choose_64_64 : choose 64 64 = 0 := by decide

set_option maxRecDepth 100000 in
/-- Values of the `uint64_t` loop of `choose` used in the evaluations at degree 63. -/
theorem choose_values_63 :
    choose 63 62 = 10 ∧ choose 62 62 = 1 ∧ choose 62 61 = 62 ∧ choose 1 0 = 1 ∧ choose 1 1 = 1 := by
  decide

set_option maxRecDepth 100000 in
/-- Values of the `uint64_t` loop of `choose` used in the evaluations at degree 64. -/
theorem choose_values_64 :
    choose 64 63 = 12 ∧ choose 32 32 = 1 ∧ choose 32 31 = 32 := by
  decide

/-! ## Vector reads and writes, and the loops of `Eval` -/

section Theorems

open ScalarBezCurve

variable {K : Type} [LinearOrderedField K]

theorem getD_set_eq (l : List K) (i j : Nat) (x : K) :
    (l.set i x).getD j 0 = if i = j ∧ i < l.length then x else l.getD j 0 := by
  simp only [List.getD_eq_getElem?_getD, List.getElem?_set]
  by_cases h : i = j
  · subst h
    by_cases h2 : i < l.length
    · simp [h2]
    · simp [h2, List.getElem?_eq_none (not_lt.mp h2)]
  · simp [h]

theorem seqOf_set (l : List K) (i j : Nat) (x : K) :
    seqOf (l.set i x) j = if i = j ∧ i < l.length then x else seqOf l j :=
  getD_set_eq l i j x

/-- One downward pass over the indices `s, .., s + c - 1`. -/
theorem rowFold_spec (t : K) (c : Nat) : ∀ (s : Nat) (w : List K), s + c ≤ w.length →
    (((List.range' s c).foldr
        (fun i r => r.set i (r.getD (i - 1) 0 * (1 - t) + r.getD i 0 * t)) w).length = w.length ∧
     ∀ j, ((List.range' s c).foldr
        (fun i r => r.set i (r.getD (i - 1) 0 * (1 - t) + r.getD i 0 * t)) w).getD j 0 =
        if s ≤ j ∧ j < s + c then w.getD (j - 1) 0 * (1 - t) + w.getD j 0 * t else w.getD j 0) := by
  induction c with
  | zero =>
    intro s w _
    refine ⟨rfl, fun j => ?_⟩
    have : ¬ (s ≤ j ∧ j < s + 0) := by omega
    rw [if_neg this]
    rfl
  | succ c ih =>
    intro s w h
    obtain ⟨hl, hv⟩ := ih (s + 1) w (by omega)
    simp only [List.range'_succ, List.foldr_cons]
    refine ⟨by rw [List.length_set]; exact hl, fun j => ?_⟩
    rw [getD_set_eq, hl, hv, hv]
    have h1 : ¬ (s + 1 ≤ s - 1 ∧ s - 1 < s + 1 + c) := by omega
    have h2 : ¬ (s + 1 ≤ s ∧ s < s + 1 + c) := by omega
    rw [if_neg h1, if_neg h2, hv]
    by_cases hj : s = j
    · subst hj
      have h3 : s ≤ s ∧ s < s + (c + 1) := by omega
      have h4 : s = s ∧ s < w.length := by omega
      rw [if_pos h4, if_pos h3]
    · have h4 : ¬ (s = j ∧ s < w.length) := by omega
      rw [if_neg h4]
      by_cases hj2 : s + 1 ≤ j ∧ j < s + 1 + c
      · have h3 : s ≤ j ∧ j < s + (c + 1) := by omega
        rw [if_pos hj2, if_pos h3]
      · have h3 : ¬ (s ≤ j ∧ j < s + (c + 1)) := by omega
        rw [if_neg hj2, if_neg h3]

theorem casteljauRow_spec (t : K) (n k : Nat) (w : List K) (h : n < w.length) :
    (casteljauRow t n k w).length = w.length ∧
    ∀ j, seqOf (casteljauRow t n k w) j =
      if k ≤ j ∧ j ≤ n then seqOf w (j - 1) * (1 - t) + seqOf w j * t else seqOf w j := by
  unfold casteljauRow seqOf
  rw [List.foldl_reverse]
  by_cases hk : k ≤ n + 1
  · obtain ⟨hl, hv⟩ := rowFold_spec t (n + 1 - k) k w (by omega)
    refine ⟨hl, fun j => ?_⟩
    rw [hv]
    by_cases hj : k ≤ j ∧ j ≤ n
    · rw [if_pos hj, if_pos (by omega)]
    · rw [if_neg hj, if_neg (by omega)]
  · have e : n + 1 - k = 0 := by omega
    rw [e]
    refine ⟨rfl, fun j => ?_⟩
    rw [if_neg (by omega)]
    rfl

/-- The weights after the first `m` levels of the de Casteljau recursion. -/
theorem levels_spec (t : K) (n : Nat) (w : List K) (h : n < w.length) : ∀ m, m ≤ n →
    ((List.range' 1 m).foldl (fun r k => casteljauRow t n k r) w).length = w.length ∧
    ∀ j, seqOf ((List.range' 1 m).foldl (fun r k => casteljauRow t n k r) w) j =
      if j ≤ n then dc (seqOf w) t (min m j) (j - min m j) else seqOf w j := by
  intro m
  induction m with
  | zero =>
    intro _
    refine ⟨by simp, fun j => ?_⟩
    simp [dc]
  | succ m ih =>
    intro hm
    obtain ⟨hl, hv⟩ := ih (by omega)
    rw [List.range'_concat, List.foldl_append]
    simp only [List.foldl_cons, List.foldl_nil, one_mul]
    obtain ⟨hl2, hv2⟩ := casteljauRow_spec t n (1 + m) _ (by rw [hl]; exact h)
    refine ⟨by rw [hl2, hl], fun j => ?_⟩
    rw [hv2, hv, hv]
    by_cases hj : 1 + m ≤ j ∧ j ≤ n
    · rw [if_pos hj, if_pos hj.2, if_pos (by omega), if_pos hj.2]
      have e1 : min m (j - 1) = m := by omega
      have e2 : min m j = m := by omega
      have e3 : min (m + 1) j = m + 1 := by omega
      rw [e1, e2, e3, dc]
      have e4 : j - 1 - m = j - (m + 1) := by omega
      have e5 : j - m = j - (m + 1) + 1 := by omega
      rw [e4, e5]
    · rw [if_neg hj]
      by_cases hjn : j ≤ n
      · rw [if_pos hjn, if_pos hjn]
        have e1 : min m j = j := by omega
        have e3 : min (m + 1) j = j := by omega
        rw [e1, e3]
      · rw [if_neg hjn, if_neg hjn]

/-- The de Casteljau triangle in Bernstein form. -/
theorem dc_eq_sum (w : Nat → K) (t : K) : ∀ k i,
    dc w t k i = ∑ j in Finset.range (k + 1),
      w (i + j) * (k.choose j : K) * t ^ j * (1 - t) ^ (k - j) := by
  intro k
  induction k with
  | zero => intro i; simp [dc]
  | succ k ih =>
    intro i
    rw [dc, ih i, ih (i + 1)]
    -- right-hand side: split off `j = 0`, then Pascal's rule
    rw [Finset.sum_range_succ' _ (k + 1)]
    have hP : ∀ j ∈ Finset.range (k + 1),
        w (i + (j + 1)) * ((k + 1).choose (j + 1) : K) * t ^ (j + 1) * (1 - t) ^ (k + 1 - (j + 1))
        = (w (i + 1 + j) * (k.choose j : K) * t ^ j * (1 - t) ^ (k - j)) * t
          + w (i + (j + 1)) * (k.choose (j + 1) : K) * t ^ (j + 1) * (1 - t) ^ (k - j) := by
      intro j _
      rw [Nat.choose_succ_succ, Nat.succ_sub_succ, show i + 1 + j = i + (j + 1) by omega]
      push_cast
      ring
    rw [Finset.sum_congr rfl hP, Finset.sum_add_distrib, ← Finset.sum_mul]
    -- left-hand side, first sum: split off `j = 0` as well
    have hL : (∑ j in Finset.range (k + 1),
        w (i + j) * (k.choose j : K) * t ^ j * (1 - t) ^ (k - j)) * (1 - t)
        = ∑ j in Finset.range (k + 1),
            w (i + (j + 1)) * (k.choose (j + 1) : K) * t ^ (j + 1) * (1 - t) ^ (k - j)
          + w i * (1 - t) ^ (k + 1) := by
      rw [Finset.sum_range_succ' _ k, Finset.sum_range_succ _ k]
      simp only [Nat.choose_succ_self, Nat.cast_zero, mul_zero, zero_mul, add_zero,
        Nat.choose_zero_right, Nat.cast_one, mul_one, pow_zero, Nat.sub_zero]
      rw [add_mul, Finset.sum_mul]
      congr 1
      · apply Finset.sum_congr rfl
        intro j hj
        have hjk : j < k := Finset.mem_range.mp hj
        have e : k - j = (k - (j + 1)) + 1 := by omega
        rw [e, pow_succ]
        ring
      · rw [pow_succ]; ring
    rw [hL]
    simp only [Nat.choose_zero_right, Nat.cast_one, mul_one, pow_zero, Nat.sub_zero, add_zero]
    ring

theorem dc_zero_eq_bernstein (w : Nat → K) (t : K) (n : Nat) : dc w t n 0 = bernstein w n t := by
  rw [dc_eq_sum]
  unfold bernstein
  simp

theorem Eval_eq_dc (c : ScalarBezCurve K) (t : K) (h : InBounds c) :
    Eval c t = dc (seqOf c.fWeights) t c.fDegree.toNat 0 := by
  obtain ⟨h0, h1⟩ := h
  have hn : c.fDegree.toNat < c.fWeights.length := by omega
  obtain ⟨_, hv⟩ := levels_spec t c.fDegree.toNat c.fWeights hn c.fDegree.toNat le_rfl
  have := hv c.fDegree.toNat
  simp only [le_refl, if_true, min_self, Nat.sub_self] at this
  exact this

/-! ## Subdivision -/

theorem seqOf_replicate (n j : Nat) : seqOf (List.replicate n (0 : K)) j = 0 := by
  unfold seqOf
  rw [List.getD_eq_getElem?_getD]
  by_cases h : j < n
  · simp [List.getElem?_replicate, h]
  · simp [List.getElem?_replicate, h]

/-- `dc` only reads the entries `i, .., i + k` of the sequence. -/
theorem dc_congr (u v : Nat → K) (t : K) : ∀ k i,
    (∀ j, i ≤ j → j ≤ i + k → u j = v j) → dc u t k i = dc v t k i := by
  intro k
  induction k with
  | zero => intro i h; exact h i le_rfl le_rfl
  | succ k ih =>
    intro i h
    rw [dc, dc, ih i (fun j h1 h2 => h j h1 (by omega)),
      ih (i + 1) (fun j h1 h2 => h j (by omega) (by omega))]

/-- One more level is one level applied to the blended sequence. -/
theorem dc_succ_blend (w : Nat → K) (t : K) : ∀ k i,
    dc w t (k + 1) i = dc (fun j => w j * (1 - t) + w (j + 1) * t) t k i := by
  intro k
  induction k with
  | zero => intro i; rfl
  | succ k ih =>
    intro i
    rw [dc, ih i, ih (i + 1)]
    rfl

theorem dc_shift (w : Nat → K) (t : K) : ∀ k i,
    dc w t k (i + 1) = dc (fun j => w (j + 1)) t k i := by
  intro k
  induction k with
  | zero => intro i; rfl
  | succ k ih =>
    intro i
    rw [dc, dc, ih i, ih (i + 1)]

theorem dc_linear (u v : Nat → K) (a b t : K) : ∀ k i,
    dc (fun j => u j * a + v j * b) t k i = dc u t k i * a + dc v t k i * b := by
  intro k
  induction k with
  | zero => intro i; rfl
  | succ k ih =>
    intro i
    rw [dc, dc, dc, ih i, ih (i + 1)]
    ring

/-- Subdivision, left half: the diagonal `k ↦ dc w t k 0` is the curve on `[0, t]`. -/
theorem dc_left (t s : K) : ∀ (n : Nat) (w : Nat → K),
    dc (fun k => dc w t k 0) s n 0 = dc w (s * t) n 0 := by
  intro n
  induction n with
  | zero => intro w; rfl
  | succ n ih =>
    intro w
    rw [dc_succ_blend, dc_succ_blend w (s * t)]
    rw [← ih]
    congr 1
    funext k
    rw [dc_succ_blend w t k 0, ← dc_linear]
    congr 1
    funext j
    ring

/-- Subdivision, right half: the column `j ↦ dc w t (n - j) j` is the curve on `[t, 1]`. -/
theorem dc_right (t s : K) : ∀ (n : Nat) (w : Nat → K),
    dc (fun j => dc w t (n - j) j) s n 0 = dc w (t + s * (1 - t)) n 0 := by
  intro n
  induction n with
  | zero => intro w; rfl
  | succ n ih =>
    intro w
    rw [dc_succ_blend, dc_succ_blend w (t + s * (1 - t))]
    rw [← ih]
    apply dc_congr
    intro j _ hj
    have e : n + 1 - j = (n - j) + 1 := by omega
    have e2 : n + 1 - (j + 1) = n - j := by omega
    simp only [e, e2]
    rw [dc, dc_shift w t (n - j) j]
    rw [show (fun j => w j * (1 - (t + s * (1 - t))) + w (j + 1) * (t + s * (1 - t)))
        = (fun j => w j * (1 - (t + s * (1 - t))) + (fun i => w (i + 1)) j * (t + s * (1 - t))) from rfl]
    rw [dc_linear]
    ring

/-! ## The loop of `Split` -/

theorem splitLoop_succ (t : K) (n m : Nat) (init : List K × List K × List K) :
    splitLoop t n (m + 1) init =
      (casteljauRow t n (1 + m) (splitLoop t n m init).1,
       (splitLoop t n m init).2.1.set (1 + m)
         ((casteljauRow t n (1 + m) (splitLoop t n m init).1).getD (1 + m) 0),
       (splitLoop t n m init).2.2.set (n - (1 + m))
         ((casteljauRow t n (1 + m) (splitLoop t n m init).1).getD n 0)) := by
  unfold splitLoop
  rw [List.range'_concat, List.foldl_append]
  simp only [List.foldl_cons, List.foldl_nil, one_mul]

theorem splitLoop_fst (t : K) (n : Nat) (init : List K × List K × List K) : ∀ m,
    (splitLoop t n m init).1 = (List.range' 1 m).foldl (fun r k => casteljauRow t n k r) init.1 := by
  intro m
  induction m with
  | zero => rfl
  | succ m ih =>
    rw [splitLoop_succ, List.range'_concat, List.foldl_append]
    simp only [List.foldl_cons, List.foldl_nil, one_mul]
    rw [ih]

theorem splitLoop_spec (t : K) (n : Nat) (w l r : List K) (hw : n < w.length)
    (hl : l.length = n + 1) (hr : r.length = n + 1) : ∀ m, m ≤ n →
    (splitLoop t n m (w, l, r)).2.1.length = n + 1 ∧
    (splitLoop t n m (w, l, r)).2.2.length = n + 1 ∧
    (∀ j, seqOf (splitLoop t n m (w, l, r)).2.1 j =
      if 1 ≤ j ∧ j ≤ m then dc (seqOf w) t j 0 else seqOf l j) ∧
    (∀ j, seqOf (splitLoop t n m (w, l, r)).2.2 j =
      if n - m ≤ j ∧ j < n then dc (seqOf w) t (n - j) j else seqOf r j) := by
  intro m
  induction m with
  | zero =>
    intro _
    refine ⟨hl, hr, fun j => ?_, fun j => ?_⟩
    · rw [if_neg (by omega)]; rfl
    · rw [if_neg (by omega)]; rfl
  | succ m ih =>
    intro hm
    obtain ⟨h1, h2, h3, h4⟩ := ih (by omega)
    rw [splitLoop_succ]
    have hlev := levels_spec t n w hw (m + 1) hm
    rw [List.range'_concat, List.foldl_append] at hlev
    simp only [List.foldl_cons, List.foldl_nil, one_mul] at hlev
    rw [← splitLoop_fst t n (w, l, r) m] at hlev
    obtain ⟨_, hv⟩ := hlev
    have ek : (casteljauRow t n (1 + m) (splitLoop t n m (w, l, r)).1).getD (1 + m) 0
        = dc (seqOf w) t (m + 1) 0 := by
      have := hv (1 + m)
      rw [if_pos (by omega)] at this
      have e1 : min (m + 1) (1 + m) = m + 1 := by omega
      rw [e1, show 1 + m - (m + 1) = 0 by omega] at this
      exact this
    have en : (casteljauRow t n (1 + m) (splitLoop t n m (w, l, r)).1).getD n 0
        = dc (seqOf w) t (m + 1) (n - (m + 1)) := by
      have := hv n
      rw [if_pos le_rfl] at this
      have e1 : min (m + 1) n = m + 1 := by omega
      rw [e1] at this
      exact this
    rw [ek, en]
    refine ⟨by rw [List.length_set]; exact h1, by rw [List.length_set]; exact h2,
      fun j => ?_, fun j => ?_⟩
    · rw [seqOf_set, h3, h1]
      by_cases hj : 1 + m = j
      · subst hj
        rw [if_pos (by omega), if_pos (by omega), show 1 + m = m + 1 by omega]
      · rw [if_neg (by omega)]
        by_cases hj2 : 1 ≤ j ∧ j ≤ m
        · rw [if_pos hj2, if_pos (by omega)]
        · rw [if_neg hj2, if_neg (by omega)]
    · rw [seqOf_set, h4, h2]
      by_cases hj : n - (1 + m) = j
      · subst hj
        rw [if_pos (by omega), if_pos (by omega)]
        congr 1 <;> omega
      · rw [if_neg (by omega)]
        by_cases hj2 : n - m ≤ j ∧ j < n
        · rw [if_pos hj2, if_pos (by omega)]
        · rw [if_neg hj2, if_neg (by omega)]

/-- Weights of the two curves returned by `Split`. -/
theorem Split_spec (c : ScalarBezCurve K) (t : K) (h : InBounds c) :
    InBounds (Split c t).1 ∧ InBounds (Split c t).2 ∧
    (Split c t).1.fDegree = c.fDegree ∧ (Split c t).2.fDegree = c.fDegree ∧
    (∀ j, j ≤ c.fDegree.toNat →
      seqOf (Split c t).1.fWeights j = dc (seqOf c.fWeights) t j 0) ∧
    (∀ j, j ≤ c.fDegree.toNat →
      seqOf (Split c t).2.fWeights j = dc (seqOf c.fWeights) t (c.fDegree.toNat - j) j) := by
  obtain ⟨h0, h1⟩ := h
  have hn : c.fDegree.toNat < c.fWeights.length := by omega
  have hz : ((mkDegree c.fDegree : ScalarBezCurve K).fWeights).length = c.fDegree.toNat + 1 := by
    simp only [mkDegree, List.length_replicate]
    omega
  obtain ⟨e1, e2, e3, e4⟩ := splitLoop_spec t c.fDegree.toNat c.fWeights
    ((mkDegree c.fDegree : ScalarBezCurve K).fWeights.set 0 (c.fWeights.getD 0 0))
    ((mkDegree c.fDegree : ScalarBezCurve K).fWeights.set c.fDegree.toNat
      (c.fWeights.getD c.fDegree.toNat 0)) hn
    (by rw [List.length_set]; exact hz) (by rw [List.length_set]; exact hz) c.fDegree.toNat le_rfl
  have hS : Split c t = (⟨c.fDegree, (splitLoop t c.fDegree.toNat c.fDegree.toNat
      (c.fWeights, (mkDegree c.fDegree : ScalarBezCurve K).fWeights.set 0 (c.fWeights.getD 0 0),
        (mkDegree c.fDegree : ScalarBezCurve K).fWeights.set c.fDegree.toNat
          (c.fWeights.getD c.fDegree.toNat 0))).2.1⟩,
      ⟨c.fDegree, (splitLoop t c.fDegree.toNat c.fDegree.toNat
      (c.fWeights, (mkDegree c.fDegree : ScalarBezCurve K).fWeights.set 0 (c.fWeights.getD 0 0),
        (mkDegree c.fDegree : ScalarBezCurve K).fWeights.set c.fDegree.toNat
          (c.fWeights.getD c.fDegree.toNat 0))).2.2⟩) := rfl
  rw [hS]
  refine ⟨⟨h0, ?_⟩, ⟨h0, ?_⟩, rfl, rfl, fun j hj => ?_, fun j hj => ?_⟩
  · show c.fDegree + 1 ≤ ((splitLoop _ _ _ _).2.1.length : Int)
    rw [e1]; omega
  · show c.fDegree + 1 ≤ ((splitLoop _ _ _ _).2.2.length : Int)
    rw [e2]; omega
  · show seqOf (splitLoop _ _ _ _).2.1 j = _
    rw [e3, seqOf_set, hz]
    by_cases hj0 : j = 0
    · subst hj0
      rw [if_neg (by omega), if_pos (by omega)]
      rfl
    · rw [if_pos (by omega)]
  · show seqOf (splitLoop _ _ _ _).2.2 j = _
    rw [e4, seqOf_set, hz]
    by_cases hjn : j = c.fDegree.toNat
    · subst hjn
      rw [if_neg (by omega), if_pos (by omega), Nat.sub_self]
      rfl
    · rw [if_pos (by omega)]

/-! ## The loop of `extremumWeight` -/

/-- Invariant of the loop of `extremumWeight` after the weights `l`. -/
theorem extremum_loop (l : List K) :
    0 ≤ (l.foldl (fun (st : K × Int) w =>
        if |w| > st.1 then (|w|, if w ≥ 0 then 1 else -1) else st) ((0 : K), (1 : Int))).1 ∧
    (∀ i, i < l.length → |l.getD i 0| ≤ (l.foldl (fun (st : K × Int) w =>
        if |w| > st.1 then (|w|, if w ≥ 0 then 1 else -1) else st) ((0 : K), (1 : Int))).1) ∧
    (((l.foldl (fun (st : K × Int) w =>
        if |w| > st.1 then (|w|, if w ≥ 0 then 1 else -1) else st) ((0 : K), (1 : Int))) = (0, 1)) ∨
     ∃ j, j < l.length ∧
      (((l.foldl (fun (st : K × Int) w =>
        if |w| > st.1 then (|w|, if w ≥ 0 then 1 else -1) else st) ((0 : K), (1 : Int))).2 : Int) : K)
        * (l.foldl (fun (st : K × Int) w =>
        if |w| > st.1 then (|w|, if w ≥ 0 then 1 else -1) else st) ((0 : K), (1 : Int))).1
        = l.getD j 0 ∧
      (l.foldl (fun (st : K × Int) w =>
        if |w| > st.1 then (|w|, if w ≥ 0 then 1 else -1) else st) ((0 : K), (1 : Int))).1
        = |l.getD j 0| ∧
      ∀ i, i < j → |l.getD i 0| < |l.getD j 0|) := by
  induction l using List.reverseRecOn with
  | nil =>
    refine ⟨le_rfl, fun i hi => absurd hi (by simp), Or.inl rfl⟩
  | append_singleton l w ih =>
    obtain ⟨h0, hmax, hj⟩ := ih
    rw [List.foldl_append]
    simp only [List.foldl_cons, List.foldl_nil]
    generalize (l.foldl (fun (st : K × Int) w =>
        if |w| > st.1 then (|w|, if w ≥ 0 then 1 else -1) else st) ((0 : K), (1 : Int))) = st
      at h0 hmax hj ⊢
    have hlen : (l ++ [w]).length = l.length + 1 := by simp
    have hlast : (l ++ [w]).getD l.length 0 = w := by
      rw [List.getD_append_right _ _ _ _ le_rfl]
      simp
    have hinit : ∀ i, i < l.length → (l ++ [w]).getD i 0 = l.getD i 0 :=
      fun i hi => List.getD_append _ _ _ _ hi
    by_cases hw : |w| > st.1
    · rw [if_pos hw]
      refine ⟨abs_nonneg w, fun i hi => ?_, Or.inr ⟨l.length, by omega, ?_, ?_, fun i hi => ?_⟩⟩
      · by_cases hil : i < l.length
        · rw [hinit i hil]
          exact le_trans (hmax i hil) (le_of_lt hw)
        · have : i = l.length := by omega
          rw [this, hlast]
      · rw [hlast]
        by_cases hs : w ≥ 0
        · simp only [if_pos hs, Int.cast_one, one_mul]
          exact abs_of_nonneg hs
        · simp only [if_neg hs, Int.cast_neg, Int.cast_one, neg_mul, one_mul]
          rw [abs_of_neg (not_le.mp hs), neg_neg]
      · rw [hlast]
      · rw [hlast, hinit i hi]
        exact lt_of_le_of_lt (hmax i hi) hw
    · rw [if_neg hw]
      have hw2 : |w| ≤ st.1 := not_lt.mp hw
      refine ⟨h0, fun i hi => ?_, ?_⟩
      · by_cases hil : i < l.length
        · rw [hinit i hil]
          exact hmax i hil
        · have : i = l.length := by omega
          rw [this, hlast]
          exact hw2
      · rcases hj with hz | ⟨j, hjl, e1, e2, e3⟩
        · exact Or.inl hz
        · refine Or.inr ⟨j, by omega, ?_, ?_, fun i hi => ?_⟩
          · rw [hinit j hjl]; exact e1
          · rw [hinit j hjl]; exact e2
          · rw [hinit j hjl, hinit i (by omega)]; exact e3 i hi

/-- What `extremumWeight` returns, for a curve with at least one weight. -/
theorem extremumWeight_aux (c : ScalarBezCurve K) (h : c.fWeights ≠ []) :
    ∃ j, j < c.fWeights.length ∧ extremumWeight c = c.fWeights.getD j 0 ∧
      (∀ i, i < c.fWeights.length → |c.fWeights.getD i 0| ≤ |c.fWeights.getD j 0|) ∧
      (∀ i, i < j → |c.fWeights.getD i 0| < |c.fWeights.getD j 0|) := by
  obtain ⟨h0, hmax, hj⟩ := extremum_loop c.fWeights
  have hpos : 0 < c.fWeights.length := List.length_pos.mpr h
  unfold extremumWeight
  rcases hj with hz | ⟨j, hjl, e1, e2, e3⟩
  · rw [hz] at hmax
    simp only at hmax
    have hzero : ∀ i, i < c.fWeights.length → c.fWeights.getD i 0 = 0 :=
      fun i hi => abs_nonpos_iff.mp (hmax i hi)
    refine ⟨0, hpos, ?_, fun i hi => ?_, fun i hi => absurd hi (by omega)⟩
    · simp only [hz, Int.cast_one, mul_zero]
      exact (hzero 0 hpos).symm
    · rw [hzero i hi, hzero 0 hpos]
  · refine ⟨j, hjl, e1, fun i hi => ?_, e3⟩
    rw [← e2]
    exact hmax i hi

/-! ## Evaluation of the halves; the convex-hull bound -/

omit [LinearOrderedField K] in
theorem inBounds_mk (n : Nat) (ws : List K) (h : n + 1 ≤ ws.length) :
    InBounds (⟨(n : Int), ws⟩ : ScalarBezCurve K) := by
  constructor
  · exact Int.natCast_nonneg n
  · show (n : Int) + 1 ≤ (ws.length : Int)
    omega

/-- Both halves of `Split`, evaluated, in terms of the curve itself. -/
theorem Split_eval_aux (c : ScalarBezCurve K) (t s : K) (h : InBounds c) :
    Eval (Split c t).1 s = Eval c (s * t) ∧
    Eval (Split c t).2 s = Eval c (t + s * (1 - t)) := by
  obtain ⟨b1, b2, d1, d2, w1, w2⟩ := Split_spec c t h
  constructor
  · rw [Eval_eq_dc _ _ b1, Eval_eq_dc _ _ h, d1, ← dc_left]
    apply dc_congr
    intro j _ hj
    exact w1 j (by omega)
  · rw [Eval_eq_dc _ _ b2, Eval_eq_dc _ _ h, d2, ← dc_right]
    apply dc_congr
    intro j _ hj
    exact w2 j (by omega)

/-- The Bernstein basis functions of degree `n` sum to one. -/
theorem bernstein_basis_sum (n : Nat) (t : K) :
    ∑ i in Finset.range (n + 1), (n.choose i : K) * t ^ i * (1 - t) ^ (n - i) = 1 := by
  have h := add_pow t (1 - t) n
  rw [show t + (1 - t) = 1 by ring, one_pow] at h
  refine Eq.trans ?_ h.symm
  apply Finset.sum_congr rfl
  intro i _
  ring

/-- A Bernstein-form value with `0 ≤ t ≤ 1` is bounded by any bound on the weights. -/
theorem bernstein_abs_le (w : Nat → K) (n : Nat) (t M : K) (ht0 : 0 ≤ t) (ht1 : t ≤ 1)
    (hM : ∀ i, i ≤ n → |w i| ≤ M) : |bernstein w n t| ≤ M := by
  unfold bernstein
  have h1t : 0 ≤ 1 - t := by linarith
  calc |∑ i in Finset.range (n + 1), w i * (n.choose i : K) * t ^ i * (1 - t) ^ (n - i)|
      ≤ ∑ i in Finset.range (n + 1), |w i * (n.choose i : K) * t ^ i * (1 - t) ^ (n - i)| :=
        Finset.abs_sum_le_sum_abs _ _
    _ ≤ ∑ i in Finset.range (n + 1), M * ((n.choose i : K) * t ^ i * (1 - t) ^ (n - i)) := by
        apply Finset.sum_le_sum
        intro i hi
        have hin : i ≤ n := by
          have := Finset.mem_range.mp hi
          omega
        have hb : 0 ≤ (n.choose i : K) * t ^ i * (1 - t) ^ (n - i) :=
          mul_nonneg (mul_nonneg (Nat.cast_nonneg _) (pow_nonneg ht0 _)) (pow_nonneg h1t _)
        rw [mul_assoc, mul_assoc, abs_mul, ← mul_assoc, abs_of_nonneg hb]
        exact mul_le_mul_of_nonneg_right (hM i hin) hb
    _ = M := by rw [← Finset.mul_sum, bernstein_basis_sum, mul_one]

/-! ## Products in Bernstein form -/

/-- Exchange of the two summations of a Bernstein product. -/
theorem sum_triangle_comm (F : Nat → Nat → K) (m n : Nat) :
    ∑ k in Finset.range (m + n + 1), ∑ i in Finset.Ico (k - n) (min k m + 1), F k i
      = ∑ i in Finset.range (m + 1), ∑ k in Finset.Ico i (i + n + 1), F k i := by
  apply Finset.sum_comm'
  intro k i
  simp only [Finset.mem_range, Finset.mem_Ico]
  omega

/-- The Bernstein-form product: the weights of the product of a degree-`m` and a
degree-`n` curve. -/
theorem bernstein_mul (a b : Nat → K) (m n : Nat) (t : K) :
    bernstein (fun k => ∑ i in Finset.Ico (k - n) (min k m + 1),
        a i * b (k - i) * (((m.choose i * n.choose (k - i) : Nat) : K) / ((m + n).choose k : K)))
      (m + n) t
    = bernstein a m t * bernstein b n t := by
  unfold bernstein
  rw [Finset.sum_mul_sum]
  -- left: push the outer factor inside and cancel the binomial coefficient
  have hL : ∀ k ∈ Finset.range (m + n + 1),
      (∑ i in Finset.Ico (k - n) (min k m + 1),
        a i * b (k - i) * (((m.choose i * n.choose (k - i) : Nat) : K) / ((m + n).choose k : K)))
        * ((m + n).choose k : K) * t ^ k * (1 - t) ^ (m + n - k)
      = ∑ i in Finset.Ico (k - n) (min k m + 1),
          a i * b (k - i) * ((m.choose i : K) * (n.choose (k - i) : K))
            * t ^ k * (1 - t) ^ (m + n - k) := by
    intro k hk
    have hk' : k ≤ m + n := by
      have := Finset.mem_range.mp hk
      omega
    have hne : ((m + n).choose k : K) ≠ 0 :=
      Nat.cast_ne_zero.mpr (Nat.pos_iff_ne_zero.mp (Nat.choose_pos hk'))
    rw [Finset.sum_mul, Finset.sum_mul, Finset.sum_mul]
    apply Finset.sum_congr rfl
    intro i _
    push_cast
    field_simp
  rw [Finset.sum_congr rfl hL]
  rw [sum_triangle_comm]
  apply Finset.sum_congr rfl
  intro i hi
  have him : i ≤ m := by
    have := Finset.mem_range.mp hi
    omega
  rw [Finset.sum_Ico_eq_sum_range]
  rw [show i + n + 1 - i = n + 1 by omega]
  apply Finset.sum_congr rfl
  intro l hl
  have hln : l ≤ n := by
    have := Finset.mem_range.mp hl
    omega
  rw [show i + l - i = l by omega, show m + n - (i + l) = (m - i) + (n - l) by omega,
    pow_add, pow_add]
  ring

/-! ## Accumulation loops and the blending factor -/

/-- Repeated `v[i] += g j` over a list of `j`. -/
theorem accumAt_spec (g : Nat → K) (i : Nat) : ∀ (js : List Nat) (e : List K), i < e.length →
    (js.foldl (fun e j => e.set i (e.getD i 0 + g j)) e).length = e.length ∧
    ∀ x, seqOf (js.foldl (fun e j => e.set i (e.getD i 0 + g j)) e) x =
      if x = i then seqOf e i + (js.map g).sum else seqOf e x := by
  intro js
  induction js with
  | nil =>
    intro e _
    refine ⟨rfl, fun x => ?_⟩
    by_cases hx : x = i
    · subst hx; simp
    · simp [hx]
  | cons j js ih =>
    intro e he
    simp only [List.foldl_cons, List.map_cons, List.sum_cons]
    obtain ⟨hl, hv⟩ := ih (e.set i (e.getD i 0 + g j)) (by rw [List.length_set]; exact he)
    refine ⟨by rw [hl, List.length_set], fun x => ?_⟩
    rw [hv, seqOf_set, seqOf_set]
    by_cases hx : x = i
    · subst hx
      rw [if_pos rfl, if_pos ⟨rfl, he⟩, if_pos rfl]
      unfold seqOf
      ring
    · rw [if_neg hx, if_neg hx, if_neg (by omega)]

/-- A loop `for (k = 0; k < N; k++)` whose round `k` stores `G k` at index `k`. -/
theorem fill_spec (F : List K → Nat → List K) (G : Nat → K)
    (hF : ∀ e i, i < e.length →
      (F e i).length = e.length ∧ ∀ x, seqOf (F e i) x = if x = i then G i else seqOf e x) :
    ∀ (N : Nat) (e : List K), N ≤ e.length →
      ((List.range N).foldl F e).length = e.length ∧
      ∀ x, seqOf ((List.range N).foldl F e) x = if x < N then G x else seqOf e x := by
  intro N
  induction N with
  | zero =>
    intro e _
    refine ⟨rfl, fun x => ?_⟩
    rw [if_neg (by omega)]
    rfl
  | succ N ih =>
    intro e he
    obtain ⟨hl, hv⟩ := ih e (by omega)
    rw [List.range_succ, List.foldl_append]
    simp only [List.foldl_cons, List.foldl_nil]
    obtain ⟨hl2, hv2⟩ := hF ((List.range N).foldl F e) N (by rw [hl]; omega)
    refine ⟨by rw [hl2, hl], fun x => ?_⟩
    rw [hv2, hv]
    by_cases hx : x = N
    · subst hx
      rw [if_pos rfl, if_pos (by omega)]
    · rw [if_neg hx]
      by_cases hx2 : x < N
      · rw [if_pos hx2, if_pos (by omega)]
      · rw [if_neg hx2, if_neg (by omega)]

/-- A sum over the indices `s, .., s + c - 1` of a counting loop. -/
theorem sum_map_range' (g : Nat → K) (s : Nat) : ∀ c,
    ((List.range' s c).map g).sum = ∑ x in Finset.Ico s (s + c), g x := by
  intro c
  induction c with
  | zero => simp
  | succ c ih =>
    rw [List.range'_concat, List.map_append, List.sum_append, ih]
    simp only [List.map_cons, List.map_nil, List.sum_cons, List.sum_nil, add_zero, one_mul]
    rw [← add_assoc, Finset.sum_Ico_succ_top (by omega)]

theorem binom_le_two_pow (n k : Nat) : n.choose k ≤ 2 ^ n := by
  by_cases h : k ≤ n
  · rw [← Nat.sum_range_choose]
    exact Finset.single_le_sum (f := fun m => n.choose m) (fun _ _ => Nat.zero_le _)
      (Finset.mem_range.mpr (by omega))
  · rw [Nat.choose_eq_zero_of_lt (by omega)]
    exact Nat.zero_le _

theorem blend_eq (p x q y z : Nat) (h : p + q ≤ 62) (hx : x ≤ p) (hy : y ≤ q) (hz : z ≤ p + q) :
    (blend p x q y z : K) = ((p.choose x * q.choose y : Nat) : K) / ((p + q).choose z : K) := by
  unfold blend
  rw [choose_eq_binom p (by omega) x hx, choose_eq_binom q (by omega) y hy,
    choose_eq_binom (p + q) h z hz]
  have h1 : p.choose x ≤ 2 ^ p := binom_le_two_pow p x
  have h2 : q.choose y ≤ 2 ^ q := binom_le_two_pow q y
  have h3 : p.choose x * q.choose y ≤ 2 ^ 62 := by
    calc p.choose x * q.choose y ≤ 2 ^ p * 2 ^ q := Nat.mul_le_mul h1 h2
      _ = 2 ^ (p + q) := (pow_add 2 p q).symm
      _ ≤ 2 ^ 62 := Nat.pow_le_pow_right (by norm_num) h
  have h4 : u64 (p.choose x * q.choose y) = p.choose x * q.choose y := by
    unfold u64
    apply Nat.mod_eq_of_lt
    omega
  rw [h4]

/-! ## The weights computed by `Mul`, `AddSquares` and `ElevateDegree` -/

/-- One round of the outer loops of `ElevateDegree` and `Mul`: reset index `k`,
then accumulate the terms `g i` for `i = s, .., s + c - 1`. -/
theorem round_spec (g : Nat → K) (k s c : Nat) (e : List K) (he : k < e.length) :
    ((List.range' s c).foldl (fun res i => res.set k (res.getD k 0 + g i)) (e.set k 0)).length
      = e.length ∧
    ∀ x, seqOf ((List.range' s c).foldl (fun res i => res.set k (res.getD k 0 + g i))
        (e.set k 0)) x
      = if x = k then ∑ i in Finset.Ico s (s + c), g i else seqOf e x := by
  obtain ⟨hl, hv⟩ := accumAt_spec g k (List.range' s c) (e.set k 0)
    (by rw [List.length_set]; exact he)
  refine ⟨by rw [hl, List.length_set], fun x => ?_⟩
  rw [hv]
  by_cases hx : x = k
  · subst hx
    rw [if_pos rfl, if_pos rfl, seqOf_set, if_pos ⟨rfl, he⟩, zero_add, sum_map_range']
  · rw [if_neg hx, if_neg hx, seqOf_set, if_neg (by omega)]

theorem length_mkDegree (d : Int) :
    ((mkDegree d : ScalarBezCurve K).fWeights).length = (d + 1).toNat := by
  simp [mkDegree]

theorem seqOf_mkDegree (d : Int) (x : Nat) :
    seqOf ((mkDegree d : ScalarBezCurve K).fWeights) x = 0 :=
  seqOf_replicate _ _

/-- Degree and weights of `Mul(a, b)`. -/
theorem Mul_spec (a b : ScalarBezCurve K) (ha : 0 ≤ a.fDegree) (hb : 0 ≤ b.fDegree) :
    (ScalarBezCurve.Mul a b).fDegree = a.fDegree + b.fDegree ∧
    (ScalarBezCurve.Mul a b).fWeights.length = a.fDegree.toNat + b.fDegree.toNat + 1 ∧
    ∀ k, k ≤ a.fDegree.toNat + b.fDegree.toNat →
      seqOf (ScalarBezCurve.Mul a b).fWeights k =
        ∑ i in Finset.Ico (k - a.fDegree.toNat) (min k b.fDegree.toNat + 1),
          seqOf a.fWeights i * seqOf b.fWeights (k - i)
            * blend b.fDegree.toNat i a.fDegree.toNat (k - i) k := by
  have hN : (a.fDegree + b.fDegree + 1).toNat = a.fDegree.toNat + b.fDegree.toNat + 1 := by omega
  obtain ⟨hl, hv⟩ := fill_spec
    (fun res k =>
        (List.range' (k - a.fDegree.toNat) (min k b.fDegree.toNat + 1 - (k - a.fDegree.toNat))).foldl
          (fun res i => res.set k (res.getD k 0 +
            a.fWeights.getD i 0 * b.fWeights.getD (k - i) 0
              * blend b.fDegree.toNat i a.fDegree.toNat (k - i) k))
          (res.set k 0))
    (fun k => ∑ i in Finset.Ico (k - a.fDegree.toNat)
        (k - a.fDegree.toNat + (min k b.fDegree.toNat + 1 - (k - a.fDegree.toNat))),
      seqOf a.fWeights i * seqOf b.fWeights (k - i)
        * blend b.fDegree.toNat i a.fDegree.toNat (k - i) k)
    (fun e i hi => round_spec _ i _ _ e hi)
    (a.fDegree + b.fDegree + 1).toNat (mkDegree (a.fDegree + b.fDegree) : ScalarBezCurve K).fWeights
    (by rw [length_mkDegree])
  refine ⟨rfl, ?_, fun k hk => ?_⟩
  · simp only [ScalarBezCurve.Mul, degree]
    rw [hl, length_mkDegree, hN]
  · simp only [ScalarBezCurve.Mul, degree]
    rw [hv, if_pos (by omega)]
    rw [show k - a.fDegree.toNat + (min k b.fDegree.toNat + 1 - (k - a.fDegree.toNat))
      = min k b.fDegree.toNat + 1 by omega]

/-- The fused accumulation of `aSq` and `bSq`. -/
theorem pairFold_spec (ga gb : Nat → K) : ∀ (js : List Nat) (x y : K),
    js.foldl (fun (sq : K × K) i => (sq.1 + ga i, sq.2 + gb i)) (x, y)
      = (x + (js.map ga).sum, y + (js.map gb).sum) := by
  intro js
  induction js with
  | nil => intro x y; simp
  | cons j js ih =>
    intro x y
    simp only [List.foldl_cons, List.map_cons, List.sum_cons]
    rw [ih, add_assoc, add_assoc]

/-- Degree and weights of `AddSquares(a, b)`. -/
theorem AddSquares_spec (a b : ScalarBezCurve K) (ha : 0 ≤ a.fDegree) (hb : 0 ≤ b.fDegree) :
    (AddSquares a b).fDegree = a.fDegree + b.fDegree ∧
    (AddSquares a b).fWeights.length = a.fDegree.toNat + b.fDegree.toNat + 1 ∧
    ∀ k, k ≤ a.fDegree.toNat + b.fDegree.toNat →
      seqOf (AddSquares a b).fWeights k =
        ∑ i in Finset.Ico (k - a.fDegree.toNat) (min k b.fDegree.toNat + 1),
          seqOf a.fWeights i * seqOf a.fWeights (k - i)
            * blend b.fDegree.toNat i a.fDegree.toNat (k - i) k
        + ∑ i in Finset.Ico (k - a.fDegree.toNat) (min k b.fDegree.toNat + 1),
          seqOf b.fWeights i * seqOf b.fWeights (k - i)
            * blend b.fDegree.toNat i a.fDegree.toNat (k - i) k := by
  have hN : (a.fDegree + b.fDegree + 1).toNat = a.fDegree.toNat + b.fDegree.toNat + 1 := by omega
  obtain ⟨hl, hv⟩ := fill_spec
    (fun res k =>
        res.set k
          (((List.range' (k - a.fDegree.toNat)
              (min k b.fDegree.toNat + 1 - (k - a.fDegree.toNat))).foldl
            (fun (sq : K × K) i =>
              (sq.1 + a.fWeights.getD i 0 * a.fWeights.getD (k - i) 0
                  * blend b.fDegree.toNat i a.fDegree.toNat (k - i) k,
               sq.2 + b.fWeights.getD i 0 * b.fWeights.getD (k - i) 0
                  * blend b.fDegree.toNat i a.fDegree.toNat (k - i) k))
            (0, 0)).1
          + ((List.range' (k - a.fDegree.toNat)
              (min k b.fDegree.toNat + 1 - (k - a.fDegree.toNat))).foldl
            (fun (sq : K × K) i =>
              (sq.1 + a.fWeights.getD i 0 * a.fWeights.getD (k - i) 0
                  * blend b.fDegree.toNat i a.fDegree.toNat (k - i) k,
               sq.2 + b.fWeights.getD i 0 * b.fWeights.getD (k - i) 0
                  * blend b.fDegree.toNat i a.fDegree.toNat (k - i) k))
            (0, 0)).2))
    (fun k =>
      ∑ i in Finset.Ico (k - a.fDegree.toNat)
          (k - a.fDegree.toNat + (min k b.fDegree.toNat + 1 - (k - a.fDegree.toNat))),
        seqOf a.fWeights i * seqOf a.fWeights (k - i)
          * blend b.fDegree.toNat i a.fDegree.toNat (k - i) k
      + ∑ i in Finset.Ico (k - a.fDegree.toNat)
          (k - a.fDegree.toNat + (min k b.fDegree.toNat + 1 - (k - a.fDegree.toNat))),
        seqOf b.fWeights i * seqOf b.fWeights (k - i)
          * blend b.fDegree.toNat i a.fDegree.toNat (k - i) k)
    (fun e i hi => by
      refine ⟨List.length_set _ _ _, fun x => ?_⟩
      rw [seqOf_set, pairFold_spec, zero_add, zero_add, sum_map_range', sum_map_range']
      by_cases hx : x = i
      · subst hx
        rw [if_pos ⟨rfl, hi⟩, if_pos rfl]
        rfl
      · rw [if_neg (by omega), if_neg hx])
    (a.fDegree + b.fDegree + 1).toNat (mkDegree (a.fDegree + b.fDegree) : ScalarBezCurve K).fWeights
    (by rw [length_mkDegree])
  refine ⟨rfl, ?_, fun k hk => ?_⟩
  · simp only [AddSquares, degree]
    rw [hl, length_mkDegree, hN]
  · simp only [AddSquares, degree]
    rw [hv, if_pos (by omega)]
    rw [show k - a.fDegree.toNat + (min k b.fDegree.toNat + 1 - (k - a.fDegree.toNat))
      = min k b.fDegree.toNat + 1 by omega]

/-- Result of `ElevateDegree(c, N)` when `N` exceeds the degree of `c`. -/
theorem ElevateDegree_spec (c : ScalarBezCurve K) (N : Int) (hc : 0 ≤ c.fDegree)
    (hN : c.fDegree < N) :
    ∃ E, ElevateDegree c N = some E ∧ E.fDegree = N ∧
      E.fWeights.length = N.toNat + 1 ∧
      ∀ i, i ≤ N.toNat →
        seqOf E.fWeights i =
          ∑ j in Finset.Ico (i - (N - c.fDegree).toNat) (min c.fDegree.toNat i + 1),
            seqOf c.fWeights j
              * blend c.fDegree.toNat j (N - c.fDegree).toNat (i - j) i := by
  have h1 : ¬ (N < c.degree) := by unfold degree; omega
  have h2 : ¬ (N = c.degree) := by unfold degree; omega
  have hlen : c.fDegree.toNat + (N - c.fDegree).toNat + 1 = (N + 1).toNat := by omega
  obtain ⟨hl, hv⟩ := fill_spec
    (fun e i =>
        (List.range' (i - (N - c.fDegree).toNat)
            (min c.fDegree.toNat i + 1 - (i - (N - c.fDegree).toNat))).foldl
          (fun e j => e.set i (e.getD i 0 +
            c.fWeights.getD j 0 * blend c.fDegree.toNat j (N - c.fDegree).toNat (i - j) i))
          (e.set i 0))
    (fun i => ∑ j in Finset.Ico (i - (N - c.fDegree).toNat)
        (i - (N - c.fDegree).toNat
          + (min c.fDegree.toNat i + 1 - (i - (N - c.fDegree).toNat))),
      seqOf c.fWeights j * blend c.fDegree.toNat j (N - c.fDegree).toNat (i - j) i)
    (fun e i hi => round_spec _ i _ _ e hi)
    (c.fDegree.toNat + (N - c.fDegree).toNat + 1) (mkDegree N : ScalarBezCurve K).fWeights
    (by rw [length_mkDegree, hlen])
  refine ⟨_, by rw [ElevateDegree, if_neg h1, if_neg h2], rfl, ?_, fun i hi => ?_⟩
  · dsimp only
    rw [hl, length_mkDegree]
    omega
  · dsimp only
    rw [hv, if_pos (by omega)]
    rw [show i - (N - c.fDegree).toNat
        + (min c.fDegree.toNat i + 1 - (i - (N - c.fDegree).toNat))
      = min c.fDegree.toNat i + 1 by omega]

/-! ## Values of the products and of the elevated curve -/

theorem bernstein_congr (u v : Nat → K) (n : Nat) (t : K) (h : ∀ i, i ≤ n → u i = v i) :
    bernstein u n t = bernstein v n t := by
  unfold bernstein
  apply Finset.sum_congr rfl
  intro i hi
  have := Finset.mem_range.mp hi
  rw [h i (by omega)]

theorem bernstein_one (n : Nat) (t : K) : bernstein (fun _ => (1 : K)) n t = 1 := by
  unfold bernstein
  simp only [one_mul]
  exact bernstein_basis_sum n t

theorem Eval_eq_bernstein (c : ScalarBezCurve K) (t : K) (h : InBounds c) :
    Eval c t = bernstein (seqOf c.fWeights) c.fDegree.toNat t := by
  rw [Eval_eq_dc c t h, dc_zero_eq_bernstein]

/-- At `t = 1` the triangle returns the last weight it reads. -/
theorem dc_one (w : Nat → K) : ∀ k i, dc w 1 k i = w (i + k) := by
  intro k
  induction k with
  | zero => intro i; rfl
  | succ k ih =>
    intro i
    rw [dc, ih i, ih (i + 1)]
    rw [show i + 1 + k = i + (k + 1) by omega]
    ring

theorem Eval_one (c : ScalarBezCurve K) (h : InBounds c) :
    Eval c 1 = seqOf c.fWeights c.fDegree.toNat := by
  rw [Eval_eq_dc c 1 h, dc_one, Nat.zero_add]

/-- Value of `Mul(a, b)` when no binomial coefficient overflows: the product of
`a` read as a curve of the degree of `b` and `b` read as a curve of the degree
of `a`. -/
theorem Mul_eval_aux (a b : ScalarBezCurve K) (t : K) (ha : 0 ≤ a.fDegree) (hb : 0 ≤ b.fDegree)
    (h62 : a.fDegree + b.fDegree ≤ 62) :
    Eval (ScalarBezCurve.Mul a b) t
      = bernstein (seqOf a.fWeights) b.fDegree.toNat t
        * bernstein (seqOf b.fWeights) a.fDegree.toNat t := by
  obtain ⟨hd, hl, hv⟩ := Mul_spec a b ha hb
  have hIn : InBounds (ScalarBezCurve.Mul a b) := by
    constructor
    · rw [hd]; omega
    · rw [hd, hl]; omega
  have hdn : (ScalarBezCurve.Mul a b).fDegree.toNat = b.fDegree.toNat + a.fDegree.toNat := by
    rw [hd]; omega
  rw [Eval_eq_bernstein _ t hIn, hdn, ← bernstein_mul]
  apply bernstein_congr
  intro k hk
  rw [hv k (by omega)]
  apply Finset.sum_congr rfl
  intro i hi
  have hi' := Finset.mem_Ico.mp hi
  rw [blend_eq _ _ _ _ _ (by omega) (by omega) (by omega) (by omega)]

/-- Value of the elevated curve when no binomial coefficient overflows. -/
theorem ElevateDegree_eval_aux (c : ScalarBezCurve K) (N : Int) (t : K) (hc : InBounds c)
    (hN : c.fDegree < N) (h62 : N ≤ 62) :
    ∃ E, ElevateDegree c N = some E ∧ E.fDegree = N ∧ InBounds E ∧ Eval E t = Eval c t := by
  obtain ⟨E, hE, hd, hl, hv⟩ := ElevateDegree_spec c N hc.1 hN
  have hc0 := hc.1
  have hIn : InBounds E := by
    constructor
    · rw [hd]; omega
    · rw [hd, hl]; omega
  refine ⟨E, hE, hd, hIn, ?_⟩
  have hdn : E.fDegree.toNat = c.fDegree.toNat + (N - c.fDegree).toNat := by
    rw [hd]; omega
  rw [Eval_eq_bernstein _ t hIn, Eval_eq_bernstein _ t hc, hdn]
  have hm := bernstein_mul (seqOf c.fWeights) (fun _ => (1 : K)) c.fDegree.toNat
    (N - c.fDegree).toNat t
  rw [bernstein_one, mul_one] at hm
  rw [← hm]
  apply bernstein_congr
  intro i hi
  rw [hv i (by omega), Nat.min_comm]
  apply Finset.sum_congr rfl
  intro j hj
  have hj' := Finset.mem_Ico.mp hj
  rw [blend_eq _ _ _ _ _ (by omega) (by omega) (by omega) (by omega), mul_one]

theorem bernstein_add (u v : Nat → K) (n : Nat) (t : K) :
    bernstein (fun i => u i + v i) n t = bernstein u n t + bernstein v n t := by
  unfold bernstein
  rw [← Finset.sum_add_distrib]
  apply Finset.sum_congr rfl
  intro i _
  ring

/-- Where `AddSquares` is right: for curves `a`, `b` of the same degree `n` with
`2 * n ≤ 62`, the value of `AddSquares(a, b)` at every `t` is `a(t)^2 + b(t)^2`. -/
theorem AddSquares_same_degree (n : Nat) (wa wb : List K) (t : K) (ha : n + 1 ≤ wa.length)
    (hb : n + 1 ≤ wb.length) (h62 : 2 * n ≤ 62) :
    Eval (AddSquares (⟨(n : Int), wa⟩ : ScalarBezCurve K) ⟨(n : Int), wb⟩) t
      = Eval (⟨(n : Int), wa⟩ : ScalarBezCurve K) t ^ 2
        + Eval (⟨(n : Int), wb⟩ : ScalarBezCurve K) t ^ 2 := by
  have hA := inBounds_mk n wa ha
  have hB := inBounds_mk n wb hb
  have h0 : (0 : Int) ≤ (n : Int) := Int.natCast_nonneg n
  have h62' : (n : Int) + (n : Int) ≤ 62 := by omega
  obtain ⟨hd, hl, hS⟩ := AddSquares_spec (⟨(n : Int), wa⟩ : ScalarBezCurve K) ⟨(n : Int), wb⟩ h0 h0
  obtain ⟨hdA, hlA, hMA⟩ := Mul_spec (⟨(n : Int), wa⟩ : ScalarBezCurve K) ⟨(n : Int), wa⟩ h0 h0
  obtain ⟨hdB, hlB, hMB⟩ := Mul_spec (⟨(n : Int), wb⟩ : ScalarBezCurve K) ⟨(n : Int), wb⟩ h0 h0
  have hn : ((n : Int)).toNat = n := Int.toNat_natCast n
  have hIn : InBounds (AddSquares (⟨(n : Int), wa⟩ : ScalarBezCurve K) ⟨(n : Int), wb⟩) :=
    ⟨by rw [hd]; exact add_nonneg h0 h0, by rw [hd, hl]; simp only [hn]; omega⟩
  have hInA : InBounds (ScalarBezCurve.Mul (⟨(n : Int), wa⟩ : ScalarBezCurve K) ⟨(n : Int), wa⟩) :=
    ⟨by rw [hdA]; exact add_nonneg h0 h0, by rw [hdA, hlA]; simp only [hn]; omega⟩
  have hInB : InBounds (ScalarBezCurve.Mul (⟨(n : Int), wb⟩ : ScalarBezCurve K) ⟨(n : Int), wb⟩) :=
    ⟨by rw [hdB]; exact add_nonneg h0 h0, by rw [hdB, hlB]; simp only [hn]; omega⟩
  have eA := Mul_eval_aux (⟨(n : Int), wa⟩ : ScalarBezCurve K) ⟨(n : Int), wa⟩ t h0 h0 h62'
  have eB := Mul_eval_aux (⟨(n : Int), wb⟩ : ScalarBezCurve K) ⟨(n : Int), wb⟩ t h0 h0 h62'
  rw [Eval_eq_bernstein _ t hA, Eval_eq_bernstein _ t hB, pow_two, pow_two, ← eA, ← eB,
    Eval_eq_bernstein _ t hIn, Eval_eq_bernstein _ t hInA, Eval_eq_bernstein _ t hInB,
    hd, hdA, hdB, ← bernstein_add]
  apply bernstein_congr
  intro k hk
  have hk' : k ≤ ((n : Int)).toNat + ((n : Int)).toNat := by
    have : ((n : Int) + (n : Int)).toNat = n + n := by omega
    rw [this] at hk
    rw [hn]
    exact hk
  rw [hS k hk', hMA k hk', hMB k hk']

/-! ## Two products and an elevation beyond degree 62 -/

/-- The weight before the last of the constant curve `[1, 1]` elevated to degree
63: `(choose(1,0) * choose(62,62) + choose(1,1) * choose(62,61)) / choose(63,62)`
with the wrapped value `choose(63, 62) = 10`. -/
theorem elevate_63_weight_62 (E : ScalarBezCurve ℚ)
    (hE : ElevateDegree (⟨1, [1, 1]⟩ : ScalarBezCurve ℚ) 63 = some E) :
    E.fWeights.getD 62 0 = 63 / 10 := by
  obtain ⟨E', hE', hd, hl, hv⟩ :=
    ElevateDegree_spec (⟨1, [1, 1]⟩ : ScalarBezCurve ℚ) 63 (by decide) (by decide)
  rw [hE] at hE'
  obtain rfl : E = E' := Option.some.inj hE'
  have h := hv 62 (by decide)
  have e1 : (⟨1, [1, 1]⟩ : ScalarBezCurve ℚ).fDegree.toNat = 1 := rfl
  have e2 : ((63 : Int) - (⟨1, [1, 1]⟩ : ScalarBezCurve ℚ).fDegree).toNat = 62 := rfl
  rw [e1, e2] at h
  have hI : Finset.Ico (62 - 62) (min 1 62 + 1) = {0, 1} := by decide
  obtain ⟨c1, c2, c3, c4, c5⟩ := choose_values_63
  rw [hI, Finset.sum_pair (by decide)] at h
  unfold seqOf at h
  rw [h]
  simp only [blend, show (1 + 62 : Nat) = 63 from rfl, show (62 - 0 : Nat) = 62 from rfl,
    show (62 - 1 : Nat) = 61 from rfl, c1, c2, c3, c4, c5, u64]
  norm_num

/-- The weight before the last of the square of the constant curve `1` of degree
32: `2 * choose(32,31) * choose(32,32) / choose(64,63)` with the wrapped value
`choose(64, 63) = 12`. -/
theorem mul_32_weight_63 :
    (ScalarBezCurve.Mul (⟨32, List.replicate 33 1⟩ : ScalarBezCurve ℚ)
        (⟨32, List.replicate 33 1⟩ : ScalarBezCurve ℚ)).fWeights.getD 63 0 = 16 / 3 := by
  obtain ⟨hd, hl, hv⟩ := Mul_spec (⟨32, List.replicate 33 1⟩ : ScalarBezCurve ℚ)
    (⟨32, List.replicate 33 1⟩ : ScalarBezCurve ℚ) (by decide) (by decide)
  have e32 : (⟨32, List.replicate 33 1⟩ : ScalarBezCurve ℚ).fDegree.toNat = 32 := rfl
  have h := hv 63 (by rw [e32]; decide)
  rw [e32] at h
  have hI : Finset.Ico (63 - 32) (min 63 32 + 1) = {31, 32} := by decide
  obtain ⟨c1, c2, c3⟩ := choose_values_64
  rw [hI, Finset.sum_pair (by decide)] at h
  unfold seqOf at h
  rw [h]
  simp only [blend, show (32 + 32 : Nat) = 64 from rfl, show (63 - 31 : Nat) = 32 from rfl,
    show (63 - 32 : Nat) = 31 from rfl, c1, c2, c3, u64]
  simp [List.getD_eq_getElem?_getD, List.getElem?_replicate]
  norm_num

/-! ## The recursion of `ZeroSet` -/

/-- `Split` of a curve of degree 1. -/
theorem Split_degree_one (u0 u1 t : K) (rest : List K) :
    Split (⟨1, u0 :: u1 :: rest⟩ : ScalarBezCurve K) t
      = (⟨1, [u0, u0 * (1 - t) + u1 * t]⟩, ⟨1, [u0 * (1 - t) + u1 * t, u1]⟩) := by
  simp [Split, splitLoop, casteljauRow, mkDegree, List.range', List.replicate]

theorem zeroSetScan_degree_one (u0 u1 : K) (rest : List K) :
    zeroSetScan (⟨1, u0 :: u1 :: rest⟩ : ScalarBezCurve K)
      = (|u1 - u0|, decide (u0 ≥ 0) && decide (u1 ≥ 0), decide (u0 < 0) && decide (u1 < 0)) := by
  simp [zeroSetScan, List.range']

/-- More depth does not change a result of `ZeroSetRec`. -/
theorem ZeroSetRec_mono : ∀ (fuel : Nat) (c : ScalarBezCurve K) (a b tol : K) (acc r : List K),
    ZeroSetRec fuel c a b tol acc = some r → ZeroSetRec (fuel + 1) c a b tol acc = some r := by
  intro fuel
  induction fuel with
  | zero => intro c a b tol acc r h; exact absurd h (by simp [ZeroSetRec])
  | succ f ih =>
    intro c a b tol acc r h
    rw [ZeroSetRec] at h ⊢
    by_cases h1 : (zeroSetScan c).1 ≤ tol
    · simp only [h1, if_true] at h ⊢; exact h
    · simp only [h1, if_false] at h ⊢
      by_cases h2 : ((zeroSetScan c).2.1 || (zeroSetScan c).2.2) = true
      · simp only [h2, if_true] at h ⊢; exact h
      · simp only [h2] at h ⊢
        by_cases h3 : SkScalarNearlyZero (b - a) = true
        · simp only [h3, if_true] at h ⊢; exact h
        · simp only [h3] at h ⊢
          cases hL : ZeroSetRec f (Split c (1 / 2)).1 a ((a + b) * (1 / 2)) tol acc with
          | none => rw [hL] at h; exact absurd h (by simp)
          | some r1 =>
            rw [hL] at h
            rw [ih _ _ _ _ _ _ hL]
            simp only [Option.bind_some, Option.some_bind] at h ⊢
            exact ih _ _ _ _ _ _ h

theorem ZeroSetRec_mono_le (c : ScalarBezCurve K) (a b tol : K) (acc r : List K) (fuel : Nat) :
    ∀ fuel2, fuel ≤ fuel2 → ZeroSetRec fuel c a b tol acc = some r →
      ZeroSetRec fuel2 c a b tol acc = some r := by
  intro fuel2 hle
  induction fuel2, hle using Nat.le_induction with
  | base => exact id
  | succ n _ ih => exact fun h => ZeroSetRec_mono n c a b tol acc r (ih h)

/-- One call of `ZeroSetRec` on a curve of degree 1. -/
theorem ZeroSetRec_degree_one (f : Nat) (u0 u1 a b tol : K) (acc rest : List K) :
    ZeroSetRec (f + 1) (⟨1, u0 :: u1 :: rest⟩ : ScalarBezCurve K) a b tol acc =
      if |u1 - u0| ≤ tol then some (acc ++ [(a + b) * (1 / 2)])
      else if (0 ≤ u0 ∧ 0 ≤ u1) ∨ (u0 < 0 ∧ u1 < 0) then some acc
      else if |b - a| ≤ 1 / 4096 then some acc
      else (ZeroSetRec f (⟨1, [u0, u0 * (1 - 1 / 2) + u1 * (1 / 2)]⟩ : ScalarBezCurve K)
              a ((a + b) * (1 / 2)) tol acc).bind
            (fun r => ZeroSetRec f (⟨1, [u0 * (1 - 1 / 2) + u1 * (1 / 2), u1]⟩ : ScalarBezCurve K)
              ((a + b) * (1 / 2)) b tol r) := by
  rw [ZeroSetRec, zeroSetScan_degree_one, Split_degree_one]
  simp only [SkScalarNearlyZero, Bool.or_eq_true, Bool.and_eq_true, decide_eq_true_eq, ge_iff_le]

/-- A flat curve of degree 1 pushes the midpoint of its interval. -/
theorem ZeroSetRec_flat (f : Nat) (u0 u1 a b tol : K) (acc rest : List K)
    (h : |u1 - u0| ≤ tol) :
    ZeroSetRec (f + 1) (⟨1, u0 :: u1 :: rest⟩ : ScalarBezCurve K) a b tol acc
      = some (acc ++ [(a + b) * (1 / 2)]) := by
  rw [ZeroSetRec_degree_one, if_pos h]

/-- A steep curve of degree 1 with weights of one sign pushes nothing. -/
theorem ZeroSetRec_pruned (f : Nat) (u0 u1 a b tol : K) (acc rest : List K)
    (h : ¬ |u1 - u0| ≤ tol) (hs : (0 ≤ u0 ∧ 0 ≤ u1) ∨ (u0 < 0 ∧ u1 < 0)) :
    ZeroSetRec (f + 1) (⟨1, u0 :: u1 :: rest⟩ : ScalarBezCurve K) a b tol acc = some acc := by
  rw [ZeroSetRec_degree_one, if_neg h, if_pos hs]

/-- A steep curve of degree 1 that changes sign, on an interval that is not
nearly empty, is split. -/
theorem ZeroSetRec_split (f : Nat) (u0 u1 a b tol : K) (acc rest : List K)
    (h : ¬ |u1 - u0| ≤ tol) (h0 : u0 < 0) (h1 : 0 ≤ u1) (hw : ¬ |b - a| ≤ 1 / 4096) :
    ZeroSetRec (f + 1) (⟨1, u0 :: u1 :: rest⟩ : ScalarBezCurve K) a b tol acc =
      (ZeroSetRec f (⟨1, [u0, u0 * (1 - 1 / 2) + u1 * (1 / 2)]⟩ : ScalarBezCurve K)
          a ((a + b) * (1 / 2)) tol acc).bind
        (fun r => ZeroSetRec f (⟨1, [u0 * (1 - 1 / 2) + u1 * (1 / 2), u1]⟩ : ScalarBezCurve K)
          ((a + b) * (1 / 2)) b tol r) := by
  rw [ZeroSetRec_degree_one, if_neg h, if_neg, if_neg hw]
  rintro (⟨h2, _⟩ | ⟨_, h2⟩)
  · exact absurd h0 (not_lt.mpr h2)
  · exact absurd h2 (not_lt.mpr h1)

theorem half_sub_left (u0 u1 : K) : u0 * (1 - 1 / 2) + u1 * (1 / 2) - u0 = (u1 - u0) / 2 := by
  ring

theorem half_sub_right (u0 u1 : K) : u1 - (u0 * (1 - 1 / 2) + u1 * (1 / 2)) = (u1 - u0) / 2 := by
  ring

/-- The zero of the left half of a curve of degree 1 is the zero of the curve. -/
theorem zero_of_left_half (u0 u1 a b : K) (hV : 0 < u1 - u0) :
    a + ((a + b) * (1 / 2) - a) * (-u0) / (u0 * (1 - 1 / 2) + u1 * (1 / 2) - u0)
      = a + (b - a) * (-u0) / (u1 - u0) := by
  have hVne : u1 - u0 ≠ 0 := ne_of_gt hV
  rw [half_sub_left, show (a + b) * (1 / 2) - a = (b - a) / 2 by ring]
  field_simp
  ring

/-- The zero of the right half of a curve of degree 1 is the zero of the curve. -/
theorem zero_of_right_half (u0 u1 a b : K) (hV : 0 < u1 - u0) :
    (a + b) * (1 / 2) + (b - (a + b) * (1 / 2)) * (-(u0 * (1 - 1 / 2) + u1 * (1 / 2)))
        / (u1 - (u0 * (1 - 1 / 2) + u1 * (1 / 2)))
      = a + (b - a) * (-u0) / (u1 - u0) := by
  have hVne : u1 - u0 ≠ 0 := ne_of_gt hV
  rw [half_sub_right, show b - (a + b) * (1 / 2) = (b - a) / 2 by ring]
  field_simp
  ring

/-- Last step of the descent: both halves are flat, and one of the two
midpoints is within a quarter of the interval of the zero. -/
theorem ZeroSetRec_descent_base (tol : K) (u0 u1 a b : K) (acc rest : List K) (g : Nat)
    (h0 : u0 < 0) (h1 : 0 ≤ u1) (hlo : tol < u1 - u0) (hhi : u1 - u0 ≤ tol * 2)
    (hw : 1 / 4096 < b - a) (htol : 0 < tol) :
    ∃ l, ZeroSetRec (g + 1 + 1) (⟨1, u0 :: u1 :: rest⟩ : ScalarBezCurve K) a b tol acc
        = some (acc ++ l) ∧
      ∃ t ∈ l, |t - (a + (b - a) * (-u0) / (u1 - u0))| ≤ (b - a) / 4 := by
  have hV : 0 < u1 - u0 := by linarith only [hlo, htol]
  have hwpos : 0 < b - a := by linarith only [hw]
  have hnf : ¬ |u1 - u0| ≤ tol := by rw [abs_of_pos hV]; linarith only [hlo]
  have hnw : ¬ |b - a| ≤ 1 / 4096 := by rw [abs_of_pos hwpos]; linarith only [hw]
  rw [ZeroSetRec_split _ _ _ _ _ _ _ _ hnf h0 h1 hnw]
  have hfl : |u0 * (1 - 1 / 2) + u1 * (1 / 2) - u0| ≤ tol := by
    rw [half_sub_left, abs_of_pos (by linarith only [hV])]
    linarith only [hhi]
  have hfr : |u1 - (u0 * (1 - 1 / 2) + u1 * (1 / 2))| ≤ tol := by
    rw [half_sub_right, abs_of_pos (by linarith only [hV])]
    linarith only [hhi]
  rw [ZeroSetRec_flat _ _ _ _ _ _ _ _ hfl, Option.some_bind,
    ZeroSetRec_flat _ _ _ _ _ _ _ _ hfr]
  refine ⟨[(a + (a + b) * (1 / 2)) * (1 / 2), ((a + b) * (1 / 2) + b) * (1 / 2)],
    by simp, ?_⟩
  have hr0 : 0 < (b - a) * (-u0) / (u1 - u0) := by
    apply div_pos (mul_pos hwpos (by linarith only [h0])) hV
  have hr1 : (b - a) * (-u0) / (u1 - u0) ≤ b - a := by
    rw [div_le_iff₀ hV]
    nlinarith only [hwpos, h1]
  generalize (b - a) * (-u0) / (u1 - u0) = ρ at hr0 hr1
  by_cases hm : ρ ≤ (b - a) / 2
  · refine ⟨(a + (a + b) * (1 / 2)) * (1 / 2), by simp, ?_⟩
    rw [abs_le]
    constructor <;> linarith only [hm, hr0]
  · refine ⟨((a + b) * (1 / 2) + b) * (1 / 2), by simp, ?_⟩
    rw [abs_le]
    constructor <;> linarith only [hm, hr1]

/-- Descent of `ZeroSetRec` on an increasing curve of degree 1 that changes sign:
when the variation `u1 - u0` lies in `(tol * 2^k, tol * 2^(k+1)]` and the interval
is wider than `2^k / 4096`, a value within `(b - a) / 2^(k+2)` of the zero of the
curve is pushed. -/
theorem ZeroSetRec_descent (tol : K) (htol : 0 < tol) : ∀ (k : Nat) (u0 u1 a b : K)
    (acc rest : List K) (f : Nat),
    u0 < 0 → 0 ≤ u1 → tol * 2 ^ k < u1 - u0 → u1 - u0 ≤ tol * 2 ^ (k + 1) →
    1 / 4096 * 2 ^ k < b - a → k + 2 ≤ f →
    ∃ l, ZeroSetRec f (⟨1, u0 :: u1 :: rest⟩ : ScalarBezCurve K) a b tol acc = some (acc ++ l) ∧
      ∃ t ∈ l, |t - (a + (b - a) * (-u0) / (u1 - u0))| ≤ (b - a) / 2 ^ (k + 2) := by
  intro k
  induction k with
  | zero =>
    intro u0 u1 a b acc rest f h0 h1 hlo hhi hw hf
    obtain ⟨g, rfl⟩ : ∃ g, f = g + 1 + 1 := ⟨f - 2, by omega⟩
    simp only [pow_zero, mul_one, zero_add, pow_one] at hlo hhi hw
    rw [show (2 : K) ^ 2 = 4 by norm_num]
    exact ZeroSetRec_descent_base tol u0 u1 a b acc rest g h0 h1 hlo hhi hw htol
  | succ k ih =>
    intro u0 u1 a b acc rest f h0 h1 hlo hhi hw hf
    obtain ⟨g, rfl⟩ : ∃ g, f = g + 1 + 1 := ⟨f - 2, by omega⟩
    have h1k : (1 : K) ≤ 2 ^ k := one_le_pow₀ (one_le_two : (1 : K) ≤ 2)
    have htk : tol ≤ tol * 2 ^ k := le_mul_of_one_le_right (le_of_lt htol) h1k
    have hwk : (1 : K) / 4096 ≤ 1 / 4096 * 2 ^ k := le_mul_of_one_le_right (by norm_num) h1k
    have hlo2 : (tol * 2 ^ k) * 2 < u1 - u0 := by
      rw [pow_succ, ← mul_assoc] at hlo; exact hlo
    have hhi2 : u1 - u0 ≤ (tol * 2 ^ (k + 1)) * 2 := by
      rw [pow_succ 2 (k + 1), ← mul_assoc] at hhi; exact hhi
    have hw2 : (1 / 4096 * 2 ^ k) * 2 < b - a := by
      rw [pow_succ, ← mul_assoc] at hw; exact hw
    clear hlo hhi hw
    generalize tol * 2 ^ k = T at hlo2 htk ih
    generalize (1 : K) / 4096 * 2 ^ k = W at hw2 hwk ih
    generalize tol * 2 ^ (k + 1) = T2 at hhi2 ih
    have hV : 0 < u1 - u0 := by linarith only [hlo2, htk, htol]
    have hwpos : 0 < b - a := by linarith only [hw2, hwk]
    have hnf : ¬ |u1 - u0| ≤ tol := by
      rw [abs_of_pos hV]
      linarith only [htk, hlo2, htol]
    have hnw : ¬ |b - a| ≤ 1 / 4096 := by
      rw [abs_of_pos hwpos]
      linarith only [hwk, hw2]
    rw [ZeroSetRec_split _ _ _ _ _ _ _ _ hnf h0 h1 hnw, pow_succ 2 (k + 2)]
    have hhalf : (b - a) / 2 / 2 ^ (k + 2) = (b - a) / (2 ^ (k + 2) * 2) := by
      rw [div_div, mul_comm]
    by_cases hm : 0 ≤ u0 * (1 - 1 / 2) + u1 * (1 / 2)
    · -- the zero is in the left half; the right half has non-negative weights
      obtain ⟨l, hl, t, htl, ht⟩ := ih u0 (u0 * (1 - 1 / 2) + u1 * (1 / 2)) a ((a + b) * (1 / 2))
        acc [] (g + 1) h0 hm (by rw [half_sub_left]; linarith only [hlo2])
        (by rw [half_sub_left]; linarith only [hhi2])
        (by linarith only [hw2]) (by omega)
      rw [hl, Option.some_bind]
      have hnfr : ¬ |u1 - (u0 * (1 - 1 / 2) + u1 * (1 / 2))| ≤ tol := by
        rw [half_sub_right, abs_of_pos (by linarith only [hV])]
        linarith only [htk, hlo2, htol]
      rw [ZeroSetRec_pruned _ _ _ _ _ _ _ _ hnfr (Or.inl ⟨hm, h1⟩)]
      refine ⟨l, rfl, t, htl, ?_⟩
      rw [zero_of_left_half u0 u1 a b hV, show (a + b) * (1 / 2) - a = (b - a) / 2 by ring,
        hhalf] at ht
      exact ht
    · -- the zero is in the right half; the left half has negative weights
      have hm' : u0 * (1 - 1 / 2) + u1 * (1 / 2) < 0 := not_le.mp hm
      have hnfl : ¬ |u0 * (1 - 1 / 2) + u1 * (1 / 2) - u0| ≤ tol := by
        rw [half_sub_left, abs_of_pos (by linarith only [hV])]
        linarith only [htk, hlo2, htol]
      rw [ZeroSetRec_pruned _ _ _ _ _ _ _ _ hnfl (Or.inr ⟨h0, hm'⟩), Option.some_bind]
      obtain ⟨l, hl, t, htl, ht⟩ := ih (u0 * (1 - 1 / 2) + u1 * (1 / 2)) u1 ((a + b) * (1 / 2)) b
        acc [] (g + 1) hm' h1 (by rw [half_sub_right]; linarith only [hlo2])
        (by rw [half_sub_right]; linarith only [hhi2])
        (by linarith only [hw2]) (by omega)
      refine ⟨l, hl, t, htl, ?_⟩
      rw [zero_of_right_half u0 u1 a b hV, show b - (a + b) * (1 / 2) = (b - a) / 2 by ring,
        hhalf] at ht
      exact ht

/-- A curve of degree 1 that is too steep for the width of its interval pushes
nothing: with variation above `tol * 2^j` on an interval of width at most
`2^j / 4096`, every branch ends by a sign test or by the nearly-empty test. -/
theorem ZeroSetRec_steep (tol : K) (htol : 0 < tol) : ∀ (j : Nat) (u0 u1 a b : K)
    (acc rest : List K) (f : Nat),
    tol * 2 ^ j < |u1 - u0| → |b - a| ≤ 1 / 4096 * 2 ^ j → j + 1 ≤ f →
    ZeroSetRec f (⟨1, u0 :: u1 :: rest⟩ : ScalarBezCurve K) a b tol acc = some acc := by
  intro j
  induction j with
  | zero =>
    intro u0 u1 a b acc rest f hV hw hf
    obtain ⟨g, rfl⟩ : ∃ g, f = g + 1 := ⟨f - 1, by omega⟩
    simp only [pow_zero, mul_one] at hV hw
    rw [ZeroSetRec_degree_one, if_neg (not_le.mpr hV), if_pos hw]
    split <;> rfl
  | succ j ih =>
    intro u0 u1 a b acc rest f hV hw hf
    obtain ⟨g, rfl⟩ : ∃ g, f = g + 1 := ⟨f - 1, by omega⟩
    have h1j : (1 : K) ≤ 2 ^ j := one_le_pow₀ (one_le_two : (1 : K) ≤ 2)
    have htj : tol ≤ tol * 2 ^ j := le_mul_of_one_le_right (le_of_lt htol) h1j
    have hV2 : (tol * 2 ^ j) * 2 < |u1 - u0| := by
      rw [pow_succ, ← mul_assoc] at hV; exact hV
    have hw2 : |b - a| ≤ (1 / 4096 * 2 ^ j) * 2 := by
      rw [pow_succ, ← mul_assoc] at hw; exact hw
    have hnf : ¬ |u1 - u0| ≤ tol := by
      apply not_le.mpr
      linarith only [hV2, htj, htol]
    rw [ZeroSetRec_degree_one, if_neg hnf]
    split
    · rfl
    · split
      · rfl
      · have hl : tol * 2 ^ j < |u0 * (1 - 1 / 2) + u1 * (1 / 2) - u0| := by
          rw [half_sub_left, abs_div, abs_two]
          linarith only [hV2]
        have hr : tol * 2 ^ j < |u1 - (u0 * (1 - 1 / 2) + u1 * (1 / 2))| := by
          rw [half_sub_right, abs_div, abs_two]
          linarith only [hV2]
        have hwl : |(a + b) * (1 / 2) - a| ≤ 1 / 4096 * 2 ^ j := by
          rw [show (a + b) * (1 / 2) - a = (b - a) / 2 by ring, abs_div, abs_two]
          linarith only [hw2]
        have hwr : |b - (a + b) * (1 / 2)| ≤ 1 / 4096 * 2 ^ j := by
          rw [show b - (a + b) * (1 / 2) = (b - a) / 2 by ring, abs_div, abs_two]
          linarith only [hw2]
        rw [ih _ _ _ _ acc [] g hl hwl (by omega), Option.some_bind,
          ih _ _ _ _ acc [] g hr hwr (by omega)]

/-- Descent along the right edge: a curve of degree 1 with weights `[u0, 0]`,
`u0 < 0`, pushes the midpoints of the two halves of the last interval reached,
of which the left one has negative weights only. -/
theorem ZeroSetRec_right_edge (tol : K) (htol : 0 < tol) : ∀ (k : Nat) (u0 u1 a b : K)
    (acc rest : List K) (f : Nat),
    u0 < 0 → u1 = 0 → tol * 2 ^ k < -u0 → -u0 ≤ tol * 2 ^ (k + 1) →
    1 / 4096 * 2 ^ k < b - a → k + 2 ≤ f →
    ZeroSetRec f (⟨1, u0 :: u1 :: rest⟩ : ScalarBezCurve K) a b tol acc
      = some (acc ++ [b - 3 * (b - a) / 2 ^ (k + 2), b - (b - a) / 2 ^ (k + 2)]) := by
  intro k
  induction k with
  | zero =>
    intro u0 u1 a b acc rest f h0 h1 hlo hhi hw hf
    subst h1
    obtain ⟨g, rfl⟩ : ∃ g, f = g + 1 + 1 := ⟨f - 2, by omega⟩
    simp only [pow_zero, mul_one, zero_add, pow_one] at hlo hhi hw
    have hnf : ¬ |(0 : K) - u0| ≤ tol := by
      rw [zero_sub, abs_of_pos (by linarith only [h0])]; linarith only [hlo]
    have hnw : ¬ |b - a| ≤ 1 / 4096 := by
      rw [abs_of_pos (by linarith only [hw])]; linarith only [hw]
    rw [ZeroSetRec_split _ _ _ _ _ _ _ _ hnf h0 le_rfl hnw]
    have hfl : |u0 * (1 - 1 / 2) + 0 * (1 / 2) - u0| ≤ tol := by
      rw [half_sub_left, abs_of_pos (by linarith only [h0])]
      linarith only [hhi]
    have hfr : |(0 : K) - (u0 * (1 - 1 / 2) + 0 * (1 / 2))| ≤ tol := by
      rw [half_sub_right, abs_of_pos (by linarith only [h0])]
      linarith only [hhi]
    rw [ZeroSetRec_flat _ _ _ _ _ _ _ _ hfl, Option.some_bind,
      ZeroSetRec_flat _ _ _ _ _ _ _ _ hfr, List.append_assoc]
    congr 2
    simp only [List.cons_append, List.nil_append, List.cons.injEq, and_true]
    constructor <;> ring
  | succ k ih =>
    intro u0 u1 a b acc rest f h0 h1 hlo hhi hw hf
    subst h1
    obtain ⟨g, rfl⟩ : ∃ g, f = g + 1 + 1 := ⟨f - 2, by omega⟩
    have h1k : (1 : K) ≤ 2 ^ k := one_le_pow₀ (one_le_two : (1 : K) ≤ 2)
    have htk : tol ≤ tol * 2 ^ k := le_mul_of_one_le_right (le_of_lt htol) h1k
    have hwk : (1 : K) / 4096 ≤ 1 / 4096 * 2 ^ k := le_mul_of_one_le_right (by norm_num) h1k
    have hlo2 : (tol * 2 ^ k) * 2 < -u0 := by
      rw [pow_succ, ← mul_assoc] at hlo; exact hlo
    have hhi2 : -u0 ≤ (tol * 2 ^ (k + 1)) * 2 := by
      rw [pow_succ 2 (k + 1), ← mul_assoc] at hhi; exact hhi
    have hw2 : (1 / 4096 * 2 ^ k) * 2 < b - a := by
      rw [pow_succ, ← mul_assoc] at hw; exact hw
    have hnf : ¬ |(0 : K) - u0| ≤ tol := by
      rw [zero_sub, abs_of_pos (by linarith only [h0])]
      linarith only [htk, hlo2, htol]
    have hnw : ¬ |b - a| ≤ 1 / 4096 := by
      rw [abs_of_pos (by linarith only [hw2, hwk])]
      linarith only [hwk, hw2]
    rw [ZeroSetRec_split _ _ _ _ _ _ _ _ hnf h0 le_rfl hnw]
    have hm : u0 * (1 - 1 / 2) + 0 * (1 / 2) < 0 := by linarith only [h0]
    have hnfl : ¬ |u0 * (1 - 1 / 2) + 0 * (1 / 2) - u0| ≤ tol := by
      rw [half_sub_left, abs_of_pos (by linarith only [h0])]
      linarith only [htk, hlo2, htol]
    rw [ZeroSetRec_pruned _ _ _ _ _ _ _ _ hnfl (Or.inr ⟨h0, hm⟩), Option.some_bind]
    rw [ih (u0 * (1 - 1 / 2) + 0 * (1 / 2)) 0 ((a + b) * (1 / 2)) b acc [] (g + 1) hm rfl
      (by linarith only [hlo2]) (by linarith only [hhi2]) (by linarith only [hw2]) (by omega)]
    congr 2
    rw [pow_succ 2 (k + 2), show b - (a + b) * (1 / 2) = (b - a) / 2 by ring]
    simp only [List.cons.injEq, and_true]
    constructor
    · field_simp
      ring
    · field_simp
      ring

/-- The scan of `ZeroSetRec` after `m` rounds: the total variation of the first
`m + 1` weights and the two sign flags. -/
theorem zeroSetScan_loop (w : List K) : ∀ m,
    ((List.range' 1 m).foldl
      (fun (st : K × Bool × Bool) i =>
        (st.1 + |w.getD i 0 - w.getD (i - 1) 0|,
         st.2.1 && decide (w.getD i 0 ≥ 0),
         st.2.2 && decide (w.getD i 0 < 0)))
      ((0 : K), decide (w.getD 0 0 ≥ 0), decide (w.getD 0 0 < 0)))
    = (∑ i in Finset.range m, |w.getD (i + 1) 0 - w.getD i 0|,
       decide (∀ i, i ≤ m → 0 ≤ w.getD i 0),
       decide (∀ i, i ≤ m → w.getD i 0 < 0)) := by
  intro m
  induction m with
  | zero =>
    simp only [List.range'_zero, List.foldl_nil, Finset.range_zero, Finset.sum_empty,
      Nat.le_zero_eq, forall_eq, ge_iff_le]
  | succ m ih =>
    rw [List.range'_concat, List.foldl_append, ih]
    simp only [List.foldl_cons, List.foldl_nil, one_mul, Finset.sum_range_succ]
    rw [show 1 + m = m + 1 by omega, Nat.add_sub_cancel]
    refine Prod.ext rfl (Prod.ext ?_ ?_)
    · simp only [ge_iff_le, Bool.decide_and, Bool.decide_eq_true, ← Bool.decide_and]
      apply decide_eq_decide.mpr
      constructor
      · rintro ⟨h1, h2⟩ i hi
        rcases Nat.lt_or_ge i (m + 1) with h | h
        · exact h1 i (by omega)
        · have : i = m + 1 := by omega
          rw [this]; exact h2
      · intro h
        exact ⟨fun i hi => h i (by omega), h (m + 1) le_rfl⟩
    · simp only [Bool.decide_and, Bool.decide_eq_true, ← Bool.decide_and]
      apply decide_eq_decide.mpr
      constructor
      · rintro ⟨h1, h2⟩ i hi
        rcases Nat.lt_or_ge i (m + 1) with h | h
        · exact h1 i (by omega)
        · have : i = m + 1 := by omega
          rw [this]; exact h2
      · intro h
        exact ⟨fun i hi => h i (by omega), h (m + 1) le_rfl⟩

theorem zeroSetScan_eq (c : ScalarBezCurve K) :
    zeroSetScan c
      = (∑ i in Finset.range c.fDegree.toNat, |c.fWeights.getD (i + 1) 0 - c.fWeights.getD i 0|,
         decide (∀ i, i ≤ c.fDegree.toNat → 0 ≤ c.fWeights.getD i 0),
         decide (∀ i, i ≤ c.fDegree.toNat → c.fWeights.getD i 0 < 0)) :=
  zeroSetScan_loop c.fWeights c.fDegree.toNat

/-- Where the sign test of `ZeroSetRec` is reached: a curve whose control
polygon has total variation above the tolerance and whose weights
`w_0 .. w_n` are all non-negative pushes nothing. -/
theorem ZeroSetRec_nonneg_steep (c : ScalarBezCurve K) (a b tol : K) (acc : List K) (f : Nat)
    (hpos : ∀ i, i ≤ c.fDegree.toNat → 0 ≤ c.fWeights.getD i 0)
    (hvar : tol < ∑ i in Finset.range c.fDegree.toNat,
      |c.fWeights.getD (i + 1) 0 - c.fWeights.getD i 0|) :
    ZeroSetRec (f + 1) c a b tol acc = some acc := by
  rw [ZeroSetRec, zeroSetScan_eq]
  simp only [if_neg (not_le.mpr hvar)]
  rw [if_pos]
  simp only [Bool.or_eq_true, decide_eq_true_eq]
  exact Or.inl hpos

/-! ## Subtraction, scaling and `choose` over unbounded integers -/

theorem chooseExact_succ (n k : Nat) :
    chooseExact n (k + 1) = chooseExact n k * (n + 1 - (1 + k)) / (1 + k) := by
  unfold chooseExact
  rw [List.range'_concat, List.foldl_append]
  simp only [List.foldl_cons, List.foldl_nil, one_mul]

theorem chooseExact_eq_binom (n : Nat) : ∀ k, k ≤ n → chooseExact n k = n.choose k := by
  intro k
  induction k with
  | zero => intro _; rw [Nat.choose_zero_right]; rfl
  | succ k ih =>
    intro hk
    rw [chooseExact_succ, ih (by omega), show n + 1 - (1 + k) = n - k by omega,
      ← Nat.choose_succ_right_eq, show 1 + k = k + 1 by omega]
    exact Nat.mul_div_cancel _ (by omega)

/-- A loop `for (k = 0; k < N; k++)` whose round `k` replaces the entry `k` by a
function of that entry. -/
theorem mapLoop_spec (h : Nat → K → K) : ∀ (N : Nat) (w : List K), N ≤ w.length →
    ((List.range N).foldl (fun w k => w.set k (h k (w.getD k 0))) w).length = w.length ∧
    ∀ x, seqOf ((List.range N).foldl (fun w k => w.set k (h k (w.getD k 0))) w) x
      = if x < N then h x (seqOf w x) else seqOf w x := by
  intro N
  induction N with
  | zero =>
    intro w _
    refine ⟨rfl, fun x => ?_⟩
    rw [if_neg (by omega)]
    rfl
  | succ N ih =>
    intro w hw
    obtain ⟨hl, hv⟩ := ih w (by omega)
    rw [List.range_succ, List.foldl_append]
    simp only [List.foldl_cons, List.foldl_nil]
    refine ⟨by rw [List.length_set, hl], fun x => ?_⟩
    rw [seqOf_set, hl, hv]
    by_cases hx : N = x
    · subst hx
      rw [if_pos ⟨rfl, by omega⟩, if_pos (by omega)]
      have := hv N
      rw [if_neg (by omega)] at this
      unfold seqOf at this
      rw [this]
      rfl
    · rw [if_neg (by omega)]
      by_cases hx2 : x < N
      · rw [if_pos hx2, if_pos (by omega)]
      · rw [if_neg hx2, if_neg (by omega)]

/-- Result of `sub` on curves of the same degree. -/
theorem sub_spec (a b : ScalarBezCurve K) (hd : b.fDegree = a.fDegree)
    (hlen : a.fDegree + 1 ≤ (a.fWeights.length : Int)) :
    ∃ r, a.sub b = some r ∧ r.fDegree = a.fDegree ∧ r.fWeights.length = a.fWeights.length ∧
      ∀ x, seqOf r.fWeights x
        = if (x : Int) ≤ a.fDegree then seqOf a.fWeights x - seqOf b.fWeights x
          else seqOf a.fWeights x := by
  obtain ⟨hl, hv⟩ := mapLoop_spec (fun k v => v - b.fWeights.getD k 0) (a.fDegree + 1).toNat
    a.fWeights (by omega)
  refine ⟨⟨a.fDegree, (List.range (a.fDegree + 1).toNat).foldl
      (fun w k => w.set k (w.getD k 0 - b.fWeights.getD k 0)) a.fWeights⟩,
    by rw [ScalarBezCurve.sub, if_pos hd], rfl, hl, fun x => ?_⟩
  dsimp only
  rw [hv]
  by_cases hx : (x : Int) ≤ a.fDegree
  · rw [if_pos hx, if_pos (by omega)]
    rfl
  · rw [if_neg hx, if_neg (by omega)]

/-- Weights of `Mul(curve, f)`. -/
theorem MulScalar_spec (c : ScalarBezCurve K) (f : K)
    (hlen : c.fDegree + 1 ≤ (c.fWeights.length : Int)) :
    (MulScalar c f).fDegree = c.fDegree ∧
    (MulScalar c f).fWeights.length = c.fWeights.length ∧
    ∀ x, seqOf (MulScalar c f).fWeights x
      = if (x : Int) ≤ c.fDegree then seqOf c.fWeights x * f else seqOf c.fWeights x := by
  obtain ⟨hl, hv⟩ := mapLoop_spec (fun _ v => v * f) (c.fDegree + 1).toNat c.fWeights (by omega)
  refine ⟨rfl, hl, fun x => ?_⟩
  unfold MulScalar
  dsimp only
  rw [hv]
  by_cases hx : (x : Int) ≤ c.fDegree
  · rw [if_pos hx, if_pos (by omega)]
  · rw [if_neg hx, if_neg (by omega)]

/-! ## The properties of the curve algebra -/

/-- C1: for a curve of degree `n` with weights `w_0 .. w_n` and any `t` of the
field (not only `0 ≤ t ≤ 1`), `Eval` returns the Bernstein-form value
`∑ i ≤ n, w_i * C(n,i) * t^i * (1-t)^(n-i)`. -/
theorem Eval_eq_bernstein_sum (n : Nat) (ws : List K) (t : K) (h : n + 1 ≤ ws.length) :
    Eval (⟨(n : Int), ws⟩ : ScalarBezCurve K) t =
      ∑ i in Finset.range (n + 1), ws.getD i 0 * (n.choose i : K) * t ^ i * (1 - t) ^ (n - i) := by
  rw [Eval_eq_dc _ _ (inBounds_mk n ws h), dc_zero_eq_bernstein]
  rfl

/-- Instance of C1 for the weights `[1, 2, 4]` at `t = 1/3`. -/
theorem Eval_eq_bernstein_sum_witness :
    (2 + 1 ≤ [(1 : ℚ), 2, 4].length) ∧
    Eval (⟨((2 : Nat) : Int), [(1 : ℚ), 2, 4]⟩ : ScalarBezCurve ℚ) (1 / 3) =
      ∑ i in Finset.range (2 + 1),
        [(1 : ℚ), 2, 4].getD i 0 * (Nat.choose 2 i : ℚ) * (1 / 3) ^ i * (1 - 1 / 3) ^ (2 - i) :=
  ⟨by decide, Eval_eq_bernstein_sum 2 [(1 : ℚ), 2, 4] (1 / 3) (by decide)⟩

/-- C2: with `(L, R) = Split(C, t)`, for every `s`, `Eval(L, s) = Eval(C, s * t)`
and `Eval(R, s) = Eval(C, t + s * (1 - t))`: the halves reproduce the curve on
`[0, t]` and on `[t, 1]`. -/
theorem Split_reproduces_curve (n : Nat) (ws : List K) (t s : K) (h : n + 1 ≤ ws.length) :
    Eval (Split (⟨(n : Int), ws⟩ : ScalarBezCurve K) t).1 s
      = Eval (⟨(n : Int), ws⟩ : ScalarBezCurve K) (s * t) ∧
    Eval (Split (⟨(n : Int), ws⟩ : ScalarBezCurve K) t).2 s
      = Eval (⟨(n : Int), ws⟩ : ScalarBezCurve K) (t + s * (1 - t)) :=
  Split_eval_aux _ t s (inBounds_mk n ws h)

/-- Instance of C2 for the weights `[1, 2, 4]`, split at `1/2`, at `s = 1/3`. -/
theorem Split_reproduces_curve_witness :
    (2 + 1 ≤ [(1 : ℚ), 2, 4].length) ∧
    (Eval (Split (⟨((2 : Nat) : Int), [(1 : ℚ), 2, 4]⟩ : ScalarBezCurve ℚ) (1 / 2)).1 (1 / 3)
      = Eval (⟨((2 : Nat) : Int), [(1 : ℚ), 2, 4]⟩ : ScalarBezCurve ℚ) (1 / 3 * (1 / 2)) ∧
    Eval (Split (⟨((2 : Nat) : Int), [(1 : ℚ), 2, 4]⟩ : ScalarBezCurve ℚ) (1 / 2)).2 (1 / 3)
      = Eval (⟨((2 : Nat) : Int), [(1 : ℚ), 2, 4]⟩ : ScalarBezCurve ℚ)
          (1 / 2 + 1 / 3 * (1 - 1 / 2))) :=
  ⟨by decide, Split_reproduces_curve 2 [(1 : ℚ), 2, 4] (1 / 2) (1 / 3) (by decide)⟩

/-- C3: with `(L, R) = Split(C, t)`, `Eval(L, 1) = Eval(R, 0) = Eval(C, t)`; the
last weight of `L` and the first weight of `R` are that value. -/
theorem Split_boundary_values (n : Nat) (ws : List K) (t : K) (h : n + 1 ≤ ws.length) :
    Eval (Split (⟨(n : Int), ws⟩ : ScalarBezCurve K) t).1 1
      = Eval (⟨(n : Int), ws⟩ : ScalarBezCurve K) t ∧
    Eval (Split (⟨(n : Int), ws⟩ : ScalarBezCurve K) t).2 0
      = Eval (⟨(n : Int), ws⟩ : ScalarBezCurve K) t ∧
    (Split (⟨(n : Int), ws⟩ : ScalarBezCurve K) t).1.fWeights.getD n 0
      = Eval (⟨(n : Int), ws⟩ : ScalarBezCurve K) t ∧
    (Split (⟨(n : Int), ws⟩ : ScalarBezCurve K) t).2.fWeights.getD 0 0
      = Eval (⟨(n : Int), ws⟩ : ScalarBezCurve K) t := by
  have hb := inBounds_mk n ws h
  obtain ⟨e1, _⟩ := Split_eval_aux (⟨(n : Int), ws⟩ : ScalarBezCurve K) t 1 hb
  obtain ⟨_, e2⟩ := Split_eval_aux (⟨(n : Int), ws⟩ : ScalarBezCurve K) t 0 hb
  obtain ⟨_, _, _, _, w1, w2⟩ := Split_spec (⟨(n : Int), ws⟩ : ScalarBezCurve K) t hb
  have hn : ((n : Int)).toNat = n := Int.toNat_natCast n
  refine ⟨by rw [e1, one_mul], by rw [e2, zero_mul, add_zero], ?_, ?_⟩
  · have := w1 n (by show n ≤ ((n : Int)).toNat; omega)
    rw [Eval_eq_dc _ _ hb]
    simp only [hn] at this ⊢
    exact this
  · have := w2 0 (Nat.zero_le _)
    rw [Eval_eq_dc _ _ hb]
    simp only [hn, Nat.sub_zero] at this ⊢
    exact this

/-- Instance of C3 for the weights `[1, 2, 4]`, split at `1/2`. -/
theorem Split_boundary_values_witness :
    (2 + 1 ≤ [(1 : ℚ), 2, 4].length) ∧
    (Eval (Split (⟨((2 : Nat) : Int), [(1 : ℚ), 2, 4]⟩ : ScalarBezCurve ℚ) (1 / 2)).1 1
      = Eval (⟨((2 : Nat) : Int), [(1 : ℚ), 2, 4]⟩ : ScalarBezCurve ℚ) (1 / 2) ∧
    Eval (Split (⟨((2 : Nat) : Int), [(1 : ℚ), 2, 4]⟩ : ScalarBezCurve ℚ) (1 / 2)).2 0
      = Eval (⟨((2 : Nat) : Int), [(1 : ℚ), 2, 4]⟩ : ScalarBezCurve ℚ) (1 / 2) ∧
    (Split (⟨((2 : Nat) : Int), [(1 : ℚ), 2, 4]⟩ : ScalarBezCurve ℚ) (1 / 2)).1.fWeights.getD 2 0
      = Eval (⟨((2 : Nat) : Int), [(1 : ℚ), 2, 4]⟩ : ScalarBezCurve ℚ) (1 / 2) ∧
    (Split (⟨((2 : Nat) : Int), [(1 : ℚ), 2, 4]⟩ : ScalarBezCurve ℚ) (1 / 2)).2.fWeights.getD 0 0
      = Eval (⟨((2 : Nat) : Int), [(1 : ℚ), 2, 4]⟩ : ScalarBezCurve ℚ) (1 / 2)) :=
  ⟨by decide, Split_boundary_values 2 [(1 : ℚ), 2, 4] (1 / 2) (by decide)⟩

/-- C4, counterexample: elevating the constant curve with weights `[1, 1]` to
degree 63 changes its value at `t = 1`.  The last elevated weight is
`choose(1,1) * choose(62,62) / choose(63,63)`, where the `uint64_t` loop of
`choose(63, 63)` ends at `0`; the weight before it is `63 / 10` instead of `1`. -/
theorem ElevateDegree_not_exact_at_63 :
    choose 63 63 = 0 ∧
    ∃ E, ElevateDegree (⟨1, [1, 1]⟩ : ScalarBezCurve ℚ) 63 = some E ∧
      E.fWeights.getD 62 0 = 63 / 10 ∧
      Eval E 1 ≠ Eval (⟨1, [1, 1]⟩ : ScalarBezCurve ℚ) 1 := by
  have hch : choose 63 63 = 0 := choose_63_63
  refine ⟨hch, ?_⟩
  obtain ⟨E, hE, hd, hl, hv⟩ :=
    ElevateDegree_spec (⟨1, [1, 1]⟩ : ScalarBezCurve ℚ) 63 (by decide) (by decide)
  refine ⟨E, hE, elevate_63_weight_62 E hE, ?_⟩
  intro hval
  have hIn : InBounds E := ⟨by rw [hd]; decide, by rw [hd, hl]; decide⟩
  rw [Eval_one E hIn, hd, show (63 : Int).toNat = 63 from rfl, hv 63 (by decide)] at hval
  have hpt : Eval (⟨1, [1, 1]⟩ : ScalarBezCurve ℚ) 1 = 1 := by
    rw [Eval_one _ (by decide)]
    rfl
  rw [hpt] at hval
  have hI : Finset.Ico (63 - ((63 : Int) - (⟨1, [1, 1]⟩ : ScalarBezCurve ℚ).fDegree).toNat)
      (min (⟨1, [1, 1]⟩ : ScalarBezCurve ℚ).fDegree.toNat 63 + 1) = {1} := by decide
  rw [hI, Finset.sum_singleton] at hval
  have hb : (blend (⟨1, [1, 1]⟩ : ScalarBezCurve ℚ).fDegree.toNat 1
      ((63 : Int) - (⟨1, [1, 1]⟩ : ScalarBezCurve ℚ).fDegree).toNat (63 - 1) 63 : ℚ) = 0 := by
    have e1 : (⟨1, [1, 1]⟩ : ScalarBezCurve ℚ).fDegree.toNat = 1 := by decide
    have e2 : ((63 : Int) - (⟨1, [1, 1]⟩ : ScalarBezCurve ℚ).fDegree).toNat = 62 := by decide
    rw [e1, e2]
    unfold blend
    rw [show (1 + 62 : Nat) = 63 from rfl, hch, Nat.cast_zero, div_zero]
  rw [hb, mul_zero] at hval
  exact zero_ne_one hval

/-- C4, amended to degrees without overflow: for a curve of degree `n` and
`n ≤ newDegree ≤ 62`, both `ElevateDegree` and the method `elevateDegree` succeed
with a curve of degree `newDegree` that has the same value at every `t`. -/
theorem ElevateDegree_exact (n N : Nat) (ws : List K) (t : K) (h : n + 1 ≤ ws.length)
    (hN : n ≤ N) (h62 : N ≤ 62) :
    (∃ E, ElevateDegree (⟨(n : Int), ws⟩ : ScalarBezCurve K) (N : Int) = some E ∧
      E.fDegree = (N : Int) ∧ Eval E t = Eval (⟨(n : Int), ws⟩ : ScalarBezCurve K) t) ∧
    (∃ E, elevateDegree (⟨(n : Int), ws⟩ : ScalarBezCurve K) (N : Int) = some E ∧
      E.fDegree = (N : Int) ∧ Eval E t = Eval (⟨(n : Int), ws⟩ : ScalarBezCurve K) t) := by
  have hIn := inBounds_mk n ws h
  by_cases hEq : N = n
  · subst hEq
    constructor
    · refine ⟨_, ?_, rfl, rfl⟩
      rw [ElevateDegree,
        if_neg (show ¬ ((N : Int) < (⟨(N : Int), ws⟩ : ScalarBezCurve K).degree) from lt_irrefl _),
        if_pos (show (N : Int) = (⟨(N : Int), ws⟩ : ScalarBezCurve K).degree from rfl)]
    · refine ⟨_, ?_, rfl, rfl⟩
      rw [elevateDegree,
        if_pos (show (N : Int) = (⟨(N : Int), ws⟩ : ScalarBezCurve K).fDegree from rfl)]
  · have hlt : (⟨(n : Int), ws⟩ : ScalarBezCurve K).fDegree < (N : Int) := by
      show (n : Int) < (N : Int)
      omega
    obtain ⟨E, hE, hd, hB, hv⟩ := ElevateDegree_eval_aux _ (N : Int) t hIn hlt (by omega)
    constructor
    · exact ⟨E, hE, hd, hv⟩
    · refine ⟨⟨(N : Int), E.fWeights⟩, ?_, rfl, ?_⟩
      · rw [elevateDegree,
          if_neg (show ¬ ((N : Int) = (⟨(n : Int), ws⟩ : ScalarBezCurve K).fDegree) from by
            show ¬ ((N : Int) = (n : Int))
            omega), hE]
        rfl
      · rw [← hv, ← hd]

/-- Instance of the amended C4: the weights `[1, 2, 4]` elevated to degree 4, at `t = 1/3`. -/
theorem ElevateDegree_exact_witness :
    (2 + 1 ≤ [(1 : ℚ), 2, 4].length) ∧ 2 ≤ 4 ∧ 4 ≤ 62 ∧
    ((∃ E, ElevateDegree (⟨((2 : Nat) : Int), [(1 : ℚ), 2, 4]⟩ : ScalarBezCurve ℚ) ((4 : Nat) : Int)
        = some E ∧ E.fDegree = ((4 : Nat) : Int) ∧
        Eval E (1 / 3) = Eval (⟨((2 : Nat) : Int), [(1 : ℚ), 2, 4]⟩ : ScalarBezCurve ℚ) (1 / 3)) ∧
     (∃ E, elevateDegree (⟨((2 : Nat) : Int), [(1 : ℚ), 2, 4]⟩ : ScalarBezCurve ℚ) ((4 : Nat) : Int)
        = some E ∧ E.fDegree = ((4 : Nat) : Int) ∧
        Eval E (1 / 3) = Eval (⟨((2 : Nat) : Int), [(1 : ℚ), 2, 4]⟩ : ScalarBezCurve ℚ) (1 / 3))) :=
  ⟨by decide, by decide, by decide,
    ElevateDegree_exact 2 4 [(1 : ℚ), 2, 4] (1 / 3) (by decide) (by decide) (by decide)⟩

/-- C5, the code at a failing input: for `a = ScalarBezCurve(0, {2})` and
`b = ScalarBezCurve(1, {1, 1})` (the constant curves `2` and `1`), `Mul(a, b)`
has the weights `[2, 0]`, so its value at `t = 1` is `0`, while the product of
the two values is `2`. -/
theorem Mul_unequal_degrees_value :
    (ScalarBezCurve.Mul (mkWeights 0 [(2 : ℚ)]) (mkWeights 1 [(1 : ℚ), 1])).fDegree = 1 ∧
    (ScalarBezCurve.Mul (mkWeights 0 [(2 : ℚ)]) (mkWeights 1 [(1 : ℚ), 1])).fWeights = [2, 0] ∧
    Eval (ScalarBezCurve.Mul (mkWeights 0 [(2 : ℚ)]) (mkWeights 1 [(1 : ℚ), 1])) 1 = 0 ∧
    Eval (mkWeights 0 [(2 : ℚ)]) 1 * Eval (mkWeights 1 [(1 : ℚ), 1]) 1 = 2 := by
  have hw : (ScalarBezCurve.Mul (mkWeights 0 [(2 : ℚ)]) (mkWeights 1 [(1 : ℚ), 1])).fWeights
      = [2, 0] := by
    simp [ScalarBezCurve.Mul, mkWeights, mkDegree, degree, blend, choose, u64, List.range',
      List.range, List.range.loop]
  have hd : (ScalarBezCurve.Mul (mkWeights 0 [(2 : ℚ)]) (mkWeights 1 [(1 : ℚ), 1])).fDegree = 1 :=
    rfl
  refine ⟨hd, hw, ?_, ?_⟩
  · rw [Eval_one _ ⟨by rw [hd]; decide, by rw [hd, hw]; decide⟩, hd, hw]
    rfl
  · rw [Eval_one _ (by decide), Eval_one _ (by decide)]
    simp [mkWeights, mkDegree, seqOf]

/-- C6, counterexample: for `a = b` the constant curve `1` of degree 32 (33
weights `1`), the value of `Mul(a, b)` at `t = 1` is not `a(1) * b(1)`.  The
last weight is `choose(32,32) * choose(32,32) / choose(64,64)`, where the
`uint64_t` loop of `choose(64, 64)` ends at `0`; the weight before it is `16 / 3`
instead of `1`. -/
theorem Mul_degree_32_not_product :
    choose 64 64 = 0 ∧
    (ScalarBezCurve.Mul (⟨32, List.replicate 33 1⟩ : ScalarBezCurve ℚ)
        (⟨32, List.replicate 33 1⟩ : ScalarBezCurve ℚ)).fWeights.getD 63 0 = 16 / 3 ∧
    ¬ (Eval (ScalarBezCurve.Mul (⟨32, List.replicate 33 1⟩ : ScalarBezCurve ℚ)
          (⟨32, List.replicate 33 1⟩ : ScalarBezCurve ℚ)) 1
        = Eval (⟨32, List.replicate 33 1⟩ : ScalarBezCurve ℚ) 1
          * Eval (⟨32, List.replicate 33 1⟩ : ScalarBezCurve ℚ) 1) := by
  refine ⟨choose_64_64, mul_32_weight_63, ?_⟩
  obtain ⟨hd, hl, hv⟩ := Mul_spec (⟨32, List.replicate 33 1⟩ : ScalarBezCurve ℚ)
    (⟨32, List.replicate 33 1⟩ : ScalarBezCurve ℚ) (by decide) (by decide)
  have hIn : InBounds (ScalarBezCurve.Mul (⟨32, List.replicate 33 1⟩ : ScalarBezCurve ℚ)
      (⟨32, List.replicate 33 1⟩ : ScalarBezCurve ℚ)) :=
    ⟨by rw [hd]; decide, by rw [hd, hl]; decide⟩
  have hIn1 : InBounds (⟨32, List.replicate 33 1⟩ : ScalarBezCurve ℚ) :=
    ⟨by decide, by simp⟩
  rw [Eval_one _ hIn, Eval_one _ hIn1, hd]
  have e32 : (⟨32, List.replicate 33 1⟩ : ScalarBezCurve ℚ).fDegree.toNat = 32 := rfl
  have e64 : ((⟨32, List.replicate 33 1⟩ : ScalarBezCurve ℚ).fDegree
      + (⟨32, List.replicate 33 1⟩ : ScalarBezCurve ℚ).fDegree).toNat = 64 := rfl
  rw [e64, hv 64 (by rw [e32]), e32]
  have hI : Finset.Ico (64 - 32) (min 64 32 + 1) = {32} := by decide
  rw [hI, Finset.sum_singleton]
  have hb : (blend 32 32 32 (64 - 32) 64 : ℚ) = 0 := by
    unfold blend
    rw [show (32 + 32 : Nat) = 64 from rfl, choose_64_64, Nat.cast_zero, div_zero]
  have h1 : seqOf (⟨32, List.replicate 33 1⟩ : ScalarBezCurve ℚ).fWeights 32 = 1 := by
    simp [seqOf, List.getD_eq_getElem?_getD, List.getElem?_replicate]
  rw [hb, mul_zero, h1]
  norm_num

/-- C6, amended to degrees without overflow: for curves `a`, `b` of the same
degree `n` with `2 * n ≤ 62`, `Mul(a, b)` has degree `2 * n` and its value at
every `t` is `a(t) * b(t)`. -/
theorem Mul_same_degree (n : Nat) (wa wb : List K) (t : K) (ha : n + 1 ≤ wa.length)
    (hb : n + 1 ≤ wb.length) (h62 : 2 * n ≤ 62) :
    (ScalarBezCurve.Mul (⟨(n : Int), wa⟩ : ScalarBezCurve K) ⟨(n : Int), wb⟩).fDegree
      = ((2 * n : Nat) : Int) ∧
    Eval (ScalarBezCurve.Mul (⟨(n : Int), wa⟩ : ScalarBezCurve K) ⟨(n : Int), wb⟩) t
      = Eval (⟨(n : Int), wa⟩ : ScalarBezCurve K) t * Eval (⟨(n : Int), wb⟩ : ScalarBezCurve K) t := by
  have hA := inBounds_mk n wa ha
  have hB := inBounds_mk n wb hb
  constructor
  · show (n : Int) + (n : Int) = ((2 * n : Nat) : Int)
    omega
  · rw [Mul_eval_aux _ _ t hA.1 hB.1 (by show (n : Int) + (n : Int) ≤ 62; omega),
      Eval_eq_bernstein _ t hA, Eval_eq_bernstein _ t hB]

/-- Instance of the amended C6: the constant curves `[2]` and `[3]` of degree 0. -/
theorem Mul_same_degree_witness :
    (0 + 1 ≤ [(2 : ℚ)].length) ∧ (0 + 1 ≤ [(3 : ℚ)].length) ∧ 2 * 0 ≤ 62 ∧
    ((ScalarBezCurve.Mul (⟨((0 : Nat) : Int), [(2 : ℚ)]⟩ : ScalarBezCurve ℚ)
        ⟨((0 : Nat) : Int), [(3 : ℚ)]⟩).fDegree = ((2 * 0 : Nat) : Int) ∧
     Eval (ScalarBezCurve.Mul (⟨((0 : Nat) : Int), [(2 : ℚ)]⟩ : ScalarBezCurve ℚ)
        ⟨((0 : Nat) : Int), [(3 : ℚ)]⟩) (1 / 2)
      = Eval (⟨((0 : Nat) : Int), [(2 : ℚ)]⟩ : ScalarBezCurve ℚ) (1 / 2)
        * Eval (⟨((0 : Nat) : Int), [(3 : ℚ)]⟩ : ScalarBezCurve ℚ) (1 / 2)) :=
  ⟨by decide, by decide, by decide,
    Mul_same_degree 0 [(2 : ℚ)] [(3 : ℚ)] (1 / 2) (by decide) (by decide) (by decide)⟩

/-- The tested case of `Mul`: the constant curves `[2]` and `[3]` of degree 0
give the curve of degree 0 with the single weight `6`. -/
theorem Mul_two_three :
    ScalarBezCurve.Mul (⟨0, [(2 : ℚ)]⟩ : ScalarBezCurve ℚ) ⟨0, [(3 : ℚ)]⟩ = ⟨0, [6]⟩ := by
  simp [ScalarBezCurve.Mul, mkDegree, degree, blend, choose, u64, List.range',
    List.range, List.range.loop]
  norm_num

/-- C7: for curves `a`, `b` of the same degree `n`, `AddSquares(a, b)` has the
degree `2 * n` of `Mul(a, a)` and `Mul(b, b)`, and for every `k ≤ 2 * n` its weight
`k` is the sum of weight `k` of `Mul(a, a)` and weight `k` of `Mul(b, b)`. -/
theorem AddSquares_eq_Mul_add_Mul (n : Nat) (wa wb : List K) (k : Nat) (_ha : n + 1 ≤ wa.length)
    (_hb : n + 1 ≤ wb.length) (hk : k ≤ 2 * n) :
    (AddSquares (⟨(n : Int), wa⟩ : ScalarBezCurve K) ⟨(n : Int), wb⟩).fDegree
      = (ScalarBezCurve.Mul (⟨(n : Int), wa⟩ : ScalarBezCurve K) ⟨(n : Int), wa⟩).fDegree ∧
    (AddSquares (⟨(n : Int), wa⟩ : ScalarBezCurve K) ⟨(n : Int), wb⟩).fDegree
      = (ScalarBezCurve.Mul (⟨(n : Int), wb⟩ : ScalarBezCurve K) ⟨(n : Int), wb⟩).fDegree ∧
    (AddSquares (⟨(n : Int), wa⟩ : ScalarBezCurve K) ⟨(n : Int), wb⟩).fWeights.getD k 0
      = (ScalarBezCurve.Mul (⟨(n : Int), wa⟩ : ScalarBezCurve K) ⟨(n : Int), wa⟩).fWeights.getD k 0
        + (ScalarBezCurve.Mul (⟨(n : Int), wb⟩ : ScalarBezCurve K)
            ⟨(n : Int), wb⟩).fWeights.getD k 0 := by
  have h0 : (0 : Int) ≤ (n : Int) := Int.natCast_nonneg n
  obtain ⟨_, _, hS⟩ := AddSquares_spec (⟨(n : Int), wa⟩ : ScalarBezCurve K) ⟨(n : Int), wb⟩ h0 h0
  obtain ⟨_, _, hA⟩ := Mul_spec (⟨(n : Int), wa⟩ : ScalarBezCurve K) ⟨(n : Int), wa⟩ h0 h0
  obtain ⟨_, _, hB⟩ := Mul_spec (⟨(n : Int), wb⟩ : ScalarBezCurve K) ⟨(n : Int), wb⟩ h0 h0
  have hk' : k ≤ ((n : Int)).toNat + ((n : Int)).toNat := by
    rw [Int.toNat_natCast]; omega
  refine ⟨rfl, rfl, ?_⟩
  have e1 := hS k hk'
  have e2 := hA k hk'
  have e3 := hB k hk'
  unfold seqOf at e1 e2 e3
  rw [e1, e2, e3]

/-- Instance of C7 for the degree-1 curves `[1, 3]` and `[2, -5]`, weight `k = 1`. -/
theorem AddSquares_eq_Mul_add_Mul_witness :
    (1 + 1 ≤ [(1 : ℚ), 3].length) ∧ (1 + 1 ≤ [(2 : ℚ), -5].length) ∧ 1 ≤ 2 * 1 ∧
    ((AddSquares (⟨((1 : Nat) : Int), [(1 : ℚ), 3]⟩ : ScalarBezCurve ℚ)
        ⟨((1 : Nat) : Int), [(2 : ℚ), -5]⟩).fDegree
      = (ScalarBezCurve.Mul (⟨((1 : Nat) : Int), [(1 : ℚ), 3]⟩ : ScalarBezCurve ℚ)
          ⟨((1 : Nat) : Int), [(1 : ℚ), 3]⟩).fDegree ∧
    (AddSquares (⟨((1 : Nat) : Int), [(1 : ℚ), 3]⟩ : ScalarBezCurve ℚ)
        ⟨((1 : Nat) : Int), [(2 : ℚ), -5]⟩).fDegree
      = (ScalarBezCurve.Mul (⟨((1 : Nat) : Int), [(2 : ℚ), -5]⟩ : ScalarBezCurve ℚ)
          ⟨((1 : Nat) : Int), [(2 : ℚ), -5]⟩).fDegree ∧
    (AddSquares (⟨((1 : Nat) : Int), [(1 : ℚ), 3]⟩ : ScalarBezCurve ℚ)
        ⟨((1 : Nat) : Int), [(2 : ℚ), -5]⟩).fWeights.getD 1 0
      = (ScalarBezCurve.Mul (⟨((1 : Nat) : Int), [(1 : ℚ), 3]⟩ : ScalarBezCurve ℚ)
          ⟨((1 : Nat) : Int), [(1 : ℚ), 3]⟩).fWeights.getD 1 0
        + (ScalarBezCurve.Mul (⟨((1 : Nat) : Int), [(2 : ℚ), -5]⟩ : ScalarBezCurve ℚ)
            ⟨((1 : Nat) : Int), [(2 : ℚ), -5]⟩).fWeights.getD 1 0) :=
  ⟨by decide, by decide, by decide,
    AddSquares_eq_Mul_add_Mul 1 [(1 : ℚ), 3] [(2 : ℚ), -5] 1 (by decide) (by decide) (by decide)⟩

/-- C8, the code at a failing input: for `a = ScalarBezCurve(0, {2})` and
`b = ScalarBezCurve(1, {1, 1})`, `AddSquares(a, b)` has the weights `[5, 1]`, so
its value at `t = 1` is `1`, while `a(1)^2 + b(1)^2 = 5`. -/
theorem AddSquares_unequal_degrees_value :
    (AddSquares (mkWeights 0 [(2 : ℚ)]) (mkWeights 1 [(1 : ℚ), 1])).fDegree = 1 ∧
    (AddSquares (mkWeights 0 [(2 : ℚ)]) (mkWeights 1 [(1 : ℚ), 1])).fWeights = [5, 1] ∧
    Eval (AddSquares (mkWeights 0 [(2 : ℚ)]) (mkWeights 1 [(1 : ℚ), 1])) 1 = 1 ∧
    Eval (mkWeights 0 [(2 : ℚ)]) 1 ^ 2 + Eval (mkWeights 1 [(1 : ℚ), 1]) 1 ^ 2 = 5 := by
  have hw : (AddSquares (mkWeights 0 [(2 : ℚ)]) (mkWeights 1 [(1 : ℚ), 1])).fWeights
      = [5, 1] := by
    simp [AddSquares, mkWeights, mkDegree, degree, blend, choose, u64, List.range',
      List.range, List.range.loop]
    norm_num
  have hd : (AddSquares (mkWeights 0 [(2 : ℚ)]) (mkWeights 1 [(1 : ℚ), 1])).fDegree = 1 := rfl
  refine ⟨hd, hw, ?_, ?_⟩
  · rw [Eval_one _ ⟨by rw [hd]; decide, by rw [hd, hw]; decide⟩, hd, hw]
    rfl
  · rw [Eval_one _ (by decide), Eval_one _ (by decide)]
    simp [mkWeights, mkDegree, seqOf]
    norm_num

/-- C9: convex-hull bound.  For a curve of degree `n` with weights `w_0 .. w_n`
and `0 ≤ t ≤ 1`, `|Eval(C, t)| ≤ |extremumWeight(C)|`. -/
theorem Eval_abs_le_extremumWeight (n : Nat) (ws : List K) (t : K) (h : n + 1 ≤ ws.length)
    (ht0 : 0 ≤ t) (ht1 : t ≤ 1) :
    |Eval (⟨(n : Int), ws⟩ : ScalarBezCurve K) t|
      ≤ |extremumWeight (⟨(n : Int), ws⟩ : ScalarBezCurve K)| := by
  have hne : (⟨(n : Int), ws⟩ : ScalarBezCurve K).fWeights ≠ [] := by
    intro h0
    have h0' : ws = [] := h0
    rw [h0'] at h
    simp at h
  obtain ⟨j, _, e, hmax, _⟩ := extremumWeight_aux _ hne
  rw [e, Eval_eq_dc _ _ (inBounds_mk n ws h), dc_zero_eq_bernstein]
  apply bernstein_abs_le _ _ _ _ ht0 ht1
  intro i hi
  have hi' : i ≤ ((n : Int)).toNat := hi
  rw [Int.toNat_natCast] at hi'
  exact hmax i (by show i < ws.length; omega)

/-- Instance of C9 for the weights `[1, -3, 2]` at `t = 1/3`. -/
theorem Eval_abs_le_extremumWeight_witness :
    (2 + 1 ≤ [(1 : ℚ), -3, 2].length) ∧ (0 : ℚ) ≤ 1 / 3 ∧ (1 / 3 : ℚ) ≤ 1 ∧
    |Eval (⟨((2 : Nat) : Int), [(1 : ℚ), -3, 2]⟩ : ScalarBezCurve ℚ) (1 / 3)|
      ≤ |extremumWeight (⟨((2 : Nat) : Int), [(1 : ℚ), -3, 2]⟩ : ScalarBezCurve ℚ)| :=
  ⟨by decide, by norm_num, by norm_num,
    Eval_abs_le_extremumWeight 2 [(1 : ℚ), -3, 2] (1 / 3) (by decide) (by norm_num) (by norm_num)⟩

/-- C10: for a curve with at least one weight, `extremumWeight` returns one of
the weights, `w_j` with its sign, where `|w_i| ≤ |w_j|` for every weight and
`|w_i| < |w_j|` for every `i < j` (the smallest index of maximal absolute value). -/
theorem extremumWeight_is_first_max (c : ScalarBezCurve K) (h : c.fWeights ≠ []) :
    ∃ j, j < c.fWeights.length ∧ extremumWeight c = c.fWeights.getD j 0 ∧
      (∀ i, i < c.fWeights.length → |c.fWeights.getD i 0| ≤ |c.fWeights.getD j 0|) ∧
      (∀ i, i < j → |c.fWeights.getD i 0| < |c.fWeights.getD j 0|) :=
  extremumWeight_aux c h

/-- Instance of C10 for the weights `[1, -3, 3]`. -/
theorem extremumWeight_is_first_max_witness :
    (⟨2, [(1 : ℚ), -3, 3]⟩ : ScalarBezCurve ℚ).fWeights ≠ [] ∧
    ∃ j, j < (⟨2, [(1 : ℚ), -3, 3]⟩ : ScalarBezCurve ℚ).fWeights.length ∧
      extremumWeight (⟨2, [(1 : ℚ), -3, 3]⟩ : ScalarBezCurve ℚ)
        = (⟨2, [(1 : ℚ), -3, 3]⟩ : ScalarBezCurve ℚ).fWeights.getD j 0 ∧
      (∀ i, i < (⟨2, [(1 : ℚ), -3, 3]⟩ : ScalarBezCurve ℚ).fWeights.length →
        |(⟨2, [(1 : ℚ), -3, 3]⟩ : ScalarBezCurve ℚ).fWeights.getD i 0|
          ≤ |(⟨2, [(1 : ℚ), -3, 3]⟩ : ScalarBezCurve ℚ).fWeights.getD j 0|) ∧
      (∀ i, i < j → |(⟨2, [(1 : ℚ), -3, 3]⟩ : ScalarBezCurve ℚ).fWeights.getD i 0|
          < |(⟨2, [(1 : ℚ), -3, 3]⟩ : ScalarBezCurve ℚ).fWeights.getD j 0|) :=
  ⟨by simp, extremumWeight_is_first_max (⟨2, [(1 : ℚ), -3, 3]⟩ : ScalarBezCurve ℚ) (by simp)⟩

/-! ## The zero set, the constructors, subtraction and the failure of elevation -/

/-- One level of the search along the left edge: when the curve `[u0, u1]` is
not flat, `u0 < 0 ≤ u1`, the interval is not nearly empty and the right half
`[m, u1]` is neither flat nor of mixed sign, the search continues in the left
half alone. -/
theorem ZeroSetRec_left_step (f : Nat) (u0 u1 a b tol : K) (acc : List K)
    (h : ¬ |u1 - u0| ≤ tol) (h0 : u0 < 0) (h1 : 0 ≤ u1) (hw : ¬ |b - a| ≤ 1 / 4096)
    (hr : ¬ |u1 - (u0 * (1 - 1 / 2) + u1 * (1 / 2))| ≤ tol)
    (hm : 0 ≤ u0 * (1 - 1 / 2) + u1 * (1 / 2)) :
    ZeroSetRec (f + 1 + 1) (⟨1, [u0, u1]⟩ : ScalarBezCurve K) a b tol acc
      = ZeroSetRec (f + 1) (⟨1, [u0, u0 * (1 - 1 / 2) + u1 * (1 / 2)]⟩ : ScalarBezCurve K)
          a ((a + b) * (1 / 2)) tol acc := by
  rw [ZeroSetRec_split (f + 1) u0 u1 a b tol acc [] h h0 h1 hw]
  have hfun : (fun r => ZeroSetRec (f + 1)
      (⟨1, [u0 * (1 - 1 / 2) + u1 * (1 / 2), u1]⟩ : ScalarBezCurve K)
      ((a + b) * (1 / 2)) b tol r) = some :=
    funext (fun r => ZeroSetRec_pruned f _ _ _ _ tol r [] hr (Or.inl ⟨hm, h1⟩))
  rw [hfun, Option.bind_some]

/-- The search on the curve `[-1/8192, 2047/8192]`, whose zero is `1/2048`: the
left edge is followed down to the interval `[0, 1/128]`, whose two halves are
both flat (`lenP = 1/1024 <= kTol`) and push their midpoints. -/
theorem ZeroSetRec_quarter (fuel : Nat) :
    ZeroSetRec (fuel + 9) (⟨1, [(-1 / 8192 : ℚ), 2047 / 8192]⟩ : ScalarBezCurve ℚ) 0 1 kTol []
      = some [1 / 512, 3 / 512] := by
  rw [show fuel + 9 = fuel + 7 + 1 + 1 by omega,
    ZeroSetRec_left_step _ _ _ _ _ _ _ (by rw [not_le, lt_abs]; left; norm_num [kTol]) (by norm_num) (by norm_num)
      (by rw [not_le, lt_abs]; left; norm_num [kTol]) (by rw [not_le, lt_abs]; left; norm_num [kTol]) (by norm_num)]
  rw [show fuel + 7 + 1 = fuel + 6 + 1 + 1 by omega,
    ZeroSetRec_left_step _ _ _ _ _ _ _ (by rw [not_le, lt_abs]; left; norm_num [kTol]) (by norm_num) (by norm_num)
      (by rw [not_le, lt_abs]; left; norm_num [kTol]) (by rw [not_le, lt_abs]; left; norm_num [kTol]) (by norm_num)]
  rw [show fuel + 6 + 1 = fuel + 5 + 1 + 1 by omega,
    ZeroSetRec_left_step _ _ _ _ _ _ _ (by rw [not_le, lt_abs]; left; norm_num [kTol]) (by norm_num) (by norm_num)
      (by rw [not_le, lt_abs]; left; norm_num [kTol]) (by rw [not_le, lt_abs]; left; norm_num [kTol]) (by norm_num)]
  rw [show fuel + 5 + 1 = fuel + 4 + 1 + 1 by omega,
    ZeroSetRec_left_step _ _ _ _ _ _ _ (by rw [not_le, lt_abs]; left; norm_num [kTol]) (by norm_num) (by norm_num)
      (by rw [not_le, lt_abs]; left; norm_num [kTol]) (by rw [not_le, lt_abs]; left; norm_num [kTol]) (by norm_num)]
  rw [show fuel + 4 + 1 = fuel + 3 + 1 + 1 by omega,
    ZeroSetRec_left_step _ _ _ _ _ _ _ (by rw [not_le, lt_abs]; left; norm_num [kTol]) (by norm_num) (by norm_num)
      (by rw [not_le, lt_abs]; left; norm_num [kTol]) (by rw [not_le, lt_abs]; left; norm_num [kTol]) (by norm_num)]
  rw [show fuel + 3 + 1 = fuel + 2 + 1 + 1 by omega,
    ZeroSetRec_left_step _ _ _ _ _ _ _ (by rw [not_le, lt_abs]; left; norm_num [kTol]) (by norm_num) (by norm_num)
      (by rw [not_le, lt_abs]; left; norm_num [kTol]) (by rw [not_le, lt_abs]; left; norm_num [kTol]) (by norm_num)]
  rw [show fuel + 2 + 1 = fuel + 1 + 1 + 1 by omega,
    ZeroSetRec_left_step _ _ _ _ _ _ _ (by rw [not_le, lt_abs]; left; norm_num [kTol]) (by norm_num) (by norm_num)
      (by rw [not_le, lt_abs]; left; norm_num [kTol]) (by rw [not_le, lt_abs]; left; norm_num [kTol]) (by norm_num)]
  rw [ZeroSetRec_split _ _ _ _ _ _ _ [] (by rw [not_le, lt_abs]; left; norm_num [kTol]) (by norm_num) (by norm_num) (by rw [not_le, lt_abs]; left; norm_num [kTol])]
  rw [ZeroSetRec_flat _ _ _ _ _ _ _ [] (by rw [abs_le]; constructor <;> norm_num [kTol]),
    Option.some_bind,
    ZeroSetRec_flat _ _ _ _ _ _ _ [] (by rw [abs_le]; constructor <;> norm_num [kTol])]
  norm_num

/-- C11, the code at a failing input: the curve `ScalarBezCurve(2, {1, 1, 1})`
has strictly positive weights and never crosses zero, and `ZeroSet` returns the
list `[1/2]`: the flatness test `lenP <= tol` comes before the sign test. -/
theorem ZeroSet_flat_positive_value (fuel : Nat) :
    ZeroSet (fuel + 1) (mkWeights 2 [(1 : ℚ), 1, 1]) = some [1 / 2] := by
  simp [ZeroSet, kTol, ZeroSetRec, zeroSetScan, mkWeights, mkDegree, List.range']
  norm_num

/-- The tested case of C11: the weights `[1, 2, 3]` give the empty list. -/
theorem ZeroSet_one_two_three (fuel : Nat) :
    ZeroSet (fuel + 1) (mkWeights 2 [(1 : ℚ), 2, 3]) = some [] := by
  apply ZeroSetRec_nonneg_steep
  · intro i hi
    have hi' : i ≤ 2 := hi
    interval_cases i <;> simp [mkWeights, mkDegree]
  · simp [mkWeights, mkDegree, Finset.sum_range_succ, kTol]
    norm_num

/-- C12, the code at the input of the claim: for `ScalarBezCurve(1, {-1, 1})`
`ZeroSet` returns two values, `2045/4096` and `2047/4096`.  The first one is the
midpoint of `[1022/2048, 1023/2048]`, where both weights are negative. -/
theorem ZeroSet_minus_one_one_value (fuel : Nat) :
    ZeroSet (fuel + 12) (mkWeights 1 [(-1 : ℚ), 1]) = some [2045 / 4096, 2047 / 4096] := by
  have h0 : ZeroSet (fuel + 12) (mkWeights 1 [(-1 : ℚ), 1])
      = ZeroSetRec (fuel + 11 + 1) (⟨1, (-1 : ℚ) :: 1 :: [0, 0]⟩ : ScalarBezCurve ℚ)
          0 1 kTol [] := rfl
  rw [h0, ZeroSetRec_split _ _ _ _ _ _ _ _ (by norm_num [kTol]) (by norm_num) (by norm_num)
    (by norm_num)]
  rw [ZeroSetRec_right_edge (kTol : ℚ) (by norm_num [kTol]) 9 (-1) _ _ _ [] [] (fuel + 11)
    (by norm_num) (by norm_num) (by norm_num [kTol]) (by norm_num [kTol]) (by norm_num)
    (by omega)]
  rw [Option.some_bind, show fuel + 11 = fuel + 10 + 1 by omega,
    ZeroSetRec_pruned _ _ _ _ _ _ _ _ (by norm_num [kTol]) (Or.inl ⟨by norm_num, by norm_num⟩)]
  norm_num

/-- C13, counterexamples, all four with binary32 weights.  The curves `[-4, 4]`
and `[-33/16, 33/16]` (`w1 - w0 = 4.125`) cross zero at `1/2` and `ZeroSet`
returns no value at all, whatever the depth allowed (the interval is nearly
empty before the control polygon is flat); the curve `[-1/16384, 9/16384]`
crosses zero at `1/10` and `ZeroSet` returns the single value `1/2`; the curve
`[-1/8192, 2047/8192]` (`w1 - w0 = 1/4`) crosses zero at `1/2048` and `ZeroSet`
returns `1/512` and `3/512`, the midpoints of two intervals of width `1/256`. -/
theorem ZeroSet_misses_zero :
    (¬ ∃ fuel l, ZeroSet fuel (⟨1, [(-4 : ℚ), 4]⟩ : ScalarBezCurve ℚ) = some l ∧
        ∃ t ∈ l, |t - (-4) / (-4 - 4)| ≤ 1 / 1000) ∧
    (¬ ∃ fuel l, ZeroSet fuel (⟨1, [(-33 / 16 : ℚ), 33 / 16]⟩ : ScalarBezCurve ℚ) = some l ∧
        ∃ t ∈ l, |t - (-33 / 16) / (-33 / 16 - 33 / 16)| ≤ 1 / 1000) ∧
    (¬ ∃ fuel l, ZeroSet fuel (⟨1, [(-1 / 16384 : ℚ), 9 / 16384]⟩ : ScalarBezCurve ℚ) = some l ∧
        ∃ t ∈ l, |t - (-1 / 16384) / (-1 / 16384 - 9 / 16384)| ≤ 1 / 1000) ∧
    (¬ ∃ fuel l, ZeroSet fuel (⟨1, [(-1 / 8192 : ℚ), 2047 / 8192]⟩ : ScalarBezCurve ℚ) = some l ∧
        ∃ t ∈ l, |t - (-1 / 8192) / (-1 / 8192 - 2047 / 8192)| ≤ 1 / 1000) := by
  refine ⟨?_, ?_, ?_, ?_⟩
  · rintro ⟨fuel, l, hl, t, ht, _⟩
    have h13 := ZeroSetRec_mono_le _ _ _ _ _ _ fuel (fuel + 13) (by omega) hl
    rw [ZeroSetRec_steep (kTol : ℚ) (by norm_num [kTol]) 12 (-4) 4 0 1 [] [] (fuel + 13)
      (by norm_num [kTol]) (by norm_num) (by omega)] at h13
    rw [← Option.some.inj h13] at ht
    exact absurd ht (List.not_mem_nil t)
  · rintro ⟨fuel, l, hl, t, ht, _⟩
    have h13 := ZeroSetRec_mono_le _ _ _ _ _ _ fuel (fuel + 13) (by omega) hl
    rw [ZeroSetRec_steep (kTol : ℚ) (by norm_num [kTol]) 12 (-33 / 16) (33 / 16) 0 1 [] []
      (fuel + 13) (by rw [lt_abs]; left; norm_num [kTol]) (by norm_num) (by omega)] at h13
    rw [← Option.some.inj h13] at ht
    exact absurd ht (List.not_mem_nil t)
  · rintro ⟨fuel, l, hl, t, ht, hd⟩
    have h1 := ZeroSetRec_mono_le _ _ _ _ _ _ fuel (fuel + 1) (by omega) hl
    rw [ZeroSetRec_flat _ _ _ _ _ _ _ _
      (by rw [abs_le]; constructor <;> norm_num [kTol])] at h1
    rw [← Option.some.inj h1] at ht
    simp only [List.nil_append, List.mem_singleton] at ht
    rw [ht, abs_le] at hd
    norm_num at hd
  · rintro ⟨fuel, l, hl, t, ht, hd⟩
    have h9 := ZeroSetRec_mono_le _ _ _ _ _ _ fuel (fuel + 9) (by omega) hl
    rw [ZeroSetRec_quarter fuel] at h9
    rw [← Option.some.inj h9] at ht
    simp only [List.mem_cons, List.mem_singleton, List.not_mem_nil, or_false] at ht
    rcases ht with ht | ht
    · rw [ht, abs_le] at hd
      norm_num at hd
    · rw [ht, abs_le] at hd
      norm_num at hd

/-- The search on a curve of degree 1 in exact arithmetic: for weights
`w0 < 0 < w1` with `256 * kTol < w1 - w0 ≤ 4096 * kTol`, `ZeroSet` (with depth 13
or more) returns a list that contains a value within `1/1024` of the zero
`w0 / (w0 - w1)` of the curve. -/
theorem ZeroSet_degree_one_sharp (w0 w1 : K) (fuel : Nat) (h0 : w0 < 0) (h1 : 0 < w1)
    (hlo : 256 * kTol < w1 - w0) (hhi : w1 - w0 ≤ 4096 * kTol) (hf : 13 ≤ fuel) :
    ∃ l, ZeroSet fuel (⟨1, [w0, w1]⟩ : ScalarBezCurve K) = some l ∧
      ∃ t ∈ l, |t - w0 / (w0 - w1)| ≤ 1 / 1024 := by
  have hV : 0 < w1 - w0 := by linarith only [h0, h1]
  have hz : (0 : K) + (1 - 0) * (-w0) / (w1 - w0) = w0 / (w0 - w1) := by
    rw [zero_add, sub_zero, one_mul, ← neg_sub w1 w0, div_neg, neg_div]
  have hpos : (0 : K) < kTol := by norm_num [kTol]
  have key : ∀ k : Nat, 8 ≤ k → k ≤ 11 → (kTol : K) * 2 ^ k < w1 - w0 →
      w1 - w0 ≤ kTol * 2 ^ (k + 1) →
      ∃ l, ZeroSet fuel (⟨1, [w0, w1]⟩ : ScalarBezCurve K) = some l ∧
        ∃ t ∈ l, |t - w0 / (w0 - w1)| ≤ 1 / 1024 := by
    intro k hk8 hk11 ha hb
    have hw : (1 : K) / 4096 * 2 ^ k < 1 - 0 := by
      interval_cases k <;> norm_num
    obtain ⟨l, hl, t, ht, hd⟩ := ZeroSetRec_descent (kTol : K) hpos k w0 w1 0 1
      [] [] fuel h0 (le_of_lt h1) ha hb hw (by omega)
    refine ⟨l, by rw [ZeroSet, hl, List.nil_append], t, ht, ?_⟩
    rw [hz] at hd
    refine le_trans hd ?_
    interval_cases k <;> norm_num
  by_cases c1 : w1 - w0 ≤ 512 * kTol
  · exact key 8 (by norm_num) (by norm_num) (by norm_num; linarith only [hlo])
      (by norm_num; linarith only [c1])
  · by_cases c2 : w1 - w0 ≤ 1024 * kTol
    · exact key 9 (by norm_num) (by norm_num) (by norm_num; linarith only [c1])
        (by norm_num; linarith only [c2])
    · by_cases c3 : w1 - w0 ≤ 2048 * kTol
      · exact key 10 (by norm_num) (by norm_num) (by norm_num; linarith only [c2])
          (by norm_num; linarith only [c3])
      · exact key 11 (by norm_num) (by norm_num) (by norm_num; linarith only [c3])
          (by norm_num; linarith only [hhi])

/-- C13, amended to the slopes the search can resolve: for a curve of degree 1
with weights `w0 < 0 < w1` and `0.2561 ≤ w1 - w0 ≤ 4.095`, `ZeroSet` (with depth
13 or more) returns a list that contains a value within `0.001` of the zero
`w0 / (w0 - w1)` of the curve.  The two bounds lie inside the range
`256 * kTol < w1 - w0 ≤ 4096 * kTol` of the search. -/
theorem ZeroSet_degree_one_near_zero (w0 w1 : K) (fuel : Nat) (h0 : w0 < 0) (h1 : 0 < w1)
    (hlo : 2561 / 10000 ≤ w1 - w0) (hhi : w1 - w0 ≤ 4095 / 1000) (hf : 13 ≤ fuel) :
    ∃ l, ZeroSet fuel (⟨1, [w0, w1]⟩ : ScalarBezCurve K) = some l ∧
      ∃ t ∈ l, |t - w0 / (w0 - w1)| ≤ 1 / 1000 := by
  obtain ⟨l, hl, t, ht, hd⟩ := ZeroSet_degree_one_sharp w0 w1 fuel h0 h1
    (lt_of_lt_of_le (by norm_num [kTol]) hlo) (le_trans hhi (by norm_num [kTol])) hf
  exact ⟨l, hl, t, ht, le_trans hd (by norm_num)⟩

/-- Instance of the amended C13 for the weights `[-1, 1/2]` with depth 13. -/
theorem ZeroSet_degree_one_near_zero_witness :
    (-1 : ℚ) < 0 ∧ (0 : ℚ) < 1 / 2 ∧ (2561 / 10000 : ℚ) ≤ 1 / 2 - (-1) ∧
    (1 / 2 - (-1) : ℚ) ≤ 4095 / 1000 ∧ 13 ≤ 13 ∧
    ∃ l, ZeroSet 13 (⟨1, [(-1 : ℚ), 1 / 2]⟩ : ScalarBezCurve ℚ) = some l ∧
      ∃ t ∈ l, |t - (-1 : ℚ) / (-1 - 1 / 2)| ≤ 1 / 1000 :=
  ⟨by norm_num, by norm_num, by norm_num, by norm_num, le_rfl,
    ZeroSet_degree_one_near_zero (-1 : ℚ) (1 / 2) 13 (by norm_num) (by norm_num) (by norm_num)
      (by norm_num) le_rfl⟩

/-- C14: over unbounded integers the loop of `choose(n, k)` returns the binomial
coefficient for every `k ≤ n`, and every division `result /= i` of the loop is
exact: `i` divides `result * (n + 1 - i)`. -/
theorem chooseExact_is_binomial (n k : Nat) (h : k ≤ n) :
    chooseExact n k = n.choose k ∧
    ∀ i, 1 ≤ i → i ≤ k → i ∣ chooseExact n (i - 1) * (n + 1 - i) := by
  refine ⟨chooseExact_eq_binom n k h, fun i h1 hi => ?_⟩
  obtain ⟨j, rfl⟩ : ∃ j, i = j + 1 := ⟨i - 1, by omega⟩
  rw [Nat.add_sub_cancel, chooseExact_eq_binom n j (by omega),
    show n + 1 - (j + 1) = n - j by omega, ← Nat.choose_succ_right_eq]
  exact Dvd.intro_left _ rfl

/-- Instance of C14 for `choose(5, 2)`. -/
theorem chooseExact_is_binomial_witness :
    2 ≤ 5 ∧ (chooseExact 5 2 = Nat.choose 5 2 ∧
      ∀ i, 1 ≤ i → i ≤ 2 → i ∣ chooseExact 5 (i - 1) * (5 + 1 - i)) :=
  ⟨by decide, chooseExact_is_binomial 5 2 (by decide)⟩

/-- C15, the code at a failing input: `ScalarBezCurve(0, {5})` has the two
weights `[5, 0]`, not the supplied list `[5]`, so `weights().size()` is `2` and
not `degree() + 1 = 1`.  The delegated constructor has already resized the
vector to `degree + 1` zeros when the supplied weights are inserted in front. -/
theorem mkWeights_value :
    (mkWeights 0 [(5 : ℚ)]).weights = [5, 0] ∧
    (mkWeights 0 [(5 : ℚ)]).weights.length = 2 ∧
    (mkWeights 0 [(5 : ℚ)]).degree + 1 = 1 := by
  refine ⟨by simp [mkWeights, mkDegree, weights], by simp [mkWeights, mkDegree, weights], rfl⟩

/-- The part of C15 that holds: `ScalarBezCurve(degree)` has `degree + 1` weights,
all zero; and what the second constructor stores in general. -/
theorem constructors_weights (n : Nat) (ws : List K) :
    (mkDegree (n : Int) : ScalarBezCurve K).weights = List.replicate (n + 1) 0 ∧
    (mkDegree (n : Int) : ScalarBezCurve K).degree = n ∧
    (mkWeights (n : Int) ws).weights = ws ++ List.replicate (n + 1) 0 ∧
    (mkWeights (n : Int) ws).weights.length = ws.length + (n + 1) := by
  have e : ((n : Int) + 1).toNat = n + 1 := by omega
  refine ⟨?_, rfl, ?_, ?_⟩
  · simp only [mkDegree, weights, e]
  · simp only [mkWeights, mkDegree, weights, e]
  · simp only [mkWeights, mkDegree, weights, e, List.length_append, List.length_replicate]

/-- C16: `Sub(a, b)` (the same for the method `sub`) succeeds exactly when the
degrees agree, and then the result has the degree of `a` and the weights
`a[k] - b[k]` for `k = 0 .. degree`. -/
theorem Sub_spec (a b : ScalarBezCurve K) (hlen : a.fDegree + 1 ≤ (a.fWeights.length : Int)) :
    ((Sub a b).isSome = true ↔ a.degree = b.degree) ∧
    ((a.sub b).isSome = true ↔ a.degree = b.degree) ∧
    ∀ r, Sub a b = some r →
      r.fDegree = a.fDegree ∧
      ∀ k : Nat, (k : Int) ≤ a.fDegree →
        r.fWeights.getD k 0 = a.fWeights.getD k 0 - b.fWeights.getD k 0 := by
  have hiff : (a.sub b).isSome = true ↔ a.degree = b.degree := by
    unfold ScalarBezCurve.sub degree
    by_cases hd : b.fDegree = a.fDegree
    · rw [if_pos hd]; simp [hd]
    · rw [if_neg hd]
      simp only [Option.isSome_none, Bool.false_eq_true, false_iff]
      exact fun h => hd h.symm
  refine ⟨hiff, hiff, fun r hr => ?_⟩
  have hd : b.fDegree = a.fDegree := by
    have : (a.sub b).isSome = true := by
      have hr' : a.sub b = some r := hr
      rw [hr']; rfl
    exact (hiff.mp this).symm
  obtain ⟨r', hr', hdeg, _, hv⟩ := sub_spec a b hd hlen
  have hr2 : a.sub b = some r := hr
  rw [hr2] at hr'
  obtain rfl : r = r' := Option.some.inj hr'
  refine ⟨hdeg, fun k hk => ?_⟩
  have := hv k
  rw [if_pos hk] at this
  exact this

/-- Instance of C16 for the curves `[5, 7]` and `[1, 2]` of degree 1. -/
theorem Sub_spec_witness :
    ((⟨1, [(5 : ℚ), 7]⟩ : ScalarBezCurve ℚ).fDegree + 1
        ≤ ((⟨1, [(5 : ℚ), 7]⟩ : ScalarBezCurve ℚ).fWeights.length : Int)) ∧
    (((Sub (⟨1, [(5 : ℚ), 7]⟩ : ScalarBezCurve ℚ) ⟨1, [1, 2]⟩).isSome = true
        ↔ (⟨1, [(5 : ℚ), 7]⟩ : ScalarBezCurve ℚ).degree
          = (⟨1, [(1 : ℚ), 2]⟩ : ScalarBezCurve ℚ).degree) ∧
     (((⟨1, [(5 : ℚ), 7]⟩ : ScalarBezCurve ℚ).sub ⟨1, [1, 2]⟩).isSome = true
        ↔ (⟨1, [(5 : ℚ), 7]⟩ : ScalarBezCurve ℚ).degree
          = (⟨1, [(1 : ℚ), 2]⟩ : ScalarBezCurve ℚ).degree) ∧
     ∀ r, Sub (⟨1, [(5 : ℚ), 7]⟩ : ScalarBezCurve ℚ) ⟨1, [1, 2]⟩ = some r →
       r.fDegree = (⟨1, [(5 : ℚ), 7]⟩ : ScalarBezCurve ℚ).fDegree ∧
       ∀ k : Nat, (k : Int) ≤ (⟨1, [(5 : ℚ), 7]⟩ : ScalarBezCurve ℚ).fDegree →
         r.fWeights.getD k 0
           = (⟨1, [(5 : ℚ), 7]⟩ : ScalarBezCurve ℚ).fWeights.getD k 0
             - (⟨1, [(1 : ℚ), 2]⟩ : ScalarBezCurve ℚ).fWeights.getD k 0) :=
  ⟨by decide, Sub_spec (⟨1, [(5 : ℚ), 7]⟩ : ScalarBezCurve ℚ) ⟨1, [1, 2]⟩ (by decide)⟩

/-- C17: `ElevateDegree(C, newDegree)` fails exactly when `newDegree < C.degree()`,
and returns `C` itself when `newDegree == C.degree()`; the same holds for the
method `elevateDegree`. -/
theorem ElevateDegree_fails_iff (C : ScalarBezCurve K) (newDegree : Int) :
    (ElevateDegree C newDegree = none ↔ newDegree < C.degree) ∧
    ElevateDegree C C.degree = some C ∧
    (elevateDegree C newDegree = none ↔ newDegree < C.degree) ∧
    elevateDegree C C.degree = some C := by
  have h1 : ElevateDegree C newDegree = none ↔ newDegree < C.degree := by
    unfold ElevateDegree
    by_cases hlt : newDegree < C.degree
    · simp [hlt]
    · rw [if_neg hlt]
      by_cases heq : newDegree = C.degree
      · simp [heq, hlt]
      · simp [heq, hlt]
  have h2 : ElevateDegree C C.degree = some C := by
    unfold ElevateDegree
    rw [if_neg (lt_irrefl _), if_pos rfl]
  refine ⟨h1, h2, ?_, ?_⟩
  · unfold elevateDegree
    by_cases heq : newDegree = C.fDegree
    · rw [if_pos heq]
      simp only [false_iff, not_lt, reduceCtorEq]
      exact le_of_eq heq.symm
    · rw [if_neg heq, Option.map_eq_none', h1]
  · unfold elevateDegree
    rw [if_pos (show C.degree = C.fDegree from rfl)]

/-! ## The stroker: unit normals, the miter join and the stroke of one line -/

/-- A function that returns a non-negative square root of every non-negative
number returns the non-negative root that is known. -/
theorem sqrtf_unique {sqrtf : K → K}
    (hsq : ∀ x, 0 ≤ x → 0 ≤ sqrtf x ∧ sqrtf x * sqrtf x = x) {x y : K}
    (hy : 0 ≤ y) (hxy : y * y = x) : sqrtf x = y := by
  have hx : 0 ≤ x := hxy ▸ mul_self_nonneg y
  obtain ⟨h0, h1⟩ := hsq x hx
  have h2 : sqrtf x * sqrtf x = y * y := by rw [h1, hxy]
  exact (mul_self_inj h0 hy).1 h2

/-- `SkPoint::setLength` on a vector of length `s > 0`, for a length different
from zero: the vector is scaled by `len / s` and the call succeeds. -/
theorem SkPoint_setLength_spec {sqrtf : K → K}
    (hsq : ∀ x, 0 ≤ x → 0 ≤ sqrtf x ∧ sqrtf x * sqrtf x = x) (p : SkPoint K) (len s : K)
    (hs : 0 < s) (hp : p.fX * p.fX + p.fY * p.fY = s * s) (hlen : len ≠ 0) :
    p.setLength sqrtf len = (⟨p.fX * (len / s), p.fY * (len / s)⟩, true) := by
  have h1 : sqrtf (p.fX * p.fX + p.fY * p.fY) = s := sqrtf_unique hsq hs.le hp.symm
  have h2 : len / s ≠ 0 := div_ne_zero hlen hs.ne'
  have h3 : ¬ (p.fX * (len / s) = 0 ∧ p.fY * (len / s) = 0) := by
    rintro ⟨hx, hy⟩
    have hx0 : p.fX = 0 := by
      rcases mul_eq_zero.1 hx with h | h
      · exact h
      · exact absurd h h2
    have hy0 : p.fY = 0 := by
      rcases mul_eq_zero.1 hy with h | h
      · exact h
      · exact absurd h h2
    rw [hx0, hy0] at hp
    have : s * s = 0 := by rw [← hp]; ring
    have : 0 < s * s := mul_pos hs hs
    linarith
  unfold SkPoint.setLength
  simp only [h1]
  rw [if_neg h3]

/-- The vector that `SkPoint::setLength` returns for a positive length has that
length. -/
theorem SkPoint_setLength_dot {sqrtf : K → K}
    (hsq : ∀ x, 0 ≤ x → 0 ≤ sqrtf x ∧ sqrtf x * sqrtf x = x) (p : SkPoint K) (len s : K)
    (hs : 0 < s) (hp : p.fX * p.fX + p.fY * p.fY = s * s) (hlen : 0 < len) :
    ((p.setLength sqrtf len).1).length sqrtf = len := by
  rw [SkPoint_setLength_spec hsq p len s hs hp hlen.ne']
  unfold SkPoint.length
  apply sqrtf_unique hsq hlen.le
  show len * len = p.fX * (len / s) * (p.fX * (len / s)) + p.fY * (len / s) * (p.fY * (len / s))
  have : p.fX * (len / s) * (p.fX * (len / s)) + p.fY * (len / s) * (p.fY * (len / s))
      = (p.fX * p.fX + p.fY * p.fY) * (len / s) * (len / s) := by ring
  rw [this, hp]
  field_simp
  ring

/-- The unit normal of a line whose ends differ: the tangent is the difference
of the ends divided by its length, and the normal is the tangent turned by
`rotate90`. -/
theorem unitNormal_line {sqrtf : K → K}
    (hsq : ∀ x, 0 ≤ x → 0 ≤ sqrtf x ∧ sqrtf x * sqrtf x = x) (a b : SkPoint K) (hab : a ≠ b)
    (rest : List (SkPoint K)) (t : K) :
    ∃ u : SkPoint K, u.dot u = 1 ∧ 0 < sqrtf ((b.sub a).dot (b.sub a)) ∧
      u = (b.sub a).scale (1 / sqrtf ((b.sub a).dot (b.sub a))) ∧
      unitNormal sqrtf ⟨Verb.kLine_Verb, a :: b :: rest⟩ t = some (rotate90 u, u) := by
  set d := b.sub a with hd
  have hd0 : 0 < d.dot d := by
    have h0 : 0 ≤ d.dot d := by
      unfold SkPoint.dot; nlinarith [mul_self_nonneg d.fX, mul_self_nonneg d.fY]
    rcases h0.lt_or_eq with h | h
    · exact h
    · exfalso
      apply hab
      have hx : d.fX = 0 := by
        unfold SkPoint.dot at h; nlinarith [mul_self_nonneg d.fX, mul_self_nonneg d.fY]
      have hy : d.fY = 0 := by
        unfold SkPoint.dot at h; nlinarith [mul_self_nonneg d.fX, mul_self_nonneg d.fY]
      have hx1 : b.fX - a.fX = 0 := hx
      have hy1 : b.fY - a.fY = 0 := hy
      cases a; cases b
      simp only [SkPoint.mk.injEq]
      constructor
      · simp only at hx1; linarith
      · simp only at hy1; linarith
  obtain ⟨hs0, hs1⟩ := hsq _ hd0.le
  have hspos : 0 < sqrtf (d.dot d) := by
    rcases hs0.lt_or_eq with h | h
    · exact h
    · rw [← h] at hs1; simp at hs1; linarith
  have hset := SkPoint_setLength_spec hsq d 1 (sqrtf (d.dot d)) hspos (by rw [hs1]; rfl) one_ne_zero
  refine ⟨d.scale (1 / sqrtf (d.dot d)), ?_, hspos, rfl, ?_⟩
  · unfold SkPoint.dot SkPoint.scale
    show d.fX * (1 / sqrtf (d.dot d)) * (d.fX * (1 / sqrtf (d.dot d))) +
      d.fY * (1 / sqrtf (d.dot d)) * (d.fY * (1 / sqrtf (d.dot d))) = 1
    have : d.fX * (1 / sqrtf (d.dot d)) * (d.fX * (1 / sqrtf (d.dot d))) +
      d.fY * (1 / sqrtf (d.dot d)) * (d.fY * (1 / sqrtf (d.dot d)))
        = (d.dot d) / (sqrtf (d.dot d) * sqrtf (d.dot d)) := by
      unfold SkPoint.dot; field_simp
    rw [this, hs1]; exact div_self hd0.ne'
  · unfold unitNormal
    simp only [PathSegment.pt, List.getD_cons_succ, List.getD_cons_zero]
    unfold VarWidthStroker.setLength
    rw [← hd, hset]
    rfl

theorem SkPoint_add_sub_cancel (p v : SkPoint K) : (p.add v).sub p = v := by
  cases p; cases v
  simp [SkPoint.add, SkPoint.sub]

/-- The two `setLength` calls of the miter join on unit normals that are not
opposite. -/
theorem miter_core {sqrtf : K → K}
    (hsq : ∀ x, 0 ≤ x → 0 ≤ sqrtf x ∧ sqrtf x * sqrtf x = x) (B A : SkPoint K) (r : K)
    (hB : B.dot B = 1) (hA : A.dot A = 1) (hr : 0 < r) (hopp : B.dot A ≠ -1) :
    (B.add A).setLength sqrtf (r / sqrtf (1 / 2 * (1 + B.dot A)))
        = ((B.add A).scale (r / sqrtf (1 / 2 * (1 + B.dot A)) /
            (2 * sqrtf (1 / 2 * (1 + B.dot A)))), true) ∧
      ((B.add A).scale (r / sqrtf (1 / 2 * (1 + B.dot A)) /
            (2 * sqrtf (1 / 2 * (1 + B.dot A))))).length sqrtf
        = r / sqrtf (1 / 2 * (1 + B.dot A)) ∧
      setLength sqrtf A r = some (A.scale r) := by
  have hsum : (B.add A).fX * (B.add A).fX + (B.add A).fY * (B.add A).fY = 2 + 2 * B.dot A := by
    unfold SkPoint.dot at hB hA ⊢
    show (B.fX + A.fX) * (B.fX + A.fX) + (B.fY + A.fY) * (B.fY + A.fY) = _
    linear_combination hB + hA
  have hc : 0 < 1 + B.dot A := by
    have h0 : 0 ≤ 2 + 2 * B.dot A := by
      rw [← hsum]; nlinarith [mul_self_nonneg (B.add A).fX, mul_self_nonneg (B.add A).fY]
    rcases (show (0 : K) ≤ 1 + B.dot A by linarith).lt_or_eq with h | h
    · exact h
    · exfalso; apply hopp; linarith
  obtain ⟨hh0, hh1⟩ := hsq (1 / 2 * (1 + B.dot A)) (by linarith)
  have hhpos : 0 < sqrtf (1 / 2 * (1 + B.dot A)) := by
    rcases hh0.lt_or_eq with h | h
    · exact h
    · rw [← h] at hh1; simp at hh1; linarith
  have hlen : (B.add A).fX * (B.add A).fX + (B.add A).fY * (B.add A).fY
      = 2 * sqrtf (1 / 2 * (1 + B.dot A)) * (2 * sqrtf (1 / 2 * (1 + B.dot A))) := by
    rw [hsum]
    linear_combination (-4 : K) * hh1
  have hset := SkPoint_setLength_spec hsq (B.add A) (r / sqrtf (1 / 2 * (1 + B.dot A)))
    (2 * sqrtf (1 / 2 * (1 + B.dot A))) (by linarith) hlen (div_pos hr hhpos).ne'
  refine ⟨hset, ?_, ?_⟩
  · have h := SkPoint_setLength_dot hsq (B.add A) (r / sqrtf (1 / 2 * (1 + B.dot A)))
      (2 * sqrtf (1 / 2 * (1 + B.dot A))) (by linarith) hlen (div_pos hr hhpos)
    rw [hset] at h
    exact h
  · have h1 := SkPoint_setLength_spec hsq A r 1 one_pos (by rw [mul_one]; exact hA) hr.ne'
    unfold VarWidthStroker.setLength
    rw [h1]
    simp [SkPoint.scale]

theorem rotate180_dot (a b : SkPoint K) : (rotate180 a).dot (rotate180 b) = a.dot b := by
  simp [rotate180, SkPoint.dot, SkPoint.scale]

/-- The state after a miter join that is not skipped, with every point written
out. -/
theorem miterJoin_explicit {sqrtf : K → K}
    (hsq : ∀ x, 0 ≤ x → 0 ≤ sqrtf x ∧ sqrtf x * sqrtf x = x)
    (st : SkVarWidthStroker K) (prev curr : PathSegment K) (nb tb na ta : SkPoint K)
    (hb : unitNormal sqrtf prev 1 = some (nb, tb))
    (ha : unitNormal sqrtf curr 0 = some (na, ta))
    (hnb : nb.dot nb = 1) (hna : na.dot na = 1) (hr : 0 < st.fRadius)
    (hskip : SkScalarNearlyZero (1 - nb.dot na) = false) (hopp : nb.dot na ≠ -1) :
    miterJoin sqrtf st prev curr = some
      (if isClockwise nb na then
        { st with
          fOuter := (st.fOuter.lineTo ((curr.pt 0).add ((nb.add na).scale
            (st.fRadius / sqrtf (1 / 2 * (1 + nb.dot na)) /
              (2 * sqrtf (1 / 2 * (1 + nb.dot na))))))).lineTo
              ((curr.pt 0).add (na.scale st.fRadius))
          fInner := (st.fInner.lineTo (curr.pt 0)).lineTo
            ((curr.pt 0).sub (na.scale st.fRadius)) }
      else
        { st with
          fInner := (st.fInner.lineTo ((curr.pt 0).add (((rotate180 nb).add (rotate180 na)).scale
            (st.fRadius / sqrtf (1 / 2 * (1 + nb.dot na)) /
              (2 * sqrtf (1 / 2 * (1 + nb.dot na))))))).lineTo
              ((curr.pt 0).add ((rotate180 na).scale st.fRadius))
          fOuter := (st.fOuter.lineTo (curr.pt 0)).lineTo
            ((curr.pt 0).sub ((rotate180 na).scale st.fRadius)) }) := by
  cases hcw : isClockwise nb na
  · have hc := miter_core hsq (rotate180 nb) (rotate180 na) st.fRadius
      (by rw [rotate180_dot]; exact hnb) (by rw [rotate180_dot]; exact hna) hr
      (by rw [rotate180_dot]; exact hopp)
    rw [rotate180_dot] at hc
    unfold miterJoin
    simp only [hb, ha, Option.some_bind, hcw, Bool.not_false, if_true, rotate180_dot, hskip,
      hc.1, hc.2.2, Option.map_some', Bool.false_eq_true, if_false]
  · have hc := miter_core hsq nb na st.fRadius hnb hna hr hopp
    unfold miterJoin
    simp only [hb, ha, Option.some_bind, hcw, Bool.not_true, if_true, hskip,
      hc.1, hc.2.2, Option.map_some', Bool.false_eq_true, if_false]

/-- The miter point of a join that is not skipped lies at the distance
`fRadius / sqrt((1 + cos) / 2)` from the common end point, `cos` being the dot
product of the two unit normals. -/
theorem miterJoin_spec {sqrtf : K → K}
    (hsq : ∀ x, 0 ≤ x → 0 ≤ sqrtf x ∧ sqrtf x * sqrtf x = x)
    (st : SkVarWidthStroker K) (prev curr : PathSegment K) (nb tb na ta : SkPoint K)
    (hb : unitNormal sqrtf prev 1 = some (nb, tb))
    (ha : unitNormal sqrtf curr 0 = some (na, ta))
    (hnb : nb.dot nb = 1) (hna : na.dot na = 1) (hr : 0 < st.fRadius)
    (hskip : SkScalarNearlyZero (1 - nb.dot na) = false) (hopp : nb.dot na ≠ -1) :
    ∃ m dest : SkPoint K,
      (m.sub (curr.pt 0)).length sqrtf = st.fRadius / sqrtf (1 / 2 * (1 + nb.dot na)) ∧
      miterJoin sqrtf st prev curr = some
        (if isClockwise nb na then
          { st with
            fOuter := (st.fOuter.lineTo m).lineTo ((curr.pt 0).add dest)
            fInner := (st.fInner.lineTo (curr.pt 0)).lineTo ((curr.pt 0).sub dest) }
        else
          { st with
            fInner := (st.fInner.lineTo m).lineTo ((curr.pt 0).add dest)
            fOuter := (st.fOuter.lineTo (curr.pt 0)).lineTo ((curr.pt 0).sub dest) }) := by
  have hj := miterJoin_explicit hsq st prev curr nb tb na ta hb ha hnb hna hr hskip hopp
  cases hcw : isClockwise nb na <;> rw [hcw] at hj
  · have hc := miter_core hsq (rotate180 nb) (rotate180 na) st.fRadius
      (by rw [rotate180_dot]; exact hnb) (by rw [rotate180_dot]; exact hna) hr
      (by rw [rotate180_dot]; exact hopp)
    rw [rotate180_dot] at hc
    refine ⟨(curr.pt 0).add (((rotate180 nb).add (rotate180 na)).scale
      (st.fRadius / sqrtf (1 / 2 * (1 + nb.dot na)) /
        (2 * sqrtf (1 / 2 * (1 + nb.dot na))))), (rotate180 na).scale st.fRadius, ?_, ?_⟩
    · rw [SkPoint_add_sub_cancel]; exact hc.2.1
    · rw [hj]; simp only [Bool.false_eq_true, if_false]
  · have hc := miter_core hsq nb na st.fRadius hnb hna hr hopp
    refine ⟨(curr.pt 0).add ((nb.add na).scale
      (st.fRadius / sqrtf (1 / 2 * (1 + nb.dot na)) /
        (2 * sqrtf (1 / 2 * (1 + nb.dot na))))), na.scale st.fRadius, ?_, ?_⟩
    · rw [SkPoint_add_sub_cancel]; exact hc.2.1
    · rw [hj]; simp only [if_true]

/-- Every join style runs the miter join. -/
theorem join_eq_miterJoin (sqrtf : K → K) (st : SkVarWidthStroker K) (prev curr : PathSegment K) :
    join sqrtf st prev curr = miterJoin sqrtf st prev curr := by
  unfold join
  cases st.fJoin <;> rfl

theorem nearlyZero_one : SkScalarNearlyZero (1 - (0 : K)) = false := by
  unfold SkScalarNearlyZero
  rw [sub_zero, abs_one]
  apply decide_eq_false
  norm_num

theorem sqrtf_half {sqrtf : K → K}
    (hsq : ∀ x, 0 ≤ x → 0 ≤ sqrtf x ∧ sqrtf x * sqrtf x = x) (r : K) :
    r / sqrtf (1 / 2 * (1 + 0)) = r * sqrtf 2 := by
  obtain ⟨h0, h1⟩ := hsq 2 (by norm_num)
  have h2 : sqrtf (1 / 2 * (1 + 0)) = sqrtf 2 / 2 := by
    apply sqrtf_unique hsq (by linarith)
    linear_combination (1 / 4 : K) * h1
  have h3 : sqrtf 2 ≠ 0 := by
    intro h; rw [h] at h1; norm_num at h1
  rw [h2]
  field_simp
  linear_combination (-r) * h1

/-- The square root of the reals is a square root function. -/
theorem real_sqrt_spec : ∀ x : ℝ, 0 ≤ x → 0 ≤ Real.sqrt x ∧ Real.sqrt x * Real.sqrt x = x :=
  fun x hx => ⟨Real.sqrt_nonneg x, Real.mul_self_sqrt hx⟩

/-- The dot product of two unit vectors lies between `-1` and `1`. -/
theorem unit_dot_bounds (p q : SkPoint K) (hp : p.dot p = 1) (hq : q.dot q = 1) :
    -1 ≤ p.dot q ∧ p.dot q ≤ 1 := by
  unfold SkPoint.dot at hp hq ⊢
  constructor
  · nlinarith [mul_self_nonneg (p.fX + q.fX), mul_self_nonneg (p.fY + q.fY)]
  · nlinarith [mul_self_nonneg (p.fX - q.fX), mul_self_nonneg (p.fY - q.fY)]

/-- The unit normal and tangent of a line whose length `s` is known. -/
theorem unitNormal_line_of_length {sqrtf : K → K}
    (hsq : ∀ x, 0 ≤ x → 0 ≤ sqrtf x ∧ sqrtf x * sqrtf x = x) (a b : SkPoint K) (s : K)
    (hs : 0 < s)
    (hd : (b.fX - a.fX) * (b.fX - a.fX) + (b.fY - a.fY) * (b.fY - a.fY) = s * s) (t : K) :
    unitNormal sqrtf ⟨Verb.kLine_Verb, [a, b]⟩ t =
      some (⟨(b.fY - a.fY) * (1 / s), -((b.fX - a.fX) * (1 / s))⟩,
        ⟨(b.fX - a.fX) * (1 / s), (b.fY - a.fY) * (1 / s)⟩) := by
  have hset := SkPoint_setLength_spec hsq (b.sub a) 1 s hs hd one_ne_zero
  unfold unitNormal
  simp only [PathSegment.pt, List.getD_cons_succ, List.getD_cons_zero]
  unfold VarWidthStroker.setLength
  rw [hset]
  rfl

theorem unitNormal_example_prev :
    unitNormal Real.sqrt ⟨Verb.kLine_Verb, [⟨0, 0⟩, ⟨5, 0⟩]⟩ 1
      = some ((⟨0, -1⟩ : SkPoint ℝ), ⟨1, 0⟩) := by
  rw [unitNormal_line_of_length real_sqrt_spec _ _ 5 (by norm_num) (by norm_num)]
  norm_num

theorem unitNormal_example_curr :
    unitNormal Real.sqrt ⟨Verb.kLine_Verb, [⟨5, 0⟩, ⟨12, 24⟩]⟩ 0
      = some ((⟨24 / 25, -(7 / 25)⟩ : SkPoint ℝ), ⟨7 / 25, 24 / 25⟩) := by
  rw [unitNormal_line_of_length real_sqrt_spec _ _ 25 (by norm_num) (by norm_num)]
  norm_num

theorem coordCurve_line (coord : SkPoint K → K) (p0 p1 : SkPoint K) :
    coordCurve coord 1 [p0, p1] = ⟨1, [coord p0, coord p1]⟩ := rfl

theorem coordCurve_quad (coord : SkPoint K → K) (q0 q1 q2 : SkPoint K) :
    coordCurve coord 2 [q0, q1, q2] = ⟨2, [coord q0, coord q1, coord q2]⟩ := rfl

/-- The values of `choose` that the stroke of a line reads. -/
theorem choose_small : choose 0 0 = 1 ∧ choose 1 0 = 1 ∧ choose 1 1 = 1 ∧ choose 2 0 = 1 ∧
    choose 2 1 = 2 ∧ choose 2 2 = 1 ∧ choose 4 0 = 1 ∧ choose 4 1 = 4 ∧ choose 4 2 = 6 ∧
    choose 4 3 = 4 ∧ choose 4 4 = 1 := by decide

theorem elevateDegree_line (x0 x1 : K) :
    (⟨1, [x0, x1]⟩ : ScalarBezCurve K).elevateDegree 2
      = some ⟨2, [x0, (x0 + x1) * (1 / 2), x1]⟩ := by
  obtain ⟨h00, h10, h11, h20, h21, h22, -⟩ := choose_small
  simp [elevateDegree, ElevateDegree, degree, mkDegree, blend, List.range, List.range.loop,
    List.range', h00, h10, h11, h20, h21, h22, u64]
  ring

theorem elevateDegree_same (c : ScalarBezCurve K) : c.elevateDegree c.fDegree = some c := by
  unfold elevateDegree; rw [if_pos rfl]

theorem Sub_quad (q0 q1 q2 s0 s1 s2 : K) :
    ScalarBezCurve.Sub (⟨2, [q0, q1, q2]⟩ : ScalarBezCurve K) ⟨2, [s0, s1, s2]⟩
      = some ⟨2, [q0 - s0, q1 - s1, q2 - s2]⟩ := rfl

theorem AddSquares_quad (a0 a1 a2 b0 b1 b2 : K) :
    ScalarBezCurve.AddSquares (⟨2, [a0, a1, a2]⟩ : ScalarBezCurve K) ⟨2, [b0, b1, b2]⟩
      = ⟨4, [a0 * a0 + b0 * b0, a0 * a1 + b0 * b1,
          (a0 * a2 + 2 * (a1 * a1) + b0 * b2 + 2 * (b1 * b1)) * (1 / 3),
          a1 * a2 + b1 * b2, a2 * a2 + b2 * b2]⟩ := by
  obtain ⟨h00, h10, h11, h20, h21, h22, h40, h41, h42, h43, h44⟩ := choose_small
  simp [AddSquares, degree, mkDegree, blend, List.range, List.range.loop,
    List.range', h20, h21, h22, h40, h41, h42, h43, h44, u64]
  refine ⟨?_, ?_, ?_⟩ <;> ring

theorem Mul_const (a b : K) (ra rb : List K) :
    ScalarBezCurve.Mul (⟨0, a :: ra⟩ : ScalarBezCurve K) ⟨0, b :: rb⟩ = ⟨0, [a * b]⟩ := by
  obtain ⟨h00, -⟩ := choose_small
  simp [ScalarBezCurve.Mul, degree, mkDegree, blend, List.range, List.range.loop,
    List.range', h00, u64]

theorem elevateDegree_const (c : K) :
    (⟨0, [c]⟩ : ScalarBezCurve K).elevateDegree 4 = some ⟨4, [c, c, c, c, c]⟩ := by
  obtain ⟨h00, h10, h11, h20, h21, h22, h40, h41, h42, h43, h44⟩ := choose_small
  simp [elevateDegree, ElevateDegree, degree, mkDegree, blend, List.range, List.range.loop,
    List.range', h00, h40, h41, h42, h43, h44, u64]

theorem sub_quartic (e0 e1 e2 e3 e4 d0 d1 d2 d3 d4 : K) :
    (⟨4, [e0, e1, e2, e3, e4]⟩ : ScalarBezCurve K).sub ⟨4, [d0, d1, d2, d3, d4]⟩
      = some ⟨4, [e0 - d0, e1 - d1, e2 - d2, e3 - d3, e4 - d4]⟩ := rfl

theorem extremumWeight_zeros :
    (⟨4, [0, 0, 0, 0, 0]⟩ : ScalarBezCurve K).extremumWeight = 0 := by
  simp [extremumWeight]

theorem extremumWeight_const (r : K) (hr : r ≠ 0) :
    |1 / 2 * (⟨0, [r, 0]⟩ : ScalarBezCurve K).extremumWeight| = |r| / 2 := by
  have h : (⟨0, [r, 0]⟩ : ScalarBezCurve K).extremumWeight = r := by
    simp only [extremumWeight, List.foldl]
    rw [if_pos (abs_pos.2 hr), abs_zero, if_neg (not_lt.2 (abs_nonneg r))]
    by_cases h0 : r ≥ 0
    · rw [if_pos h0, abs_of_nonneg h0]; simp
    · rw [if_neg h0, abs_of_neg (not_le.1 h0)]; simp
  rw [h, abs_mul]
  rw [abs_of_pos (by norm_num : (0 : K) < 1 / 2)]
  ring

theorem eval_const (c : K) (rest : List K) (t : K) :
    (⟨0, c :: rest⟩ : ScalarBezCurve K).eval t = c := rfl

theorem mkWeights_const (r : K) : (mkWeights 0 [r] : ScalarBezCurve K) = ⟨0, [r, 0]⟩ := rfl

theorem MulScalar_const (r f : K) :
    ScalarBezCurve.MulScalar (⟨0, [r, 0]⟩ : ScalarBezCurve K) f = ⟨0, [r * f, 0]⟩ := rfl

/-- The error curve of a line moved by a vector `v` with `|v|^2 = c`, against the
constant squared distance `c`: all five weights are zero. -/
theorem errorCurve_line (seg : PathSegment K) (D : ScalarBezCurve K) (p0 p1 v : SkPoint K)
    (c : K) (hv : v.fX * v.fX + v.fY * v.fY = c) :
    errorCurve ⟨seg, D, ⟨0, [c]⟩, ⟨1, [p0.fX, p1.fX]⟩, ⟨1, [p0.fY, p1.fY]⟩⟩
        ⟨Verb.kQuad_Verb, [p0.add v, ((p0.add p1).scale (1 / 2)).add v, p1.add v]⟩
      = some (⟨4, [0, 0, 0, 0, 0]⟩, ⟨4, [c, c, c, c, c]⟩) := by
  have hmax1 : max (2 : Int) 1 = 2 := by decide
  have hmax2 : max (0 : Int) 4 = 4 := by decide
  unfold errorCurve
  simp only [coordCurve_quad, degree, hmax1, elevateDegree_line, Option.some_bind]
  rw [show (⟨2, [(p0.add v).fX, (((p0.add p1).scale (1 / 2)).add v).fX, (p1.add v).fX]⟩ :
      ScalarBezCurve K).elevateDegree 2 = some _ from elevateDegree_same _]
  rw [show (⟨2, [(p0.add v).fY, (((p0.add p1).scale (1 / 2)).add v).fY, (p1.add v).fY]⟩ :
      ScalarBezCurve K).elevateDegree 2 = some _ from elevateDegree_same _]
  simp only [Option.some_bind, Sub_quad, AddSquares_quad, hmax2, elevateDegree_const]
  rw [show (⟨4, _⟩ : ScalarBezCurve K).elevateDegree 4 = some _ from elevateDegree_same _]
  simp only [Option.some_bind, sub_quartic, Option.map_some', SkPoint.add, SkPoint.scale]
  rw [← hv]
  congr 3
  refine List.cons_eq_cons.2 ⟨by ring, List.cons_eq_cons.2 ⟨by ring, List.cons_eq_cons.2
    ⟨by ring, List.cons_eq_cons.2 ⟨by ring, List.cons_eq_cons.2 ⟨by ring, rfl⟩⟩⟩⟩⟩

/-- The quad that `approximateSegment` returns for a line and a distance
function with the value `ρ` at `0`, `1/2` and `1`. -/
theorem approximateSegment_line {sqrtf : K → K}
    (hsq : ∀ x, 0 ≤ x → 0 ≤ sqrtf x ∧ sqrtf x * sqrtf x = x) (p0 p1 n tg : SkPoint K)
    (D : ScalarBezCurve K) (ρ : K)
    (hn : ∀ t, unitNormal sqrtf ⟨Verb.kLine_Verb, [p0, p1]⟩ t = some (n, tg))
    (hnn : n.fX * n.fX + n.fY * n.fY = 1) (hρ : ρ ≠ 0)
    (h0 : D.eval 0 = ρ) (hh : D.eval (1 / 2) = ρ) (h1 : D.eval 1 = ρ) :
    approximateSegment sqrtf ⟨Verb.kLine_Verb, [p0, p1]⟩ D
      = some ⟨Verb.kQuad_Verb, [p0.add (n.scale ρ),
          ((p0.add p1).scale (1 / 2)).add (n.scale ρ), p1.add (n.scale ρ)]⟩ := by
  have hs1 := SkPoint_setLength_spec hsq n ρ 1 one_pos (by rw [mul_one]; exact hnn) hρ
  have hs2 := SkPoint_setLength_spec hsq (n.add n) ρ 2 two_pos
    (by show (n.fX + n.fX) * (n.fX + n.fX) + (n.fY + n.fY) * (n.fY + n.fY) = 2 * 2
        linear_combination (4 : K) * hnn) hρ
  have hdeg : segmentDegree (⟨Verb.kLine_Verb, [p0, p1]⟩ : PathSegment K) = some 1 := rfl
  unfold approximateSegment
  simp only [hn, Option.some_bind, h0, hh, h1, hs1, hs2, hdeg, if_true, Option.map_some',
    PathSegment.pt, List.getD_cons_zero, List.getD_cons_succ]
  congr 2
  have e1 : (⟨n.fX * (ρ / 1), n.fY * (ρ / 1)⟩ : SkPoint K) = n.scale ρ := by
    simp [SkPoint.scale]
  have e2 : (⟨(n.add n).fX * (ρ / 2), (n.add n).fY * (ρ / 2)⟩ : SkPoint K) = n.scale ρ := by
    simp only [SkPoint.scale, SkPoint.add, SkPoint.mk.injEq]
    constructor <;> ring
  rw [e1, e2]

/-- The stroke of a line with the constant distance function `ρ` is the single
quad of the first round of the loop. -/
theorem strokeSegment_line {sqrtf : K → K}
    (hsq : ∀ x, 0 ≤ x → 0 ≤ sqrtf x ∧ sqrtf x * sqrtf x = x) (p0 p1 n tg : SkPoint K) (ρ : K)
    (hn : ∀ t, unitNormal sqrtf ⟨Verb.kLine_Verb, [p0, p1]⟩ t = some (n, tg))
    (hnn : n.fX * n.fX + n.fY * n.fY = 1) (hρ : ρ ≠ 0) :
    strokeSegment sqrtf ⟨Verb.kLine_Verb, [p0, p1]⟩ ⟨0, [ρ, 0]⟩
      = some [⟨Verb.kQuad_Verb, [p0.add (n.scale ρ),
          ((p0.add p1).scale (1 / 2)).add (n.scale ρ), p1.add (n.scale ρ)]⟩] := by
  have happ := approximateSegment_line hsq p0 p1 n tg ⟨0, [ρ, 0]⟩ ρ hn hnn hρ rfl rfl rfl
  have herr := errorCurve_line (⟨Verb.kLine_Verb, [p0, p1]⟩ : PathSegment K) ⟨0, [ρ, 0]⟩ p0 p1
    (n.scale ρ) (ρ * ρ)
    (by show n.fX * ρ * (n.fX * ρ) + n.fY * ρ * (n.fY * ρ) = ρ * ρ
        linear_combination (ρ * ρ) * hnn)
  have hitem : Item.make (⟨Verb.kLine_Verb, [p0, p1]⟩ : PathSegment K) ⟨0, [ρ, 0]⟩
      (ScalarBezCurve.Mul ⟨0, [ρ, 0]⟩ ⟨0, [ρ, 0]⟩)
      = some ⟨⟨Verb.kLine_Verb, [p0, p1]⟩, ⟨0, [ρ, 0]⟩, ⟨0, [ρ * ρ]⟩,
          ⟨1, [p0.fX, p1.fX]⟩, ⟨1, [p0.fY, p1.fY]⟩⟩ := by
    rw [Mul_const]; rfl
  have htol : ¬ (|(⟨4, [0, 0, 0, 0, 0]⟩ : ScalarBezCurve K).extremumWeight|
      > |1 / 2 * (⟨0, [ρ, 0]⟩ : ScalarBezCurve K).extremumWeight|) := by
    rw [extremumWeight_zeros, extremumWeight_const ρ hρ, abs_zero]
    have := abs_pos.2 hρ
    intro h
    linarith
  have hloop : strokeSegmentLoop sqrtf (4998 + 1 + 1)
      [(⟨⟨Verb.kLine_Verb, [p0, p1]⟩, ⟨0, [ρ, 0]⟩, ⟨0, [ρ * ρ]⟩,
          ⟨1, [p0.fX, p1.fX]⟩, ⟨1, [p0.fY, p1.fY]⟩⟩ : Item K)] []
      = some [⟨Verb.kQuad_Verb, [p0.add (n.scale ρ),
          ((p0.add p1).scale (1 / 2)).add (n.scale ρ), p1.add (n.scale ρ)]⟩] := by
    rw [strokeSegmentLoop]
    simp only [happ, Option.some_bind, herr, if_neg htol, List.nil_append]
    rw [strokeSegmentLoop]
  unfold strokeSegment
  rw [hitem]
  simp only [Option.some_bind]
  rw [show kMaxIters = 4998 + 1 + 1 from rfl, hloop]
  simp

theorem endcap_End (st : SkVarWidthStroker K) :
    endcap st CapLocation.End = { st with fOuter := st.fOuter.lineTo st.fInner.getLastPt } := by
  unfold endcap
  cases st.fCap <;> rfl

theorem endcap_Start (st : SkVarWidthStroker K) :
    endcap st CapLocation.Start = { st with fOuter := st.fOuter.close } := by
  unfold endcap
  cases st.fCap <;> rfl

theorem SkPoint_add_neg_scale (p n : SkPoint K) (r : K) :
    p.add (n.scale (r * -1)) = p.sub (n.scale r) := by
  simp only [SkPoint.add, SkPoint.sub, SkPoint.scale, SkPoint.mk.injEq]
  constructor <;> ring

/-- Method `strokeLine` on a line with constant distance functions of weight `r`. -/
theorem strokeLine_line {sqrtf : K → K}
    (hsq : ∀ x, 0 ≤ x → 0 ≤ sqrtf x ∧ sqrtf x * sqrtf x = x) (st : SkVarWidthStroker K)
    (p0 p1 n tg : SkPoint K) (r : K)
    (hn : ∀ t, unitNormal sqrtf ⟨Verb.kLine_Verb, [p0, p1]⟩ t = some (n, tg))
    (hnn : n.fX * n.fX + n.fY * n.fY = 1) (hr : r ≠ 0)
    (hw : st.fVarWidth = ⟨0, [r, 0]⟩) (hwi : st.fVarWidthInner = ⟨0, [r, 0]⟩) :
    strokeLine sqrtf st ⟨Verb.kLine_Verb, [p0, p1]⟩ true = some
      { st with
        fOuter := (st.fOuter.moveTo (p0.add (n.scale r))).quadTo
          (((p0.add p1).scale (1 / 2)).add (n.scale r)) (p1.add (n.scale r))
        fInner := (st.fInner.moveTo (p0.sub (n.scale r))).quadTo
          (((p0.add p1).scale (1 / 2)).sub (n.scale r)) (p1.sub (n.scale r)) } := by
  unfold strokeLine
  rw [hw, hwi, MulScalar_const, strokeSegment_line hsq p0 p1 n tg r hn hnn hr,
    strokeSegment_line hsq p0 p1 n tg (r * -1) hn hnn (by simpa using hr)]
  simp only [Option.some_bind, if_true, List.headD_cons, List.foldl, PathSegment.pt,
    List.getD_cons_zero, List.getD_cons_succ, SkPoint_add_neg_scale]

/-- Method `getFillPath` on the path of one line with constant distance functions
of weight `r`, in terms of the path operations. -/
theorem getFillPath_single_line {sqrtf : K → K}
    (hsq : ∀ x, 0 ≤ x → 0 ≤ sqrtf x ∧ sqrtf x * sqrtf x = x) (st : SkVarWidthStroker K)
    (paint : SkPaint K) (p0 p1 n tg : SkPoint K) (r : K)
    (hn : ∀ t, unitNormal sqrtf ⟨Verb.kLine_Verb, [p0, p1]⟩ t = some (n, tg))
    (hnn : n.fX * n.fX + n.fY * n.fY = 1) (hr : r ≠ 0) :
    getFillPath sqrtf st ((SkPath.empty.moveTo p0).lineTo p1) paint
        (mkWeights 0 [r]) (mkWeights 0 [r])
      = some (((((SkPath.empty.moveTo (p0.add (n.scale r))).quadTo
          (((p0.add p1).scale (1 / 2)).add (n.scale r)) (p1.add (n.scale r))).lineTo
          (p1.sub (n.scale r))).quadTo
          (((p0.add p1).scale (1 / 2)).sub (n.scale r)) (p0.sub (n.scale r))).close) := by
  have hpath : ((SkPath.empty.moveTo p0).lineTo p1 : SkPath K)
      = ⟨[Verb.kMove_Verb, Verb.kLine_Verb], [p0, p1], 0⟩ := by
    simp [SkPath.empty, SkPath.moveTo, SkPath.lineTo, SkPath.injectMoveToIfNeeded]
  have hiter : iterSegments [Verb.kMove_Verb, Verb.kLine_Verb] [p0, p1] (⟨0, 0⟩ : SkPoint K) ⟨0, 0⟩
      = [⟨Verb.kMove_Verb, [p0]⟩, ⟨Verb.kLine_Verb, [p0, p1]⟩] := by
    simp [iterSegments]
  unfold getFillPath
  rw [hpath]
  simp only [mkWeights_const]
  rw [hiter]
  simp only [List.foldl]
  have hstep1 : getFillPathStep sqrtf
      (some ({ initForPath st paint with fVarWidth := ⟨0, [r, 0]⟩, fVarWidthInner := ⟨0, [r, 0]⟩ },
        (⟨Verb.kDone_Verb, []⟩ : PathSegment K), true)) ⟨Verb.kMove_Verb, [p0]⟩
      = some ({ initForPath st paint with fVarWidth := ⟨0, [r, 0]⟩, fVarWidthInner := ⟨0, [r, 0]⟩ },
        (⟨Verb.kDone_Verb, []⟩ : PathSegment K), true) := rfl
  rw [hstep1]
  unfold getFillPathStep
  simp only [Option.some_bind, if_true]
  rw [strokeLine_line hsq _ p0 p1 n tg r hn hnn hr rfl rfl]
  simp only [Option.map_some', Option.some_bind, endcap_End, endcap_Start]
  simp [SkPath.isLastContourClosed, appendPathReversed, appendReversedLoop, initForPath,
    SkPath.empty, SkPath.moveTo, SkPath.quadTo, SkPath.lineTo, SkPath.injectMoveToIfNeeded,
    SkPath.getLastPt, SkPath.countPoints, SkPath.close]

/-! ## The stroke of one line and the miter join -/

/-- The stroke of one line over an ordered field, where no operation rounds: for
the path `Move(p0), Line(p1)` with `p0 ≠ p1` and constant outer and
inner distance functions of degree `0` and weight `r > 0`, `getFillPath` returns
the path `Move(p0 + r n)`, `Quad((p0 + p1)/2 + r n, p1 + r n)`, `Line(p1 - r n)`,
`Quad((p0 + p1)/2 - r n, p0 - r n)`, `Close`, where `n` is `rotate90` of the unit
tangent; for `p0 = (0, 0)`, `p1 = (100, 0)`, `r = 10` the control points are
`(0, -10)`, `(50, -10)`, `(100, -10)`, `(100, 10)`, `(50, 10)`, `(0, 10)` and their
bounding box is `x` in `[0, 100]`, `y` in `[-10, 10]`.  The square root is any
function `sqrtf` that returns the non-negative root of a non-negative number. -/
theorem getFillPath_line_outline {sqrtf : K → K}
    (hsq : ∀ x, 0 ≤ x → 0 ≤ sqrtf x ∧ sqrtf x * sqrtf x = x) (st : SkVarWidthStroker K)
    (paint : SkPaint K) (p0 p1 n : SkPoint K) (r : K) (h01 : p0 ≠ p1) (hr : 0 < r)
    (hn : n = rotate90 ((p1.sub p0).scale (1 / sqrtf ((p1.sub p0).dot (p1.sub p0))))) :
    ∃ out : SkPath K,
      getFillPath sqrtf st ((SkPath.empty.moveTo p0).lineTo p1) paint
        (mkWeights 0 [r]) (mkWeights 0 [r]) = some out ∧
      out = ⟨[Verb.kMove_Verb, Verb.kQuad_Verb, Verb.kLine_Verb, Verb.kQuad_Verb,
          Verb.kClose_Verb],
        [p0.add (n.scale r), ((p0.add p1).scale (1 / 2)).add (n.scale r), p1.add (n.scale r),
          p1.sub (n.scale r), ((p0.add p1).scale (1 / 2)).sub (n.scale r), p0.sub (n.scale r)],
        -1⟩ ∧
      (p0 = ⟨0, 0⟩ → p1 = ⟨100, 0⟩ → r = 10 →
        out.fPts = [⟨0, -10⟩, ⟨50, -10⟩, ⟨100, -10⟩, ⟨100, 10⟩, ⟨50, 10⟩, ⟨0, 10⟩] ∧
        out.getBounds = (0, -10, 100, 10)) := by
  obtain ⟨u, hu1, hspos, hu, -⟩ := unitNormal_line hsq p0 p1 h01 [] 0
  have hnu : n = rotate90 u := by rw [hn, hu]
  have hnorm : ∀ t, unitNormal sqrtf ⟨Verb.kLine_Verb, [p0, p1]⟩ t = some (n, u) := by
    intro t
    obtain ⟨u2, -, -, hu2, h⟩ := unitNormal_line hsq p0 p1 h01 [] t
    rw [h, hu2, ← hu, hnu]
  have hnn : n.fX * n.fX + n.fY * n.fY = 1 := by
    rw [hnu, ← hu1]
    simp only [rotate90, SkPoint.dot]
    ring
  refine ⟨_, getFillPath_single_line hsq st paint p0 p1 n u r hnorm hnn hr.ne', ?_, ?_⟩
  · simp [SkPath.empty, SkPath.moveTo, SkPath.quadTo, SkPath.lineTo,
      SkPath.injectMoveToIfNeeded, SkPath.close]
  · intro h0 h1 h10
    have hs : sqrtf ((p1.sub p0).dot (p1.sub p0)) = 100 := by
      apply sqrtf_unique hsq (by norm_num)
      rw [h0, h1]
      simp only [SkPoint.sub, SkPoint.dot]
      norm_num
    have hnv : n = ⟨0, -1⟩ := by
      rw [hn, hs, h0, h1]
      simp only [rotate90, SkPoint.sub, SkPoint.scale, SkPoint.mk.injEq]
      constructor <;> norm_num
    rw [hnv, h0, h1, h10]
    have hpts : ((((((SkPath.empty : SkPath K).moveTo
        ((⟨0, 0⟩ : SkPoint K).add ((⟨0, -1⟩ : SkPoint K).scale 10))).quadTo
        ((((⟨0, 0⟩ : SkPoint K).add ⟨100, 0⟩).scale (1 / 2)).add ((⟨0, -1⟩ : SkPoint K).scale 10))
        ((⟨100, 0⟩ : SkPoint K).add ((⟨0, -1⟩ : SkPoint K).scale 10))).lineTo
        ((⟨100, 0⟩ : SkPoint K).sub ((⟨0, -1⟩ : SkPoint K).scale 10))).quadTo
        ((((⟨0, 0⟩ : SkPoint K).add ⟨100, 0⟩).scale (1 / 2)).sub ((⟨0, -1⟩ : SkPoint K).scale 10))
        ((⟨0, 0⟩ : SkPoint K).sub ((⟨0, -1⟩ : SkPoint K).scale 10))).close).fPts
        = [⟨0, -10⟩, ⟨50, -10⟩, ⟨100, -10⟩, ⟨100, 10⟩, ⟨50, 10⟩, ⟨0, 10⟩] := by
      simp [SkPath.empty, SkPath.moveTo, SkPath.quadTo, SkPath.lineTo,
        SkPath.injectMoveToIfNeeded, SkPath.close, SkPoint.add, SkPoint.sub, SkPoint.scale]
      norm_num
    refine ⟨hpts, ?_⟩
    unfold SkPath.getBounds
    rw [hpts]
    simp only [List.foldl]
    norm_num

/-- Instance of `getFillPath_line_outline` over the reals with their square
root: the stroke of the line from `(0, 0)` to `(100, 0)` with the constant
distance `10`. -/
theorem getFillPath_line_outline_witness :
    ∃ out : SkPath ℝ,
      getFillPath Real.sqrt
        ⟨0, Cap.kButt_Cap, Join.kMiter_Join, SkPath.empty, SkPath.empty, mkEmpty, mkEmpty, 0⟩
        ((SkPath.empty.moveTo ⟨0, 0⟩).lineTo ⟨100, 0⟩) ⟨20, Cap.kButt_Cap, Join.kMiter_Join⟩
        (mkWeights 0 [10]) (mkWeights 0 [10]) = some out ∧
      out.fVerbs = [Verb.kMove_Verb, Verb.kQuad_Verb, Verb.kLine_Verb, Verb.kQuad_Verb,
        Verb.kClose_Verb] ∧
      out.fPts = [⟨0, -10⟩, ⟨50, -10⟩, ⟨100, -10⟩, ⟨100, 10⟩, ⟨50, 10⟩, ⟨0, 10⟩] ∧
      out.getBounds = (0, -10, 100, 10) := by
  obtain ⟨out, h1, h2, h3⟩ := getFillPath_line_outline real_sqrt_spec
    ⟨0, Cap.kButt_Cap, Join.kMiter_Join, SkPath.empty, SkPath.empty, mkEmpty, mkEmpty, 0⟩
    ⟨20, Cap.kButt_Cap, Join.kMiter_Join⟩ ⟨0, 0⟩ ⟨100, 0⟩ _ 10 (by simp) (by norm_num) rfl
  exact ⟨out, h1, by rw [h2], (h3 rfl rfl rfl).1, (h3 rfl rfl rfl).2⟩

/-- C19: for two consecutive line segments `a b` and `b c` with `a ≠ b`, `b ≠ c`
that meet at a right angle, in either turn direction, and a radius
`fRadius = r > 0`, `join` emits a miter point `m` (the common end point plus
`miterVec`) at the distance `r * sqrt 2` from the common end point `b`.  The
point goes to `fOuter` when the turn has a positive cross product and to
`fInner` otherwise. -/
theorem join_right_angle_miter_distance {sqrtf : K → K}
    (hsq : ∀ x, 0 ≤ x → 0 ≤ sqrtf x ∧ sqrtf x * sqrtf x = x)
    (st : SkVarWidthStroker K) (a b c : SkPoint K) (hab : a ≠ b) (hbc : b ≠ c)
    (hperp : (b.sub a).dot (c.sub b) = 0) (hr : 0 < st.fRadius) :
    ∃ m dest : SkPoint K,
      (m.sub b).length sqrtf = st.fRadius * sqrtf 2 ∧
      join sqrtf st ⟨Verb.kLine_Verb, [a, b]⟩ ⟨Verb.kLine_Verb, [b, c]⟩ = some
        (if 0 < (b.sub a).cross (c.sub b) then
          { st with
            fOuter := (st.fOuter.lineTo m).lineTo (b.add dest)
            fInner := (st.fInner.lineTo b).lineTo (b.sub dest) }
        else
          { st with
            fInner := (st.fInner.lineTo m).lineTo (b.add dest)
            fOuter := (st.fOuter.lineTo b).lineTo (b.sub dest) }) := by
  obtain ⟨u1, hu1, hs1, hu1e, hn1⟩ := unitNormal_line hsq a b hab [] 1
  obtain ⟨u2, hu2, hs2, hu2e, hn2⟩ := unitNormal_line hsq b c hbc [] 0
  have hdot : (rotate90 u1).dot (rotate90 u2) = 0 := by
    have h : (rotate90 u1).dot (rotate90 u2) = (b.sub a).dot (c.sub b) *
        (1 / sqrtf ((b.sub a).dot (b.sub a))) * (1 / sqrtf ((c.sub b).dot (c.sub b))) := by
      rw [hu1e, hu2e]; simp only [rotate90, SkPoint.dot, SkPoint.scale]; ring
    rw [h, hperp, zero_mul, zero_mul]
  have hcross : (rotate90 u1).cross (rotate90 u2) = (b.sub a).cross (c.sub b) *
      (1 / sqrtf ((b.sub a).dot (b.sub a)) * (1 / sqrtf ((c.sub b).dot (c.sub b)))) := by
    rw [hu1e, hu2e]; simp only [rotate90, SkPoint.cross, SkPoint.scale]; ring
  have hpos : 0 < 1 / sqrtf ((b.sub a).dot (b.sub a)) * (1 / sqrtf ((c.sub b).dot (c.sub b))) :=
    mul_pos (one_div_pos.2 hs1) (one_div_pos.2 hs2)
  have hcw : isClockwise (rotate90 u1) (rotate90 u2) = decide (0 < (b.sub a).cross (c.sub b)) := by
    unfold isClockwise
    rw [hcross]
    apply decide_eq_decide.2
    constructor
    · intro h; exact (pos_iff_pos_of_mul_pos h).2 hpos
    · intro h; exact mul_pos h hpos
  obtain ⟨m, dest, hm, hj⟩ := miterJoin_spec hsq st ⟨Verb.kLine_Verb, [a, b]⟩
    ⟨Verb.kLine_Verb, [b, c]⟩ (rotate90 u1) u1 (rotate90 u2) u2 hn1 hn2
    (by rw [← hu1]; simp only [rotate90, SkPoint.dot]; ring)
    (by rw [← hu2]; simp only [rotate90, SkPoint.dot]; ring) hr
    (by rw [hdot]; exact nearlyZero_one) (by rw [hdot]; norm_num)
  refine ⟨m, dest, ?_, ?_⟩
  · have hpt : (⟨Verb.kLine_Verb, [b, c]⟩ : PathSegment K).pt 0 = b := rfl
    rw [hpt, hdot, sqrtf_half hsq] at hm
    exact hm
  · rw [join_eq_miterJoin, hj, hcw]
    have hpt : (⟨Verb.kLine_Verb, [b, c]⟩ : PathSegment K).pt 0 = b := rfl
    rw [hpt]
    by_cases h : 0 < (b.sub a).cross (c.sub b)
    · simp only [h, decide_True, if_true]
    · simp only [h, decide_False, if_false, Bool.false_eq_true]

/-- Witness of C19 over the reals: the corner `(0, 0)`, `(100, 0)`, `(100, 50)`
with the radius `10`. -/
theorem join_right_angle_miter_distance_witness :
    ∃ m dest : SkPoint ℝ,
      (m.sub ⟨100, 0⟩).length Real.sqrt = 10 * Real.sqrt 2 ∧
      join Real.sqrt ⟨10, Cap.kButt_Cap, Join.kMiter_Join, SkPath.empty, SkPath.empty,
          mkEmpty, mkEmpty, 0⟩
        ⟨Verb.kLine_Verb, [⟨0, 0⟩, ⟨100, 0⟩]⟩ ⟨Verb.kLine_Verb, [⟨100, 0⟩, ⟨100, 50⟩]⟩ = some
        ⟨10, Cap.kButt_Cap, Join.kMiter_Join,
          (SkPath.empty.lineTo ⟨100, 0⟩).lineTo ((⟨100, 0⟩ : SkPoint ℝ).sub dest),
          (SkPath.empty.lineTo m).lineTo ((⟨100, 0⟩ : SkPoint ℝ).add dest),
          mkEmpty, mkEmpty, 0⟩ := by
  obtain ⟨m, dest, h1, h2⟩ := join_right_angle_miter_distance real_sqrt_spec
    ⟨10, Cap.kButt_Cap, Join.kMiter_Join, SkPath.empty, SkPath.empty, mkEmpty, mkEmpty, 0⟩
    ⟨0, 0⟩ ⟨100, 0⟩ ⟨100, 50⟩ (by simp) (by simp)
    (by simp [SkPoint.sub, SkPoint.dot]) (by norm_num)
  refine ⟨m, dest, h1, ?_⟩
  rw [h2]
  simp [SkPoint.sub, SkPoint.cross]

/-- The miter join written with its locals. -/
theorem miterJoin_locals (sqrtf : K → K) (st : SkVarWidthStroker K) (prev curr : PathSegment K) :
    miterJoin sqrtf st prev curr =
      (unitNormal sqrtf prev 1).bind fun nb =>
      (unitNormal sqrtf curr 0).bind fun na =>
      (miterNormals sqrtf prev curr).bind fun ba =>
      (miterSkipped sqrtf prev curr).bind fun skipped =>
      (miterSinHalfTheta sqrtf prev curr).bind fun sinHalfTheta =>
      if skipped then some st
      else
        let miterVec := ((ba.1.add ba.2).setLength sqrtf (st.fRadius / sinHalfTheta)).1
        (setLength sqrtf ba.2 st.fRadius).map fun dest =>
        if isClockwise nb.1 na.1 then
          { st with
            fOuter := (st.fOuter.lineTo ((curr.pt 0).add miterVec)).lineTo ((curr.pt 0).add dest)
            fInner := (st.fInner.lineTo (curr.pt 0)).lineTo ((curr.pt 0).sub dest) }
        else
          { st with
            fInner := (st.fInner.lineTo ((curr.pt 0).add miterVec)).lineTo ((curr.pt 0).add dest)
            fOuter := (st.fOuter.lineTo (curr.pt 0)).lineTo ((curr.pt 0).sub dest) } := by
  unfold miterJoin miterSkipped miterSinHalfTheta miterCosTheta miterNormals
  cases h1 : unitNormal sqrtf prev 1 with
  | none => rfl
  | some nb =>
    cases h2 : unitNormal sqrtf curr 0 with
    | none => rfl
    | some na =>
      simp only [Option.some_bind, Option.map_some']
      cases hcw : isClockwise nb.1 na.1 <;>
        simp only [Bool.not_false, Bool.not_true, if_true, if_false, Bool.false_eq_true]

/-- The asserting `setLength` fails for the length zero. -/
theorem setLength_zero_fails (sqrtf : K → K) (p : SkPoint K) : setLength sqrtf p 0 = none := by
  unfold VarWidthStroker.setLength SkPoint.setLength
  simp

/-- The asserting `setLength` on a vector of length one, for a length different
from zero: the vector is scaled by the length. -/
theorem setLength_unit {sqrtf : K → K}
    (hsq : ∀ x, 0 ≤ x → 0 ≤ sqrtf x ∧ sqrtf x * sqrtf x = x) (A : SkPoint K) (r : K)
    (hA : A.dot A = 1) (hr : r ≠ 0) : setLength sqrtf A r = some (A.scale r) := by
  have h1 := SkPoint_setLength_spec hsq A r 1 one_pos (by rw [mul_one]; exact hA) hr
  unfold VarWidthStroker.setLength
  rw [h1]
  simp [SkPoint.scale]

/-- The state after a miter join that is not skipped, for unit normals and a
radius different from zero; the normals may be opposite. -/
theorem miterJoin_last_points {sqrtf : K → K}
    (hsq : ∀ x, 0 ≤ x → 0 ≤ sqrtf x ∧ sqrtf x * sqrtf x = x)
    (st : SkVarWidthStroker K) (prev curr : PathSegment K) (nb tb na ta : SkPoint K)
    (hb : unitNormal sqrtf prev 1 = some (nb, tb))
    (ha : unitNormal sqrtf curr 0 = some (na, ta))
    (hna : na.dot na = 1) (hr : st.fRadius ≠ 0)
    (hskip : SkScalarNearlyZero (1 - nb.dot na) = false) :
    miterJoin sqrtf st prev curr = some
      (if isClockwise nb na then
        { st with
          fOuter := (st.fOuter.lineTo ((curr.pt 0).add ((nb.add na).setLength sqrtf
            (st.fRadius / sqrtf (1 / 2 * (1 + nb.dot na)))).1)).lineTo
              ((curr.pt 0).add (na.scale st.fRadius))
          fInner := (st.fInner.lineTo (curr.pt 0)).lineTo
            ((curr.pt 0).sub (na.scale st.fRadius)) }
      else
        { st with
          fInner := (st.fInner.lineTo ((curr.pt 0).add
            (((rotate180 nb).add (rotate180 na)).setLength sqrtf
              (st.fRadius / sqrtf (1 / 2 * (1 + nb.dot na)))).1)).lineTo
              ((curr.pt 0).add ((rotate180 na).scale st.fRadius))
          fOuter := (st.fOuter.lineTo (curr.pt 0)).lineTo
            ((curr.pt 0).sub ((rotate180 na).scale st.fRadius)) }) := by
  cases hcw : isClockwise nb na
  · have hd := setLength_unit hsq (rotate180 na) st.fRadius
      (by rw [rotate180_dot]; exact hna) hr
    unfold miterJoin
    simp only [hb, ha, Option.some_bind, hcw, Bool.not_false, if_true, rotate180_dot, hskip,
      hd, Option.map_some', Bool.false_eq_true, if_false]
  · have hd := setLength_unit hsq na st.fRadius hna hr
    unfold miterJoin
    simp only [hb, ha, Option.some_bind, hcw, Bool.not_true, if_true, hskip,
      hd, Option.map_some', Bool.false_eq_true, if_false]

/-- A miter join that is not skipped fails the assertion of `setLength` when the
radius is zero. -/
theorem miterJoin_radius_zero (sqrtf : K → K)
    (st : SkVarWidthStroker K) (prev curr : PathSegment K) (nb tb na ta : SkPoint K)
    (hb : unitNormal sqrtf prev 1 = some (nb, tb))
    (ha : unitNormal sqrtf curr 0 = some (na, ta)) (hr : st.fRadius = 0)
    (hskip : SkScalarNearlyZero (1 - nb.dot na) = false) :
    miterJoin sqrtf st prev curr = none := by
  unfold miterJoin
  cases hcw : isClockwise nb na <;>
    simp only [hb, ha, Option.some_bind, hcw, Bool.not_false, Bool.not_true, if_true,
      rotate180_dot, hskip, hr, setLength_zero_fails, Option.map_none', Bool.false_eq_true,
      if_false]

/-- The last point of a path after `lineTo(p)` is `p`. -/
theorem getLastPt_lineTo (path : SkPath K) (p : SkPoint K) : (path.lineTo p).getLastPt = p := by
  simp [SkPath.lineTo, SkPath.getLastPt]

/-- Subtracting a multiple of the turned normal adds the multiple of the normal. -/
theorem SkPoint_sub_rotate180 (c n : SkPoint K) (r : K) :
    c.sub ((rotate180 n).scale r) = c.add (n.scale r) := by
  simp only [rotate180, SkPoint.add, SkPoint.sub, SkPoint.scale, SkPoint.mk.injEq]
  constructor <;> ring

/-- Adding a multiple of the turned normal subtracts the multiple of the normal. -/
theorem SkPoint_add_rotate180 (c n : SkPoint K) (r : K) :
    c.add ((rotate180 n).scale r) = c.sub (n.scale r) := by
  simp only [rotate180, SkPoint.add, SkPoint.sub, SkPoint.scale, SkPoint.mk.injEq]
  constructor <;> ring

/-- The normals `before` and `after` of `miterJoin` in terms of the two unit
normals. -/
theorem miterNormals_eq (sqrtf : K → K) (prev curr : PathSegment K) (nb tb na ta : SkPoint K)
    (hb : unitNormal sqrtf prev 1 = some (nb, tb))
    (ha : unitNormal sqrtf curr 0 = some (na, ta)) :
    miterNormals sqrtf prev curr
      = some (if isClockwise nb na then (nb, na) else (rotate180 nb, rotate180 na)) := by
  unfold miterNormals
  simp only [hb, ha, Option.some_bind, Option.map_some']

/-- The local `cosTheta` of `miterJoin` is the dot product of the two unit
normals, whichever way the path turns. -/
theorem miterCosTheta_eq (sqrtf : K → K) (prev curr : PathSegment K) (nb tb na ta : SkPoint K)
    (hb : unitNormal sqrtf prev 1 = some (nb, tb))
    (ha : unitNormal sqrtf curr 0 = some (na, ta)) :
    miterCosTheta sqrtf prev curr = some (nb.dot na) := by
  unfold miterCosTheta
  rw [miterNormals_eq sqrtf prev curr nb tb na ta hb ha]
  cases isClockwise nb na <;> simp [rotate180_dot]

/-- For two vectors of length one that are not opposite the divisor
`sqrt(0.5 * (1 + cosTheta))` is positive. -/
theorem sinHalfTheta_pos {sqrtf : K → K}
    (hsq : ∀ x, 0 ≤ x → 0 ≤ sqrtf x ∧ sqrtf x * sqrtf x = x) (B A : SkPoint K)
    (hB : B.dot B = 1) (hA : A.dot A = 1) (hopp : B.dot A ≠ -1) :
    0 < sqrtf (1 / 2 * (1 + B.dot A)) := by
  obtain ⟨h1, -⟩ := unit_dot_bounds B A hB hA
  have hc : 0 < 1 + B.dot A := by
    rcases (show (0 : K) ≤ 1 + B.dot A by linarith).lt_or_eq with h | h
    · exact h
    · exfalso; apply hopp; linarith
  obtain ⟨hh0, hh1⟩ := hsq (1 / 2 * (1 + B.dot A)) (by linarith)
  rcases hh0.lt_or_eq with h | h
  · exact h
  · rw [← h] at hh1; simp at hh1; linarith

/-- The unit normal of the line `(0, 0) (1, 0)` at `1`. -/
theorem unitNormal_reverse_prev :
    unitNormal Real.sqrt ⟨Verb.kLine_Verb, [⟨0, 0⟩, ⟨1, 0⟩]⟩ 1
      = some ((⟨0, -1⟩ : SkPoint ℝ), ⟨1, 0⟩) := by
  rw [unitNormal_line_of_length real_sqrt_spec _ _ 1 (by norm_num) (by norm_num)]
  norm_num

/-- The unit normal of the line `(1, 0) (0, 0)` at `0`. -/
theorem unitNormal_reverse_curr :
    unitNormal Real.sqrt ⟨Verb.kLine_Verb, [⟨1, 0⟩, ⟨0, 0⟩]⟩ 0
      = some ((⟨0, 1⟩ : SkPoint ℝ), ⟨-1, 0⟩) := by
  rw [unitNormal_line_of_length real_sqrt_spec _ _ 1 (by norm_num) (by norm_num)]
  norm_num

/-- The unit normal of the line `(0, 0) (100, 0)` at `1`. -/
theorem unitNormal_corner_prev :
    unitNormal Real.sqrt ⟨Verb.kLine_Verb, [⟨0, 0⟩, ⟨100, 0⟩]⟩ 1
      = some ((⟨0, -1⟩ : SkPoint ℝ), ⟨1, 0⟩) := by
  rw [unitNormal_line_of_length real_sqrt_spec _ _ 100 (by norm_num) (by norm_num)]
  norm_num

/-- The unit normal of the line `(100, 0) (100, 50)`. -/
theorem unitNormal_corner_curr (t : ℝ) :
    unitNormal Real.sqrt ⟨Verb.kLine_Verb, [⟨100, 0⟩, ⟨100, 50⟩]⟩ t
      = some ((⟨1, 0⟩ : SkPoint ℝ), ⟨0, 1⟩) := by
  rw [unitNormal_line_of_length real_sqrt_spec _ _ 50 (by norm_num) (by norm_num)]
  norm_num

/-- The near-zero test of `miterJoin` in terms of the two unit normals. -/
theorem miterSkipped_eq (sqrtf : K → K) (prev curr : PathSegment K) (nb tb na ta : SkPoint K)
    (hb : unitNormal sqrtf prev 1 = some (nb, tb))
    (ha : unitNormal sqrtf curr 0 = some (na, ta)) :
    miterSkipped sqrtf prev curr = some (SkScalarNearlyZero (1 - nb.dot na)) := by
  unfold miterSkipped
  rw [miterCosTheta_eq sqrtf prev curr nb tb na ta hb ha]
  rfl

/-- The join at the corner `(0, 0)`, `(100, 0)`, `(100, 50)` is not skipped. -/
theorem miterSkipped_corner :
    miterSkipped Real.sqrt (⟨Verb.kLine_Verb, [⟨0, 0⟩, ⟨100, 0⟩]⟩ : PathSegment ℝ)
      ⟨Verb.kLine_Verb, [⟨100, 0⟩, ⟨100, 50⟩]⟩ = some false := by
  rw [miterSkipped_eq Real.sqrt _ _ _ _ _ _ unitNormal_corner_prev (unitNormal_corner_curr 0)]
  simp only [SkPoint.dot, SkScalarNearlyZero, Option.some.injEq, decide_eq_false_iff_not]
  norm_num

/-- Function `miterJoin` reads neither `fCap` nor `fJoin`. -/
theorem miterJoin_styles (sqrtf : K → K) (st : SkVarWidthStroker K) (cap : Cap) (jn : Join)
    (prev curr : PathSegment K) :
    miterJoin sqrtf { st with fCap := cap, fJoin := jn } prev curr
      = (miterJoin sqrtf st prev curr).map (fun s => { s with fCap := cap, fJoin := jn }) := by
  unfold miterJoin
  cases unitNormal sqrtf prev 1 with
  | none => rfl
  | some nb =>
    cases unitNormal sqrtf curr 0 with
    | none => rfl
    | some na =>
      simp only [Option.some_bind]
      cases hcw : isClockwise nb.1 na.1 <;>
        simp only [Bool.not_false, Bool.not_true, if_true, if_false, Bool.false_eq_true] <;>
        split <;> first
          | rfl
          | (cases setLength sqrtf _ st.fRadius <;> rfl)

/-- Method `join` does the same for every cap and join style. -/
theorem join_styles (sqrtf : K → K) (st : SkVarWidthStroker K) (cap : Cap) (jn : Join)
    (prev curr : PathSegment K) :
    join sqrtf { st with fCap := cap, fJoin := jn } prev curr
      = (join sqrtf st prev curr).map (fun s => { s with fCap := cap, fJoin := jn }) := by
  rw [join_eq_miterJoin, join_eq_miterJoin, miterJoin_styles]

/-- Method `strokeLine` reads neither `fCap` nor `fJoin`. -/
theorem strokeLine_styles (sqrtf : K → K) (st : SkVarWidthStroker K) (cap : Cap) (jn : Join)
    (line : PathSegment K) (needsMove : Bool) :
    strokeLine sqrtf { st with fCap := cap, fJoin := jn } line needsMove
      = (strokeLine sqrtf st line needsMove).map
          (fun s => { s with fCap := cap, fJoin := jn }) := by
  unfold strokeLine
  cases strokeSegment sqrtf line st.fVarWidth with
  | none => rfl
  | some outer =>
    cases strokeSegment sqrtf line (ScalarBezCurve.MulScalar st.fVarWidthInner (-1)) with
    | none => rfl
    | some inner => rfl

/-- Method `endcap` does the same for every cap and join style. -/
theorem endcap_styles (st : SkVarWidthStroker K) (cap : Cap) (jn : Join) (loc : CapLocation) :
    endcap { st with fCap := cap, fJoin := jn } loc
      = { endcap st loc with fCap := cap, fJoin := jn } := by
  cases loc
  · rw [endcap_Start, endcap_Start]
  · rw [endcap_End, endcap_End]

/-- One step of the loop of `getFillPath` commutes with a change of the cap and
join styles. -/
theorem getFillPathStep_styles (sqrtf : K → K) (cap : Cap) (jn : Join)
    (acc : Option (SkVarWidthStroker K × PathSegment K × Bool)) (segment : PathSegment K) :
    getFillPathStep sqrtf
        (acc.map (fun t => ({ t.1 with fCap := cap, fJoin := jn }, t.2))) segment
      = (getFillPathStep sqrtf acc segment).map
          (fun t => ({ t.1 with fCap := cap, fJoin := jn }, t.2)) := by
  cases acc with
  | none => rfl
  | some s =>
    obtain ⟨s1, prev, first⟩ := s
    unfold getFillPathStep
    simp only [Option.map_some', Option.some_bind]
    cases first
    · simp only [Bool.false_eq_true, if_false, join_styles]
      cases join sqrtf s1 prev segment with
      | none => rfl
      | some s2 =>
        simp only [Option.map_some', Option.some_bind]
        cases hv : segment.fVerb <;> simp only [strokeLine_styles, strokeQuad] <;>
          first
          | rfl
          | (cases strokeLine sqrtf s2 segment false <;> rfl)
    · simp only [if_true, Option.some_bind]
      cases hv : segment.fVerb <;> simp only [strokeLine_styles, strokeQuad] <;>
        first
        | rfl
        | (cases strokeLine sqrtf s1 segment true <;> rfl)

/-- The loop of `getFillPath` commutes with a change of the cap and join styles. -/
theorem getFillPath_fold_styles (sqrtf : K → K) (cap : Cap) (jn : Join)
    (segs : List (PathSegment K)) :
    ∀ acc : Option (SkVarWidthStroker K × PathSegment K × Bool),
      segs.foldl (getFillPathStep sqrtf)
          (acc.map (fun t => ({ t.1 with fCap := cap, fJoin := jn }, t.2)))
        = (segs.foldl (getFillPathStep sqrtf) acc).map
            (fun t => ({ t.1 with fCap := cap, fJoin := jn }, t.2)) := by
  induction segs with
  | nil => intro acc; rfl
  | cons seg rest ih =>
    intro acc
    simp only [List.foldl_cons]
    rw [getFillPathStep_styles, ih]

/-- The unit normal of the line from `(0, 0)` to `(x, 0)`, `x > 0`. -/
theorem unitNormal_x_axis {sqrtf : K → K}
    (hsq : ∀ x, 0 ≤ x → 0 ≤ sqrtf x ∧ sqrtf x * sqrtf x = x) (x t : K) (hx : 0 < x) :
    unitNormal sqrtf ⟨Verb.kLine_Verb, [⟨0, 0⟩, ⟨x, 0⟩]⟩ t
      = some ((⟨0, -1⟩ : SkPoint K), ⟨1, 0⟩) := by
  rw [unitNormal_line_of_length hsq _ _ x hx (by ring)]
  have : x ≠ 0 := hx.ne'
  simp only [sub_zero, zero_mul, one_div, mul_inv_cancel₀ this]

/-- The values at `0`, `1/2` and `1` of the curve with the weights `0, 0, ρ`. -/
theorem eval_quad_last (ρ : K) :
    (⟨2, [0, 0, ρ]⟩ : ScalarBezCurve K).eval 0 = 0 ∧
    (⟨2, [0, 0, ρ]⟩ : ScalarBezCurve K).eval (1 / 2) = ρ / 4 ∧
    (⟨2, [0, 0, ρ]⟩ : ScalarBezCurve K).eval 1 = ρ := by
  refine ⟨?_, ?_, ?_⟩
  · simp [eval, Eval, casteljauRow, List.range']
  · simp [eval, Eval, casteljauRow, List.range']; ring
  · simp [eval, Eval, casteljauRow, List.range']

/-- The quad that `approximateSegment` returns for the line from `(0, 0)` to
`(x, 0)` and the distance function with the weights `0, 0, ρ`. -/
theorem approximateSegment_x_axis {sqrtf : K → K}
    (hsq : ∀ x, 0 ≤ x → 0 ≤ sqrtf x ∧ sqrtf x * sqrtf x = x) (x ρ : K) (hx : 0 < x)
    (hρ : ρ ≠ 0) :
    approximateSegment sqrtf ⟨Verb.kLine_Verb, [⟨0, 0⟩, ⟨x, 0⟩]⟩ ⟨2, [0, 0, ρ]⟩
      = some ⟨Verb.kQuad_Verb, [⟨0, 0⟩, ⟨x / 2, -(ρ / 4)⟩, ⟨x, -ρ⟩]⟩ := by
  obtain ⟨e0, eh, e1⟩ := eval_quad_last ρ
  have hs1 := SkPoint_setLength_spec hsq (⟨0, -1⟩ : SkPoint K) ρ 1 one_pos (by norm_num) hρ
  have hs2 := SkPoint_setLength_spec hsq ((⟨0, -1⟩ : SkPoint K).add ⟨0, -1⟩) (ρ / 4) 2 two_pos
    (by simp only [SkPoint.add]; norm_num) (div_ne_zero hρ (by norm_num))
  have hs0 : ((⟨0, -1⟩ : SkPoint K).setLength sqrtf 0).1 = ⟨0, 0⟩ := by
    simp [SkPoint.setLength]
  have hdeg : segmentDegree (⟨Verb.kLine_Verb, [⟨0, 0⟩, ⟨x, 0⟩]⟩ : PathSegment K) = some 1 := rfl
  unfold approximateSegment
  simp only [unitNormal_x_axis hsq x _ hx, Option.some_bind, e0, eh, e1, hs0, hs1, hs2, hdeg,
    if_true, Option.map_some', PathSegment.pt, List.getD_cons_zero, List.getD_cons_succ]
  congr 2
  simp only [SkPoint.add, SkPoint.scale, List.cons.injEq, SkPoint.mk.injEq, and_true]
  refine ⟨⟨by ring, by ring⟩, ⟨by ring, by ring⟩, ⟨by ring, by ring⟩⟩

/-- The error curve of the candidate `(0, 0)`, `(x / 2, -ρ / 4)`, `(x, -ρ)` for the
line from `(0, 0)` to `(x, 0)`, against the squared distance function with the
weights `0, 0, 0, 0, ρ * ρ`. -/
theorem errorCurve_x_axis (seg : PathSegment K) (D : ScalarBezCurve K) (x ρ : K) :
    errorCurve ⟨seg, D, ⟨4, [0, 0, 0, 0, ρ * ρ]⟩, ⟨1, [0, x]⟩, ⟨1, [0, 0]⟩⟩
        ⟨Verb.kQuad_Verb, [⟨0, 0⟩, ⟨x / 2, -(ρ / 4)⟩, ⟨x, -ρ⟩]⟩
      = some (⟨4, [0, 0, ρ * ρ / 24, ρ * ρ / 4, 0]⟩, ⟨4, [0, 0, 0, 0, ρ * ρ]⟩) := by
  have hmax1 : max (2 : Int) 1 = 2 := by decide
  have hmax2 : max (4 : Int) 4 = 4 := by decide
  unfold errorCurve
  simp only [coordCurve_quad, degree, hmax1, elevateDegree_line, Option.some_bind]
  rw [show (⟨2, [(0 : K), x / 2, x]⟩ : ScalarBezCurve K).elevateDegree 2 = some _
    from elevateDegree_same _]
  rw [show (⟨2, [(0 : K), -(ρ / 4), -ρ]⟩ : ScalarBezCurve K).elevateDegree 2 = some _
    from elevateDegree_same _]
  simp only [Option.some_bind, Sub_quad, AddSquares_quad, hmax2]
  rw [show (⟨4, [(0 : K), 0, 0, 0, ρ * ρ]⟩ : ScalarBezCurve K).elevateDegree 4 = some _
    from elevateDegree_same _]
  simp only [Option.some_bind]
  rw [show (⟨4, _⟩ : ScalarBezCurve K).elevateDegree 4 = some _ from elevateDegree_same _]
  simp only [Option.some_bind, sub_quartic]
  simp only [Option.map_some']
  congr 3
  refine List.cons_eq_cons.2 ⟨by ring, List.cons_eq_cons.2 ⟨by ring, List.cons_eq_cons.2
    ⟨by ring, List.cons_eq_cons.2 ⟨by ring, List.cons_eq_cons.2 ⟨by ring, rfl⟩⟩⟩⟩⟩

/-- The extremal weight of the error curve with the weights
`0, 0, ρ^2 / 24, ρ^2 / 4, 0`. -/
theorem extremumWeight_error (ρ : K) (hρ : 0 < ρ) :
    (⟨4, [0, 0, ρ * ρ / 24, ρ * ρ / 4, 0]⟩ : ScalarBezCurve K).extremumWeight = ρ * ρ / 4 := by
  have h2 : 0 < ρ * ρ := mul_pos hρ hρ
  obtain ⟨j, hj, he, hmax, -⟩ := extremumWeight_aux
    (⟨4, [0, 0, ρ * ρ / 24, ρ * ρ / 4, 0]⟩ : ScalarBezCurve K) (by simp)
  have h3 := hmax 3 (by simp)
  rw [he]
  have hj5 : j < 5 := hj
  have hb : |ρ * ρ / 4| = ρ * ρ / 4 := abs_of_pos (by linarith)
  have ha : |ρ * ρ / 24| = ρ * ρ / 24 := abs_of_pos (by linarith)
  interval_cases j <;> simp only [List.getD_cons_zero, List.getD_cons_succ, abs_zero, hb, ha]
    at h3 ⊢ <;> linarith

/-- The extremal weight of the curve with the weights `0, 0, ρ`, `ρ > 0`. -/
theorem extremumWeight_quad_last (ρ : K) (hρ : 0 < ρ) :
    (⟨2, [0, 0, ρ]⟩ : ScalarBezCurve K).extremumWeight = ρ := by
  obtain ⟨j, hj, he, hmax, -⟩ := extremumWeight_aux
    (⟨2, [0, 0, ρ]⟩ : ScalarBezCurve K) (by simp)
  have h3 := hmax 2 (by simp)
  rw [he]
  have hj3 : j < 3 := hj
  have hb : |ρ| = ρ := abs_of_pos hρ
  interval_cases j <;> simp only [List.getD_cons_zero, List.getD_cons_succ, abs_zero, hb]
    at h3 ⊢ <;> linarith

/-- The left half of the curve with the weights `0, 0, ρ`. -/
theorem Split_quad_last (ρ : K) :
    ((⟨2, [0, 0, ρ]⟩ : ScalarBezCurve K).split (1 / 2)).1 = ⟨2, [0, 0, ρ / 4]⟩ := by
  simp [split, Split, splitLoop, casteljauRow, mkDegree, List.range']
  ring

/-- The left half of the curve with the weights `0, 0, 0, 0, S`. -/
theorem Split_quartic_last (S : K) :
    ((⟨4, [0, 0, 0, 0, S]⟩ : ScalarBezCurve K).split (1 / 2)).1 = ⟨4, [0, 0, 0, 0, S / 16]⟩ := by
  simp [split, Split, splitLoop, casteljauRow, mkDegree, List.range']
  ring

/-- The halves of the line from `(0, 0)` to `(x, 0)`. -/
theorem splitSegment_x_axis (x : K) :
    splitSegment (⟨Verb.kLine_Verb, [⟨0, 0⟩, ⟨x, 0⟩]⟩ : PathSegment K) (1 / 2)
      = some (⟨Verb.kLine_Verb, [⟨0, 0⟩, ⟨x / 2, 0⟩]⟩,
          ⟨Verb.kLine_Verb, [⟨x / 2, 0⟩, ⟨x, 0⟩]⟩) := by
  have hdeg : segmentDegree (⟨Verb.kLine_Verb, [⟨0, 0⟩, ⟨x, 0⟩]⟩ : PathSegment K) = some 1 := rfl
  unfold splitSegment
  rw [hdeg]
  simp [coordCurve, split, Split, splitLoop, casteljauRow, mkDegree, List.range', List.range,
    List.range.loop]
  ring

/-- One round of the loop of `strokeSegment` on the line from `(0, 0)` to
`(x, 0)` with the distance function of weights `0, 0, ρ`, `ρ > 2`: the candidate
is rejected and the left half, with the weights `0, 0, ρ / 4`, is on top of the
stack. -/
theorem strokeSegmentLoop_x_axis_round {sqrtf : K → K}
    (hsq : ∀ x, 0 ≤ x → 0 ≤ sqrtf x ∧ sqrtf x * sqrtf x = x) (n : Nat) (x ρ : K)
    (hx : 0 < x) (hρ : 2 < ρ) (stack : List (Item K)) (result : List (PathSegment K)) :
    ∃ right : Item K,
      strokeSegmentLoop sqrtf (n + 1)
        (⟨⟨Verb.kLine_Verb, [⟨0, 0⟩, ⟨x, 0⟩]⟩, ⟨2, [0, 0, ρ]⟩, ⟨4, [0, 0, 0, 0, ρ * ρ]⟩,
          ⟨1, [0, x]⟩, ⟨1, [0, 0]⟩⟩ :: stack) result
      = strokeSegmentLoop sqrtf n
        (⟨⟨Verb.kLine_Verb, [⟨0, 0⟩, ⟨x / 2, 0⟩]⟩, ⟨2, [0, 0, ρ / 4]⟩,
          ⟨4, [0, 0, 0, 0, ρ / 4 * (ρ / 4)]⟩, ⟨1, [0, x / 2]⟩, ⟨1, [0, 0]⟩⟩ :: right :: stack)
        result := by
  have hρ0 : 0 < ρ := by linarith
  have herr : |(⟨4, [0, 0, ρ * ρ / 24, ρ * ρ / 4, 0]⟩ : ScalarBezCurve K).extremumWeight|
      > |1 / 2 * (⟨2, [0, 0, ρ]⟩ : ScalarBezCurve K).extremumWeight| := by
    rw [extremumWeight_error ρ hρ0, extremumWeight_quad_last ρ hρ0,
      abs_of_pos (by positivity), abs_of_pos (by positivity)]
    nlinarith
  have hleft : Item.make (⟨Verb.kLine_Verb, [⟨0, 0⟩, ⟨x / 2, 0⟩]⟩ : PathSegment K)
      ⟨2, [0, 0, ρ / 4]⟩ ⟨4, [0, 0, 0, 0, ρ * ρ / 16]⟩
      = some ⟨⟨Verb.kLine_Verb, [⟨0, 0⟩, ⟨x / 2, 0⟩]⟩, ⟨2, [0, 0, ρ / 4]⟩,
          ⟨4, [0, 0, 0, 0, ρ / 4 * (ρ / 4)]⟩, ⟨1, [0, x / 2]⟩, ⟨1, [0, 0]⟩⟩ := by
    rw [show ρ * ρ / 16 = ρ / 4 * (ρ / 4) by ring]
    rfl
  obtain ⟨right, hright⟩ : ∃ right, Item.make
      (⟨Verb.kLine_Verb, [⟨x / 2, 0⟩, ⟨x, 0⟩]⟩ : PathSegment K)
      ((⟨2, [0, 0, ρ]⟩ : ScalarBezCurve K).split (1 / 2)).2
      ((⟨4, [0, 0, 0, 0, ρ * ρ]⟩ : ScalarBezCurve K).split (1 / 2)).2 = some right :=
    ⟨_, rfl⟩
  refine ⟨right, ?_⟩
  rw [strokeSegmentLoop]
  simp only [approximateSegment_x_axis hsq x ρ hx hρ0.ne', Option.some_bind,
    errorCurve_x_axis, if_pos herr, splitSegment_x_axis, Split_quad_last, Split_quartic_last,
    hright, hleft]

/-- The loop of `strokeSegment` accepts no candidate in `n` rounds when the last
weight of the distance function is at least `4 ^ n`. -/
theorem strokeSegmentLoop_x_axis {sqrtf : K → K}
    (hsq : ∀ x, 0 ≤ x → 0 ≤ sqrtf x ∧ sqrtf x * sqrtf x = x) :
    ∀ (n : Nat) (x ρ : K), 0 < x → 4 ^ n ≤ ρ → ∀ stack : List (Item K),
      strokeSegmentLoop sqrtf n
        (⟨⟨Verb.kLine_Verb, [⟨0, 0⟩, ⟨x, 0⟩]⟩, ⟨2, [0, 0, ρ]⟩, ⟨4, [0, 0, 0, 0, ρ * ρ]⟩,
          ⟨1, [0, x]⟩, ⟨1, [0, 0]⟩⟩ :: stack) [] = some [] := by
  intro n
  induction n with
  | zero => intro x ρ _ _ stack; rfl
  | succ n ih =>
    intro x ρ hx hρ stack
    have h4 : (4 : K) ≤ 4 ^ (n + 1) := by
      rw [pow_succ]
      have : (1 : K) ≤ 4 ^ n := one_le_pow₀ (by norm_num)
      linarith
    obtain ⟨right, hstep⟩ := strokeSegmentLoop_x_axis_round hsq n x ρ hx (by linarith) stack []
    rw [hstep]
    apply ih (x / 2) (ρ / 4) (by linarith)
    rw [pow_succ] at hρ
    linarith

/-- The square of the curve with the weights `0, 0, R`. -/
theorem Mul_quad_last (R : K) :
    ScalarBezCurve.Mul (⟨2, [0, 0, R]⟩ : ScalarBezCurve K) ⟨2, [0, 0, R]⟩
      = ⟨4, [0, 0, 0, 0, R * R]⟩ := by
  obtain ⟨h00, h10, h11, h20, h21, h22, h40, h41, h42, h43, h44⟩ := choose_small
  simp [ScalarBezCurve.Mul, degree, mkDegree, blend, List.range, List.range.loop,
    List.range', h20, h21, h22, h40, h41, h42, h43, h44, u64]

/-- `strokeSegment` fails its final assertion on a line of length one when the
last weight of the quadratic distance function is `4 ^ 5000`. -/
theorem strokeSegment_x_axis_fails {sqrtf : K → K}
    (hsq : ∀ x, 0 ≤ x → 0 ≤ sqrtf x ∧ sqrtf x * sqrtf x = x) :
    strokeSegment sqrtf ⟨Verb.kLine_Verb, [⟨0, 0⟩, ⟨1, 0⟩]⟩ ⟨2, [0, 0, 4 ^ 5000]⟩ = none := by
  have hitem : Item.make (⟨Verb.kLine_Verb, [⟨0, 0⟩, ⟨1, 0⟩]⟩ : PathSegment K)
      ⟨2, [0, 0, 4 ^ 5000]⟩ ⟨4, [0, 0, 0, 0, 4 ^ 5000 * 4 ^ 5000]⟩
      = some ⟨⟨Verb.kLine_Verb, [⟨0, 0⟩, ⟨1, 0⟩]⟩, ⟨2, [0, 0, 4 ^ 5000]⟩,
          ⟨4, [0, 0, 0, 0, 4 ^ 5000 * 4 ^ 5000]⟩, ⟨1, [0, 1]⟩, ⟨1, [0, 0]⟩⟩ := rfl
  unfold strokeSegment
  rw [Mul_quad_last, hitem]
  simp only [Option.some_bind]
  rw [show kMaxIters = 5000 from rfl,
    strokeSegmentLoop_x_axis hsq 5000 1 (4 ^ 5000) one_pos le_rfl []]
  rfl

/-- The body of the loop of `strokeSegment` runs at most as often as the budget
allows. -/
theorem strokeSegmentRounds_le (sqrtf : K → K) :
    ∀ (n : Nat) (stack : List (Item K)), strokeSegmentRounds sqrtf n stack ≤ n := by
  intro n
  induction n with
  | zero => intro stack; simp [strokeSegmentRounds]
  | succ n ih =>
    intro stack
    cases stack with
    | nil => simp [strokeSegmentRounds]
    | cons item stack =>
      rw [strokeSegmentRounds]
      split
      · omega
      · have := ih ‹_›
        omega

/-- Every round of the loop of `strokeSegment` appends at most one quad. -/
theorem strokeSegmentLoop_length (sqrtf : K → K) :
    ∀ (n : Nat) (stack : List (Item K)) (result out : List (PathSegment K)),
      strokeSegmentLoop sqrtf n stack result = some out →
      out.length ≤ result.length + strokeSegmentRounds sqrtf n stack := by
  intro n
  induction n with
  | zero =>
    intro stack result out h
    rw [strokeSegmentLoop] at h
    simp only [Option.some.injEq] at h
    rw [← h]; omega
  | succ n ih =>
    intro stack result out h
    cases stack with
    | nil =>
      rw [strokeSegmentLoop] at h
      simp only [Option.some.injEq] at h
      rw [← h]; omega
    | cons item stack =>
      rw [strokeSegmentLoop] at h
      rw [strokeSegmentRounds]
      cases ha : approximateSegment sqrtf item.fSeg item.fDistFnc with
      | none => rw [ha] at h; simp at h
      | some q =>
        rw [ha] at h
        simp only [Option.some_bind] at h ⊢
        cases he : errorCurve item q with
        | none => rw [he] at h; simp at h
        | some ed =>
          rw [he] at h
          simp only [Option.some_bind] at h ⊢
          by_cases hc : |ed.1.extremumWeight| > |1 / 2 * item.fDistFnc.extremumWeight|
          · rw [if_pos hc] at h ⊢
            cases hs : splitSegment item.fSeg (1 / 2) with
            | none => rw [hs] at h; simp at h
            | some lr =>
              rw [hs] at h
              simp only [Option.some_bind] at h ⊢
              cases hr : Item.make lr.2 (item.fDistFnc.split (1 / 2)).2 (ed.2.split (1 / 2)).2 with
              | none => rw [hr] at h; simp at h
              | some right =>
                rw [hr] at h
                simp only [Option.some_bind] at h ⊢
                cases hl : Item.make lr.1 (item.fDistFnc.split (1 / 2)).1
                    (ed.2.split (1 / 2)).1 with
                | none => rw [hl] at h; simp at h
                | some left =>
                  rw [hl] at h
                  simp only [Option.some_bind, Option.map_some'] at h ⊢
                  have := ih _ _ _ h
                  omega
          · rw [if_neg hc] at h ⊢
            have := ih _ _ _ h
            simp only [List.length_append, List.length_singleton] at this
            show out.length ≤ result.length + (1 + strokeSegmentRounds sqrtf n stack)
            omega

/-- A `lineTo` keeps an open contour open. -/
theorem OpenContour_lineTo (path : SkPath K) (p : SkPoint K) (h : path.OpenContour) :
    (path.lineTo p).OpenContour := by
  obtain ⟨mid, hv, hm, hi⟩ := h
  have hinj : path.injectMoveToIfNeeded = path := by
    unfold SkPath.injectMoveToIfNeeded
    rw [if_neg (not_lt.2 hi)]
  refine ⟨mid ++ [Verb.kLine_Verb], ?_, ?_, ?_⟩
  · simp only [SkPath.lineTo, hinj, hv, List.cons_append]
  · intro x hx
    rcases List.mem_append.1 hx with h1 | h1
    · exact hm x h1
    · left; simpa using h1
  · simp only [SkPath.lineTo, hinj]; exact hi

/-- A `quadTo` keeps an open contour open. -/
theorem OpenContour_quadTo (path : SkPath K) (p1 p2 : SkPoint K) (h : path.OpenContour) :
    (path.quadTo p1 p2).OpenContour := by
  obtain ⟨mid, hv, hm, hi⟩ := h
  have hinj : path.injectMoveToIfNeeded = path := by
    unfold SkPath.injectMoveToIfNeeded
    rw [if_neg (not_lt.2 hi)]
  refine ⟨mid ++ [Verb.kQuad_Verb], ?_, ?_, ?_⟩
  · simp only [SkPath.quadTo, hinj, hv, List.cons_append]
  · intro x hx
    rcases List.mem_append.1 hx with h1 | h1
    · exact hm x h1
    · right; simpa using h1
  · simp only [SkPath.quadTo, hinj]; exact hi

omit [LinearOrderedField K] in
/-- A `moveTo` on the empty path starts an open contour. -/
theorem OpenContour_moveTo_empty (p : SkPoint K) :
    ((SkPath.empty : SkPath K).moveTo p).OpenContour :=
  ⟨[], rfl, fun x hx => absurd hx (List.not_mem_nil x), le_rfl⟩

/-- Appending quads keeps an open contour open. -/
theorem OpenContour_quads (segs : List (PathSegment K)) :
    ∀ path : SkPath K, path.OpenContour →
      (segs.foldl (fun path seg => path.quadTo (seg.pt 1) (seg.pt 2)) path).OpenContour := by
  induction segs with
  | nil => intro path h; exact h
  | cons seg rest ih =>
    intro path h
    exact ih _ (OpenContour_quadTo path _ _ h)

omit [LinearOrderedField K] in
/-- Closing an open contour gives one move, lines and quads, and one close. -/
theorem OpenContour_close (path : SkPath K) (h : path.OpenContour) :
    ∃ mid : List Verb, path.close.fVerbs = Verb.kMove_Verb :: mid ++ [Verb.kClose_Verb] ∧
      ∀ x ∈ mid, x = Verb.kLine_Verb ∨ x = Verb.kQuad_Verb := by
  obtain ⟨mid, hv, hm, -⟩ := h
  refine ⟨mid, ?_, hm⟩
  have hlast : ∃ x, path.fVerbs.getLast? = some x ∧ x ≠ Verb.kClose_Verb := by
    rw [hv]
    rcases List.eq_nil_or_concat mid with h0 | ⟨l, a, h0⟩
    · rw [h0]; exact ⟨Verb.kMove_Verb, rfl, by decide⟩
    · refine ⟨a, ?_, ?_⟩
      · rw [h0, List.concat_eq_append, ← List.cons_append, List.getLast?_append]; rfl
      · have := hm a (by rw [h0]; simp)
        rcases this with h1 | h1 <;> rw [h1] <;> decide
  obtain ⟨x, hx, hne⟩ := hlast
  unfold SkPath.close
  simp only [hx]
  cases x <;> first
    | exact absurd rfl hne
    | (simp only [hv, List.cons_append])

/-- Function `miterJoin` keeps the open contour of `fOuter`. -/
theorem miterJoin_OpenContour (sqrtf : K → K) (st st1 : SkVarWidthStroker K)
    (prev curr : PathSegment K) (h : miterJoin sqrtf st prev curr = some st1)
    (ho : st.fOuter.OpenContour) : st1.fOuter.OpenContour := by
  unfold miterJoin at h
  cases h1 : unitNormal sqrtf prev 1 with
  | none => rw [h1] at h; simp at h
  | some nb =>
    cases h2 : unitNormal sqrtf curr 0 with
    | none => rw [h1, h2] at h; simp at h
    | some na =>
      rw [h1, h2] at h
      simp only [Option.some_bind] at h
      cases hcw : isClockwise nb.1 na.1 <;> rw [hcw] at h <;>
        simp only [Bool.not_false, Bool.not_true, if_true, if_false, Bool.false_eq_true] at h
      · split at h
        · simp only [Option.some.injEq] at h; rw [← h]; exact ho
        · cases hd : setLength sqrtf (rotate180 na.1) st.fRadius with
          | none => rw [hd] at h; simp at h
          | some dest =>
            rw [hd] at h
            simp only [Option.map_some', Option.some.injEq] at h
            rw [← h]
            exact OpenContour_lineTo _ _ (OpenContour_lineTo _ _ ho)
      · split at h
        · simp only [Option.some.injEq] at h; rw [← h]; exact ho
        · cases hd : setLength sqrtf na.1 st.fRadius with
          | none => rw [hd] at h; simp at h
          | some dest =>
            rw [hd] at h
            simp only [Option.map_some', Option.some.injEq] at h
            rw [← h]
            exact OpenContour_lineTo _ _ (OpenContour_lineTo _ _ ho)

/-- Method `strokeLine` leaves an open contour in `fOuter`. -/
theorem strokeLine_OpenContour (sqrtf : K → K) (st st1 : SkVarWidthStroker K)
    (line : PathSegment K) (needsMove : Bool)
    (h : strokeLine sqrtf st line needsMove = some st1)
    (ho : if needsMove then st.fOuter = SkPath.empty else st.fOuter.OpenContour) :
    st1.fOuter.OpenContour := by
  unfold strokeLine at h
  cases h1 : strokeSegment sqrtf line st.fVarWidth with
  | none => rw [h1] at h; simp at h
  | some outer =>
    cases h2 : strokeSegment sqrtf line (ScalarBezCurve.MulScalar st.fVarWidthInner (-1)) with
    | none => rw [h1, h2] at h; simp at h
    | some inner =>
      rw [h1, h2] at h
      simp only [Option.some_bind, Option.some.injEq] at h
      rw [← h]
      apply OpenContour_quads
      cases needsMove
      · simpa using ho
      · simp only [if_true] at ho ⊢
        rw [ho]
        exact OpenContour_moveTo_empty _

/-- One step of the loop of `getFillPath` leaves an open contour in `fOuter`. -/
theorem getFillPathStep_OpenContour (sqrtf : K → K) (s s1 : SkVarWidthStroker K)
    (prev prev1 : PathSegment K) (first first1 : Bool) (segment : PathSegment K)
    (hv : segment.fVerb = Verb.kLine_Verb ∨ segment.fVerb = Verb.kQuad_Verb)
    (h : getFillPathStep sqrtf (some (s, prev, first)) segment = some (s1, prev1, first1))
    (ho : if first then s.fOuter = SkPath.empty else s.fOuter.OpenContour) :
    first1 = false ∧ s1.fOuter.OpenContour := by
  unfold getFillPathStep at h
  simp only [Option.some_bind] at h
  cases first
  · simp only [Bool.false_eq_true, if_false] at h ho
    cases hj : join sqrtf s prev segment with
    | none => rw [hj] at h; simp at h
    | some s2 =>
      rw [hj] at h
      simp only [Option.some_bind] at h
      have ho2 : s2.fOuter.OpenContour :=
        miterJoin_OpenContour sqrtf s s2 prev segment (by rw [← join_eq_miterJoin]; exact hj) ho
      rcases hv with hv | hv <;> rw [hv] at h <;> simp only [strokeQuad] at h
      · cases hs : strokeLine sqrtf s2 segment false with
        | none => rw [hs] at h; simp at h
        | some s3 =>
          rw [hs] at h
          simp only [Option.map_some', Option.some.injEq, Prod.mk.injEq] at h
          obtain ⟨h1, -, h3⟩ := h
          refine ⟨h3.symm, ?_⟩
          rw [← h1]
          exact strokeLine_OpenContour sqrtf s2 s3 segment false hs (by simpa using ho2)
      · cases hs : strokeLine sqrtf s2 segment false with
        | none => rw [hs] at h; simp at h
        | some s3 =>
          rw [hs] at h
          simp only [Option.map_some', Option.some.injEq, Prod.mk.injEq] at h
          obtain ⟨h1, -, h3⟩ := h
          refine ⟨h3.symm, ?_⟩
          rw [← h1]
          exact strokeLine_OpenContour sqrtf s2 s3 segment false hs (by simpa using ho2)
  · simp only [if_true, Option.some_bind] at h ho
    rcases hv with hv | hv <;> rw [hv] at h <;> simp only [strokeQuad] at h
    · cases hs : strokeLine sqrtf s segment true with
      | none => rw [hs] at h; simp at h
      | some s3 =>
        rw [hs] at h
        simp only [Option.map_some', Option.some.injEq, Prod.mk.injEq] at h
        obtain ⟨h1, -, h3⟩ := h
        refine ⟨h3.symm, ?_⟩
        rw [← h1]
        exact strokeLine_OpenContour sqrtf s s3 segment true hs (by simpa using ho)
    · cases hs : strokeLine sqrtf s segment true with
      | none => rw [hs] at h; simp at h
      | some s3 =>
        rw [hs] at h
        simp only [Option.map_some', Option.some.injEq, Prod.mk.injEq] at h
        obtain ⟨h1, -, h3⟩ := h
        refine ⟨h3.symm, ?_⟩
        rw [← h1]
        exact strokeLine_OpenContour sqrtf s s3 segment true hs (by simpa using ho)

/-- The loop of `getFillPath` stays failed after a failed assertion. -/
theorem getFillPath_fold_none (sqrtf : K → K) (segs : List (PathSegment K)) :
    segs.foldl (getFillPathStep sqrtf) none = none := by
  induction segs with
  | nil => rfl
  | cons seg rest ih => simp only [List.foldl_cons]; exact ih

/-- The loop of `getFillPath` over lines and quads leaves an open contour in
`fOuter`. -/
theorem getFillPath_fold_OpenContour (sqrtf : K → K) (segs : List (PathSegment K)) :
    (∀ seg ∈ segs, seg.fVerb = Verb.kLine_Verb ∨ seg.fVerb = Verb.kQuad_Verb) →
    ∀ (s s1 : SkVarWidthStroker K) (prev prev1 : PathSegment K) (first first1 : Bool),
      segs.foldl (getFillPathStep sqrtf) (some (s, prev, first)) = some (s1, prev1, first1) →
      (if first then s.fOuter = SkPath.empty else s.fOuter.OpenContour) →
      segs ≠ [] → s1.fOuter.OpenContour := by
  induction segs with
  | nil => intro _ s s1 prev prev1 first first1 _ _ hne; exact absurd rfl hne
  | cons seg rest ih =>
    intro hv s s1 prev prev1 first first1 h ho _
    simp only [List.foldl_cons] at h
    cases hstep : getFillPathStep sqrtf (some (s, prev, first)) seg with
    | none => rw [hstep, getFillPath_fold_none] at h; simp at h
    | some acc =>
      obtain ⟨s2, prev2, first2⟩ := acc
      rw [hstep] at h
      obtain ⟨hf, ho2⟩ := getFillPathStep_OpenContour sqrtf s s2 prev prev2 first first2 seg
        (hv seg (List.mem_cons_self _ _)) hstep ho
      cases rest with
      | nil =>
        simp only [List.foldl_nil, Option.some.injEq, Prod.mk.injEq] at h
        rw [← h.1]; exact ho2
      | cons seg2 rest2 =>
        exact ih (fun x hx => hv x (List.mem_cons_of_mem _ hx)) s2 s1 prev2 prev1 first2 first1 h
          (by rw [hf]; simpa using ho2) (List.cons_ne_nil _ _)

/-- The segments of a list of line and quad verbs are lines and quads, and there
is one when there is a verb. -/
theorem iterSegments_lines_quads (verbs : List Verb) :
    (∀ x ∈ verbs, x = Verb.kLine_Verb ∨ x = Verb.kQuad_Verb) →
    ∀ (pts : List (SkPoint K)) (lastPt moveTo : SkPoint K),
      (∀ seg ∈ iterSegments verbs pts lastPt moveTo,
        seg.fVerb = Verb.kLine_Verb ∨ seg.fVerb = Verb.kQuad_Verb) ∧
      (verbs ≠ [] → iterSegments verbs pts lastPt moveTo ≠ []) := by
  induction verbs with
  | nil =>
    intro _ pts lastPt moveTo
    exact ⟨fun seg hs => by simp [iterSegments] at hs, fun h => absurd rfl h⟩
  | cons v rest ih =>
    intro hv pts lastPt moveTo
    have hrest : ∀ x ∈ rest, x = Verb.kLine_Verb ∨ x = Verb.kQuad_Verb :=
      fun x hx => hv x (List.mem_cons_of_mem _ hx)
    rcases hv v (List.mem_cons_self _ _) with h | h <;> rw [h] <;>
      simp only [iterSegments, List.mem_cons, ne_eq, not_false_eq_true, implies_true, and_true,
        reduceCtorEq] <;>
      intro seg hs <;> rcases hs with hs | hs
    · left; rw [hs]
    · exact (ih hrest _ _ _).1 seg hs
    · right; rw [hs]
    · exact (ih hrest _ _ _).1 seg hs

/-- The loop of `appendPathReversed` keeps an open contour open. -/
theorem appendReversedLoop_OpenContour (points : List (SkPoint K)) (verbs : List Verb) :
    ∀ (j j1 : Int) (result result1 : SkPath K),
      appendReversedLoop points verbs (j, result) = some (j1, result1) →
      result.OpenContour → result1.OpenContour := by
  induction verbs with
  | nil =>
    intro j j1 result result1 h ho
    simp only [appendReversedLoop, Option.some.injEq, Prod.mk.injEq] at h
    rw [← h.2]; exact ho
  | cons v rest ih =>
    intro j j1 result result1 h ho
    cases v <;> simp only [appendReversedLoop] at h
    · exact ih _ _ _ _ h ho
    · split at h
      · exact ih _ _ _ _ h (OpenContour_lineTo _ _ ho)
      · simp at h
    · split at h
      · exact ih _ _ _ _ h (OpenContour_quadTo _ _ _ ho)
      · simp at h
    all_goals simp at h

/-! ## The error bound of `strokeSegment`: a sparse distance function of degree 41 -/

set_option maxRecDepth 100000 in
/-- The `uint64_t` loop of `choose(82, k)` ends at `0` for `k = 78, 79, 80`. -/
theorem choose_values_82 : choose 82 78 = 0 ∧ choose 82 79 = 0 ∧ choose 82 80 = 0 := by
  decide

/-- The weights of `ScalarBezCurve(41, {0, .., 0, a, b, 0})`: `a` at index `39`,
`b` at index `40`, and zero elsewhere. -/
theorem seqOf_sparse (a b : K) (j : Nat) :
    seqOf ((mkWeights 41 (List.replicate 39 0 ++ [a, b, 0]) : ScalarBezCurve K).fWeights) j
      = if j = 39 then a else if j = 40 then b else 0 := by
  unfold mkWeights mkDegree
  show seqOf ((List.replicate 39 (0 : K) ++ [a, b, 0]) ++ List.replicate 42 (0 : K)) j = _
  rw [List.append_assoc]
  unfold seqOf
  by_cases h : j < 39
  · rw [List.getD_append _ _ _ _ (by rw [List.length_replicate]; exact h)]
    rw [if_neg (by omega), if_neg (by omega)]
    exact seqOf_replicate 39 j
  · rw [List.getD_append_right _ _ _ _ (by rw [List.length_replicate]; omega)]
    rw [List.length_replicate]
    obtain ⟨m, rfl⟩ : ∃ m, j = 39 + m := ⟨j - 39, by omega⟩
    rw [Nat.add_sub_cancel_left]
    match m with
    | 0 => rfl
    | 1 => rfl
    | 2 => rfl
    | m + 3 =>
      rw [if_neg (by omega), if_neg (by omega)]
      exact seqOf_replicate 42 m

/-- A list of weights that are all zero is a list of zeros. -/
theorem weights_eq_replicate (l : List K) (n : Nat) (hlen : l.length = n)
    (h : ∀ k, k < n → seqOf l k = 0) : l = List.replicate n 0 := by
  rw [List.eq_replicate_iff]
  refine ⟨hlen, ?_⟩
  intro x hx
  obtain ⟨i, hi, rfl⟩ := List.mem_iff_getElem.1 hx
  have := h i (hlen ▸ hi)
  rw [seqOf, List.getD_eq_getElem _ _ hi] at this
  exact this

/-- The extremal weight of a curve whose weights are all zero is zero. -/
theorem extremumWeight_replicate (d : Int) (n : Nat) :
    (⟨d, List.replicate n 0⟩ : ScalarBezCurve K).extremumWeight = 0 := by
  have h : ∀ n : Nat, (List.replicate n (0 : K)).foldl
      (fun (st : K × Int) w => if |w| > st.1 then (|w|, if w ≥ 0 then 1 else -1) else st)
      ((0 : K), (1 : Int)) = ((0 : K), (1 : Int)) := by
    intro n
    induction n with
    | zero => rfl
    | succ n ih =>
      rw [List.replicate_succ, List.foldl_cons, abs_zero, if_neg (lt_irrefl _)]
      exact ih
  unfold extremumWeight
  simp only [h]
  simp

/-- The square of `ScalarBezCurve(41, {0, .., 0, a, b, 0})` as `Mul` computes it:
the only products of weights that are not zero belong to the weights `78`, `79`
and `80`, whose divisor `choose(82, k)` is zero. -/
theorem Mul_sparse (a b : K) :
    ScalarBezCurve.Mul (mkWeights 41 (List.replicate 39 0 ++ [a, b, 0]) : ScalarBezCurve K)
        (mkWeights 41 (List.replicate 39 0 ++ [a, b, 0]))
      = ⟨82, List.replicate 83 0⟩ := by
  obtain ⟨hdeg, hlen, hw⟩ := Mul_spec
    (mkWeights 41 (List.replicate 39 0 ++ [a, b, 0]) : ScalarBezCurve K)
    (mkWeights 41 (List.replicate 39 0 ++ [a, b, 0]))
    (show (0 : Int) ≤ 41 by decide) (show (0 : Int) ≤ 41 by decide)
  obtain ⟨h78, h79, h80⟩ := choose_values_82
  have hd : (mkWeights 41 (List.replicate 39 0 ++ [a, b, 0]) : ScalarBezCurve K).fDegree = 41 :=
    rfl
  rw [hd] at hdeg hlen hw
  have hzero : ∀ k, k < 83 → seqOf (ScalarBezCurve.Mul
      (mkWeights 41 (List.replicate 39 0 ++ [a, b, 0]) : ScalarBezCurve K)
      (mkWeights 41 (List.replicate 39 0 ++ [a, b, 0]))).fWeights k = 0 := by
    intro k hk
    rw [hw k (by simp; omega)]
    apply Finset.sum_eq_zero
    intro i hi
    rw [Finset.mem_Ico] at hi
    have hik : i ≤ k := by
      have := hi.2
      have := min_le_left k (41 : Int).toNat
      omega
    rw [seqOf_sparse, seqOf_sparse]
    by_cases h1 : i = 39 ∨ i = 40
    · by_cases h2 : k - i = 39 ∨ k - i = 40
      · have hb : (blend (41 : Int).toNat i (41 : Int).toNat (k - i) k : K) = 0 := by
          have hk3 : k = 78 ∨ k = 79 ∨ k = 80 := by omega
          unfold blend
          have h82 : (41 : Int).toNat + (41 : Int).toNat = 82 := rfl
          rw [h82]
          rcases hk3 with rfl | rfl | rfl
          · rw [h78]; simp
          · rw [h79]; simp
          · rw [h80]; simp
        rw [hb, mul_zero]
      · rw [if_neg (by omega : ¬ k - i = 39), if_neg (by omega : ¬ k - i = 40)]
        simp
    · rw [if_neg (by omega : ¬ i = 39), if_neg (by omega : ¬ i = 40)]
      simp
  have hl := weights_eq_replicate _ 83 (by rw [hlen]; rfl) hzero
  cases hm : ScalarBezCurve.Mul
      (mkWeights 41 (List.replicate 39 0 ++ [a, b, 0]) : ScalarBezCurve K)
      (mkWeights 41 (List.replicate 39 0 ++ [a, b, 0])) with
  | mk deg l =>
    rw [hm] at hdeg hl
    simp only at hdeg hl
    rw [hdeg, hl]
    rfl

/-- The curve `ScalarBezCurve(41, {0, .., 0, a, b, 0})` has its weights in
bounds. -/
theorem InBounds_sparse (a b : K) :
    InBounds (mkWeights 41 (List.replicate 39 0 ++ [a, b, 0]) : ScalarBezCurve K) := by
  unfold InBounds mkWeights mkDegree
  simp

/-- The value of `ScalarBezCurve(41, {0, .., 0, a, b, 0})` at `t`. -/
theorem eval_sparse (a b t : K) :
    (mkWeights 41 (List.replicate 39 0 ++ [a, b, 0]) : ScalarBezCurve K).eval t
      = a * 820 * t ^ 39 * (1 - t) ^ 2 + b * 41 * t ^ 40 * (1 - t) := by
  have h := Eval_eq_bernstein _ t (InBounds_sparse a b)
  unfold eval
  rw [h]
  have hd : (mkWeights 41 (List.replicate 39 0 ++ [a, b, 0]) : ScalarBezCurve K).fDegree.toNat
      = 41 := rfl
  rw [hd]
  unfold bernstein
  rw [Finset.sum_eq_add_of_mem 39 40 (by simp) (by simp) (by decide)]
  · rw [seqOf_sparse, seqOf_sparse]
    have c1 : Nat.choose 41 39 = 820 := by decide
    have c2 : Nat.choose 41 40 = 41 := by decide
    rw [c1, c2]
    simp
  · intro c _ hc
    rw [seqOf_sparse, if_neg hc.1, if_neg hc.2]
    simp

/-- The quad that `approximateSegment` returns for the line from `(0, 0)` to
`(x, 0)` and a distance function that is zero at `0`, `1/2` and `1`: the control
polygon of the line itself. -/
theorem approximateSegment_x_axis_flat {sqrtf : K → K}
    (hsq : ∀ x, 0 ≤ x → 0 ≤ sqrtf x ∧ sqrtf x * sqrtf x = x) (x : K) (hx : 0 < x)
    (D : ScalarBezCurve K) (h0 : D.eval 0 = 0) (hh : D.eval (1 / 2) = 0) (h1 : D.eval 1 = 0) :
    approximateSegment sqrtf ⟨Verb.kLine_Verb, [⟨0, 0⟩, ⟨x, 0⟩]⟩ D
      = some ⟨Verb.kQuad_Verb, [⟨0, 0⟩, ⟨x / 2, 0⟩, ⟨x, 0⟩]⟩ := by
  have hs0 : ∀ p : SkPoint K, (p.setLength sqrtf 0).1 = ⟨0, 0⟩ := by
    intro p
    simp [SkPoint.setLength]
  have hdeg : segmentDegree (⟨Verb.kLine_Verb, [⟨0, 0⟩, ⟨x, 0⟩]⟩ : PathSegment K) = some 1 := rfl
  unfold approximateSegment
  simp only [unitNormal_x_axis hsq x _ hx, Option.some_bind, h0, hh, h1, hs0, hdeg,
    if_true, Option.map_some', PathSegment.pt, List.getD_cons_zero, List.getD_cons_succ]
  congr 2
  simp only [SkPoint.add, SkPoint.scale, List.cons.injEq, SkPoint.mk.injEq, and_true]
  refine ⟨⟨by ring, by ring⟩, ⟨by ring, by ring⟩, ⟨by ring, by ring⟩⟩

/-- Elevating the zero curve of degree `4` to the degree `82` gives zeros. -/
theorem elevateDegree_zero_quartic :
    (⟨4, [0, 0, 0, 0, 0]⟩ : ScalarBezCurve K).elevateDegree 82
      = some ⟨82, List.replicate 83 0⟩ := by
  obtain ⟨E, hE, -, hlen, hw⟩ := ElevateDegree_spec
    (⟨4, [0, 0, 0, 0, 0]⟩ : ScalarBezCurve K) 82 (show (0 : Int) ≤ 4 by decide)
    (show (4 : Int) < 82 by decide)
  unfold elevateDegree
  rw [if_neg (show ¬ (82 : Int) = 4 by decide), hE]
  simp only [Option.map_some', Option.some.injEq]
  congr 1
  apply weights_eq_replicate _ 83 (by rw [hlen]; rfl)
  intro i hi
  rw [hw i (by simp; omega)]
  apply Finset.sum_eq_zero
  intro j _
  have : seqOf ([0, 0, 0, 0, 0] : List K) j = 0 := seqOf_replicate 5 j
  simp only [this, zero_mul]

/-- Subtracting zeros from zeros leaves zeros. -/
theorem sub_zeros :
    (⟨82, List.replicate 83 0⟩ : ScalarBezCurve K).sub ⟨82, List.replicate 83 0⟩
      = some ⟨82, List.replicate 83 0⟩ := by
  obtain ⟨r, hr, hdeg, hlen, hw⟩ := sub_spec (⟨82, List.replicate 83 0⟩ : ScalarBezCurve K)
    ⟨82, List.replicate 83 0⟩ rfl (by simp)
  rw [hr]
  cases r with
  | mk deg l =>
    simp only at hdeg hlen hw
    rw [hdeg]
    congr 2
    apply weights_eq_replicate _ 83 (by rw [hlen]; simp)
    intro k _
    rw [hw k]
    simp only [seqOf_replicate, sub_self, ite_self]

/-- The error curve of the candidate that is the control polygon of the line,
against a squared distance function of degree `82` with zero weights. -/
theorem errorCurve_flat (seg : PathSegment K) (D : ScalarBezCurve K) (x : K) :
    errorCurve ⟨seg, D, ⟨82, List.replicate 83 0⟩, ⟨1, [0, x]⟩, ⟨1, [0, 0]⟩⟩
        ⟨Verb.kQuad_Verb, [⟨0, 0⟩, ⟨x / 2, 0⟩, ⟨x, 0⟩]⟩
      = some (⟨82, List.replicate 83 0⟩, ⟨82, List.replicate 83 0⟩) := by
  have hmax1 : max (2 : Int) 1 = 2 := by decide
  have hmax2 : max (82 : Int) 4 = 82 := by decide
  unfold errorCurve
  simp only [coordCurve_quad, degree, hmax1, elevateDegree_line, Option.some_bind]
  rw [show (⟨2, [(0 : K), x / 2, x]⟩ : ScalarBezCurve K).elevateDegree 2 = some _
    from elevateDegree_same _]
  rw [show (⟨2, [(0 : K), 0, 0]⟩ : ScalarBezCurve K).elevateDegree 2 = some _
    from elevateDegree_same _]
  simp only [Option.some_bind, Sub_quad, AddSquares_quad, hmax2]
  rw [show (⟨82, List.replicate 83 0⟩ : ScalarBezCurve K).elevateDegree 82 = some _
    from elevateDegree_same _]
  have hE : (⟨4, [(0 - 0) * (0 - 0) + (0 - 0) * (0 - 0),
      (0 - 0) * (x / 2 - (0 + x) * (1 / 2)) + (0 - 0) * (0 - (0 + 0) * (1 / 2)),
      ((0 - 0) * (x - x) + 2 * ((x / 2 - (0 + x) * (1 / 2)) * (x / 2 - (0 + x) * (1 / 2)))
        + (0 - 0) * (0 - 0) + 2 * ((0 - (0 + 0) * (1 / 2)) * (0 - (0 + 0) * (1 / 2)))) * (1 / 3),
      (x / 2 - (0 + x) * (1 / 2)) * (x - x) + (0 - (0 + 0) * (1 / 2)) * (0 - 0),
      (x - x) * (x - x) + (0 - 0) * (0 - 0)]⟩ : ScalarBezCurve K) = ⟨4, [0, 0, 0, 0, 0]⟩ := by
    congr 1
    refine List.cons_eq_cons.2 ⟨by ring, List.cons_eq_cons.2 ⟨by ring, List.cons_eq_cons.2
      ⟨by ring, List.cons_eq_cons.2 ⟨by ring, List.cons_eq_cons.2 ⟨by ring, rfl⟩⟩⟩⟩⟩
  rw [hE]
  simp only [Option.some_bind, elevateDegree_zero_quartic, sub_zeros, Option.map_some']

/-- The extremal weight of `ScalarBezCurve(41, {0, .., 0, a, b, 0})` has the
absolute value `|b|` when `|a| ≤ |b|`. -/
theorem extremumWeight_sparse (a b : K) (hab : |a| ≤ |b|) :
    |(mkWeights 41 (List.replicate 39 0 ++ [a, b, 0]) : ScalarBezCurve K).extremumWeight|
      = |b| := by
  obtain ⟨j, -, hj, hmax, -⟩ := extremumWeight_aux
    (mkWeights 41 (List.replicate 39 0 ++ [a, b, 0]) : ScalarBezCurve K)
    (by unfold mkWeights; simp)
  have h40 := hmax 40 (by unfold mkWeights mkDegree; simp)
  have e : ∀ i, (mkWeights 41 (List.replicate 39 0 ++ [a, b, 0]) : ScalarBezCurve K).fWeights.getD
      i 0 = if i = 39 then a else if i = 40 then b else 0 := fun i => seqOf_sparse a b i
  rw [hj]
  rw [e 40, if_neg (by decide), if_pos rfl] at h40
  apply le_antisymm _ h40
  rw [e j]
  split_ifs
  · exact hab
  · exact le_rfl
  · rw [abs_zero]; exact abs_nonneg b

/-- The run of `strokeSegment` on the line from `(0, 0)` to `(1, 0)` with the
distance function `ScalarBezCurve(41, {0, .., 0, a, b, 0})` with
`820 * a + 41 * b = 0`, which is zero at `0`, `1/2` and `1`: the first candidate, the control
polygon of the line, is accepted in the first round. -/
theorem strokeSegment_sparse {sqrtf : K → K}
    (hsq : ∀ x, 0 ≤ x → 0 ≤ sqrtf x ∧ sqrtf x * sqrtf x = x) (a b : K)
    (hh : 820 * a + 41 * b = 0) :
    approximateSegment sqrtf ⟨Verb.kLine_Verb, [⟨0, 0⟩, ⟨1, 0⟩]⟩
        (mkWeights 41 (List.replicate 39 0 ++ [a, b, 0]))
      = some ⟨Verb.kQuad_Verb, [⟨0, 0⟩, ⟨1 / 2, 0⟩, ⟨1, 0⟩]⟩ ∧
    strokeSegment sqrtf ⟨Verb.kLine_Verb, [⟨0, 0⟩, ⟨1, 0⟩]⟩
        (mkWeights 41 (List.replicate 39 0 ++ [a, b, 0]))
      = some [⟨Verb.kQuad_Verb, [⟨0, 0⟩, ⟨1 / 2, 0⟩, ⟨1, 0⟩]⟩] ∧
    strokeSegmentIters sqrtf ⟨Verb.kLine_Verb, [⟨0, 0⟩, ⟨1, 0⟩]⟩
        (mkWeights 41 (List.replicate 39 0 ++ [a, b, 0])) = 1 := by
  have happ := approximateSegment_x_axis_flat hsq 1 one_pos
    (mkWeights 41 (List.replicate 39 0 ++ [a, b, 0]))
    (by rw [eval_sparse]; ring)
    (by rw [eval_sparse]; linear_combination (1 / 2) ^ 41 * hh)
    (by rw [eval_sparse]; ring)
  have herr := errorCurve_flat (⟨Verb.kLine_Verb, [⟨0, 0⟩, ⟨1, 0⟩]⟩ : PathSegment K)
    (mkWeights 41 (List.replicate 39 0 ++ [a, b, 0])) 1
  have hitem : Item.make (⟨Verb.kLine_Verb, [⟨0, 0⟩, ⟨1, 0⟩]⟩ : PathSegment K)
      (mkWeights 41 (List.replicate 39 0 ++ [a, b, 0]))
      (ScalarBezCurve.Mul (mkWeights 41 (List.replicate 39 0 ++ [a, b, 0]))
        (mkWeights 41 (List.replicate 39 0 ++ [a, b, 0])))
      = some ⟨⟨Verb.kLine_Verb, [⟨0, 0⟩, ⟨1, 0⟩]⟩,
          mkWeights 41 (List.replicate 39 0 ++ [a, b, 0]), ⟨82, List.replicate 83 0⟩,
          ⟨1, [0, 1]⟩, ⟨1, [0, 0]⟩⟩ := by
    rw [Mul_sparse]; rfl
  have htol : ¬ (|(⟨82, List.replicate 83 0⟩ : ScalarBezCurve K).extremumWeight|
      > |1 / 2 * (mkWeights 41 (List.replicate 39 0 ++ [a, b, 0]) :
          ScalarBezCurve K).extremumWeight|) := by
    rw [extremumWeight_replicate, abs_zero]
    exact not_lt.2 (abs_nonneg _)
  have hloop : strokeSegmentLoop sqrtf (4998 + 1 + 1)
      [(⟨⟨Verb.kLine_Verb, [⟨0, 0⟩, ⟨1, 0⟩]⟩,
          mkWeights 41 (List.replicate 39 0 ++ [a, b, 0]), ⟨82, List.replicate 83 0⟩,
          ⟨1, [0, 1]⟩, ⟨1, [0, 0]⟩⟩ : Item K)] []
      = some [⟨Verb.kQuad_Verb, [⟨0, 0⟩, ⟨1 / 2, 0⟩, ⟨1, 0⟩]⟩] := by
    rw [strokeSegmentLoop]
    simp only [happ, Option.some_bind, herr, if_neg htol, List.nil_append]
    rw [strokeSegmentLoop]
  have hrounds : strokeSegmentRounds sqrtf (4998 + 1 + 1)
      [(⟨⟨Verb.kLine_Verb, [⟨0, 0⟩, ⟨1, 0⟩]⟩,
          mkWeights 41 (List.replicate 39 0 ++ [a, b, 0]), ⟨82, List.replicate 83 0⟩,
          ⟨1, [0, 1]⟩, ⟨1, [0, 0]⟩⟩ : Item K)] = 1 := by
    simp only [strokeSegmentRounds, happ, Option.some_bind, herr, if_neg htol]
  refine ⟨happ, ?_, ?_⟩
  · unfold strokeSegment
    rw [hitem]
    simp only [Option.some_bind]
    rw [show kMaxIters = 4998 + 1 + 1 from rfl, hloop]
    simp
  · unfold strokeSegmentIters
    rw [hitem]
    simp only []
    rw [show kMaxIters = 4998 + 1 + 1 from rfl, hrounds]

/-! ## The error bound of `strokeSegment`: the items and the ranges they stand for -/

/-- The Bernstein-form value is additive for differences of weights. -/
theorem bernstein_sub (u v : Nat → K) (n : Nat) (t : K) :
    bernstein (fun i => u i - v i) n t = bernstein u n t - bernstein v n t := by
  unfold bernstein
  rw [← Finset.sum_sub_distrib]
  apply Finset.sum_congr rfl
  intro i _
  ring

/-- The convex-hull bound for a curve with its weights in bounds. -/
theorem eval_abs_le_extremum (c : ScalarBezCurve K) (t : K) (h : InBounds c)
    (ht0 : 0 ≤ t) (ht1 : t ≤ 1) : |c.eval t| ≤ |c.extremumWeight| := by
  have hne : c.fWeights ≠ [] := by
    intro h0
    have := h.2
    rw [h0] at this
    have := h.1
    simp at *
    omega
  obtain ⟨j, _, e, hmax, _⟩ := extremumWeight_aux c hne
  unfold eval
  rw [e, Eval_eq_bernstein c t h]
  apply bernstein_abs_le _ _ _ _ ht0 ht1
  intro i hi
  exact hmax i (by have := h.1; have := h.2; omega)

/-- Method `elevateDegree` to a degree of at most `62`: the call succeeds, the
curve has the new degree and the same values. -/
theorem elevateDegree_eval (c : ScalarBezCurve K) (N : Int) (hc : InBounds c)
    (hN : c.fDegree ≤ N) (h62 : N ≤ 62) :
    ∃ E, c.elevateDegree N = some E ∧ E.fDegree = N ∧ InBounds E ∧
      (E.fWeights.length ≤ max c.fWeights.length (N.toNat + 1)) ∧
      ∀ t, E.eval t = c.eval t := by
  by_cases h : N = c.fDegree
  · refine ⟨c, by unfold elevateDegree; rw [if_pos h], h.symm, hc, le_max_left _ _,
      fun t => rfl⟩
  · have hlt : c.fDegree < N := lt_of_le_of_ne hN (Ne.symm h)
    obtain ⟨E, hE, hd, hl, -⟩ := ElevateDegree_spec c N hc.1 hlt
    have hIn : InBounds E := by
      constructor
      · rw [hd]; have := hc.1; omega
      · rw [hd, hl]; have := hc.1; omega
    have hEE : (⟨N, E.fWeights⟩ : ScalarBezCurve K) = E := by
      cases E with
      | mk deg l => simp only at hd; rw [hd]
    refine ⟨E, ?_, hd, hIn, by rw [hl]; exact le_max_right _ _, fun t => ?_⟩
    · unfold elevateDegree
      rw [if_neg h, hE]
      simp only [Option.map_some', hEE]
    · obtain ⟨E2, hE2, -, -, he⟩ := ElevateDegree_eval_aux c N t hc hlt h62
      rw [hE] at hE2
      simp only [Option.some.injEq] at hE2
      rw [hE2]
      exact he

/-- Method `sub` on two curves of the same degree with their weights in bounds:
the values are subtracted. -/
theorem sub_eval (a b : ScalarBezCurve K) (hd : b.fDegree = a.fDegree) (ha : InBounds a)
    (hb : InBounds b) :
    ∃ r, a.sub b = some r ∧ r.fDegree = a.fDegree ∧ InBounds r ∧
      r.fWeights.length = a.fWeights.length ∧ ∀ t, r.eval t = a.eval t - b.eval t := by
  obtain ⟨r, hr, hdeg, hlen, hw⟩ := sub_spec a b hd ha.2
  have hIn : InBounds r := ⟨by rw [hdeg]; exact ha.1, by rw [hdeg, hlen]; exact ha.2⟩
  refine ⟨r, hr, hdeg, hIn, hlen, fun t => ?_⟩
  unfold eval
  rw [Eval_eq_bernstein r t hIn, Eval_eq_bernstein a t ha, Eval_eq_bernstein b t hb, hdeg, hd,
    ← bernstein_sub]
  apply bernstein_congr
  intro i hi
  rw [hw i, if_pos (by have := ha.1; omega)]

/-- Static method `AddSquares` on two curves of the same degree `D` with
`2 * D ≤ 62`: the value is the sum of the squares of the values. -/
theorem AddSquares_eval (a b : ScalarBezCurve K) (ha : InBounds a) (hb : InBounds b)
    (hd : b.fDegree = a.fDegree) (h62 : a.fDegree + a.fDegree ≤ 62) :
    InBounds (AddSquares a b) ∧ (AddSquares a b).fDegree = a.fDegree + a.fDegree ∧
      (AddSquares a b).fWeights.length = (a.fDegree + a.fDegree).toNat + 1 ∧
      ∀ t, (AddSquares a b).eval t = a.eval t ^ 2 + b.eval t ^ 2 := by
  obtain ⟨hdeg, hlen, -⟩ := AddSquares_spec a b ha.1 hb.1
  rw [hd] at hdeg hlen
  have hIn : InBounds (AddSquares a b) := by
    constructor
    · rw [hdeg]; have := ha.1; omega
    · rw [hdeg, hlen]; have := ha.1; omega
  refine ⟨hIn, hdeg, by rw [hlen]; have := ha.1; omega, fun t => ?_⟩
  cases a with
  | mk da wa =>
    cases b with
    | mk db wb =>
      simp only at hd h62
      subst hd
      have h0 : 0 ≤ db := ha.1
      obtain ⟨n, rfl⟩ := Int.eq_ofNat_of_zero_le h0
      have h1 := ha.2
      have h2 := hb.2
      simp only at h1 h2
      exact AddSquares_same_degree n wa wb t (by omega) (by omega) (by omega)

/-- The square `Mul(d, d)` of a curve of degree at most `31`: the value is the
square of the value. -/
theorem Mul_self_eval (d : ScalarBezCurve K) (hd : InBounds d) (h31 : d.fDegree ≤ 31) :
    InBounds (ScalarBezCurve.Mul d d) ∧ (ScalarBezCurve.Mul d d).fDegree = d.fDegree + d.fDegree ∧
      ∀ t, (ScalarBezCurve.Mul d d).eval t = d.eval t ^ 2 := by
  obtain ⟨hdeg, hlen, -⟩ := Mul_spec d d hd.1 hd.1
  have h0 := hd.1
  refine ⟨⟨by rw [hdeg]; omega, by rw [hdeg, hlen]; omega⟩, hdeg, fun t => ?_⟩
  unfold eval
  rw [Mul_eval_aux d d t hd.1 hd.1 (by omega), Eval_eq_bernstein d t hd, pow_two]

/-- The coordinate curve of a segment: degree, length and weights. -/
theorem coordCurve_spec (coord : SkPoint K → K) (n : Nat) (pts : List (SkPoint K)) :
    (coordCurve coord n pts).fDegree = n ∧
    (coordCurve coord n pts).fWeights.length = n + 1 ∧
    InBounds (coordCurve coord n pts) ∧
    ∀ i, i ≤ n → seqOf (coordCurve coord n pts).fWeights i = coord (pts.getD i ⟨0, 0⟩) := by
  have hlen0 : ((mkDegree (n : Int) : ScalarBezCurve K).fWeights).length = n + 1 := by
    rw [length_mkDegree]; omega
  obtain ⟨h1, h2⟩ := mapLoop_spec (fun k (_ : K) => coord (pts.getD k ⟨0, 0⟩)) (n + 1)
    (mkDegree (n : Int) : ScalarBezCurve K).fWeights (by rw [hlen0])
  have hr : ((n : Int) + 1).toNat = n + 1 := by omega
  have e : (coordCurve coord n pts).fWeights
      = (List.range (n + 1)).foldl
        (fun w k => w.set k ((fun k (_ : K) => coord (pts.getD k ⟨0, 0⟩)) k (w.getD k 0)))
        (mkDegree (n : Int) : ScalarBezCurve K).fWeights := by
    unfold coordCurve
    simp only [hr]
  have hl : (coordCurve coord n pts).fWeights.length = n + 1 := by rw [e, h1, hlen0]
  refine ⟨rfl, hl, ⟨Int.natCast_nonneg n, ?_⟩, fun i hi => ?_⟩
  · show (n : Int) + 1 ≤ _
    rw [hl]; omega
  · rw [e, h2 i, if_pos (by omega)]

/-- The lengths of the weight vectors of the two halves of `Split`. -/
theorem Split_length (c : ScalarBezCurve K) (t : K) (h : InBounds c) :
    (Split c t).1.fWeights.length = c.fDegree.toNat + 1 ∧
    (Split c t).2.fWeights.length = c.fDegree.toNat + 1 := by
  obtain ⟨h0, h1⟩ := h
  have hn : c.fDegree.toNat < c.fWeights.length := by omega
  have hz : ((mkDegree c.fDegree : ScalarBezCurve K).fWeights).length = c.fDegree.toNat + 1 := by
    simp only [mkDegree, List.length_replicate]
    omega
  obtain ⟨e1, e2, -, -⟩ := splitLoop_spec t c.fDegree.toNat c.fWeights
    ((mkDegree c.fDegree : ScalarBezCurve K).fWeights.set 0 (c.fWeights.getD 0 0))
    ((mkDegree c.fDegree : ScalarBezCurve K).fWeights.set c.fDegree.toNat
      (c.fWeights.getD c.fDegree.toNat 0)) hn
    (by rw [List.length_set]; exact hz) (by rw [List.length_set]; exact hz) c.fDegree.toNat le_rfl
  exact ⟨e1, e2⟩

/-- The two halves of `split(0.5)`: weights in bounds, the degree of the curve,
and the values of the curve on the two halves of the range. -/
theorem split_half (c : ScalarBezCurve K) (h : InBounds c) :
    InBounds (c.split (1 / 2)).1 ∧ InBounds (c.split (1 / 2)).2 ∧
    (c.split (1 / 2)).1.fDegree = c.fDegree ∧ (c.split (1 / 2)).2.fDegree = c.fDegree ∧
    (c.split (1 / 2)).1.fWeights.length = c.fDegree.toNat + 1 ∧
    (c.split (1 / 2)).2.fWeights.length = c.fDegree.toNat + 1 ∧
    (∀ s, (c.split (1 / 2)).1.eval s = c.eval (s / 2)) ∧
    (∀ s, (c.split (1 / 2)).2.eval s = c.eval ((1 + s) / 2)) := by
  obtain ⟨b1, b2, d1, d2, -, -⟩ := Split_spec c (1 / 2) h
  obtain ⟨l1, l2⟩ := Split_length c (1 / 2) h
  refine ⟨b1, b2, d1, d2, l1, l2, fun s => ?_, fun s => ?_⟩
  · unfold eval split
    rw [(Split_eval_aux c (1 / 2) s h).1]
    congr 1
    ring
  · unfold eval split
    rw [(Split_eval_aux c (1 / 2) s h).2]
    congr 1
    ring

/-- The error curve of a candidate when no binomial coefficient overflows: for
an item whose coordinate curves have the degree `n ≤ 3` and whose squared
distance function has a degree of at most `62`, `errorCurve` returns, the value
of the error curve is `(Q_x - S_x)^2 + (Q_y - S_y)^2 - dsq`, and the elevated
squared distance function has the values of the one of the item. -/
theorem errorCurve_eval (item : Item K) (Q : PathSegment K) (n : Nat) (hn1 : 1 ≤ n)
    (hn3 : n ≤ 3) (hX : InBounds item.fSegX) (hXd : item.fSegX.fDegree = n)
    (hY : InBounds item.fSegY) (hYd : item.fSegY.fDegree = n)
    (hS : InBounds item.fDistFncSqd) (hS62 : item.fDistFncSqd.fDegree ≤ 62) :
    ∃ E2 dsq, errorCurve item Q = some (E2, dsq) ∧ InBounds E2 ∧ InBounds dsq ∧
      dsq.fDegree ≤ 62 ∧ (∀ t, dsq.eval t = item.fDistFncSqd.eval t) ∧
      ∀ t, E2.eval t
        = ((coordCurve SkPoint.fX 2 Q.fPoints).eval t - item.fSegX.eval t) ^ 2
          + ((coordCurve SkPoint.fY 2 Q.fPoints).eval t - item.fSegY.eval t) ^ 2
          - item.fDistFncSqd.eval t := by
  obtain ⟨hqXd, -, hqX, -⟩ := coordCurve_spec SkPoint.fX 2 Q.fPoints
  obtain ⟨hqYd, -, hqY, -⟩ := coordCurve_spec SkPoint.fY 2 Q.fPoints
  simp only [Nat.cast_ofNat] at hqXd hqYd hqX hqY
  have hD : max (coordCurve SkPoint.fX 2 Q.fPoints).degree item.fSegX.degree
      = max 2 (n : Int) := by
    unfold degree; rw [hqXd, hXd]
  have hD2 : (2 : Int) ≤ max 2 (n : Int) := le_max_left _ _
  have hD3 : max 2 (n : Int) ≤ 3 := max_le (by norm_num) (by omega)
  have hDn : (n : Int) ≤ max 2 (n : Int) := le_max_right _ _
  obtain ⟨sX, hsX, hsXd, hsXin, -, hsXe⟩ := elevateDegree_eval item.fSegX (max 2 (n : Int)) hX
    (by rw [hXd]; exact hDn) (by omega)
  obtain ⟨sY, hsY, hsYd, hsYin, -, hsYe⟩ := elevateDegree_eval item.fSegY (max 2 (n : Int)) hY
    (by rw [hYd]; exact hDn) (by omega)
  obtain ⟨qX, hqX1, hqXd1, hqXin, -, hqXe⟩ := elevateDegree_eval
    (coordCurve SkPoint.fX 2 Q.fPoints) (max 2 (n : Int)) hqX (by rw [hqXd]; exact hD2) (by omega)
  obtain ⟨qY, hqY1, hqYd1, hqYin, -, hqYe⟩ := elevateDegree_eval
    (coordCurve SkPoint.fY 2 Q.fPoints) (max 2 (n : Int)) hqY (by rw [hqYd]; exact hD2) (by omega)
  obtain ⟨dX, hdX, hdXd, hdXin, -, hdXe⟩ := sub_eval qX sX (by rw [hsXd, hqXd1]) hqXin hsXin
  obtain ⟨dY, hdY, hdYd, hdYin, -, hdYe⟩ := sub_eval qY sY (by rw [hsYd, hqYd1]) hqYin hsYin
  rw [hqXd1] at hdXd
  rw [hqYd1] at hdYd
  obtain ⟨hEin, hEd, -, hEe⟩ := AddSquares_eval dX dY hdXin hdYin (by rw [hdXd, hdYd])
    (by rw [hdXd]; omega)
  rw [hdXd] at hEd
  have hC62 : max item.fDistFncSqd.degree (AddSquares dX dY).degree ≤ 62 := by
    unfold degree
    rw [hEd]
    exact max_le hS62 (by omega)
  obtain ⟨dsq, hdsq, hdsqd, hdsqin, -, hdsqe⟩ := elevateDegree_eval item.fDistFncSqd
    (max item.fDistFncSqd.degree (AddSquares dX dY).degree) hS (le_max_left _ _) hC62
  obtain ⟨E1, hE1, hE1d, hE1in, -, hE1e⟩ := elevateDegree_eval (AddSquares dX dY)
    (max item.fDistFncSqd.degree (AddSquares dX dY).degree) hEin (le_max_right _ _) hC62
  obtain ⟨E2, hE2, -, hE2in, -, hE2e⟩ := sub_eval E1 dsq (by rw [hE1d, hdsqd]) hE1in hdsqin
  refine ⟨E2, dsq, ?_, hE2in, hdsqin, by rw [hdsqd]; exact hC62, hdsqe, fun t => ?_⟩
  · unfold errorCurve
    simp only [hD, hsX, hsY, hqX1, hqY1, Option.some_bind, ScalarBezCurve.Sub, hdX, hdY, hdsq,
      hE1, hE2, Option.map_some']
  · rw [hE2e, hE1e, hEe, hdXe, hdYe, hqXe, hqYe, hsXe, hsYe, hdsqe]

omit [LinearOrderedField K] in
/-- The degree that `segmentDegree` returns is `1`, `2` or `3`, and depends on
the verb only. -/
theorem segmentDegree_some (S : PathSegment K) (n : Int) (h : segmentDegree S = some n) :
    (n = 1 ∨ n = 2 ∨ n = 3) ∧
    ∀ S2 : PathSegment K, S2.fVerb = S.fVerb → segmentDegree S2 = some n := by
  constructor
  · unfold segmentDegree at h
    cases hv : S.fVerb <;> rw [hv] at h <;> simp [segmentDegreeLut, Verb.toNat] at h <;> omega
  · intro S2 h2
    unfold segmentDegree at h ⊢
    rw [h2]
    exact h

/-- The fields of the item that the constructor `Item` builds. -/
theorem Item_make_spec (S : PathSegment K) (dd sq : ScalarBezCurve K) (it : Item K)
    (h : Item.make S dd sq = some it) :
    ∃ n : Int, segmentDegree S = some n ∧ it.fSeg = S ∧ it.fDistFnc = dd ∧ it.fDistFncSqd = sq ∧
      it.fSegX = coordCurve SkPoint.fX n S.fPoints ∧
      it.fSegY = coordCurve SkPoint.fY n S.fPoints := by
  unfold Item.make at h
  cases hn : segmentDegree S with
  | none => rw [hn] at h; simp at h
  | some n =>
    rw [hn] at h
    simp only [Option.map_some', Option.some.injEq] at h
    subst h
    exact ⟨n, rfl, rfl, rfl, rfl, rfl, rfl⟩

/-- The coordinate curve of the points read back from the weights of a curve of
degree `n` has the values of that curve. -/
theorem coordCurve_map_eval (coord : SkPoint K → K) (n : Nat) (f : Nat → SkPoint K)
    (c : ScalarBezCurve K) (hc : InBounds c) (hcd : c.fDegree = n)
    (h : ∀ i, i ≤ n → coord (f i) = seqOf c.fWeights i) (t : K) :
    (coordCurve coord n ((List.range (n + 1)).map f)).eval t = c.eval t := by
  obtain ⟨hd, -, hin, hw⟩ := coordCurve_spec coord n ((List.range (n + 1)).map f)
  unfold eval
  rw [Eval_eq_bernstein _ t hin, Eval_eq_bernstein _ t hc, hd, hcd]
  apply bernstein_congr
  intro i hi
  have hi' : i ≤ n := by simpa using hi
  rw [hw i hi', ← h i hi']
  congr 1
  rw [List.getD_eq_getElem _ _ (by simp; omega)]
  simp

/-- The halves that `splitSegment` returns at `0.5` for a segment of degree `n`:
they keep the verb, and their coordinate curves have the values of the
coordinate curves of the segment on the two halves of the range. -/
theorem splitSegment_eval (S : PathSegment K) (n : Nat)
    (hn : segmentDegree S = some (n : Int)) :
    ∃ l r, splitSegment S (1 / 2) = some (l, r) ∧ l.fVerb = S.fVerb ∧ r.fVerb = S.fVerb ∧
      (∀ t, (coordCurve SkPoint.fX n l.fPoints).eval t
        = (coordCurve SkPoint.fX n S.fPoints).eval (t / 2)) ∧
      (∀ t, (coordCurve SkPoint.fY n l.fPoints).eval t
        = (coordCurve SkPoint.fY n S.fPoints).eval (t / 2)) ∧
      (∀ t, (coordCurve SkPoint.fX n r.fPoints).eval t
        = (coordCurve SkPoint.fX n S.fPoints).eval ((1 + t) / 2)) ∧
      (∀ t, (coordCurve SkPoint.fY n r.fPoints).eval t
        = (coordCurve SkPoint.fY n S.fPoints).eval ((1 + t) / 2)) := by
  obtain ⟨hxd, -, hxin, -⟩ := coordCurve_spec SkPoint.fX n S.fPoints
  obtain ⟨hyd, -, hyin, -⟩ := coordCurve_spec SkPoint.fY n S.fPoints
  obtain ⟨bx1, bx2, dx1, dx2, -, -, ex1, ex2⟩ := split_half _ hxin
  obtain ⟨by1, by2, dy1, dy2, -, -, ey1, ey2⟩ := split_half _ hyin
  have hr : ((n : Int) + 1).toNat = n + 1 := by omega
  refine ⟨⟨S.fVerb, (List.range (n + 1)).map (fun i =>
      ⟨((coordCurve SkPoint.fX n S.fPoints).split (1 / 2)).1.fWeights.getD i 0,
        ((coordCurve SkPoint.fY n S.fPoints).split (1 / 2)).1.fWeights.getD i 0⟩)⟩,
    ⟨S.fVerb, (List.range (n + 1)).map (fun i =>
      ⟨((coordCurve SkPoint.fX n S.fPoints).split (1 / 2)).2.fWeights.getD i 0,
        ((coordCurve SkPoint.fY n S.fPoints).split (1 / 2)).2.fWeights.getD i 0⟩)⟩,
    ?_, rfl, rfl, fun t => ?_, fun t => ?_, fun t => ?_, fun t => ?_⟩
  · unfold splitSegment
    rw [hn]
    simp only [Option.map_some', hr]
  · rw [← ex1 t]
    exact coordCurve_map_eval SkPoint.fX n _ _ bx1 (by rw [dx1, hxd]) (fun i _ => rfl) t
  · rw [← ey1 t]
    exact coordCurve_map_eval SkPoint.fY n _ _ by1 (by rw [dy1, hyd]) (fun i _ => rfl) t
  · rw [← ex2 t]
    exact coordCurve_map_eval SkPoint.fX n _ _ bx2 (by rw [dx2, hxd]) (fun i _ => rfl) t
  · rw [← ey2 t]
    exact coordCurve_map_eval SkPoint.fY n _ _ by2 (by rw [dy2, hyd]) (fun i _ => rfl) t

/-- The rule of the loop of `strokeSegment`: a property `I` of the items that
holds on the stack and passes from a rejected item to its two halves, and a
property `P` of the quads that holds for every candidate accepted from an item
with `I`, give `P` for every quad of the list that the loop returns. -/
theorem strokeSegmentLoop_rule (sqrtf : K → K) (I : Item K → Prop) (P : PathSegment K → Prop)
    (hacc : ∀ (item : Item K) (Q : PathSegment K) (ed : ScalarBezCurve K × ScalarBezCurve K),
      I item → approximateSegment sqrtf item.fSeg item.fDistFnc = some Q →
      errorCurve item Q = some ed →
      ¬ (|ed.1.extremumWeight| > |1 / 2 * item.fDistFnc.extremumWeight|) → P Q)
    (hsplit : ∀ (item : Item K) (Q : PathSegment K) (ed : ScalarBezCurve K × ScalarBezCurve K)
      (lr : PathSegment K × PathSegment K) (left right : Item K),
      I item → errorCurve item Q = some ed → splitSegment item.fSeg (1 / 2) = some lr →
      Item.make lr.2 (item.fDistFnc.split (1 / 2)).2 (ed.2.split (1 / 2)).2 = some right →
      Item.make lr.1 (item.fDistFnc.split (1 / 2)).1 (ed.2.split (1 / 2)).1 = some left →
      I left ∧ I right) :
    ∀ (n : Nat) (stack : List (Item K)) (result out : List (PathSegment K)),
      (∀ item ∈ stack, I item) → (∀ Q ∈ result, P Q) →
      strokeSegmentLoop sqrtf n stack result = some out → ∀ Q ∈ out, P Q := by
  intro n
  induction n with
  | zero =>
    intro stack result out _ hres h
    rw [strokeSegmentLoop] at h
    simp only [Option.some.injEq] at h
    rw [← h]; exact hres
  | succ n ih =>
    intro stack result out hstack hres h
    cases stack with
    | nil =>
      rw [strokeSegmentLoop] at h
      simp only [Option.some.injEq] at h
      rw [← h]; exact hres
    | cons item stack =>
      rw [strokeSegmentLoop] at h
      have hI := hstack item (List.mem_cons_self _ _)
      cases happ : approximateSegment sqrtf item.fSeg item.fDistFnc with
      | none => rw [happ] at h; simp at h
      | some Q =>
        rw [happ] at h
        simp only [Option.some_bind] at h
        cases herr : errorCurve item Q with
        | none => rw [herr] at h; simp at h
        | some ed =>
          rw [herr] at h
          simp only [Option.some_bind] at h
          by_cases hgt : |ed.1.extremumWeight| > |1 / 2 * item.fDistFnc.extremumWeight|
          · rw [if_pos hgt] at h
            cases hlr : splitSegment item.fSeg (1 / 2) with
            | none => rw [hlr] at h; simp at h
            | some lr =>
              rw [hlr] at h
              simp only [Option.some_bind] at h
              cases hright : Item.make lr.2 (item.fDistFnc.split (1 / 2)).2
                  (ed.2.split (1 / 2)).2 with
              | none => rw [hright] at h; simp at h
              | some right =>
                rw [hright] at h
                simp only [Option.some_bind] at h
                cases hleft : Item.make lr.1 (item.fDistFnc.split (1 / 2)).1
                    (ed.2.split (1 / 2)).1 with
                | none => rw [hleft] at h; simp at h
                | some left =>
                  rw [hleft] at h
                  simp only [Option.some_bind] at h
                  obtain ⟨hl, hr⟩ := hsplit item Q ed lr left right hI herr hlr hright hleft
                  apply ih (left :: right :: stack) result out _ hres h
                  intro it hit
                  rcases List.mem_cons.1 hit with rfl | hit
                  · exact hl
                  · rcases List.mem_cons.1 hit with rfl | hit
                    · exact hr
                    · exact hstack it (List.mem_cons_of_mem _ hit)
          · rw [if_neg hgt] at h
            apply ih stack (result ++ [Q]) out
              (fun it hit => hstack it (List.mem_cons_of_mem _ hit)) _ h
            intro Q2 hQ2
            rcases List.mem_append.1 hQ2 with hq | hq
            · exact hres Q2 hq
            · rw [List.mem_singleton] at hq
              rw [hq]
              exact hacc item Q ed hI happ herr hgt

/-- The bound at acceptance: when the candidate `Q` of an item is not rejected,
and no binomial coefficient overflows, the error
`(Q_x - S_x)^2 + (Q_y - S_y)^2 - d^2` is within the tolerance
`0.5 * |extremumWeight(d)|` at every `t` of `[0, 1]`. -/
theorem accepted_error_bound (item : Item K) (Q : PathSegment K)
    (ed : ScalarBezCurve K × ScalarBezCurve K) (n : Nat) (hn1 : 1 ≤ n) (hn3 : n ≤ 3)
    (hX : item.fSegX = coordCurve SkPoint.fX n item.fSeg.fPoints)
    (hY : item.fSegY = coordCurve SkPoint.fY n item.fSeg.fPoints)
    (hS : InBounds item.fDistFncSqd) (hS62 : item.fDistFncSqd.fDegree ≤ 62)
    (hSe : ∀ t, item.fDistFncSqd.eval t = item.fDistFnc.eval t ^ 2)
    (herr : errorCurve item Q = some ed)
    (hacc : ¬ (|ed.1.extremumWeight| > |1 / 2 * item.fDistFnc.extremumWeight|))
    (t : K) (ht0 : 0 ≤ t) (ht1 : t ≤ 1) :
    |((coordCurve SkPoint.fX 2 Q.fPoints).eval t
          - (coordCurve SkPoint.fX n item.fSeg.fPoints).eval t) ^ 2
        + ((coordCurve SkPoint.fY 2 Q.fPoints).eval t
          - (coordCurve SkPoint.fY n item.fSeg.fPoints).eval t) ^ 2
        - item.fDistFnc.eval t ^ 2| ≤ 1 / 2 * |item.fDistFnc.extremumWeight| := by
  obtain ⟨hxd, -, hxin, -⟩ := coordCurve_spec SkPoint.fX n item.fSeg.fPoints
  obtain ⟨hyd, -, hyin, -⟩ := coordCurve_spec SkPoint.fY n item.fSeg.fPoints
  obtain ⟨E2, dsq, hE, hE2in, -, -, -, hE2e⟩ := errorCurve_eval item Q n hn1 hn3
    (by rw [hX]; exact hxin) (by rw [hX]; exact hxd) (by rw [hY]; exact hyin)
    (by rw [hY]; exact hyd) hS hS62
  rw [herr] at hE
  simp only [Option.some.injEq] at hE
  rw [hE] at hacc
  simp only at hacc
  have h1 := eval_abs_le_extremum E2 t hE2in ht0 ht1
  rw [hE2e t, hX, hY, hSe t] at h1
  have h2 : |1 / 2 * item.fDistFnc.extremumWeight| = 1 / 2 * |item.fDistFnc.extremumWeight| := by
    rw [abs_mul, abs_of_pos (by norm_num : (0 : K) < 1 / 2)]
  rw [h2] at hacc
  exact le_trans h1 (not_lt.1 hacc)

/-- The first item of `strokeSegment(seg, d)` stands for the whole range. -/
theorem Covers_root (seg : PathSegment K) (d : ScalarBezCurve K) (n : Nat) (item : Item K)
    (hd : InBounds d) (h31 : d.fDegree ≤ 31) (hn : segmentDegree seg = some (n : Int))
    (h : Item.make seg d (ScalarBezCurve.Mul d d) = some item) :
    item.Covers n seg d 0 0 := by
  obtain ⟨n2, hn2, e1, e2, e3, e4, e5⟩ := Item_make_spec seg d _ item h
  rw [hn] at hn2
  simp only [Option.some.injEq] at hn2
  subst hn2
  obtain ⟨hMin, hMd, hMe⟩ := Mul_self_eval d hd h31
  refine ⟨by norm_num, by rw [e1], by rw [e4, e1], by rw [e5, e1], fun t => ?_, fun t => ?_,
    by rw [e2]; exact hd, by rw [e2], Or.inl e2, fun t => ?_, by rw [e3]; exact hMin,
    by rw [e3, hMd]; omega, fun t => by rw [e3, e2]; exact hMe t⟩
  · rw [e1]; congr 1; simp
  · rw [e1]; congr 1; simp
  · rw [e2]; congr 1; simp

/-- The two halves of a rejected item stand for the two halves of its range. -/
theorem Covers_split (seg : PathSegment K) (d : ScalarBezCurve K) (n : Nat) (hn1 : 1 ≤ n)
    (hn3 : n ≤ 3) (hn : segmentDegree seg = some (n : Int)) (k j : Nat) (item : Item K)
    (Q : PathSegment K) (ed : ScalarBezCurve K × ScalarBezCurve K)
    (lr : PathSegment K × PathSegment K) (left right : Item K)
    (hI : item.Covers n seg d k j) (herr : errorCurve item Q = some ed)
    (hlr : splitSegment item.fSeg (1 / 2) = some lr)
    (hright : Item.make lr.2 (item.fDistFnc.split (1 / 2)).2 (ed.2.split (1 / 2)).2 = some right)
    (hleft : Item.make lr.1 (item.fDistFnc.split (1 / 2)).1 (ed.2.split (1 / 2)).1 = some left) :
    left.Covers n seg d (k + 1) (2 * j) ∧ right.Covers n seg d (k + 1) (2 * j + 1) := by
  obtain ⟨hj, hv, hX, hY, hXe, hYe, hDin, hDd, -, hDe, hSin, hS62, hSe⟩ := hI
  have hnS : segmentDegree item.fSeg = some (n : Int) :=
    (segmentDegree_some seg n hn).2 item.fSeg hv
  obtain ⟨hxd, -, hxin, -⟩ := coordCurve_spec SkPoint.fX n item.fSeg.fPoints
  obtain ⟨hyd, -, hyin, -⟩ := coordCurve_spec SkPoint.fY n item.fSeg.fPoints
  obtain ⟨E2, dsq, hE, -, hdsqin, hdsq62, hdsqe, -⟩ := errorCurve_eval item Q n hn1 hn3
    (by rw [hX]; exact hxin) (by rw [hX]; exact hxd) (by rw [hY]; exact hyin)
    (by rw [hY]; exact hyd) hSin hS62
  rw [herr] at hE
  simp only [Option.some.injEq] at hE
  obtain ⟨l, r, hsp, hlv, hrv, hlX, hlY, hrX, hrY⟩ := splitSegment_eval item.fSeg n hnS
  rw [hlr] at hsp
  simp only [Option.some.injEq] at hsp
  obtain ⟨bd1, bd2, dd1, dd2, ld1, ld2, ed1, ed2⟩ := split_half item.fDistFnc hDin
  obtain ⟨bs1, bs2, ds1, ds2, -, -, es1, es2⟩ := split_half dsq hdsqin
  rw [hE] at hleft hright
  rw [hsp] at hleft hright
  simp only at hleft hright
  obtain ⟨nl, hnl, l1, l2, l3, l4, l5⟩ := Item_make_spec _ _ _ left hleft
  obtain ⟨nr, hnr, r1, r2, r3, r4, r5⟩ := Item_make_spec _ _ _ right hright
  rw [(segmentDegree_some seg n hn).2 l (by rw [hlv, hv])] at hnl
  rw [(segmentDegree_some seg n hn).2 r (by rw [hrv, hv])] at hnr
  simp only [Option.some.injEq] at hnl hnr
  subst hnl
  subst hnr
  have h2k : (2 : K) ^ k ≠ 0 := pow_ne_zero _ two_ne_zero
  have hd0 := hDin.1
  constructor
  · refine ⟨by rw [pow_succ]; omega, by rw [l1, hlv, hv], by rw [l4, l1], by rw [l5, l1],
      fun t => ?_, fun t => ?_, by rw [l2]; exact bd1, by rw [l2, dd1, hDd], Or.inr ?_,
      fun t => ?_, by rw [l3]; exact bs1, by rw [l3, ds1]; exact hdsq62, fun t => ?_⟩
    · rw [l1, hlX t, hXe]
      congr 1
      push_cast
      rw [pow_succ]
      field_simp
      ring
    · rw [l1, hlY t, hYe]
      congr 1
      push_cast
      rw [pow_succ]
      field_simp
      ring
    · rw [l2, ld1, hDd]
      omega
    · rw [l2, ed1 t, hDe]
      congr 1
      push_cast
      rw [pow_succ]
      field_simp
      ring
    · rw [l3, l2, es1 t, ed1 t, hdsqe, hSe]
  · refine ⟨by rw [pow_succ]; omega, by rw [r1, hrv, hv], by rw [r4, r1], by rw [r5, r1],
      fun t => ?_, fun t => ?_, by rw [r2]; exact bd2, by rw [r2, dd2, hDd], Or.inr ?_,
      fun t => ?_, by rw [r3]; exact bs2, by rw [r3, ds2]; exact hdsq62, fun t => ?_⟩
    · rw [r1, hrX t, hXe]
      congr 1
      push_cast
      rw [pow_succ]
      field_simp
      ring
    · rw [r1, hrY t, hYe]
      congr 1
      push_cast
      rw [pow_succ]
      field_simp
      ring
    · rw [r2, ld2, hDd]
      omega
    · rw [r2, ed2 t, hDe]
      congr 1
      push_cast
      rw [pow_succ]
      field_simp
      ring
    · rw [r3, r2, es2 t, ed2 t, hdsqe, hSe]

/-! ## The loop of `strokeSegment` fails no inner assertion -/

/-- Method `elevateDegree` succeeds whenever the new degree is not smaller, and
the curve has the new degree afterwards. -/
theorem elevateDegree_isSome (c : ScalarBezCurve K) (N : Int) (h : c.fDegree ≤ N) :
    ∃ E, c.elevateDegree N = some E ∧ E.fDegree = N := by
  unfold elevateDegree
  by_cases hN : N = c.fDegree
  · rw [if_pos hN]
    exact ⟨c, rfl, hN.symm⟩
  · rw [if_neg hN]
    unfold ElevateDegree degree
    rw [if_neg (not_lt.2 h), if_neg hN]
    exact ⟨_, rfl, rfl⟩

/-- Method `sub` succeeds on curves of the same degree and keeps the degree. -/
theorem sub_isSome (a b : ScalarBezCurve K) (h : b.fDegree = a.fDegree) :
    ∃ r, a.sub b = some r ∧ r.fDegree = a.fDegree := by
  unfold sub
  rw [if_pos h]
  exact ⟨_, rfl, rfl⟩

/-- The error curve is computed without a failed assertion for every item whose
two coordinate curves have the same degree. -/
theorem errorCurve_isSome (item : Item K) (Q : PathSegment K)
    (hY : item.fSegY.fDegree = item.fSegX.fDegree) :
    ∃ ed, errorCurve item Q = some ed := by
  obtain ⟨sX, hsX, hsXd⟩ := elevateDegree_isSome item.fSegX
    (max (coordCurve SkPoint.fX 2 Q.fPoints).degree item.fSegX.degree) (le_max_right _ _)
  obtain ⟨sY, hsY, hsYd⟩ := elevateDegree_isSome item.fSegY
    (max (coordCurve SkPoint.fX 2 Q.fPoints).degree item.fSegX.degree)
    (by rw [hY]; exact le_max_right _ _)
  obtain ⟨qX, hqX, hqXd⟩ := elevateDegree_isSome (coordCurve SkPoint.fX 2 Q.fPoints)
    (max (coordCurve SkPoint.fX 2 Q.fPoints).degree item.fSegX.degree) (le_max_left _ _)
  obtain ⟨qY, hqY, hqYd⟩ := elevateDegree_isSome (coordCurve SkPoint.fY 2 Q.fPoints)
    (max (coordCurve SkPoint.fX 2 Q.fPoints).degree item.fSegX.degree) (le_max_left _ _)
  obtain ⟨dX, hdX, -⟩ := sub_isSome qX sX (by rw [hsXd, hqXd])
  obtain ⟨dY, hdY, -⟩ := sub_isSome qY sY (by rw [hsYd, hqYd])
  obtain ⟨dsq, hdsq, hdsqd⟩ := elevateDegree_isSome item.fDistFncSqd
    (max item.fDistFncSqd.degree (AddSquares dX dY).degree) (le_max_left _ _)
  obtain ⟨E1, hE1, hE1d⟩ := elevateDegree_isSome (AddSquares dX dY)
    (max item.fDistFncSqd.degree (AddSquares dX dY).degree) (le_max_right _ _)
  obtain ⟨E2, hE2, -⟩ := sub_isSome E1 dsq (by rw [hE1d, hdsqd])
  refine ⟨(E2, dsq), ?_⟩
  unfold errorCurve
  simp only [hsX, hsY, hqX, hqY, Option.some_bind, ScalarBezCurve.Sub, hdX, hdY, hdsq,
    hE1, hE2, Option.map_some']

/-- The unit normal of a line reads the verb and the first two points only. -/
theorem unitNormal_line_pts (sqrtf : K → K) (seg : PathSegment K) (t : K)
    (hv : seg.fVerb = Verb.kLine_Verb) :
    unitNormal sqrtf seg t = unitNormal sqrtf ⟨Verb.kLine_Verb, [seg.pt 0, seg.pt 1]⟩ t := by
  unfold unitNormal
  rw [hv]
  rfl

/-- The candidate quad is computed without a failed assertion for every line
whose ends differ and for every quad. -/
theorem approximateSegment_isSome {sqrtf : K → K}
    (hsq : ∀ x, 0 ≤ x → 0 ≤ sqrtf x ∧ sqrtf x * sqrtf x = x) (seg : PathSegment K)
    (dd : ScalarBezCurve K)
    (hseg : (seg.fVerb = Verb.kLine_Verb ∧ seg.pt 0 ≠ seg.pt 1) ∨ seg.fVerb = Verb.kQuad_Verb) :
    ∃ Q, approximateSegment sqrtf seg dd = some Q := by
  have hn : ∀ t, ∃ nt, unitNormal sqrtf seg t = some nt := by
    intro t
    rcases hseg with ⟨hv, hne⟩ | hv
    · obtain ⟨u, -, -, -, h⟩ := unitNormal_line hsq (seg.pt 0) (seg.pt 1) hne [] t
      exact ⟨_, by rw [unitNormal_line_pts sqrtf seg t hv, h]⟩
    · unfold unitNormal
      rw [hv]
      exact ⟨_, rfl⟩
  obtain ⟨n0, h0⟩ := hn 0
  obtain ⟨n1, h1⟩ := hn 1
  have hdeg : segmentDegree seg = some 1 ∨ segmentDegree seg = some 2 := by
    unfold segmentDegree
    rcases hseg with ⟨hv, -⟩ | hv <;> rw [hv]
    · left; rfl
    · right; rfl
  unfold approximateSegment
  rw [h0, h1]
  rcases hdeg with hd | hd <;> rw [hd]
  · exact ⟨_, rfl⟩
  · exact ⟨_, rfl⟩

/-- The halves of a line whose ends differ are lines whose ends differ, and the
halves of a quad are quads; `splitSegment` fails no assertion on them. -/
theorem splitSegment_isSome (seg : PathSegment K)
    (hseg : (seg.fVerb = Verb.kLine_Verb ∧ seg.pt 0 ≠ seg.pt 1) ∨ seg.fVerb = Verb.kQuad_Verb) :
    ∃ l r, splitSegment seg (1 / 2) = some (l, r) ∧
      ((l.fVerb = Verb.kLine_Verb ∧ l.pt 0 ≠ l.pt 1) ∨ l.fVerb = Verb.kQuad_Verb) ∧
      ((r.fVerb = Verb.kLine_Verb ∧ r.pt 0 ≠ r.pt 1) ∨ r.fVerb = Verb.kQuad_Verb) := by
  rcases hseg with ⟨hv, hne⟩ | hv
  · have hd : segmentDegree seg = some 1 := by unfold segmentDegree; rw [hv]; rfl
    have hx : coordCurve SkPoint.fX 1 seg.fPoints
        = ⟨1, [(seg.pt 0).fX, (seg.pt 1).fX]⟩ := rfl
    have hy : coordCurve SkPoint.fY 1 seg.fPoints
        = ⟨1, [(seg.pt 0).fY, (seg.pt 1).fY]⟩ := rfl
    have hxy : ¬ ((seg.pt 0).fX = (seg.pt 1).fX ∧ (seg.pt 0).fY = (seg.pt 1).fY) := by
      rintro ⟨h1, h2⟩
      apply hne
      cases h0 : seg.pt 0
      cases h1' : seg.pt 1
      rw [h0, h1'] at h1 h2
      simp only at h1 h2
      rw [h1, h2]
    refine ⟨⟨Verb.kLine_Verb, [⟨(seg.pt 0).fX, (seg.pt 0).fY⟩,
        ⟨(seg.pt 0).fX * (1 - 1 / 2) + (seg.pt 1).fX * (1 / 2),
          (seg.pt 0).fY * (1 - 1 / 2) + (seg.pt 1).fY * (1 / 2)⟩]⟩,
      ⟨Verb.kLine_Verb, [⟨(seg.pt 0).fX * (1 - 1 / 2) + (seg.pt 1).fX * (1 / 2),
          (seg.pt 0).fY * (1 - 1 / 2) + (seg.pt 1).fY * (1 / 2)⟩,
        ⟨(seg.pt 1).fX, (seg.pt 1).fY⟩]⟩, ?_, Or.inl ⟨rfl, ?_⟩, Or.inl ⟨rfl, ?_⟩⟩
    · unfold splitSegment
      rw [hd]
      simp only [Option.map_some', hx, hy, split, Split_degree_one, hv]
      rfl
    · intro h
      simp only [PathSegment.pt, List.getD_cons_zero, List.getD_cons_succ,
        SkPoint.mk.injEq] at h hxy
      apply hxy
      constructor
      · linear_combination 2 * h.1
      · linear_combination 2 * h.2
    · intro h
      simp only [PathSegment.pt, List.getD_cons_zero, List.getD_cons_succ,
        SkPoint.mk.injEq] at h hxy
      apply hxy
      constructor
      · linear_combination 2 * h.1
      · linear_combination 2 * h.2
  · have hd : segmentDegree seg = some 2 := by unfold segmentDegree; rw [hv]; rfl
    unfold splitSegment
    rw [hd]
    exact ⟨_, _, rfl, Or.inr hv, Or.inr hv⟩

/-- The constructor `Item` fails no assertion on a line or a quad; the two
coordinate curves of the item have the same degree. -/
theorem Item_make_isSome (s : PathSegment K) (dd sq : ScalarBezCurve K)
    (hs : (s.fVerb = Verb.kLine_Verb ∧ s.pt 0 ≠ s.pt 1) ∨ s.fVerb = Verb.kQuad_Verb) :
    ∃ it, Item.make s dd sq = some it ∧ it.fSeg = s ∧ it.fSegY.fDegree = it.fSegX.fDegree := by
  have hdeg : segmentDegree s = some 1 ∨ segmentDegree s = some 2 := by
    unfold segmentDegree
    rcases hs with ⟨hv, -⟩ | hv <;> rw [hv]
    · left; rfl
    · right; rfl
  unfold Item.make
  rcases hdeg with hd | hd <;> rw [hd] <;> exact ⟨_, rfl, rfl, rfl⟩

/-- The loop of `strokeSegment` fails no assertion when every item on the stack
holds a line whose ends differ or a quad. -/
theorem strokeSegmentLoop_isSome {sqrtf : K → K}
    (hsq : ∀ x, 0 ≤ x → 0 ≤ sqrtf x ∧ sqrtf x * sqrtf x = x) :
    ∀ (n : Nat) (stack : List (Item K)) (result : List (PathSegment K)),
      (∀ it ∈ stack,
        ((it.fSeg.fVerb = Verb.kLine_Verb ∧ it.fSeg.pt 0 ≠ it.fSeg.pt 1)
          ∨ it.fSeg.fVerb = Verb.kQuad_Verb) ∧ it.fSegY.fDegree = it.fSegX.fDegree) →
      ∃ out, strokeSegmentLoop sqrtf n stack result = some out := by
  intro n
  induction n with
  | zero =>
    intro stack result _
    exact ⟨result, by rw [strokeSegmentLoop]⟩
  | succ n ih =>
    intro stack result hstack
    cases stack with
    | nil => exact ⟨result, by rw [strokeSegmentLoop]⟩
    | cons item stack =>
      obtain ⟨hseg, hY⟩ := hstack item (List.mem_cons_self _ _)
      obtain ⟨Q, hQ⟩ := approximateSegment_isSome hsq item.fSeg item.fDistFnc hseg
      obtain ⟨ed, hed⟩ := errorCurve_isSome item Q hY
      obtain ⟨l, r, hlr, hl, hr⟩ := splitSegment_isSome item.fSeg hseg
      obtain ⟨right, hright, hr1, hr2⟩ := Item_make_isSome r (item.fDistFnc.split (1 / 2)).2
        (ed.2.split (1 / 2)).2 hr
      obtain ⟨left, hleft, hl1, hl2⟩ := Item_make_isSome l (item.fDistFnc.split (1 / 2)).1
        (ed.2.split (1 / 2)).1 hl
      rw [strokeSegmentLoop]
      simp only [hQ, hed, hlr, hright, hleft, Option.some_bind]
      split
      · apply ih
        intro it hit
        rcases List.mem_cons.1 hit with rfl | hit
        · exact ⟨by rw [hl1]; exact hl, hl2⟩
        · rcases List.mem_cons.1 hit with rfl | hit
          · exact ⟨by rw [hr1]; exact hr, hr2⟩
          · exact hstack it (List.mem_cons_of_mem _ hit)
      · apply ih
        intro it hit
        exact hstack it (List.mem_cons_of_mem _ hit)

/-- The loop of `strokeSegment` only appends to the list of quads. -/
theorem strokeSegmentLoop_length_ge (sqrtf : K → K) :
    ∀ (n : Nat) (stack : List (Item K)) (result out : List (PathSegment K)),
      strokeSegmentLoop sqrtf n stack result = some out → result.length ≤ out.length := by
  intro n
  induction n with
  | zero =>
    intro stack result out h
    rw [strokeSegmentLoop] at h
    simp only [Option.some.injEq] at h
    rw [h]
  | succ n ih =>
    intro stack result out h
    cases stack with
    | nil =>
      rw [strokeSegmentLoop] at h
      simp only [Option.some.injEq] at h
      rw [h]
    | cons item stack =>
      rw [strokeSegmentLoop] at h
      cases ha : approximateSegment sqrtf item.fSeg item.fDistFnc with
      | none => rw [ha] at h; simp at h
      | some q =>
        rw [ha] at h
        simp only [Option.some_bind] at h
        cases he : errorCurve item q with
        | none => rw [he] at h; simp at h
        | some ed =>
          rw [he] at h
          simp only [Option.some_bind] at h
          by_cases hc : |ed.1.extremumWeight| > |1 / 2 * item.fDistFnc.extremumWeight|
          · rw [if_pos hc] at h
            cases hs : splitSegment item.fSeg (1 / 2) with
            | none => rw [hs] at h; simp at h
            | some lr =>
              rw [hs] at h
              simp only [Option.some_bind] at h
              cases hr : Item.make lr.2 (item.fDistFnc.split (1 / 2)).2 (ed.2.split (1 / 2)).2 with
              | none => rw [hr] at h; simp at h
              | some right =>
                rw [hr] at h
                simp only [Option.some_bind] at h
                cases hl : Item.make lr.1 (item.fDistFnc.split (1 / 2)).1
                    (ed.2.split (1 / 2)).1 with
                | none => rw [hl] at h; simp at h
                | some left =>
                  rw [hl] at h
                  simp only [Option.some_bind] at h
                  exact ih _ _ _ h
          · rw [if_neg hc] at h
            have := ih _ _ _ h
            rw [List.length_append] at this
            omega

/-- A run of the loop of `strokeSegment` that starts with an item on the stack
and ends with an empty list has rejected a candidate in every round of its
budget. -/
theorem strokeSegmentLoop_nil_rounds (sqrtf : K → K) :
    ∀ (n : Nat) (stack : List (Item K)) (result : List (PathSegment K)),
      stack ≠ [] → strokeSegmentLoop sqrtf n stack result = some [] →
      strokeSegmentRounds sqrtf n stack = n := by
  intro n
  induction n with
  | zero =>
    intro stack result _ _
    rw [strokeSegmentRounds]
  | succ n ih =>
    intro stack result hne h
    cases stack with
    | nil => exact absurd rfl hne
    | cons item stack =>
      rw [strokeSegmentLoop] at h
      cases ha : approximateSegment sqrtf item.fSeg item.fDistFnc with
      | none => rw [ha] at h; simp at h
      | some q =>
        rw [ha] at h
        simp only [Option.some_bind] at h
        cases he : errorCurve item q with
        | none => rw [he] at h; simp at h
        | some ed =>
          rw [he] at h
          simp only [Option.some_bind] at h
          by_cases hc : |ed.1.extremumWeight| > |1 / 2 * item.fDistFnc.extremumWeight|
          · rw [if_pos hc] at h
            cases hs : splitSegment item.fSeg (1 / 2) with
            | none => rw [hs] at h; simp at h
            | some lr =>
              rw [hs] at h
              simp only [Option.some_bind] at h
              cases hr : Item.make lr.2 (item.fDistFnc.split (1 / 2)).2 (ed.2.split (1 / 2)).2 with
              | none => rw [hr] at h; simp at h
              | some right =>
                rw [hr] at h
                simp only [Option.some_bind] at h
                cases hl : Item.make lr.1 (item.fDistFnc.split (1 / 2)).1
                    (ed.2.split (1 / 2)).1 with
                | none => rw [hl] at h; simp at h
                | some left =>
                  rw [hl] at h
                  simp only [Option.some_bind] at h
                  have := ih (left :: right :: stack) result (List.cons_ne_nil _ _) h
                  simp only [strokeSegmentRounds, ha, he, if_pos hc, hs, hr, hl,
                    Option.some_bind, Option.map_some', this]
                  omega
          · rw [if_neg hc] at h
            have := strokeSegmentLoop_length_ge sqrtf _ _ _ _ h
            simp at this

/-! ## The loop of `strokeSegment`, the fill path and the miter join -/

/-- The loop of `strokeSegment` over the reals with a weight far beyond the range
of `float`: the line from `(0, 0)` to `(1, 0)`, whose
unit tangent is `(1, 0)` at both ends, with the distance function of degree `2`
and weights `0, 0, 4 ^ 5000`.  Every one of the `5000` rounds of the loop rejects
its candidate, the loop ends with an empty list, and `strokeSegment` fails its
final assertion. -/
theorem strokeSegment_empty_after_all_rounds :
    unitNormal Real.sqrt ⟨Verb.kLine_Verb, [⟨0, 0⟩, ⟨1, 0⟩]⟩ 0
        = some ((⟨0, -1⟩ : SkPoint ℝ), ⟨1, 0⟩) ∧
      unitNormal Real.sqrt ⟨Verb.kLine_Verb, [⟨0, 0⟩, ⟨1, 0⟩]⟩ 1
        = some ((⟨0, -1⟩ : SkPoint ℝ), ⟨1, 0⟩) ∧
      strokeSegmentLoop Real.sqrt kMaxIters
        [⟨⟨Verb.kLine_Verb, [⟨0, 0⟩, ⟨1, 0⟩]⟩, ⟨2, [0, 0, 4 ^ 5000]⟩,
          ScalarBezCurve.Mul ⟨2, [0, 0, 4 ^ 5000]⟩ ⟨2, [0, 0, 4 ^ 5000]⟩,
          ⟨1, [0, 1]⟩, ⟨1, [0, 0]⟩⟩] [] = some [] ∧
      strokeSegment Real.sqrt ⟨Verb.kLine_Verb, [⟨0, 0⟩, ⟨1, 0⟩]⟩ ⟨2, [0, 0, 4 ^ 5000]⟩
        = none := by
  refine ⟨unitNormal_x_axis real_sqrt_spec 1 0 one_pos,
    unitNormal_x_axis real_sqrt_spec 1 1 one_pos, ?_, strokeSegment_x_axis_fails real_sqrt_spec⟩
  rw [Mul_quad_last, show kMaxIters = 5000 from rfl]
  exact strokeSegmentLoop_x_axis real_sqrt_spec 5000 1 (4 ^ 5000) one_pos le_rfl []

/-- The two outcomes of `strokeSegment` over an ordered field: for every line
whose end points differ, every quad and every
distance function, `strokeSegment` fails none of its inner assertions; it either
returns a list with at least one quad, or every one of its `kMaxIters = 5000`
rounds rejects its candidate, the loop ends with an empty list and the final
assertion fails.  It never returns an empty list. -/
theorem strokeSegment_nonempty {sqrtf : K → K}
    (hsq : ∀ x, 0 ≤ x → 0 ≤ sqrtf x ∧ sqrtf x * sqrtf x = x) (seg : PathSegment K)
    (distFnc : ScalarBezCurve K)
    (hseg : (seg.fVerb = Verb.kLine_Verb ∧ seg.pt 0 ≠ seg.pt 1)
      ∨ seg.fVerb = Verb.kQuad_Verb) :
    (∃ out, strokeSegment sqrtf seg distFnc = some out ∧ out ≠ []) ∨
    (strokeSegment sqrtf seg distFnc = none ∧
      strokeSegmentIters sqrtf seg distFnc = kMaxIters ∧
      ∃ item, Item.make seg distFnc (ScalarBezCurve.Mul distFnc distFnc) = some item ∧
        strokeSegmentLoop sqrtf kMaxIters [item] [] = some []) := by
  obtain ⟨item, hitem, h1, h2⟩ := Item_make_isSome seg distFnc
    (ScalarBezCurve.Mul distFnc distFnc) hseg
  obtain ⟨result, hres⟩ := strokeSegmentLoop_isSome hsq kMaxIters [item] [] (by
    intro it hit
    rw [List.mem_singleton] at hit
    subst hit
    exact ⟨by rw [h1]; exact hseg, h2⟩)
  by_cases hr : result = []
  · right
    subst hr
    refine ⟨?_, ?_, item, hitem, hres⟩
    · unfold strokeSegment
      rw [hitem]
      simp only [Option.some_bind, hres, if_true]
    · unfold strokeSegmentIters
      rw [hitem]
      exact strokeSegmentLoop_nil_rounds sqrtf kMaxIters [item] [] (List.cons_ne_nil _ _) hres
  · left
    refine ⟨result, ?_, hr⟩
    unfold strokeSegment
    rw [hitem]
    simp only [Option.some_bind, hres, if_neg hr]

/-- Instance of `strokeSegment_nonempty` over the reals: the line from `(0, 0)`
to `(100, 0)` with the constant distance `10`. -/
theorem strokeSegment_nonempty_witness :
    (((⟨Verb.kLine_Verb, [⟨0, 0⟩, ⟨100, 0⟩]⟩ : PathSegment ℝ).fVerb = Verb.kLine_Verb ∧
        (⟨Verb.kLine_Verb, [⟨0, 0⟩, ⟨100, 0⟩]⟩ : PathSegment ℝ).pt 0
          ≠ (⟨Verb.kLine_Verb, [⟨0, 0⟩, ⟨100, 0⟩]⟩ : PathSegment ℝ).pt 1)
      ∨ (⟨Verb.kLine_Verb, [⟨0, 0⟩, ⟨100, 0⟩]⟩ : PathSegment ℝ).fVerb = Verb.kQuad_Verb) ∧
    ((∃ out, strokeSegment Real.sqrt ⟨Verb.kLine_Verb, [⟨0, 0⟩, ⟨100, 0⟩]⟩ (mkWeights 0 [10])
        = some out ∧ out ≠ []) ∨
    (strokeSegment Real.sqrt ⟨Verb.kLine_Verb, [⟨0, 0⟩, ⟨100, 0⟩]⟩ (mkWeights 0 [10]) = none ∧
      strokeSegmentIters Real.sqrt ⟨Verb.kLine_Verb, [⟨0, 0⟩, ⟨100, 0⟩]⟩ (mkWeights 0 [10])
        = kMaxIters ∧
      ∃ item, Item.make (⟨Verb.kLine_Verb, [⟨0, 0⟩, ⟨100, 0⟩]⟩ : PathSegment ℝ)
          (mkWeights 0 [10])
          (ScalarBezCurve.Mul (mkWeights 0 [10]) (mkWeights 0 [10])) = some item ∧
        strokeSegmentLoop Real.sqrt kMaxIters [item] [] = some [])) := by
  have hseg : ((⟨Verb.kLine_Verb, [⟨0, 0⟩, ⟨100, 0⟩]⟩ : PathSegment ℝ).fVerb = Verb.kLine_Verb ∧
        (⟨Verb.kLine_Verb, [⟨0, 0⟩, ⟨100, 0⟩]⟩ : PathSegment ℝ).pt 0
          ≠ (⟨Verb.kLine_Verb, [⟨0, 0⟩, ⟨100, 0⟩]⟩ : PathSegment ℝ).pt 1)
      ∨ (⟨Verb.kLine_Verb, [⟨0, 0⟩, ⟨100, 0⟩]⟩ : PathSegment ℝ).fVerb = Verb.kQuad_Verb := by
    left
    refine ⟨rfl, ?_⟩
    simp [PathSegment.pt]
  exact ⟨hseg, strokeSegment_nonempty real_sqrt_spec _ _ hseg⟩

/-- C22: `strokeSegment` is a total function, and the body of its loop is executed
at most `kMaxIters = 5000` times in every call; a list that it returns has at most
as many quads as there were rounds, hence at most `5000`. -/
theorem strokeSegment_rounds_bounded (sqrtf : K → K) (seg : PathSegment K)
    (distFnc : ScalarBezCurve K) :
    kMaxIters = 5000 ∧
    strokeSegmentIters sqrtf seg distFnc ≤ 5000 ∧
    ∀ out, strokeSegment sqrtf seg distFnc = some out →
      out.length ≤ strokeSegmentIters sqrtf seg distFnc ∧ out.length ≤ 5000 := by
  have hit : strokeSegmentIters sqrtf seg distFnc ≤ 5000 := by
    unfold strokeSegmentIters
    split
    · omega
    · exact strokeSegmentRounds_le sqrtf kMaxIters _
  refine ⟨rfl, hit, ?_⟩
  intro out h
  have hlen : out.length ≤ strokeSegmentIters sqrtf seg distFnc := by
    unfold strokeSegment at h
    unfold strokeSegmentIters
    cases hi : Item.make seg distFnc (ScalarBezCurve.Mul distFnc distFnc) with
    | none => rw [hi] at h; simp at h
    | some item =>
      rw [hi] at h
      simp only [Option.some_bind] at h
      cases hl : strokeSegmentLoop sqrtf kMaxIters [item] [] with
      | none => rw [hl] at h; simp at h
      | some result =>
        rw [hl] at h
        simp only [Option.some_bind] at h
        by_cases hr : result = []
        · rw [if_pos hr] at h; simp at h
        · rw [if_neg hr] at h
          simp only [Option.some.injEq] at h
          have := strokeSegmentLoop_length sqrtf kMaxIters [item] [] result hl
          rw [← h]
          simpa using this
  exact ⟨hlen, le_trans hlen hit⟩

/-- C23, the claim at a failing input: the line from `(0, 0)` to `(1, 0)` with the
distance function `ScalarBezCurve(41, {0, .., 0, -100, 2000, 0})`, which is
zero at `0`, `1/2` and `1`.  `strokeSegment` runs one round and returns one quad,
the control polygon `(0, 0)`, `(1/2, 0)`, `(1, 0)` of the line, accepted for the
whole range `[0, 1]` with the tolerance `1000`; at `t = 7/8` the error
`| |Q(t) - S(t)|^2 - d(t)^2 |` is larger than `1000`. -/
theorem strokeSegment_accepts_beyond_tolerance :
    strokeSegment Real.sqrt ⟨Verb.kLine_Verb, [⟨0, 0⟩, ⟨1, 0⟩]⟩
        (mkWeights 41 (List.replicate 39 0 ++ [-100, 2000, 0]))
      = some [⟨Verb.kQuad_Verb, [⟨0, 0⟩, ⟨1 / 2, 0⟩, ⟨1, 0⟩]⟩] ∧
    strokeSegmentIters Real.sqrt ⟨Verb.kLine_Verb, [⟨0, 0⟩, ⟨1, 0⟩]⟩
        (mkWeights 41 (List.replicate 39 0 ++ [-100, 2000, 0])) = 1 ∧
    approximateSegment Real.sqrt ⟨Verb.kLine_Verb, [⟨0, 0⟩, ⟨1, 0⟩]⟩
        (mkWeights 41 (List.replicate 39 0 ++ [-100, 2000, 0]))
      = some ⟨Verb.kQuad_Verb, [⟨0, 0⟩, ⟨1 / 2, 0⟩, ⟨1, 0⟩]⟩ ∧
    1 / 2 * |(mkWeights 41 (List.replicate 39 0 ++ [-100, 2000, 0]) :
        ScalarBezCurve ℝ).extremumWeight| = 1000 ∧
    1000 < |((coordCurve SkPoint.fX 2 [⟨0, 0⟩, ⟨1 / 2, 0⟩, ⟨1, 0⟩]).eval (7 / 8)
          - (coordCurve SkPoint.fX 1 [⟨0, 0⟩, ⟨1, 0⟩]).eval (7 / 8)) ^ 2
        + ((coordCurve SkPoint.fY 2 [⟨0, 0⟩, ⟨1 / 2, 0⟩, ⟨1, 0⟩]).eval (7 / 8)
          - (coordCurve SkPoint.fY 1 [⟨0, 0⟩, ⟨1, 0⟩]).eval (7 / 8)) ^ 2
        - ((mkWeights 41 (List.replicate 39 0 ++ [-100, 2000, 0]) :
            ScalarBezCurve ℝ).eval (7 / 8)) ^ 2| := by
  obtain ⟨happ, hstroke, hiters⟩ := strokeSegment_sparse real_sqrt_spec (-100 : ℝ) 2000
    (by norm_num)
  refine ⟨hstroke, hiters, happ, ?_, ?_⟩
  · rw [extremumWeight_sparse (-100 : ℝ) 2000 (by norm_num)]
    norm_num
  · rw [eval_sparse, coordCurve_quad, coordCurve_quad, coordCurve_line, coordCurve_line]
    have e1 : (⟨2, [(0 : ℝ), 1 / 2, 1]⟩ : ScalarBezCurve ℝ).eval (7 / 8) = 7 / 8 := by
      simp [eval, Eval, casteljauRow, List.range']; norm_num
    have e2 : (⟨1, [(0 : ℝ), 1]⟩ : ScalarBezCurve ℝ).eval (7 / 8) = 7 / 8 := by
      simp [eval, Eval, casteljauRow, List.range']
    have e3 : (⟨2, [(0 : ℝ), 0, 0]⟩ : ScalarBezCurve ℝ).eval (7 / 8) = 0 := by
      simp [eval, Eval, casteljauRow, List.range']
    have e4 : (⟨1, [(0 : ℝ), 0]⟩ : ScalarBezCurve ℝ).eval (7 / 8) = 0 := by
      simp [eval, Eval, casteljauRow, List.range']
    simp only [e1, e2, e3, e4]
    rw [lt_abs]
    right
    norm_num

/-- C23 as amended: for a distance function `d` of degree at most `31`, every
quad `Q` that `strokeSegment(seg, d)` returns was accepted for a dyadic range
`[j / 2^k, (j + 1) / 2^k]` of `[0, 1]` such that, with `S` the restriction of the
segment and `dab` the restriction of `d` to that range, both reparameterised to
`[0, 1]`, `Q` is the candidate `approximateSegment(S, dab)` and, for every `t` in
`[0, 1]`, `| |Q(t) - S(t)|^2 - dab(t)^2 | ≤ 0.5 * |extremumWeight(dab)|`. -/
theorem strokeSegment_error_bound (sqrtf : K → K) (seg : PathSegment K)
    (d : ScalarBezCurve K) (out : List (PathSegment K)) (hd : InBounds d)
    (h31 : d.fDegree ≤ 31) (hout : strokeSegment sqrtf seg d = some out) :
    ∃ n : Nat, segmentDegree seg = some (n : Int) ∧
      ∀ Q ∈ out, ∃ (k j : Nat) (S : PathSegment K) (dab : ScalarBezCurve K),
        j < 2 ^ k ∧ S.fVerb = seg.fVerb ∧
        (∀ t, (coordCurve SkPoint.fX n S.fPoints).eval t
          = (coordCurve SkPoint.fX n seg.fPoints).eval ((j + t) / 2 ^ k)) ∧
        (∀ t, (coordCurve SkPoint.fY n S.fPoints).eval t
          = (coordCurve SkPoint.fY n seg.fPoints).eval ((j + t) / 2 ^ k)) ∧
        dab.fDegree = d.fDegree ∧ InBounds dab ∧
        (dab = d ∨ (dab.fWeights.length : Int) = d.fDegree + 1) ∧
        (∀ t, dab.eval t = d.eval ((j + t) / 2 ^ k)) ∧
        approximateSegment sqrtf S dab = some Q ∧
        ∀ t, 0 ≤ t → t ≤ 1 →
          |((coordCurve SkPoint.fX 2 Q.fPoints).eval t
                - (coordCurve SkPoint.fX n S.fPoints).eval t) ^ 2
              + ((coordCurve SkPoint.fY 2 Q.fPoints).eval t
                - (coordCurve SkPoint.fY n S.fPoints).eval t) ^ 2
              - dab.eval t ^ 2| ≤ 1 / 2 * |dab.extremumWeight| := by
  unfold strokeSegment at hout
  cases hi : Item.make seg d (ScalarBezCurve.Mul d d) with
  | none => rw [hi] at hout; simp at hout
  | some item =>
    rw [hi] at hout
    simp only [Option.some_bind] at hout
    cases hl : strokeSegmentLoop sqrtf kMaxIters [item] [] with
    | none => rw [hl] at hout; simp at hout
    | some result =>
      rw [hl] at hout
      simp only [Option.some_bind] at hout
      by_cases hr : result = []
      · rw [if_pos hr] at hout; simp at hout
      · rw [if_neg hr] at hout
        simp only [Option.some.injEq] at hout
        subst hout
        obtain ⟨n0, hn0, -⟩ := Item_make_spec seg d _ item hi
        have h123 := (segmentDegree_some seg n0 hn0).1
        obtain ⟨n, rfl⟩ : ∃ n : Nat, n0 = (n : Int) := ⟨n0.toNat, by omega⟩
        have hn1 : 1 ≤ n := by omega
        have hn3 : n ≤ 3 := by omega
        refine ⟨n, hn0, ?_⟩
        refine strokeSegmentLoop_rule sqrtf (fun it => ∃ k j, it.Covers n seg d k j) _ ?_ ?_
          kMaxIters [item] [] result ?_ (by simp) hl
        · intro it Q ed hI happ herr hacc
          obtain ⟨k, j, hC⟩ := hI
          have hC2 := hC
          obtain ⟨hj, hv, hX, hY, hXe, hYe, hDin, hDd, hDl, hDe, hSin, hS62, hSe⟩ := hC2
          exact ⟨k, j, it.fSeg, it.fDistFnc, hj, hv, hXe, hYe, hDd, hDin, hDl, hDe, happ,
            fun t ht0 ht1 => accepted_error_bound it Q ed n hn1 hn3 hX hY hSin hS62 hSe herr
              hacc t ht0 ht1⟩
        · intro it Q ed lr left right hI herr hlr hright hleft
          obtain ⟨k, j, hC⟩ := hI
          obtain ⟨h1, h2⟩ := Covers_split seg d n hn1 hn3 hn0 k j it Q ed lr left right hC herr
            hlr hright hleft
          exact ⟨⟨_, _, h1⟩, ⟨_, _, h2⟩⟩
        · intro it hit
          rw [List.mem_singleton] at hit
          subst hit
          exact ⟨0, 0, Covers_root seg d n it hd h31 hn0 hi⟩

/-- Witness of the amended C23 over the reals: the line from `(0, 0)` to
`(100, 0)` with the constant distance function `10`, for which `strokeSegment`
returns the quad `(0, -10)`, `(50, -10)`, `(100, -10)`. -/
theorem strokeSegment_error_bound_witness :
    InBounds (mkWeights 0 [10] : ScalarBezCurve ℝ) ∧
    (mkWeights 0 [10] : ScalarBezCurve ℝ).fDegree ≤ 31 ∧
    strokeSegment Real.sqrt ⟨Verb.kLine_Verb, [⟨0, 0⟩, ⟨100, 0⟩]⟩ (mkWeights 0 [10])
      = some [⟨Verb.kQuad_Verb, [⟨0, -10⟩, ⟨50, -10⟩, ⟨100, -10⟩]⟩] ∧
    ∃ n : Nat,
      segmentDegree (⟨Verb.kLine_Verb, [⟨0, 0⟩, ⟨100, 0⟩]⟩ : PathSegment ℝ) = some (n : Int) ∧
      ∀ Q ∈ [(⟨Verb.kQuad_Verb, [⟨0, -10⟩, ⟨50, -10⟩, ⟨100, -10⟩]⟩ : PathSegment ℝ)],
        ∃ (k j : Nat) (S : PathSegment ℝ) (dab : ScalarBezCurve ℝ),
        j < 2 ^ k ∧ S.fVerb = Verb.kLine_Verb ∧
        (∀ t, (coordCurve SkPoint.fX n S.fPoints).eval t
          = (coordCurve SkPoint.fX n [⟨0, 0⟩, ⟨100, 0⟩]).eval ((j + t) / 2 ^ k)) ∧
        (∀ t, (coordCurve SkPoint.fY n S.fPoints).eval t
          = (coordCurve SkPoint.fY n [⟨0, 0⟩, ⟨100, 0⟩]).eval ((j + t) / 2 ^ k)) ∧
        dab.fDegree = (mkWeights 0 [10] : ScalarBezCurve ℝ).fDegree ∧ InBounds dab ∧
        (dab = mkWeights 0 [10] ∨
          (dab.fWeights.length : Int) = (mkWeights 0 [10] : ScalarBezCurve ℝ).fDegree + 1) ∧
        (∀ t, dab.eval t = (mkWeights 0 [10] : ScalarBezCurve ℝ).eval ((j + t) / 2 ^ k)) ∧
        approximateSegment Real.sqrt S dab = some Q ∧
        ∀ t, 0 ≤ t → t ≤ 1 →
          |((coordCurve SkPoint.fX 2 Q.fPoints).eval t
                - (coordCurve SkPoint.fX n S.fPoints).eval t) ^ 2
              + ((coordCurve SkPoint.fY 2 Q.fPoints).eval t
                - (coordCurve SkPoint.fY n S.fPoints).eval t) ^ 2
              - dab.eval t ^ 2| ≤ 1 / 2 * |dab.extremumWeight| := by
  have hin : InBounds (mkWeights 0 [10] : ScalarBezCurve ℝ) := by
    unfold InBounds mkWeights mkDegree; simp
  have h31 : (mkWeights 0 [10] : ScalarBezCurve ℝ).fDegree ≤ 31 := by
    show (0 : Int) ≤ 31
    decide
  have hs : strokeSegment Real.sqrt ⟨Verb.kLine_Verb, [⟨0, 0⟩, ⟨100, 0⟩]⟩ (mkWeights 0 [10])
      = some [⟨Verb.kQuad_Verb, [⟨0, -10⟩, ⟨50, -10⟩, ⟨100, -10⟩]⟩] := by
    rw [mkWeights_const, strokeSegment_line real_sqrt_spec _ _ ⟨0, -1⟩ ⟨1, 0⟩ 10
      (fun t => by
        rw [unitNormal_line_of_length real_sqrt_spec _ _ 100 (by norm_num) (by norm_num)]
        norm_num)
      (by norm_num) (by norm_num)]
    simp [SkPoint.add, SkPoint.scale]
    norm_num
  exact ⟨hin, h31, hs, strokeSegment_error_bound Real.sqrt _ _ _ hin h31 hs⟩

/-- C24: for every input path that is one move followed by `k ≥ 1` line or quad
verbs (one open contour), a path that `getFillPath` returns is one closed
contour: its first verb is its only move, its last verb is its only close, and
every verb between them is a line or a quad. -/
theorem getFillPath_single_closed_contour (sqrtf : K → K) (st : SkVarWidthStroker K)
    (paint : SkPaint K) (verbs : List Verb) (pts : List (SkPoint K)) (lastMove : Int)
    (varWidth varWidthInner : ScalarBezCurve K) (out : SkPath K)
    (hv : ∀ x ∈ verbs, x = Verb.kLine_Verb ∨ x = Verb.kQuad_Verb) (hk : 1 ≤ verbs.length)
    (h : getFillPath sqrtf st ⟨Verb.kMove_Verb :: verbs, pts, lastMove⟩ paint
      varWidth varWidthInner = some out) :
    ∃ mid : List Verb, out.fVerbs = Verb.kMove_Verb :: mid ++ [Verb.kClose_Verb] ∧
      ∀ x ∈ mid, x = Verb.kLine_Verb ∨ x = Verb.kQuad_Verb := by
  have hne : verbs ≠ [] := by
    intro h0; rw [h0] at hk; simp at hk
  unfold getFillPath at h
  simp only [] at h
  have hiter : iterSegments (Verb.kMove_Verb :: verbs) pts (⟨0, 0⟩ : SkPoint K) ⟨0, 0⟩
      = ⟨Verb.kMove_Verb, [pts.getD 0 ⟨0, 0⟩]⟩ ::
        iterSegments verbs (pts.drop 1) (pts.getD 0 ⟨0, 0⟩) (pts.getD 0 ⟨0, 0⟩) := by
    rw [iterSegments, if_neg hne]
  rw [hiter, List.foldl_cons] at h
  have hmove : getFillPathStep sqrtf
      (some ({ initForPath st paint with fVarWidth := varWidth, fVarWidthInner := varWidthInner },
        (⟨Verb.kDone_Verb, []⟩ : PathSegment K), true)) ⟨Verb.kMove_Verb, [pts.getD 0 ⟨0, 0⟩]⟩
      = some ({ initForPath st paint with
          fVarWidth := varWidth, fVarWidthInner := varWidthInner },
        (⟨Verb.kDone_Verb, []⟩ : PathSegment K), true) := rfl
  rw [hmove] at h
  obtain ⟨hsegs, hsne⟩ := iterSegments_lines_quads verbs hv (pts.drop 1)
    (pts.getD 0 ⟨0, 0⟩) (pts.getD 0 ⟨0, 0⟩)
  cases hfold : List.foldl (getFillPathStep sqrtf)
      (some ({ initForPath st paint with fVarWidth := varWidth, fVarWidthInner := varWidthInner },
        (⟨Verb.kDone_Verb, []⟩ : PathSegment K), true))
      (iterSegments verbs (pts.drop 1) (pts.getD 0 ⟨0, 0⟩) (pts.getD 0 ⟨0, 0⟩)) with
  | none => rw [hfold] at h; simp at h
  | some acc =>
    obtain ⟨s1, prev1, first1⟩ := acc
    rw [hfold] at h
    simp only [Option.some_bind] at h
    have ho := getFillPath_fold_OpenContour sqrtf _ hsegs _ s1 _ prev1 true first1 hfold
      (by simp [initForPath]) (hsne hne)
    split at h
    · simp at h
    · rw [endcap_End] at h
      cases happ : appendPathReversed s1.fInner (s1.fOuter.lineTo s1.fInner.getLastPt) with
      | none => simp only [happ, Option.map_none'] at h; simp at h
      | some outer =>
        simp only [happ, Option.map_some', endcap_Start, Option.some.injEq] at h
        have ho2 : outer.OpenContour := by
          unfold appendPathReversed at happ
          cases hl : appendReversedLoop s1.fInner.fPts s1.fInner.fVerbs.reverse
              (((s1.fInner.countPoints : Nat) : Int), s1.fOuter.lineTo s1.fInner.getLastPt) with
          | none => rw [hl] at happ; simp at happ
          | some r =>
            obtain ⟨j1, r1⟩ := r
            rw [hl] at happ
            simp only [Option.map_some', Option.some.injEq] at happ
            rw [← happ]
            exact appendReversedLoop_OpenContour _ _ _ _ _ _ hl (OpenContour_lineTo _ _ ho)
        rw [← h]
        exact OpenContour_close outer ho2

/-- Witness of C24 over the reals: the path `Move(0, 0)`, `Line(100, 0)` with the
stroke width `20` and the constant distance functions `10`; `getFillPath`
returns, and the path it returns is one closed contour. -/
theorem getFillPath_single_closed_contour_witness :
    ∃ out : SkPath ℝ,
      getFillPath Real.sqrt
        ⟨0, Cap.kButt_Cap, Join.kMiter_Join, SkPath.empty, SkPath.empty, mkEmpty, mkEmpty, 0⟩
        ⟨[Verb.kMove_Verb, Verb.kLine_Verb], [⟨0, 0⟩, ⟨100, 0⟩], 0⟩
        ⟨20, Cap.kButt_Cap, Join.kMiter_Join⟩ (mkWeights 0 [10]) (mkWeights 0 [10]) = some out ∧
      ∃ mid : List Verb, out.fVerbs = Verb.kMove_Verb :: mid ++ [Verb.kClose_Verb] ∧
        ∀ x ∈ mid, x = Verb.kLine_Verb ∨ x = Verb.kQuad_Verb := by
  have hp : (⟨[Verb.kMove_Verb, Verb.kLine_Verb], [⟨0, 0⟩, ⟨100, 0⟩], 0⟩ : SkPath ℝ)
      = (SkPath.empty.moveTo ⟨0, 0⟩).lineTo ⟨100, 0⟩ := by
    simp [SkPath.empty, SkPath.moveTo, SkPath.lineTo, SkPath.injectMoveToIfNeeded]
  have hget := getFillPath_single_line real_sqrt_spec
    ⟨0, Cap.kButt_Cap, Join.kMiter_Join, SkPath.empty, SkPath.empty, mkEmpty, mkEmpty, 0⟩
    ⟨20, Cap.kButt_Cap, Join.kMiter_Join⟩ ⟨0, 0⟩ ⟨100, 0⟩ ⟨0, -1⟩ ⟨1, 0⟩ 10
    (fun t => by
      rw [unitNormal_line_of_length real_sqrt_spec _ _ 100 (by norm_num) (by norm_num)]
      norm_num)
    (by norm_num) (by norm_num)
  rw [← hp] at hget
  exact ⟨_, hget, getFillPath_single_closed_contour Real.sqrt _ _ [Verb.kLine_Verb] _ _ _ _ _
    (by intro x hx; left; simpa using hx) (by simp) hget⟩

/-- C25: the result of `getFillPath` does not depend on the cap and join styles of
the paint: for every path, stroke width and pair of distance functions, every
cap style and every join style give the path that `kButt_Cap` and `kMiter_Join`
give. -/
theorem getFillPath_cap_join_independent (sqrtf : K → K) (st : SkVarWidthStroker K)
    (path : SkPath K) (width : K) (cap : Cap) (jn : Join)
    (varWidth varWidthInner : ScalarBezCurve K) :
    getFillPath sqrtf st path ⟨width, cap, jn⟩ varWidth varWidthInner
      = getFillPath sqrtf st path ⟨width, Cap.kButt_Cap, Join.kMiter_Join⟩
          varWidth varWidthInner := by
  unfold getFillPath
  have h := getFillPath_fold_styles sqrtf cap jn
    (iterSegments path.fVerbs path.fPts ⟨0, 0⟩ ⟨0, 0⟩)
    (some ({ initForPath st ⟨width, Cap.kButt_Cap, Join.kMiter_Join⟩ with
        fVarWidth := varWidth, fVarWidthInner := varWidthInner },
      (⟨Verb.kDone_Verb, []⟩ : PathSegment K), true))
  have h0 : (some ({ initForPath st ⟨width, cap, jn⟩ with
        fVarWidth := varWidth, fVarWidthInner := varWidthInner },
      (⟨Verb.kDone_Verb, []⟩ : PathSegment K), true))
      = (some ({ initForPath st ⟨width, Cap.kButt_Cap, Join.kMiter_Join⟩ with
        fVarWidth := varWidth, fVarWidthInner := varWidthInner },
      (⟨Verb.kDone_Verb, []⟩ : PathSegment K), true)).map
        (fun t => ({ t.1 with fCap := cap, fJoin := jn }, t.2)) := rfl
  simp only []
  rw [h0, h]
  cases List.foldl (getFillPathStep sqrtf)
      (some ({ initForPath st ⟨width, Cap.kButt_Cap, Join.kMiter_Join⟩ with
        fVarWidth := varWidth, fVarWidthInner := varWidthInner },
      (⟨Verb.kDone_Verb, []⟩ : PathSegment K), true))
      (iterSegments path.fVerbs path.fPts ⟨0, 0⟩ ⟨0, 0⟩) with
  | none => rfl
  | some s =>
    simp only [Option.map_some', Option.some_bind, endcap_End, endcap_Start]

/-- C26, the claim at a failing input: for a cubic segment `segmentDegree` returns
`3`, the entry of its table for `kCubic_Verb`; it does not fail. -/
theorem segmentDegree_cubic_returns :
    segmentDegree (⟨Verb.kCubic_Verb, [⟨0, 0⟩, ⟨1, 0⟩, ⟨2, 1⟩, ⟨3, 3⟩]⟩ : PathSegment ℚ)
      = some 3 := by
  rfl

/-- C26 as amended: `segmentDegree` returns `1` for a line, `2` for a quad and `3`
for a cubic, and fails its assertion for a move, a conic and a close. -/
theorem segmentDegree_table (T : Type) (pts : List (SkPoint T)) :
    segmentDegree (⟨Verb.kLine_Verb, pts⟩ : PathSegment T) = some 1 ∧
    segmentDegree (⟨Verb.kQuad_Verb, pts⟩ : PathSegment T) = some 2 ∧
    segmentDegree (⟨Verb.kCubic_Verb, pts⟩ : PathSegment T) = some 3 ∧
    segmentDegree (⟨Verb.kMove_Verb, pts⟩ : PathSegment T) = none ∧
    segmentDegree (⟨Verb.kConic_Verb, pts⟩ : PathSegment T) = none ∧
    segmentDegree (⟨Verb.kClose_Verb, pts⟩ : PathSegment T) = none :=
  ⟨rfl, rfl, rfl, rfl, rfl, rfl⟩

/-- C27, the code at a failing input: for the line `(0, 0) (1, 0)` followed by
the line `(1, 0) (0, 0)`, both of length one, the unit normals are `(0, -1)` and
`(0, 1)`, the near-zero test is false, so the join is not skipped, and the
divisor `sinHalfTheta` is zero. -/
theorem miterSinHalfTheta_zero_on_reversal :
    unitNormal Real.sqrt ⟨Verb.kLine_Verb, [⟨0, 0⟩, ⟨1, 0⟩]⟩ 1
        = some ((⟨0, -1⟩ : SkPoint ℝ), ⟨1, 0⟩) ∧
      unitNormal Real.sqrt ⟨Verb.kLine_Verb, [⟨1, 0⟩, ⟨0, 0⟩]⟩ 0
        = some ((⟨0, 1⟩ : SkPoint ℝ), ⟨-1, 0⟩) ∧
      miterSkipped Real.sqrt (⟨Verb.kLine_Verb, [⟨0, 0⟩, ⟨1, 0⟩]⟩ : PathSegment ℝ)
        ⟨Verb.kLine_Verb, [⟨1, 0⟩, ⟨0, 0⟩]⟩ = some false ∧
      miterSinHalfTheta Real.sqrt (⟨Verb.kLine_Verb, [⟨0, 0⟩, ⟨1, 0⟩]⟩ : PathSegment ℝ)
        ⟨Verb.kLine_Verb, [⟨1, 0⟩, ⟨0, 0⟩]⟩ = some 0 := by
  have hc := miterCosTheta_eq Real.sqrt _ _ _ _ _ _ unitNormal_reverse_prev
    unitNormal_reverse_curr
  have hd : (⟨0, -1⟩ : SkPoint ℝ).dot ⟨0, 1⟩ = -1 := by simp [SkPoint.dot]
  rw [hd] at hc
  refine ⟨unitNormal_reverse_prev, unitNormal_reverse_curr, ?_, ?_⟩
  · unfold miterSkipped
    rw [hc]
    simp only [Option.map_some', SkScalarNearlyZero, Option.some.injEq, decide_eq_false_iff_not]
    norm_num
  · unfold miterSinHalfTheta
    rw [hc]
    simp

/-- The divisor of the miter join away from a reversal, over an ordered field
where the dot product of the normals is not rounded: for two consecutive
segments whose unit normals at
the junction have length one and are not opposite, the divisor
`sinHalfTheta = sqrt(0.5 * (1 + cosTheta))` is positive, whether the near-zero
test skips the join or not, so that `halfMiterLength = fRadius / sinHalfTheta`
divides by a number different from zero. -/
theorem miterSinHalfTheta_pos {sqrtf : K → K}
    (hsq : ∀ x, 0 ≤ x → 0 ≤ sqrtf x ∧ sqrtf x * sqrtf x = x)
    (prev curr : PathSegment K) (nb tb na ta : SkPoint K)
    (hb : unitNormal sqrtf prev 1 = some (nb, tb))
    (ha : unitNormal sqrtf curr 0 = some (na, ta))
    (hnb : nb.dot nb = 1) (hna : na.dot na = 1) (hopp : nb.dot na ≠ -1) :
    ∃ skipped sinHalfTheta,
      miterSkipped sqrtf prev curr = some skipped ∧
      miterSinHalfTheta sqrtf prev curr = some sinHalfTheta ∧
      (skipped = true ∨ sinHalfTheta ≠ 0) ∧ 0 < sinHalfTheta := by
  have hc := miterCosTheta_eq sqrtf prev curr nb tb na ta hb ha
  have hpos := sinHalfTheta_pos hsq nb na hnb hna hopp
  refine ⟨SkScalarNearlyZero (1 - nb.dot na), sqrtf (1 / 2 * (1 + nb.dot na)), ?_, ?_,
    Or.inr hpos.ne', hpos⟩
  · unfold miterSkipped; rw [hc]; rfl
  · unfold miterSinHalfTheta; rw [hc]; rfl

/-- Instance of `miterSinHalfTheta_pos`: the lines `(0, 0) (5, 0)` and
`(5, 0) (12, 24)`. -/
theorem miterSinHalfTheta_pos_witness :
    ∃ skipped sinHalfTheta,
      miterSkipped Real.sqrt (⟨Verb.kLine_Verb, [⟨0, 0⟩, ⟨5, 0⟩]⟩ : PathSegment ℝ)
        ⟨Verb.kLine_Verb, [⟨5, 0⟩, ⟨12, 24⟩]⟩ = some skipped ∧
      miterSinHalfTheta Real.sqrt (⟨Verb.kLine_Verb, [⟨0, 0⟩, ⟨5, 0⟩]⟩ : PathSegment ℝ)
        ⟨Verb.kLine_Verb, [⟨5, 0⟩, ⟨12, 24⟩]⟩ = some sinHalfTheta ∧
      (skipped = true ∨ sinHalfTheta ≠ 0) ∧ 0 < sinHalfTheta :=
  miterSinHalfTheta_pos real_sqrt_spec _ _ ⟨0, -1⟩ ⟨1, 0⟩ ⟨24 / 25, -(7 / 25)⟩ ⟨7 / 25, 24 / 25⟩
    unitNormal_example_prev unitNormal_example_curr (by simp only [SkPoint.dot]; norm_num)
    (by simp only [SkPoint.dot]; norm_num) (by simp only [SkPoint.dot]; norm_num)

/-- C28, the code at a failing input: the corner `(0, 0)`, `(100, 0)`, `(100, 50)`
with `fRadius = 10` and the constant distance functions `5`.  After the join the
last point of `fOuter` is `(110, 0)` and the last point of `fInner` is `(90, 0)`,
while the first quad that `strokeSegment` returns for the second line starts at
`(105, 0)` with the outer distance function and at `(95, 0)` with the negated
inner one. -/
theorem join_ends_off_the_offset_start :
    (join Real.sqrt ⟨10, Cap.kButt_Cap, Join.kMiter_Join, SkPath.empty, SkPath.empty,
          mkWeights 0 [5], mkWeights 0 [5], 0⟩
        ⟨Verb.kLine_Verb, [⟨0, 0⟩, ⟨100, 0⟩]⟩ ⟨Verb.kLine_Verb, [⟨100, 0⟩, ⟨100, 50⟩]⟩).map
        (fun s => (s.fOuter.getLastPt, s.fInner.getLastPt))
      = some ((⟨110, 0⟩ : SkPoint ℝ), (⟨90, 0⟩ : SkPoint ℝ)) ∧
    (strokeSegment Real.sqrt ⟨Verb.kLine_Verb, [⟨100, 0⟩, ⟨100, 50⟩]⟩ (mkWeights 0 [5])).map
        (fun quads => (quads.headD ⟨Verb.kDone_Verb, []⟩).pt 0)
      = some (⟨105, 0⟩ : SkPoint ℝ) ∧
    (strokeSegment Real.sqrt ⟨Verb.kLine_Verb, [⟨100, 0⟩, ⟨100, 50⟩]⟩
        (ScalarBezCurve.MulScalar (mkWeights 0 [5]) (-1))).map
        (fun quads => (quads.headD ⟨Verb.kDone_Verb, []⟩).pt 0)
      = some (⟨95, 0⟩ : SkPoint ℝ) := by
  have hskip : SkScalarNearlyZero (1 - (⟨0, -1⟩ : SkPoint ℝ).dot ⟨1, 0⟩) = false := by
    simp only [SkPoint.dot, SkScalarNearlyZero, decide_eq_false_iff_not]
    norm_num
  have hcw : isClockwise (⟨0, -1⟩ : SkPoint ℝ) ⟨1, 0⟩ = true := by
    unfold isClockwise SkPoint.cross
    apply decide_eq_true
    norm_num
  refine ⟨?_, ?_, ?_⟩
  · rw [join_eq_miterJoin, miterJoin_last_points real_sqrt_spec _ _ _ _ _ _ _
      unitNormal_corner_prev (unitNormal_corner_curr 0) (by simp [SkPoint.dot])
      (by norm_num) hskip, hcw]
    simp only [if_true, Option.map_some', getLastPt_lineTo, PathSegment.pt,
      List.getD_cons_zero, SkPoint.add, SkPoint.sub, SkPoint.scale]
    norm_num
  · rw [mkWeights_const, strokeSegment_line real_sqrt_spec _ _ _ _ 5 unitNormal_corner_curr
      (by norm_num) (by norm_num)]
    simp only [Option.map_some', List.headD_cons, PathSegment.pt, List.getD_cons_zero,
      SkPoint.add, SkPoint.scale]
    norm_num
  · rw [mkWeights_const, MulScalar_const,
      strokeSegment_line real_sqrt_spec _ _ _ _ (5 * -1) unitNormal_corner_curr
      (by norm_num) (by norm_num)]
    simp only [Option.map_some', List.headD_cons, PathSegment.pt, List.getD_cons_zero,
      SkPoint.add, SkPoint.scale]
    norm_num

/-- C29: after every miter join that is not skipped, whichever way the path
turns, the last point of `fOuter` is `curr.start + fRadius * n` and the last point
of `fInner` is `curr.start - fRadius * n`, where `n` is the unit normal of `curr`
at `0`; this is where the offset pieces of `curr` start when both distance
functions are the constant `fRadius`.  With `fRadius = 0` the join fails the
assertion of `setLength`. -/
theorem join_last_points {sqrtf : K → K}
    (hsq : ∀ x, 0 ≤ x → 0 ≤ sqrtf x ∧ sqrtf x * sqrtf x = x)
    (st : SkVarWidthStroker K) (prev curr : PathSegment K) (nb tb na ta : SkPoint K)
    (hb : unitNormal sqrtf prev 1 = some (nb, tb))
    (ha : unitNormal sqrtf curr 0 = some (na, ta)) (hna : na.dot na = 1)
    (hskip : miterSkipped sqrtf prev curr = some false) :
    (st.fRadius ≠ 0 →
      ∃ st1, join sqrtf st prev curr = some st1 ∧
        st1.fOuter.getLastPt = (curr.pt 0).add (na.scale st.fRadius) ∧
        st1.fInner.getLastPt = (curr.pt 0).sub (na.scale st.fRadius)) ∧
    (st.fRadius = 0 → join sqrtf st prev curr = none) := by
  have hs : SkScalarNearlyZero (1 - nb.dot na) = false := by
    unfold miterSkipped at hskip
    rw [miterCosTheta_eq sqrtf prev curr nb tb na ta hb ha] at hskip
    simpa using hskip
  constructor
  · intro hr
    refine ⟨_, by rw [join_eq_miterJoin]; exact miterJoin_last_points hsq st prev curr nb tb na ta hb ha hna hr hs, ?_, ?_⟩
    · cases isClockwise nb na
      · simp only [Bool.false_eq_true, if_false, getLastPt_lineTo, SkPoint_sub_rotate180]
      · simp only [if_true, getLastPt_lineTo]
    · cases isClockwise nb na
      · simp only [Bool.false_eq_true, if_false, getLastPt_lineTo, SkPoint_add_rotate180]
      · simp only [if_true, getLastPt_lineTo]
  · intro hr
    rw [join_eq_miterJoin]
    exact miterJoin_radius_zero sqrtf st prev curr nb tb na ta hb ha hr hs

/-- Witness of C29 over the reals: the corner `(0, 0)`, `(100, 0)`, `(100, 50)`
with the radius `10`. -/
theorem join_last_points_witness :
    ∃ st1 : SkVarWidthStroker ℝ,
      join Real.sqrt ⟨10, Cap.kButt_Cap, Join.kMiter_Join, SkPath.empty, SkPath.empty,
          mkWeights 0 [10], mkWeights 0 [10], 0⟩
        ⟨Verb.kLine_Verb, [⟨0, 0⟩, ⟨100, 0⟩]⟩ ⟨Verb.kLine_Verb, [⟨100, 0⟩, ⟨100, 50⟩]⟩
        = some st1 ∧
      st1.fOuter.getLastPt = ⟨110, 0⟩ ∧ st1.fInner.getLastPt = ⟨90, 0⟩ := by
  obtain ⟨st1, h1, h2, h3⟩ := (join_last_points real_sqrt_spec
    ⟨10, Cap.kButt_Cap, Join.kMiter_Join, SkPath.empty, SkPath.empty,
      mkWeights 0 [10], mkWeights 0 [10], 0⟩
    ⟨Verb.kLine_Verb, [⟨0, 0⟩, ⟨100, 0⟩]⟩ ⟨Verb.kLine_Verb, [⟨100, 0⟩, ⟨100, 50⟩]⟩
    ⟨0, -1⟩ ⟨1, 0⟩ ⟨1, 0⟩ ⟨0, 1⟩ unitNormal_corner_prev (unitNormal_corner_curr 0)
    (by simp [SkPoint.dot]) miterSkipped_corner).1 (by norm_num)
  refine ⟨st1, h1, ?_, ?_⟩
  · rw [h2]; simp only [PathSegment.pt, List.getD_cons_zero, SkPoint.add, SkPoint.scale]
    norm_num
  · rw [h3]; simp only [PathSegment.pt, List.getD_cons_zero, SkPoint.sub, SkPoint.scale]
    norm_num

/-- The recursion of `ZeroSetRec` on an interval of width `2 ^ j / 4096` ends
within `j + 1` levels and appends at most `2 ^ j` values, for every curve and
every tolerance. -/
theorem ZeroSetRec_bounded (tol : K) :
    ∀ (j : Nat) (c : ScalarBezCurve K) (a b : K) (acc : List K), b - a = 2 ^ j / 4096 →
      ∃ out, ZeroSetRec (j + 1) c a b tol acc = some out ∧ out.length ≤ acc.length + 2 ^ j := by
  intro j
  induction j with
  | zero =>
    intro c a b acc hw
    have hz : SkScalarNearlyZero (b - a) = true := by
      unfold SkScalarNearlyZero
      rw [hw]
      apply decide_eq_true
      rw [abs_of_nonneg (by norm_num)]
      norm_num
    rw [ZeroSetRec]
    simp only []
    by_cases h1 : (zeroSetScan c).1 ≤ tol
    · rw [if_pos h1]
      exact ⟨_, rfl, by simp⟩
    · rw [if_neg h1]
      by_cases h2 : ((zeroSetScan c).2.1 || (zeroSetScan c).2.2) = true
      · rw [if_pos h2]
        exact ⟨_, rfl, by simp⟩
      · rw [if_neg h2, if_pos hz]
        exact ⟨_, rfl, by simp⟩
  | succ j ih =>
    intro c a b acc hw
    have hp : 1 ≤ 2 ^ (j + 1) := Nat.one_le_two_pow
    rw [ZeroSetRec]
    simp only []
    by_cases h1 : (zeroSetScan c).1 ≤ tol
    · rw [if_pos h1]
      exact ⟨_, rfl, by simp; omega⟩
    · rw [if_neg h1]
      by_cases h2 : ((zeroSetScan c).2.1 || (zeroSetScan c).2.2) = true
      · rw [if_pos h2]
        exact ⟨_, rfl, by omega⟩
      · rw [if_neg h2]
        by_cases h3 : SkScalarNearlyZero (b - a) = true
        · rw [if_pos h3]
          exact ⟨_, rfl, by omega⟩
        · rw [if_neg h3]
          obtain ⟨o1, e1, l1⟩ := ih (Split c (1 / 2)).1 a ((a + b) * (1 / 2)) acc
            (by rw [pow_succ] at hw; linear_combination (1 / 2) * hw)
          obtain ⟨o2, e2, l2⟩ := ih (Split c (1 / 2)).2 ((a + b) * (1 / 2)) b o1
            (by rw [pow_succ] at hw; linear_combination (1 / 2) * hw)
          refine ⟨o2, ?_, ?_⟩
          · rw [e1]
            simp only [Option.some_bind]
            exact e2
          · rw [pow_succ]; omega

/-- A loop whose rounds keep the length of a vector keeps it. -/
theorem foldl_length_eq {α β : Type} (F : List α → β → List α)
    (h : ∀ e x, (F e x).length = e.length) :
    ∀ (l : List β) (e : List α), (l.foldl F e).length = e.length := by
  intro l
  induction l with
  | nil => intro e; rfl
  | cons x l ih => intro e; rw [List.foldl_cons, ih, h]

/-- The vector that `Mul(a, b)` returns has the size that the constructor
`ScalarBezCurve(newDegree)` gave it. -/
theorem Mul_length (a b : ScalarBezCurve K) :
    (ScalarBezCurve.Mul a b).fWeights.length = (a.fDegree + b.fDegree + 1).toNat := by
  unfold ScalarBezCurve.Mul
  simp only []
  rw [foldl_length_eq, length_mkDegree]
  · rfl
  · intro e k
    rw [foldl_length_eq, List.length_set]
    intro e2 i
    rw [List.length_set]

/-- The vector that `AddSquares(a, b)` returns has the size that the constructor
`ScalarBezCurve(newDegree)` gave it. -/
theorem AddSquares_length (a b : ScalarBezCurve K) :
    (AddSquares a b).fWeights.length = (a.fDegree + b.fDegree + 1).toNat := by
  unfold AddSquares
  simp only []
  rw [foldl_length_eq, length_mkDegree]
  · rfl
  · intro e k
    rw [List.length_set]

/-- The curve that `ElevateDegree` returns: the curve itself when the degrees
agree, and else a curve of the new degree with the size that the constructor
`ScalarBezCurve(newDegree)` gave it. -/
theorem ElevateDegree_length (c : ScalarBezCurve K) (N : Int) (E : ScalarBezCurve K)
    (h : ElevateDegree c N = some E) :
    E.fDegree = N ∧ (E = c ∨ (c.fDegree < N ∧ E.fWeights.length = (N + 1).toNat)) := by
  unfold ElevateDegree degree at h
  by_cases h1 : N < c.fDegree
  · rw [if_pos h1] at h; simp at h
  · rw [if_neg h1] at h
    by_cases h2 : N = c.fDegree
    · rw [if_pos h2] at h
      simp only [Option.some.injEq] at h
      exact ⟨by rw [← h, h2], Or.inl h.symm⟩
    · rw [if_neg h2] at h
      simp only [Option.some.injEq] at h
      refine ⟨by rw [← h], Or.inr ⟨by omega, ?_⟩⟩
      rw [← h]
      simp only []
      rw [foldl_length_eq, length_mkDegree]
      intro e k
      rw [foldl_length_eq, List.length_set]
      intro e2 i
      rw [List.length_set]

/-- The scalar `Mul` and `sub` keep the size of the vector. -/
theorem MulScalar_sub_length (a b : ScalarBezCurve K) (f : K) :
    (MulScalar a f).fWeights.length = a.fWeights.length ∧
    ∀ r, a.sub b = some r → r.fDegree = a.fDegree ∧ r.fWeights.length = a.fWeights.length := by
  constructor
  · unfold MulScalar
    simp only []
    rw [foldl_length_eq]
    intro e k
    rw [List.length_set]
  · intro r hr
    unfold sub at hr
    by_cases h : b.fDegree = a.fDegree
    · rw [if_pos h] at hr
      simp only [Option.some.injEq] at hr
      rw [← hr]
      refine ⟨rfl, ?_⟩
      simp only []
      rw [foldl_length_eq]
      intro e k
      rw [List.length_set]
    · rw [if_neg h] at hr; simp at hr

/-- `SkPoint::setLength` on a vector of length one gives the vector scaled by
the length, also for the length zero. -/
theorem SkPoint_setLength_unit {sqrtf : K → K}
    (hsq : ∀ x, 0 ≤ x → 0 ≤ sqrtf x ∧ sqrtf x * sqrtf x = x) (n : SkPoint K) (r : K)
    (hnn : n.fX * n.fX + n.fY * n.fY = 1) : (n.setLength sqrtf r).1 = n.scale r := by
  by_cases hr : r = 0
  · subst hr
    simp [SkPoint.setLength, SkPoint.scale]
  · rw [SkPoint_setLength_spec hsq n r 1 one_pos (by rw [mul_one]; exact hnn) hr]
    simp [SkPoint.scale]

/-- `SkPoint::setLength` on the double of a vector of length one gives the
vector scaled by the length, also for the length zero. -/
theorem SkPoint_setLength_double {sqrtf : K → K}
    (hsq : ∀ x, 0 ≤ x → 0 ≤ sqrtf x ∧ sqrtf x * sqrtf x = x) (n : SkPoint K) (r : K)
    (hnn : n.fX * n.fX + n.fY * n.fY = 1) : ((n.add n).setLength sqrtf r).1 = n.scale r := by
  by_cases hr : r = 0
  · subst hr
    simp [SkPoint.setLength, SkPoint.scale]
  · rw [SkPoint_setLength_spec hsq (n.add n) r 2 two_pos
      (by show (n.fX + n.fX) * (n.fX + n.fX) + (n.fY + n.fY) * (n.fY + n.fY) = 2 * 2
          linear_combination (4 : K) * hnn) hr]
    simp only [SkPoint.scale, SkPoint.add, SkPoint.mk.injEq]
    constructor <;> ring

/-- The quad that `approximateSegment` returns for a line: the ends and the
middle of the line, moved along the unit normal by the values of the distance
function at `0`, `1/2` and `1`. -/
theorem approximateSegment_line_any {sqrtf : K → K}
    (hsq : ∀ x, 0 ≤ x → 0 ≤ sqrtf x ∧ sqrtf x * sqrtf x = x) (p0 p1 n tg : SkPoint K)
    (D : ScalarBezCurve K)
    (hn : ∀ t, unitNormal sqrtf ⟨Verb.kLine_Verb, [p0, p1]⟩ t = some (n, tg))
    (hnn : n.fX * n.fX + n.fY * n.fY = 1) :
    approximateSegment sqrtf ⟨Verb.kLine_Verb, [p0, p1]⟩ D
      = some ⟨Verb.kQuad_Verb, [p0.add (n.scale (D.eval 0)),
          ((p0.add p1).scale (1 / 2)).add (n.scale (D.eval (1 / 2))),
          p1.add (n.scale (D.eval 1))]⟩ := by
  have hdeg : segmentDegree (⟨Verb.kLine_Verb, [p0, p1]⟩ : PathSegment K) = some 1 := rfl
  unfold approximateSegment
  simp only [hn, Option.some_bind, SkPoint_setLength_unit hsq n _ hnn,
    SkPoint_setLength_double hsq n _ hnn, hdeg, if_true, Option.map_some',
    PathSegment.pt, List.getD_cons_zero, List.getD_cons_succ]

/-- The values at `0`, `1/2` and `1` of a curve of degree `1`. -/
theorem eval_linear (u v : K) (rest : List K) :
    (⟨1, u :: v :: rest⟩ : ScalarBezCurve K).eval 0 = u ∧
    (⟨1, u :: v :: rest⟩ : ScalarBezCurve K).eval (1 / 2) = (u + v) / 2 ∧
    (⟨1, u :: v :: rest⟩ : ScalarBezCurve K).eval 1 = v := by
  refine ⟨?_, ?_, ?_⟩
  · simp [eval, Eval, casteljauRow, List.range']
  · simp [eval, Eval, casteljauRow, List.range']; ring
  · simp [eval, Eval, casteljauRow, List.range']

/-- The square of a curve of degree `1` as `Mul` computes it. -/
theorem Mul_linear (u v : K) (ra rb : List K) :
    ScalarBezCurve.Mul (⟨1, u :: v :: ra⟩ : ScalarBezCurve K) ⟨1, u :: v :: rb⟩
      = ⟨2, [u * u, u * v, v * v]⟩ := by
  obtain ⟨h00, h10, h11, h20, h21, h22, -⟩ := choose_small
  simp [ScalarBezCurve.Mul, degree, mkDegree, blend, List.range, List.range.loop,
    List.range', h10, h11, h20, h21, h22, u64]
  ring

/-- The elevation of a curve of degree `2` to the degree `4`. -/
theorem elevateDegree_quad_quartic (w0 w1 w2 : K) :
    (⟨2, [w0, w1, w2]⟩ : ScalarBezCurve K).elevateDegree 4
      = some ⟨4, [w0, (w0 + w1) / 2, (w0 + 4 * w1 + w2) / 6, (w1 + w2) / 2, w2]⟩ := by
  obtain ⟨h00, h10, h11, h20, h21, h22, h40, h41, h42, h43, h44⟩ := choose_small
  simp [elevateDegree, ElevateDegree, degree, mkDegree, blend, List.range, List.range.loop,
    List.range', h00, h10, h11, h20, h21, h22, h40, h41, h42, h43, h44, u64]
  refine ⟨?_, ?_, ?_⟩ <;> ring

/-- The error curve of the candidate of a line for a distance function of degree
`1` with the weights `u, v`: all five weights are zero. -/
theorem errorCurve_line_linear (seg : PathSegment K) (D : ScalarBezCurve K)
    (p0 p1 n : SkPoint K) (u v : K) (hnn : n.fX * n.fX + n.fY * n.fY = 1) :
    errorCurve ⟨seg, D, ⟨2, [u * u, u * v, v * v]⟩, ⟨1, [p0.fX, p1.fX]⟩, ⟨1, [p0.fY, p1.fY]⟩⟩
        ⟨Verb.kQuad_Verb, [p0.add (n.scale u),
          ((p0.add p1).scale (1 / 2)).add (n.scale ((u + v) / 2)), p1.add (n.scale v)]⟩
      = some (⟨4, [0, 0, 0, 0, 0]⟩,
          ⟨4, [u * u, (u * u + u * v) / 2, (u * u + 4 * (u * v) + v * v) / 6,
            (u * v + v * v) / 2, v * v]⟩) := by
  have hmax1 : max (2 : Int) 1 = 2 := by decide
  have hmax2 : max (2 : Int) 4 = 4 := by decide
  unfold errorCurve
  simp only [coordCurve_quad, degree, hmax1, elevateDegree_line, Option.some_bind]
  rw [show (⟨2, [(p0.add (n.scale u)).fX,
      (((p0.add p1).scale (1 / 2)).add (n.scale ((u + v) / 2))).fX, (p1.add (n.scale v)).fX]⟩ :
      ScalarBezCurve K).elevateDegree 2 = some _ from elevateDegree_same _]
  rw [show (⟨2, [(p0.add (n.scale u)).fY,
      (((p0.add p1).scale (1 / 2)).add (n.scale ((u + v) / 2))).fY, (p1.add (n.scale v)).fY]⟩ :
      ScalarBezCurve K).elevateDegree 2 = some _ from elevateDegree_same _]
  simp only [Option.some_bind, Sub_quad, AddSquares_quad, hmax2, elevateDegree_quad_quartic]
  rw [show (⟨4, _⟩ : ScalarBezCurve K).elevateDegree 4 = some _ from elevateDegree_same _]
  simp only [Option.some_bind, sub_quartic, Option.map_some', SkPoint.add, SkPoint.scale]
  congr 3
  refine List.cons_eq_cons.2 ⟨?_, List.cons_eq_cons.2 ⟨?_, List.cons_eq_cons.2
    ⟨?_, List.cons_eq_cons.2 ⟨?_, List.cons_eq_cons.2 ⟨?_, rfl⟩⟩⟩⟩⟩
  · linear_combination (u * u) * hnn
  · linear_combination (u * ((u + v) / 2)) * hnn
  · linear_combination ((u * v + 2 * ((u + v) / 2) ^ 2) / 3) * hnn
  · linear_combination ((u + v) / 2 * v) * hnn
  · linear_combination (v * v) * hnn

/-- A candidate whose error curve has five zero weights is accepted, whatever
the distance function. -/
theorem zero_error_accepted (D : ScalarBezCurve K) :
    ¬ (|(⟨4, [0, 0, 0, 0, 0]⟩ : ScalarBezCurve K).extremumWeight|
      > |1 / 2 * D.extremumWeight|) := by
  rw [extremumWeight_zeros, abs_zero]
  exact not_lt.2 (abs_nonneg _)

/-- The stroke of a line whose ends differ with a distance function of degree
`1`: the first candidate has the error curve zero, is accepted in the first
round, and is the only quad returned. -/
theorem strokeSegment_line_linear {sqrtf : K → K}
    (hsq : ∀ x, 0 ≤ x → 0 ≤ sqrtf x ∧ sqrtf x * sqrtf x = x) (p0 p1 n tg : SkPoint K)
    (u v : K) (rest : List K)
    (hn : ∀ t, unitNormal sqrtf ⟨Verb.kLine_Verb, [p0, p1]⟩ t = some (n, tg))
    (hnn : n.fX * n.fX + n.fY * n.fY = 1) :
    (∃ item dsq, Item.make (⟨Verb.kLine_Verb, [p0, p1]⟩ : PathSegment K) ⟨1, u :: v :: rest⟩
        (ScalarBezCurve.Mul ⟨1, u :: v :: rest⟩ ⟨1, u :: v :: rest⟩) = some item ∧
      errorCurve item ⟨Verb.kQuad_Verb, [p0.add (n.scale u),
          ((p0.add p1).scale (1 / 2)).add (n.scale ((u + v) / 2)), p1.add (n.scale v)]⟩
        = some (⟨4, [0, 0, 0, 0, 0]⟩, dsq)) ∧
    strokeSegmentIters sqrtf ⟨Verb.kLine_Verb, [p0, p1]⟩ ⟨1, u :: v :: rest⟩ = 1 ∧
    strokeSegment sqrtf ⟨Verb.kLine_Verb, [p0, p1]⟩ ⟨1, u :: v :: rest⟩
      = some [⟨Verb.kQuad_Verb, [p0.add (n.scale u),
          ((p0.add p1).scale (1 / 2)).add (n.scale ((u + v) / 2)), p1.add (n.scale v)]⟩] := by
  obtain ⟨e0, eh, e1⟩ := eval_linear u v rest
  have happ := approximateSegment_line_any hsq p0 p1 n tg ⟨1, u :: v :: rest⟩ hn hnn
  rw [e0, eh, e1] at happ
  have herr := errorCurve_line_linear (⟨Verb.kLine_Verb, [p0, p1]⟩ : PathSegment K)
    ⟨1, u :: v :: rest⟩ p0 p1 n u v hnn
  have hitem : Item.make (⟨Verb.kLine_Verb, [p0, p1]⟩ : PathSegment K) ⟨1, u :: v :: rest⟩
      (ScalarBezCurve.Mul ⟨1, u :: v :: rest⟩ ⟨1, u :: v :: rest⟩)
      = some ⟨⟨Verb.kLine_Verb, [p0, p1]⟩, ⟨1, u :: v :: rest⟩, ⟨2, [u * u, u * v, v * v]⟩,
          ⟨1, [p0.fX, p1.fX]⟩, ⟨1, [p0.fY, p1.fY]⟩⟩ := by
    rw [Mul_linear]; rfl
  have htol := zero_error_accepted (⟨1, u :: v :: rest⟩ : ScalarBezCurve K)
  refine ⟨⟨_, _, hitem, herr⟩, ?_, ?_⟩
  · unfold strokeSegmentIters
    rw [hitem]
    simp only []
    rw [show kMaxIters = 4998 + 1 + 1 from rfl]
    simp only [strokeSegmentRounds, happ, Option.some_bind, herr, if_neg htol]
  · unfold strokeSegment
    rw [hitem]
    simp only [Option.some_bind]
    rw [show kMaxIters = 4998 + 1 + 1 from rfl, strokeSegmentLoop]
    simp only [happ, Option.some_bind, herr, if_neg htol, List.nil_append]
    rw [strokeSegmentLoop]
    simp

/-- The stroke of a line whose ends differ with a distance function of degree
`0`: the first candidate has the error curve zero, is accepted in the first
round, and is the only quad returned. -/
theorem strokeSegment_line_const {sqrtf : K → K}
    (hsq : ∀ x, 0 ≤ x → 0 ≤ sqrtf x ∧ sqrtf x * sqrtf x = x) (p0 p1 n tg : SkPoint K)
    (c : K) (rest : List K)
    (hn : ∀ t, unitNormal sqrtf ⟨Verb.kLine_Verb, [p0, p1]⟩ t = some (n, tg))
    (hnn : n.fX * n.fX + n.fY * n.fY = 1) :
    (∃ item dsq, Item.make (⟨Verb.kLine_Verb, [p0, p1]⟩ : PathSegment K) ⟨0, c :: rest⟩
        (ScalarBezCurve.Mul ⟨0, c :: rest⟩ ⟨0, c :: rest⟩) = some item ∧
      errorCurve item ⟨Verb.kQuad_Verb, [p0.add (n.scale c),
          ((p0.add p1).scale (1 / 2)).add (n.scale c), p1.add (n.scale c)]⟩
        = some (⟨4, [0, 0, 0, 0, 0]⟩, dsq)) ∧
    strokeSegmentIters sqrtf ⟨Verb.kLine_Verb, [p0, p1]⟩ ⟨0, c :: rest⟩ = 1 ∧
    strokeSegment sqrtf ⟨Verb.kLine_Verb, [p0, p1]⟩ ⟨0, c :: rest⟩
      = some [⟨Verb.kQuad_Verb, [p0.add (n.scale c),
          ((p0.add p1).scale (1 / 2)).add (n.scale c), p1.add (n.scale c)]⟩] := by
  have happ := approximateSegment_line_any hsq p0 p1 n tg ⟨0, c :: rest⟩ hn hnn
  rw [eval_const, eval_const, eval_const] at happ
  have herr := errorCurve_line (⟨Verb.kLine_Verb, [p0, p1]⟩ : PathSegment K) ⟨0, c :: rest⟩ p0 p1
    (n.scale c) (c * c)
    (by show n.fX * c * (n.fX * c) + n.fY * c * (n.fY * c) = c * c
        linear_combination (c * c) * hnn)
  have hitem : Item.make (⟨Verb.kLine_Verb, [p0, p1]⟩ : PathSegment K) ⟨0, c :: rest⟩
      (ScalarBezCurve.Mul ⟨0, c :: rest⟩ ⟨0, c :: rest⟩)
      = some ⟨⟨Verb.kLine_Verb, [p0, p1]⟩, ⟨0, c :: rest⟩, ⟨0, [c * c]⟩,
          ⟨1, [p0.fX, p1.fX]⟩, ⟨1, [p0.fY, p1.fY]⟩⟩ := by
    rw [Mul_const]; rfl
  have htol := zero_error_accepted (⟨0, c :: rest⟩ : ScalarBezCurve K)
  refine ⟨⟨_, _, hitem, herr⟩, ?_, ?_⟩
  · unfold strokeSegmentIters
    rw [hitem]
    simp only []
    rw [show kMaxIters = 4998 + 1 + 1 from rfl]
    simp only [strokeSegmentRounds, happ, Option.some_bind, herr, if_neg htol]
  · unfold strokeSegment
    rw [hitem]
    simp only [Option.some_bind]
    rw [show kMaxIters = 4998 + 1 + 1 from rfl, strokeSegmentLoop]
    simp only [happ, Option.some_bind, herr, if_neg htol, List.nil_append]
    rw [strokeSegmentLoop]
    simp

/-- The unit normal of the line `(5, 0) (9, 0)` at `0`. -/
theorem unitNormal_collinear_curr :
    unitNormal Real.sqrt ⟨Verb.kLine_Verb, [⟨5, 0⟩, ⟨9, 0⟩]⟩ 0
      = some ((⟨0, -1⟩ : SkPoint ℝ), ⟨1, 0⟩) := by
  rw [unitNormal_line_of_length real_sqrt_spec _ _ 4 (by norm_num) (by norm_num)]
  norm_num

/-- Entry `pre.length + i` of the list `pre ++ l` is entry `i` of `l`. -/
theorem getD_append_length {α : Type} (pre l : List α) (i : Nat) (d : α) :
    (pre ++ l).getD (pre.length + i) d = l.getD i d := by
  induction pre with
  | nil => simp
  | cons a pre ih =>
    rw [List.cons_append, List.length_cons, show pre.length + 1 + i = (pre.length + i) + 1 by omega,
      List.getD_cons_succ]
    exact ih

/-- The loop of `appendPathReversed` over line and quad verbs whose points end
the array `points`: it appends the segments reversed and goes on with the index
of the point before them. -/
theorem appendReversedLoop_segments (vs : List Verb) :
    (∀ v ∈ vs, v = Verb.kLine_Verb ∨ v = Verb.kQuad_Verb) →
    ∀ (pts pre : List (SkPoint K)) (lastPt mv : SkPoint K) (rest : List Verb) (result : SkPath K),
      pts.length = (vs.map fun v => if v = Verb.kQuad_Verb then 2 else 1).sum →
      appendReversedLoop (pre ++ lastPt :: pts) (vs.reverse ++ rest)
          (((pre.length + 1 + pts.length : Nat) : Int), result)
        = appendReversedLoop (pre ++ lastPt :: pts) rest
          (((pre.length + 1 : Nat) : Int),
            appendSegmentsReversed (iterSegments vs pts lastPt mv) result) := by
  induction vs with
  | nil =>
    intro _ pts pre lastPt mv rest result hl
    simp only [List.map_nil, List.sum_nil, List.length_eq_zero] at hl
    subst hl
    simp [iterSegments, appendSegmentsReversed]
  | cons v vs ih =>
    intro hv pts pre lastPt mv rest result hl
    have hrest : ∀ x ∈ vs, x = Verb.kLine_Verb ∨ x = Verb.kQuad_Verb :=
      fun x hx => hv x (List.mem_cons_of_mem _ hx)
    rcases hv v (List.mem_cons_self _ _) with h | h
    · subst h
      simp only [List.map_cons, reduceCtorEq, if_false, List.sum_cons] at hl
      obtain ⟨q, pts1, rfl⟩ : ∃ q pts1, pts = q :: pts1 := by
        cases pts with
        | nil => simp at hl; omega
        | cons q pts1 => exact ⟨q, pts1, rfl⟩
      have hl1 : pts1.length = (vs.map fun v => if v = Verb.kQuad_Verb then 2 else 1).sum := by
        simp only [List.length_cons] at hl; omega
      have hpts : pre ++ lastPt :: q :: pts1 = (pre ++ [lastPt]) ++ q :: pts1 := by simp
      have hvs : (Verb.kLine_Verb :: vs).reverse ++ rest = vs.reverse ++ (Verb.kLine_Verb :: rest) := by
        simp
      have hj : pre.length + 1 + (q :: pts1).length = (pre ++ [lastPt]).length + 1 + pts1.length := by
        simp; omega
      rw [hvs, hj, hpts, ih hrest pts1 (pre ++ [lastPt]) q mv (Verb.kLine_Verb :: rest) result hl1]
      rw [appendReversedLoop]
      have h1 : ((((pre ++ [lastPt]).length + 1 : Nat) : Int) - 1 ≥ 1) := by
        simp only [List.length_append, List.length_cons, List.length_nil]; omega
      rw [if_pos h1]
      have h2 : ((((pre ++ [lastPt]).length + 1 : Nat) : Int) - 1 - 1).toNat = pre.length := by
        simp only [List.length_append, List.length_cons, List.length_nil]; omega
      have h3 : ((((pre ++ [lastPt]).length + 1 : Nat) : Int) - 1) = ((pre.length + 1 : Nat) : Int) := by
        simp only [List.length_append, List.length_cons, List.length_nil]; omega
      rw [h2, h3]
      have h4 : ((pre ++ [lastPt]) ++ q :: pts1).getD pre.length ⟨0, 0⟩ = lastPt := by
        rw [← hpts]
        exact getD_append_length pre (lastPt :: q :: pts1) 0 _
      rw [h4]
      simp [iterSegments, appendSegmentsReversed, PathSegment.pt]
    · subst h
      simp only [List.map_cons, if_true, List.sum_cons] at hl
      obtain ⟨c, q, pts1, rfl⟩ : ∃ c q pts1, pts = c :: q :: pts1 := by
        cases pts with
        | nil => simp at hl; omega
        | cons c pts0 =>
          cases pts0 with
          | nil => simp at hl; omega
          | cons q pts1 => exact ⟨c, q, pts1, rfl⟩
      have hl1 : pts1.length = (vs.map fun v => if v = Verb.kQuad_Verb then 2 else 1).sum := by
        simp only [List.length_cons] at hl; omega
      have hpts : pre ++ lastPt :: c :: q :: pts1 = (pre ++ [lastPt, c]) ++ q :: pts1 := by simp
      have hvs : (Verb.kQuad_Verb :: vs).reverse ++ rest = vs.reverse ++ (Verb.kQuad_Verb :: rest) := by
        simp
      have hj : pre.length + 1 + (c :: q :: pts1).length
          = (pre ++ [lastPt, c]).length + 1 + pts1.length := by
        simp; omega
      rw [hvs, hj, hpts, ih hrest pts1 (pre ++ [lastPt, c]) q mv (Verb.kQuad_Verb :: rest) result hl1]
      rw [appendReversedLoop]
      have h1 : ((((pre ++ [lastPt, c]).length + 1 : Nat) : Int) - 1 ≥ 2) := by
        simp only [List.length_append, List.length_cons, List.length_nil]; omega
      rw [if_pos h1]
      have h2 : ((((pre ++ [lastPt, c]).length + 1 : Nat) : Int) - 1 - 1).toNat = pre.length + 1 := by
        simp only [List.length_append, List.length_cons, List.length_nil]; omega
      have h2b : ((((pre ++ [lastPt, c]).length + 1 : Nat) : Int) - 1 - 2).toNat = pre.length := by
        simp only [List.length_append, List.length_cons, List.length_nil]; omega
      have h3 : ((((pre ++ [lastPt, c]).length + 1 : Nat) : Int) - 1 - 1) = ((pre.length + 1 : Nat) : Int) := by
        simp only [List.length_append, List.length_cons, List.length_nil]; omega
      rw [h2, h2b, h3]
      have h4 : ((pre ++ [lastPt, c]) ++ q :: pts1).getD pre.length ⟨0, 0⟩ = lastPt := by
        rw [← hpts]
        exact getD_append_length pre (lastPt :: c :: q :: pts1) 0 _
      have h5 : ((pre ++ [lastPt, c]) ++ q :: pts1).getD (pre.length + 1) ⟨0, 0⟩ = c := by
        rw [← hpts]
        exact getD_append_length pre (lastPt :: c :: q :: pts1) 1 _
      rw [h4, h5]
      simp [iterSegments, appendSegmentsReversed, PathSegment.pt]

/-- On a path with an open contour `lineTo` appends one verb and one point. -/
theorem lineTo_open (p : SkPath K) (q : SkPoint K) (h : 0 ≤ p.fLastMoveToIndex) :
    p.lineTo q = ⟨p.fVerbs ++ [Verb.kLine_Verb], p.fPts ++ [q], p.fLastMoveToIndex⟩ := by
  have hi : ¬ p.fLastMoveToIndex < 0 := by omega
  simp only [SkPath.lineTo, SkPath.injectMoveToIfNeeded, if_neg hi]

/-- On a path with an open contour `quadTo` appends one verb and two points. -/
theorem quadTo_open (p : SkPath K) (c q : SkPoint K) (h : 0 ≤ p.fLastMoveToIndex) :
    p.quadTo c q = ⟨p.fVerbs ++ [Verb.kQuad_Verb], p.fPts ++ [c, q], p.fLastMoveToIndex⟩ := by
  have hi : ¬ p.fLastMoveToIndex < 0 := by omega
  simp only [SkPath.quadTo, SkPath.injectMoveToIfNeeded, if_neg hi]

/-- The segments of line and quad verbs appended in reverse to a path with an
open contour: the verbs reversed, and the points reversed without the last. -/
theorem appendSegmentsReversed_open (vs : List Verb) :
    (∀ v ∈ vs, v = Verb.kLine_Verb ∨ v = Verb.kQuad_Verb) →
    ∀ (pts : List (SkPoint K)) (lastPt mv : SkPoint K) (result : SkPath K),
      pts.length = (vs.map fun v => if v = Verb.kQuad_Verb then 2 else 1).sum →
      0 ≤ result.fLastMoveToIndex →
      (appendSegmentsReversed (iterSegments vs pts lastPt mv) result).fVerbs
          = result.fVerbs ++ vs.reverse ∧
      (appendSegmentsReversed (iterSegments vs pts lastPt mv) result).fPts
          = result.fPts ++ (lastPt :: pts).dropLast.reverse ∧
      (appendSegmentsReversed (iterSegments vs pts lastPt mv) result).fLastMoveToIndex
          = result.fLastMoveToIndex := by
  induction vs with
  | nil =>
    intro _ pts lastPt mv result hl _
    simp only [List.map_nil, List.sum_nil, List.length_eq_zero] at hl
    subst hl
    simp [iterSegments, appendSegmentsReversed]
  | cons v vs ih =>
    intro hv pts lastPt mv result hl ho
    have hrest : ∀ x ∈ vs, x = Verb.kLine_Verb ∨ x = Verb.kQuad_Verb :=
      fun x hx => hv x (List.mem_cons_of_mem _ hx)
    rcases hv v (List.mem_cons_self _ _) with h | h
    · subst h
      simp only [List.map_cons, reduceCtorEq, if_false, List.sum_cons] at hl
      obtain ⟨q, pts1, rfl⟩ : ∃ q pts1, pts = q :: pts1 := by
        cases pts with
        | nil => simp at hl; omega
        | cons q pts1 => exact ⟨q, pts1, rfl⟩
      have hl1 : pts1.length = (vs.map fun v => if v = Verb.kQuad_Verb then 2 else 1).sum := by
        simp only [List.length_cons] at hl; omega
      obtain ⟨e1, e2, e3⟩ := ih hrest pts1 q mv result hl1 ho
      have hi : 0 ≤ (appendSegmentsReversed (iterSegments vs pts1 q mv) result).fLastMoveToIndex := by
        rw [e3]; exact ho
      have hs : appendSegmentsReversed (iterSegments (Verb.kLine_Verb :: vs) (q :: pts1) lastPt mv) result
          = (appendSegmentsReversed (iterSegments vs pts1 q mv) result).lineTo lastPt := by
        simp [iterSegments, appendSegmentsReversed, PathSegment.pt]
      rw [hs, lineTo_open _ _ hi]
      simp only [e1, e2, e3]
      simp
    · subst h
      simp only [List.map_cons, if_true, List.sum_cons] at hl
      obtain ⟨c, q, pts1, rfl⟩ : ∃ c q pts1, pts = c :: q :: pts1 := by
        cases pts with
        | nil => simp at hl; omega
        | cons c pts0 =>
          cases pts0 with
          | nil => simp at hl; omega
          | cons q pts1 => exact ⟨c, q, pts1, rfl⟩
      have hl1 : pts1.length = (vs.map fun v => if v = Verb.kQuad_Verb then 2 else 1).sum := by
        simp only [List.length_cons] at hl; omega
      obtain ⟨e1, e2, e3⟩ := ih hrest pts1 q mv result hl1 ho
      have hi : 0 ≤ (appendSegmentsReversed (iterSegments vs pts1 q mv) result).fLastMoveToIndex := by
        rw [e3]; exact ho
      have hs : appendSegmentsReversed (iterSegments (Verb.kQuad_Verb :: vs) (c :: q :: pts1) lastPt mv) result
          = (appendSegmentsReversed (iterSegments vs pts1 q mv) result).quadTo c lastPt := by
        simp [iterSegments, appendSegmentsReversed, PathSegment.pt]
      rw [hs, quadTo_open _ _ _ hi]
      simp only [e1, e2, e3]
      simp

/-- The last point after the segments of line and quad verbs have been appended
in reverse is the start of the first segment. -/
theorem appendSegmentsReversed_getLastPt (vs : List Verb)
    (hv : ∀ v ∈ vs, v = Verb.kLine_Verb ∨ v = Verb.kQuad_Verb) (hne : vs ≠ [])
    (pts : List (SkPoint K)) (lastPt mv : SkPoint K) (result : SkPath K) :
    (appendSegmentsReversed (iterSegments vs pts lastPt mv) result).getLastPt = lastPt := by
  cases vs with
  | nil => exact absurd rfl hne
  | cons v vs =>
    rcases hv v (List.mem_cons_self _ _) with h | h <;> subst h <;>
      simp [iterSegments, appendSegmentsReversed, PathSegment.pt, SkPath.getLastPt, SkPath.lineTo,
        SkPath.quadTo]

/-- `SkPoint::setLength` gives the same for a vector and for its half. -/
theorem SkPoint_setLength_half {sqrtf : K → K}
    (hsq : ∀ x, 0 ≤ x → 0 ≤ sqrtf x ∧ sqrtf x * sqrtf x = x) (v : SkPoint K) (len : K) :
    (v.scale (1 / 2)).setLength sqrtf len = v.setLength sqrtf len := by
  have hq : 0 ≤ v.fX * v.fX + v.fY * v.fY := by
    nlinarith [mul_self_nonneg v.fX, mul_self_nonneg v.fY]
  obtain ⟨hs0, hss⟩ := hsq _ hq
  have hhalf : sqrtf (v.fX * (1 / 2) * (v.fX * (1 / 2)) + v.fY * (1 / 2) * (v.fY * (1 / 2)))
      = sqrtf (v.fX * v.fX + v.fY * v.fY) / 2 := by
    apply sqrtf_unique hsq (by positivity)
    linear_combination (1 / 4 : K) * hss
  have hx : ∀ a : K, a * (1 / 2) * (len / (sqrtf (v.fX * v.fX + v.fY * v.fY) / 2))
      = a * (len / sqrtf (v.fX * v.fX + v.fY * v.fY)) := by
    intro a
    by_cases h0 : sqrtf (v.fX * v.fX + v.fY * v.fY) = 0
    · rw [h0]; simp
    · field_simp
      ring
  unfold SkPoint.setLength SkPoint.scale
  simp only [hhalf, hx]

/-- The halves of a line that `splitSegment` returns at `0.5`. -/
theorem splitSegment_line_half (seg : PathSegment K) (hv : seg.fVerb = Verb.kLine_Verb) :
    splitSegment seg (1 / 2)
      = some (⟨Verb.kLine_Verb, [seg.pt 0, ((seg.pt 0).add (seg.pt 1)).scale (1 / 2)]⟩,
          ⟨Verb.kLine_Verb, [((seg.pt 0).add (seg.pt 1)).scale (1 / 2), seg.pt 1]⟩) := by
  have hd : segmentDegree seg = some 1 := by unfold segmentDegree; rw [hv]; rfl
  have hx : coordCurve SkPoint.fX 1 seg.fPoints = ⟨1, [(seg.pt 0).fX, (seg.pt 1).fX]⟩ := rfl
  have hy : coordCurve SkPoint.fY 1 seg.fPoints = ⟨1, [(seg.pt 0).fY, (seg.pt 1).fY]⟩ := rfl
  unfold splitSegment
  rw [hd]
  simp only [Option.map_some', hx, hy, split, Split_degree_one, hv]
  simp [List.range, List.range.loop, SkPoint.add, SkPoint.scale, PathSegment.pt]
  constructor <;> ring

/-- The two halves of `Split` at `0.5` of a curve of degree `2`. -/
theorem Split_quad_half (w0 w1 w2 : K) :
    Split (⟨2, [w0, w1, w2]⟩ : ScalarBezCurve K) (1 / 2)
      = (⟨2, [w0, (w0 + w1) * (1 / 2), (w0 + 2 * w1 + w2) * (1 / 4)]⟩,
          ⟨2, [(w0 + 2 * w1 + w2) * (1 / 4), (w1 + w2) * (1 / 2), w2]⟩) := by
  simp [Split, splitLoop, casteljauRow, mkDegree, List.range']
  refine ⟨⟨?_, ?_⟩, ?_, ?_⟩ <;> ring

/-- The halves of a quad that `splitSegment` returns at `0.5`. -/
theorem splitSegment_quad_half (seg : PathSegment K) (hv : seg.fVerb = Verb.kQuad_Verb) :
    splitSegment seg (1 / 2)
      = some (⟨Verb.kQuad_Verb, [seg.pt 0, ((seg.pt 0).add (seg.pt 1)).scale (1 / 2),
            (((seg.pt 0).add ((seg.pt 1).scale 2)).add (seg.pt 2)).scale (1 / 4)]⟩,
          ⟨Verb.kQuad_Verb, [(((seg.pt 0).add ((seg.pt 1).scale 2)).add (seg.pt 2)).scale (1 / 4),
            ((seg.pt 1).add (seg.pt 2)).scale (1 / 2), seg.pt 2]⟩) := by
  have hd : segmentDegree seg = some 2 := by unfold segmentDegree; rw [hv]; rfl
  have hx : coordCurve SkPoint.fX 2 seg.fPoints
      = ⟨2, [(seg.pt 0).fX, (seg.pt 1).fX, (seg.pt 2).fX]⟩ := rfl
  have hy : coordCurve SkPoint.fY 2 seg.fPoints
      = ⟨2, [(seg.pt 0).fY, (seg.pt 1).fY, (seg.pt 2).fY]⟩ := rfl
  unfold splitSegment
  rw [hd]
  simp only [Option.map_some', hx, hy, split, Split_quad_half, hv]
  simp [List.range, List.range.loop, SkPoint.add, SkPoint.scale, PathSegment.pt]
  constructor <;> ring

/-- The unit normal of a line in terms of the asserting `setLength`. -/
theorem unitNormal_line_eq (sqrtf : K → K) (seg : PathSegment K) (t : K)
    (hv : seg.fVerb = Verb.kLine_Verb) :
    unitNormal sqrtf seg t
      = (setLength sqrtf ((seg.pt 1).sub (seg.pt 0)) 1).map
          (fun tangent => (rotate90 tangent, tangent)) := by
  unfold unitNormal
  rw [hv]

/-- The asserting `setLength` gives the same for a vector and for its half. -/
theorem setLength_half {sqrtf : K → K}
    (hsq : ∀ x, 0 ≤ x → 0 ≤ sqrtf x ∧ sqrtf x * sqrtf x = x) (v w : SkPoint K) (len : K)
    (hw : w = v.scale (1 / 2)) : setLength sqrtf w len = setLength sqrtf v len := by
  unfold setLength
  rw [hw, SkPoint_setLength_half hsq]

/-- The unit normals of the two halves of a line are the unit normal of the
line, at every parameter. -/
theorem unitNormal_line_halves {sqrtf : K → K}
    (hsq : ∀ x, 0 ≤ x → 0 ≤ sqrtf x ∧ sqrtf x * sqrtf x = x) (seg : PathSegment K)
    (hv : seg.fVerb = Verb.kLine_Verb) (t s : K) :
    unitNormal sqrtf ⟨Verb.kLine_Verb, [seg.pt 0, ((seg.pt 0).add (seg.pt 1)).scale (1 / 2)]⟩ t
      = unitNormal sqrtf seg s ∧
    unitNormal sqrtf ⟨Verb.kLine_Verb, [((seg.pt 0).add (seg.pt 1)).scale (1 / 2), seg.pt 1]⟩ t
      = unitNormal sqrtf seg s := by
  rw [unitNormal_line_eq sqrtf seg s hv, unitNormal_line_eq sqrtf _ t rfl,
    unitNormal_line_eq sqrtf _ t rfl]
  constructor
  · rw [setLength_half hsq ((seg.pt 1).sub (seg.pt 0))]
    simp only [PathSegment.pt, List.getD_cons_zero, List.getD_cons_succ, SkPoint.sub, SkPoint.add,
      SkPoint.scale, SkPoint.mk.injEq]
    constructor <;> ring
  · rw [setLength_half hsq ((seg.pt 1).sub (seg.pt 0))]
    simp only [PathSegment.pt, List.getD_cons_zero, List.getD_cons_succ, SkPoint.sub, SkPoint.add,
      SkPoint.scale, SkPoint.mk.injEq]
    constructor <;> ring

/-- The unit normal of a quad at `0` and at `1`. -/
theorem unitNormal_quad_ends (sqrtf : K → K) (seg : PathSegment K)
    (hv : seg.fVerb = Verb.kQuad_Verb) :
    unitNormal sqrtf seg 0
      = some (rotate90 (((seg.pt 1).sub (seg.pt 0)).normalize sqrtf).1,
          (((seg.pt 1).sub (seg.pt 0)).normalize sqrtf).1) ∧
    unitNormal sqrtf seg 1
      = some (rotate90 (((seg.pt 2).sub (seg.pt 1)).normalize sqrtf).1,
          (((seg.pt 2).sub (seg.pt 1)).normalize sqrtf).1) := by
  unfold unitNormal
  rw [hv]
  simp

/-- The unit normals of the halves of a quad at their ends: the left half
starts with the normal of the quad, the right half ends with it, and the two
halves have the same normal where they meet. -/
theorem unitNormal_quad_halves {sqrtf : K → K}
    (hsq : ∀ x, 0 ≤ x → 0 ≤ sqrtf x ∧ sqrtf x * sqrtf x = x) (seg : PathSegment K)
    (hv : seg.fVerb = Verb.kQuad_Verb) :
    unitNormal sqrtf ⟨Verb.kQuad_Verb, [seg.pt 0, ((seg.pt 0).add (seg.pt 1)).scale (1 / 2),
        (((seg.pt 0).add ((seg.pt 1).scale 2)).add (seg.pt 2)).scale (1 / 4)]⟩ 0
      = unitNormal sqrtf seg 0 ∧
    unitNormal sqrtf ⟨Verb.kQuad_Verb, [seg.pt 0, ((seg.pt 0).add (seg.pt 1)).scale (1 / 2),
        (((seg.pt 0).add ((seg.pt 1).scale 2)).add (seg.pt 2)).scale (1 / 4)]⟩ 1
      = unitNormal sqrtf ⟨Verb.kQuad_Verb,
          [(((seg.pt 0).add ((seg.pt 1).scale 2)).add (seg.pt 2)).scale (1 / 4),
            ((seg.pt 1).add (seg.pt 2)).scale (1 / 2), seg.pt 2]⟩ 0 ∧
    unitNormal sqrtf ⟨Verb.kQuad_Verb,
        [(((seg.pt 0).add ((seg.pt 1).scale 2)).add (seg.pt 2)).scale (1 / 4),
          ((seg.pt 1).add (seg.pt 2)).scale (1 / 2), seg.pt 2]⟩ 1
      = unitNormal sqrtf seg 1 := by
  have hL := unitNormal_quad_ends sqrtf (⟨Verb.kQuad_Verb, [seg.pt 0,
    ((seg.pt 0).add (seg.pt 1)).scale (1 / 2),
    (((seg.pt 0).add ((seg.pt 1).scale 2)).add (seg.pt 2)).scale (1 / 4)]⟩ : PathSegment K) rfl
  have hR := unitNormal_quad_ends sqrtf (⟨Verb.kQuad_Verb,
    [(((seg.pt 0).add ((seg.pt 1).scale 2)).add (seg.pt 2)).scale (1 / 4),
      ((seg.pt 1).add (seg.pt 2)).scale (1 / 2), seg.pt 2]⟩ : PathSegment K) rfl
  have hS := unitNormal_quad_ends sqrtf seg hv
  rw [hL.1, hL.2, hR.1, hR.2, hS.1, hS.2]
  have e1 : ((⟨Verb.kQuad_Verb, [seg.pt 0, ((seg.pt 0).add (seg.pt 1)).scale (1 / 2),
      (((seg.pt 0).add ((seg.pt 1).scale 2)).add (seg.pt 2)).scale (1 / 4)]⟩ : PathSegment K).pt 1).sub
      ((⟨Verb.kQuad_Verb, [seg.pt 0, ((seg.pt 0).add (seg.pt 1)).scale (1 / 2),
      (((seg.pt 0).add ((seg.pt 1).scale 2)).add (seg.pt 2)).scale (1 / 4)]⟩ : PathSegment K).pt 0)
      = ((seg.pt 1).sub (seg.pt 0)).scale (1 / 2) := by
    simp only [PathSegment.pt, List.getD_cons_zero, List.getD_cons_succ, SkPoint.sub, SkPoint.add,
      SkPoint.scale, SkPoint.mk.injEq]
    constructor <;> ring
  have e2 : ((⟨Verb.kQuad_Verb, [seg.pt 0, ((seg.pt 0).add (seg.pt 1)).scale (1 / 2),
      (((seg.pt 0).add ((seg.pt 1).scale 2)).add (seg.pt 2)).scale (1 / 4)]⟩ : PathSegment K).pt 2).sub
      ((⟨Verb.kQuad_Verb, [seg.pt 0, ((seg.pt 0).add (seg.pt 1)).scale (1 / 2),
      (((seg.pt 0).add ((seg.pt 1).scale 2)).add (seg.pt 2)).scale (1 / 4)]⟩ : PathSegment K).pt 1)
      = ((⟨Verb.kQuad_Verb, [(((seg.pt 0).add ((seg.pt 1).scale 2)).add (seg.pt 2)).scale (1 / 4),
          ((seg.pt 1).add (seg.pt 2)).scale (1 / 2), seg.pt 2]⟩ : PathSegment K).pt 1).sub
        ((⟨Verb.kQuad_Verb, [(((seg.pt 0).add ((seg.pt 1).scale 2)).add (seg.pt 2)).scale (1 / 4),
          ((seg.pt 1).add (seg.pt 2)).scale (1 / 2), seg.pt 2]⟩ : PathSegment K).pt 0) := by
    simp only [PathSegment.pt, List.getD_cons_zero, List.getD_cons_succ, SkPoint.sub, SkPoint.add,
      SkPoint.scale, SkPoint.mk.injEq]
    constructor <;> ring
  have e3 : ((⟨Verb.kQuad_Verb, [(((seg.pt 0).add ((seg.pt 1).scale 2)).add (seg.pt 2)).scale (1 / 4),
          ((seg.pt 1).add (seg.pt 2)).scale (1 / 2), seg.pt 2]⟩ : PathSegment K).pt 2).sub
        ((⟨Verb.kQuad_Verb, [(((seg.pt 0).add ((seg.pt 1).scale 2)).add (seg.pt 2)).scale (1 / 4),
          ((seg.pt 1).add (seg.pt 2)).scale (1 / 2), seg.pt 2]⟩ : PathSegment K).pt 1)
      = ((seg.pt 2).sub (seg.pt 1)).scale (1 / 2) := by
    simp only [PathSegment.pt, List.getD_cons_zero, List.getD_cons_succ, SkPoint.sub, SkPoint.add,
      SkPoint.scale, SkPoint.mk.injEq]
    constructor <;> ring
  rw [e1, e2, e3]
  unfold SkPoint.normalize
  rw [SkPoint_setLength_half hsq, SkPoint_setLength_half hsq]
  exact ⟨rfl, rfl, rfl⟩

/-- The first and the last point of the quad that `approximateSegment` returns
for a line or a quad: the ends of the segment moved by the unit normals at `0`
and at `1`, set to the lengths `distFnc(0)` and `distFnc(1)`. -/
theorem approximateSegment_ends (sqrtf : K → K) (seg : PathSegment K) (d : ScalarBezCurve K)
    (Q : PathSegment K) (hv : seg.fVerb = Verb.kLine_Verb ∨ seg.fVerb = Verb.kQuad_Verb)
    (hQ : approximateSegment sqrtf seg d = some Q) :
    ∃ ns ne, unitNormal sqrtf seg 0 = some ns ∧ unitNormal sqrtf seg 1 = some ne ∧
      Q.pt 0 = (seg.pt 0).add (ns.1.setLength sqrtf (d.eval 0)).1 ∧
      Q.pt 2 = (seg.pt (if seg.fVerb = Verb.kLine_Verb then 1 else 2)).add
        (ne.1.setLength sqrtf (d.eval 1)).1 := by
  unfold approximateSegment at hQ
  cases h0 : unitNormal sqrtf seg 0 with
  | none => rw [h0] at hQ; simp at hQ
  | some ns =>
    cases h1 : unitNormal sqrtf seg 1 with
    | none => rw [h0, h1] at hQ; simp at hQ
    | some ne =>
      rw [h0, h1] at hQ
      refine ⟨ns, ne, rfl, rfl, ?_⟩
      rcases hv with hv | hv
      · have hd : segmentDegree seg = some 1 := by unfold segmentDegree; rw [hv]; rfl
        simp only [Option.some_bind, hd, if_true, Option.map_some', Option.some.injEq] at hQ
        subst hQ
        rw [hv]
        exact ⟨rfl, rfl⟩
      · have hd : segmentDegree seg = some 2 := by unfold segmentDegree; rw [hv]; rfl
        simp only [Option.some_bind, hd, if_true, Option.map_some', Option.some.injEq] at hQ
        simp only [show ¬ ((2 : Int) = 1) by decide, if_false, Option.map_some',
          Option.some.injEq] at hQ
        subst hQ
        rw [hv]
        exact ⟨rfl, rfl⟩

/-- The candidate quads of the two halves of an item of `strokeSegment`: the
candidate of the left half starts where the candidate of the item starts, the
candidate of the right half ends where it ends, and the candidate of the right
half starts where the candidate of the left half ends. -/
theorem split_candidates_join {sqrtf : K → K}
    (hsq : ∀ x, 0 ≤ x → 0 ≤ sqrtf x ∧ sqrtf x * sqrtf x = x) (seg l r : PathSegment K)
    (d : ScalarBezCurve K) (Q Ql Qr : PathSegment K)
    (hv : seg.fVerb = Verb.kLine_Verb ∨ seg.fVerb = Verb.kQuad_Verb) (hd : InBounds d)
    (hs : splitSegment seg (1 / 2) = some (l, r))
    (hQ : approximateSegment sqrtf seg d = some Q)
    (hl : approximateSegment sqrtf l (d.split (1 / 2)).1 = some Ql)
    (hr : approximateSegment sqrtf r (d.split (1 / 2)).2 = some Qr) :
    Ql.pt 0 = Q.pt 0 ∧ Ql.pt 2 = Qr.pt 0 ∧ Qr.pt 2 = Q.pt 2 := by
  obtain ⟨-, -, -, -, -, -, el, er⟩ := split_half d hd
  have el0 : (d.split (1 / 2)).1.eval 0 = d.eval 0 := by rw [el, zero_div]
  have el1 : (d.split (1 / 2)).1.eval 1 = d.eval (1 / 2) := by rw [el]
  have er0 : (d.split (1 / 2)).2.eval 0 = d.eval (1 / 2) := by rw [er, add_zero]
  have er1 : (d.split (1 / 2)).2.eval 1 = d.eval 1 := by
    rw [er]; congr 1; norm_num
  rcases hv with hv | hv
  · rw [splitSegment_line_half seg hv] at hs
    simp only [Option.some.injEq, Prod.mk.injEq] at hs
    obtain ⟨rfl, rfl⟩ := hs
    obtain ⟨ns, ne, h0, h1, q0, q2⟩ := approximateSegment_ends sqrtf seg d Q (Or.inl hv) hQ
    obtain ⟨ls, le, l0, l1, ql0, ql2⟩ := approximateSegment_ends sqrtf _ _ Ql (Or.inl rfl) hl
    obtain ⟨rs, re, r0, r1, qr0, qr2⟩ := approximateSegment_ends sqrtf _ _ Qr (Or.inl rfl) hr
    rw [(unitNormal_line_halves hsq seg hv 0 0).1, h0] at l0
    rw [(unitNormal_line_halves hsq seg hv 1 0).1, h0] at l1
    rw [(unitNormal_line_halves hsq seg hv 0 0).2, h0] at r0
    rw [(unitNormal_line_halves hsq seg hv 1 1).2, h1] at r1
    simp only [Option.some.injEq] at l0 l1 r0 r1
    subst l0 l1 r0 r1
    rw [ql0, ql2, qr0, qr2, q0, q2, el0, el1, er0, er1, hv]
    exact ⟨rfl, rfl, rfl⟩
  · rw [splitSegment_quad_half seg hv] at hs
    simp only [Option.some.injEq, Prod.mk.injEq] at hs
    obtain ⟨rfl, rfl⟩ := hs
    obtain ⟨ns, ne, h0, h1, q0, q2⟩ := approximateSegment_ends sqrtf seg d Q (Or.inr hv) hQ
    obtain ⟨ls, le, l0, l1, ql0, ql2⟩ := approximateSegment_ends sqrtf _ _ Ql (Or.inr rfl) hl
    obtain ⟨rs, re, r0, r1, qr0, qr2⟩ := approximateSegment_ends sqrtf _ _ Qr (Or.inr rfl) hr
    obtain ⟨u0, u1, u2⟩ := unitNormal_quad_halves hsq seg hv
    rw [u0, h0] at l0
    rw [u1, r0] at l1
    rw [u2, h1] at r1
    simp only [Option.some.injEq] at l0 l1 r1
    subst l0 l1 r1
    rw [ql0, ql2, qr0, qr2, q0, q2, el0, el1, er0, er1, hv]
    exact ⟨rfl, rfl, rfl⟩

/-- The asserting `setLength` fails on the zero vector. -/
theorem setLength_zero_vector (sqrtf : K → K) (len : K) :
    setLength sqrtf (⟨0, 0⟩ : SkPoint K) len = none := by
  simp [setLength, SkPoint.setLength]

/-- A line for which `unitNormal` returns has two different ends. -/
theorem unitNormal_line_distinct (sqrtf : K → K) (seg : PathSegment K) (t : K)
    (ns : SkPoint K × SkPoint K) (hv : seg.fVerb = Verb.kLine_Verb)
    (h : unitNormal sqrtf seg t = some ns) : seg.pt 0 ≠ seg.pt 1 := by
  intro he
  rw [unitNormal_line_eq sqrtf seg t hv, he] at h
  have hz : (seg.pt 1).sub (seg.pt 1) = ⟨0, 0⟩ := by simp [SkPoint.sub]
  rw [hz, setLength_zero_vector] at h
  simp at h

/-- The vector that `normalize` leaves has the length one or is zero. -/
theorem normalize_unit_or_zero {sqrtf : K → K}
    (hsq : ∀ x, 0 ≤ x → 0 ≤ sqrtf x ∧ sqrtf x * sqrtf x = x) (v : SkPoint K) :
    (v.normalize sqrtf).1.fX * (v.normalize sqrtf).1.fX
        + (v.normalize sqrtf).1.fY * (v.normalize sqrtf).1.fY = 1
      ∨ (v.normalize sqrtf).1 = ⟨0, 0⟩ := by
  have hq : 0 ≤ v.fX * v.fX + v.fY * v.fY := by
    nlinarith [mul_self_nonneg v.fX, mul_self_nonneg v.fY]
  obtain ⟨hs0, hss⟩ := hsq _ hq
  rcases hq.lt_or_eq with hpos | hzero
  · left
    have hs : 0 < sqrtf (v.fX * v.fX + v.fY * v.fY) := by
      rcases hs0.lt_or_eq with h | h
      · exact h
      · rw [← h] at hss; simp at hss; rw [← hss] at hpos; exact absurd hpos (lt_irrefl _)
    unfold SkPoint.normalize
    rw [SkPoint_setLength_spec hsq v 1 _ hs hss.symm one_ne_zero]
    simp only []
    field_simp
    linear_combination -hss
  · right
    have hx : v.fX = 0 := by nlinarith [mul_self_nonneg v.fX, mul_self_nonneg v.fY]
    have hy : v.fY = 0 := by nlinarith [mul_self_nonneg v.fX, mul_self_nonneg v.fY]
    unfold SkPoint.normalize SkPoint.setLength
    simp [hx, hy]

/-- A unit normal that `unitNormal` returns for a line or a quad, set to a
length, is the normal scaled by that length. -/
theorem unitNormal_setLength_scale {sqrtf : K → K}
    (hsq : ∀ x, 0 ≤ x → 0 ≤ sqrtf x ∧ sqrtf x * sqrtf x = x) (seg : PathSegment K) (t : K)
    (ns : SkPoint K × SkPoint K)
    (hv : seg.fVerb = Verb.kLine_Verb ∨ seg.fVerb = Verb.kQuad_Verb)
    (h : unitNormal sqrtf seg t = some ns) (len : K) :
    (ns.1.setLength sqrtf len).1 = ns.1.scale len := by
  have key : ns.1.fX * ns.1.fX + ns.1.fY * ns.1.fY = 1 ∨ ns.1 = ⟨0, 0⟩ := by
    rcases hv with hv | hv
    · left
      have hne := unitNormal_line_distinct sqrtf seg t ns hv h
      obtain ⟨u, hu, -, -, hn⟩ := unitNormal_line hsq (seg.pt 0) (seg.pt 1) hne [] t
      rw [unitNormal_line_pts sqrtf seg t hv, hn] at h
      simp only [Option.some.injEq] at h
      subst h
      simp only [rotate90, SkPoint.dot] at hu ⊢
      linear_combination hu
    · unfold unitNormal at h
      rw [hv] at h
      simp only [Option.some.injEq] at h
      subst h
      simp only [rotate90]
      rcases normalize_unit_or_zero hsq
        (if t = 0 then (seg.pt 1).sub (seg.pt 0)
          else if t = 1 then (seg.pt 2).sub (seg.pt 1)
          else ((((seg.pt 1).sub (seg.pt 0)).scale (1 - t)).add
            (((seg.pt 2).sub (seg.pt 1)).scale t)).scale 2) with h1 | h0
      · left
        linear_combination h1
      · right
        rw [h0]
        simp
  rcases key with h1 | h0
  · exact SkPoint_setLength_unit hsq ns.1 len h1
  · rw [h0]
    simp [SkPoint.setLength, SkPoint.scale]

/-- The loop of `strokeSegment` on a stack that is a chain starting at `A`:
the quads it appends form a chain, and the first of them starts at `A`. -/
theorem strokeSegmentLoop_chain {sqrtf : K → K}
    (hsq : ∀ x, 0 ≤ x → 0 ≤ sqrtf x ∧ sqrtf x * sqrtf x = x) :
    ∀ (n : Nat) (stack : List (Item K)) (result out : List (PathSegment K)) (A : SkPoint K),
      (∀ it ∈ stack,
        ((it.fSeg.fVerb = Verb.kLine_Verb ∧ it.fSeg.pt 0 ≠ it.fSeg.pt 1)
          ∨ it.fSeg.fVerb = Verb.kQuad_Verb) ∧ InBounds it.fDistFnc) →
      stackChain sqrtf stack A →
      strokeSegmentLoop sqrtf n stack result = some out →
      ∃ ext, out = result ++ ext ∧
        List.Chain' (fun q1 q2 : PathSegment K => q1.pt 2 = q2.pt 0) ext ∧
        ∀ q ∈ ext.head?, q.pt 0 = A := by
  intro n
  induction n with
  | zero =>
    intro stack result out A _ _ h
    rw [strokeSegmentLoop] at h
    simp only [Option.some.injEq] at h
    exact ⟨[], by rw [← h]; simp, List.chain'_nil, by simp⟩
  | succ n ih =>
    intro stack result out A hstack hchain h
    cases stack with
    | nil =>
      rw [strokeSegmentLoop] at h
      simp only [Option.some.injEq] at h
      exact ⟨[], by rw [← h]; simp, List.chain'_nil, by simp⟩
    | cons item stack =>
      obtain ⟨hseg, hin⟩ := hstack item (List.mem_cons_self _ _)
      obtain ⟨Q, hQ, hQA, hrest⟩ := hchain
      have hverb : item.fSeg.fVerb = Verb.kLine_Verb ∨ item.fSeg.fVerb = Verb.kQuad_Verb := by
        rcases hseg with ⟨h1, -⟩ | h1
        · exact Or.inl h1
        · exact Or.inr h1
      rw [strokeSegmentLoop, hQ] at h
      simp only [Option.some_bind] at h
      cases he : errorCurve item Q with
      | none => rw [he] at h; simp at h
      | some ed =>
        rw [he] at h
        simp only [Option.some_bind] at h
        by_cases hc : |ed.1.extremumWeight| > |1 / 2 * item.fDistFnc.extremumWeight|
        · rw [if_pos hc] at h
          obtain ⟨l, r, hlr, hl, hr⟩ := splitSegment_isSome item.fSeg hseg
          obtain ⟨right, hright, hr1, -⟩ := Item_make_isSome r (item.fDistFnc.split (1 / 2)).2
            (ed.2.split (1 / 2)).2 hr
          obtain ⟨left, hleft, hl1, -⟩ := Item_make_isSome l (item.fDistFnc.split (1 / 2)).1
            (ed.2.split (1 / 2)).1 hl
          obtain ⟨-, -, -, hrd, -, -⟩ := Item_make_spec _ _ _ _ hright
          obtain ⟨-, -, -, hld, -, -⟩ := Item_make_spec _ _ _ _ hleft
          obtain ⟨bl, br, -⟩ := split_half item.fDistFnc hin
          rw [hlr] at h
          simp only [Option.some_bind, hright, hleft] at h
          obtain ⟨Ql, hQl⟩ := approximateSegment_isSome hsq l (item.fDistFnc.split (1 / 2)).1 hl
          obtain ⟨Qr, hQr⟩ := approximateSegment_isSome hsq r (item.fDistFnc.split (1 / 2)).2 hr
          obtain ⟨j1, j2, j3⟩ := split_candidates_join hsq item.fSeg l r item.fDistFnc Q Ql Qr
            hverb hin hlr hQ hQl hQr
          apply ih (left :: right :: stack) result out A _ _ h
          · intro it hit
            rcases List.mem_cons.1 hit with rfl | hit
            · exact ⟨by rw [hl1]; exact hl, by rw [hld]; exact bl⟩
            · rcases List.mem_cons.1 hit with rfl | hit
              · exact ⟨by rw [hr1]; exact hr, by rw [hrd]; exact br⟩
              · exact hstack it (List.mem_cons_of_mem _ hit)
          · refine ⟨Ql, by rw [hl1, hld]; exact hQl, by rw [j1]; exact hQA, Qr,
              by rw [hr1, hrd]; exact hQr, j2.symm, ?_⟩
            rw [j3]
            exact hrest
        · rw [if_neg hc] at h
          obtain ⟨ext, hout, hch, hhead⟩ := ih stack (result ++ [Q]) out (Q.pt 2)
            (fun it hit => hstack it (List.mem_cons_of_mem _ hit)) hrest h
          refine ⟨Q :: ext, by rw [hout]; simp, ?_, ?_⟩
          · rw [List.chain'_cons']
            exact ⟨fun y hy => (hhead y hy).symm, hch⟩
          · intro q hq
            simp only [List.head?_cons, Option.mem_def, Option.some.injEq] at hq
            rw [← hq]
            exact hQA

/-- Two neighbours of a chain, read by their indices. -/
theorem chain_get {α : Type} (R : α → α → Prop) :
    ∀ (l : List α), List.Chain' R l →
      ∀ (i : Nat) (a b : α), l.get? i = some a → l.get? (i + 1) = some b → R a b := by
  intro l
  induction l with
  | nil => intro _ i a b h; simp at h
  | cons x l ih =>
    intro hch i a b ha hb
    rw [List.chain'_cons'] at hch
    cases i with
    | zero =>
      simp only [List.get?_cons_zero, Option.some.injEq] at ha
      simp only [List.get?_cons_succ] at hb
      subst ha
      apply hch.1
      rw [Option.mem_def, ← hb]
      cases l <;> rfl
    | succ i =>
      simp only [List.get?_cons_succ] at ha hb
      exact ih hch.2 i a b ha hb

/-- The two halves of `Split` at `0.5` of a curve of degree `4`. -/
theorem Split_quartic_half (s0 s1 s2 s3 s4 : K) :
    Split (⟨4, [s0, s1, s2, s3, s4]⟩ : ScalarBezCurve K) (1 / 2)
      = (⟨4, [s0, (s0 + s1) * (1 / 2), (s0 + 2 * s1 + s2) * (1 / 4),
            (s0 + 3 * s1 + 3 * s2 + s3) * (1 / 8),
            (s0 + 4 * s1 + 6 * s2 + 4 * s3 + s4) * (1 / 16)]⟩,
          ⟨4, [(s0 + 4 * s1 + 6 * s2 + 4 * s3 + s4) * (1 / 16),
            (s1 + 3 * s2 + 3 * s3 + s4) * (1 / 8), (s2 + 2 * s3 + s4) * (1 / 4),
            (s3 + s4) * (1 / 2), s4]⟩) := by
  simp [Split, splitLoop, casteljauRow, mkDegree, List.range']
  refine ⟨⟨?_, ?_, ?_, ?_⟩, ?_, ?_, ?_, ?_⟩ <;> ring

/-- The values at `0`, `1/2` and `1` of a curve of degree `2`. -/
theorem eval_quad (w0 w1 w2 : K) :
    (⟨2, [w0, w1, w2]⟩ : ScalarBezCurve K).eval 0 = w0 ∧
    (⟨2, [w0, w1, w2]⟩ : ScalarBezCurve K).eval (1 / 2) = (w0 + 2 * w1 + w2) / 4 ∧
    (⟨2, [w0, w1, w2]⟩ : ScalarBezCurve K).eval 1 = w2 := by
  refine ⟨?_, ?_, ?_⟩
  · simp [eval, Eval, casteljauRow, List.range']
  · simp [eval, Eval, casteljauRow, List.range']; ring
  · simp [eval, Eval, casteljauRow, List.range']

/-- The error curve of a candidate below a line on the x-axis from `(a, 0)` to
`(b, 0)`: the candidate has the control points `(a, -w0)`, `((a + b) / 2, -m)`,
`(b, -w2)`, and the squared distance function has the weights `s0 .. s4`. -/
theorem errorCurve_x_axis_quad (seg : PathSegment K) (D : ScalarBezCurve K)
    (a b w0 m w2 s0 s1 s2 s3 s4 : K) :
    errorCurve ⟨seg, D, ⟨4, [s0, s1, s2, s3, s4]⟩, ⟨1, [a, b]⟩, ⟨1, [0, 0]⟩⟩
        ⟨Verb.kQuad_Verb, [⟨a, -w0⟩, ⟨(a + b) / 2, -m⟩, ⟨b, -w2⟩]⟩
      = some (⟨4, [w0 * w0 - s0, w0 * m - s1, (w0 * w2 + 2 * (m * m)) / 3 - s2, m * w2 - s3,
            w2 * w2 - s4]⟩, ⟨4, [s0, s1, s2, s3, s4]⟩) := by
  have hmax1 : max (2 : Int) 1 = 2 := by decide
  have hmax2 : max (4 : Int) 4 = 4 := by decide
  unfold errorCurve
  simp only [coordCurve_quad, degree, hmax1, elevateDegree_line, Option.some_bind]
  rw [show (⟨2, [a, (a + b) / 2, b]⟩ : ScalarBezCurve K).elevateDegree 2 = some _
    from elevateDegree_same _]
  rw [show (⟨2, [-w0, -m, -w2]⟩ : ScalarBezCurve K).elevateDegree 2 = some _
    from elevateDegree_same _]
  simp only [Option.some_bind, Sub_quad, AddSquares_quad, hmax2]
  rw [show (⟨4, [s0, s1, s2, s3, s4]⟩ : ScalarBezCurve K).elevateDegree 4 = some _
    from elevateDegree_same _]
  simp only [Option.some_bind]
  rw [show (⟨4, _⟩ : ScalarBezCurve K).elevateDegree 4 = some _ from elevateDegree_same _]
  simp only [Option.some_bind, sub_quartic]
  simp only [Option.map_some']
  congr 3
  refine List.cons_eq_cons.2 ⟨by ring, List.cons_eq_cons.2 ⟨by ring, List.cons_eq_cons.2
    ⟨by ring, List.cons_eq_cons.2 ⟨by ring, List.cons_eq_cons.2 ⟨by ring, rfl⟩⟩⟩⟩⟩

/-- The quad that `approximateSegment` returns for the line on the x-axis from
`(a, 0)` to `(b, 0)`, `a < b`, and a distance function of degree `2`. -/
theorem approximateSegment_x_axis_quad {sqrtf : K → K}
    (hsq : ∀ x, 0 ≤ x → 0 ≤ sqrtf x ∧ sqrtf x * sqrtf x = x) (a b w0 w1 w2 : K) (hab : a < b) :
    approximateSegment sqrtf ⟨Verb.kLine_Verb, [⟨a, 0⟩, ⟨b, 0⟩]⟩ ⟨2, [w0, w1, w2]⟩
      = some ⟨Verb.kQuad_Verb, [⟨a, -w0⟩, ⟨(a + b) / 2, -((w0 + 2 * w1 + w2) / 4)⟩, ⟨b, -w2⟩]⟩ := by
  have hn : ∀ t, unitNormal sqrtf ⟨Verb.kLine_Verb, [(⟨a, 0⟩ : SkPoint K), ⟨b, 0⟩]⟩ t
      = some (⟨0, -1⟩, ⟨1, 0⟩) := by
    intro t
    rw [unitNormal_line_of_length hsq _ _ (b - a) (by linarith) (by ring)]
    have : b - a ≠ 0 := by linarith
    simp only [sub_self, zero_mul, one_div, mul_inv_cancel₀ this]
  obtain ⟨e0, eh, e1⟩ := eval_quad w0 w1 w2
  rw [approximateSegment_line_any hsq _ _ ⟨0, -1⟩ ⟨1, 0⟩ _ hn (by norm_num), e0, eh, e1]
  congr 2
  simp only [SkPoint.add, SkPoint.scale, List.cons.injEq, SkPoint.mk.injEq, and_true]
  refine ⟨⟨by ring, by ring⟩, ⟨by ring, by ring⟩, ⟨by ring, by ring⟩⟩

/-- One round of the loop of `strokeSegment` that rejects the candidate of a
line on the x-axis with a distance function of degree `2`: the two halves are
pushed, the left one on top. -/
theorem strokeSegmentLoop_x_axis_reject {sqrtf : K → K}
    (hsq : ∀ x, 0 ≤ x → 0 ≤ sqrtf x ∧ sqrtf x * sqrtf x = x) (n : Nat)
    (a b w0 w1 w2 s0 s1 s2 s3 s4 : K) (hab : a < b)
    (hrej : |(⟨4, [w0 * w0 - s0, w0 * ((w0 + 2 * w1 + w2) / 4) - s1,
          (w0 * w2 + 2 * ((w0 + 2 * w1 + w2) / 4 * ((w0 + 2 * w1 + w2) / 4))) / 3 - s2,
          (w0 + 2 * w1 + w2) / 4 * w2 - s3, w2 * w2 - s4]⟩ : ScalarBezCurve K).extremumWeight|
      > |1 / 2 * (⟨2, [w0, w1, w2]⟩ : ScalarBezCurve K).extremumWeight|)
    (stack : List (Item K)) (result : List (PathSegment K)) :
    strokeSegmentLoop sqrtf (n + 1)
        (⟨⟨Verb.kLine_Verb, [⟨a, 0⟩, ⟨b, 0⟩]⟩, ⟨2, [w0, w1, w2]⟩, ⟨4, [s0, s1, s2, s3, s4]⟩,
          ⟨1, [a, b]⟩, ⟨1, [0, 0]⟩⟩ :: stack) result
      = strokeSegmentLoop sqrtf n
        (⟨⟨Verb.kLine_Verb, [⟨a, 0⟩, ⟨(a + b) / 2, 0⟩]⟩,
            ⟨2, [w0, (w0 + w1) / 2, (w0 + 2 * w1 + w2) / 4]⟩,
            ⟨4, [s0, (s0 + s1) / 2, (s0 + 2 * s1 + s2) / 4, (s0 + 3 * s1 + 3 * s2 + s3) / 8,
              (s0 + 4 * s1 + 6 * s2 + 4 * s3 + s4) / 16]⟩,
            ⟨1, [a, (a + b) / 2]⟩, ⟨1, [0, 0]⟩⟩ ::
          ⟨⟨Verb.kLine_Verb, [⟨(a + b) / 2, 0⟩, ⟨b, 0⟩]⟩,
            ⟨2, [(w0 + 2 * w1 + w2) / 4, (w1 + w2) / 2, w2]⟩,
            ⟨4, [(s0 + 4 * s1 + 6 * s2 + 4 * s3 + s4) / 16, (s1 + 3 * s2 + 3 * s3 + s4) / 8,
              (s2 + 2 * s3 + s4) / 4, (s3 + s4) / 2, s4]⟩,
            ⟨1, [(a + b) / 2, b]⟩, ⟨1, [0, 0]⟩⟩ :: stack) result := by
  have hsplit : splitSegment (⟨Verb.kLine_Verb, [⟨a, 0⟩, ⟨b, 0⟩]⟩ : PathSegment K) (1 / 2)
      = some (⟨Verb.kLine_Verb, [⟨a, 0⟩, ⟨(a + b) / 2, 0⟩]⟩,
          ⟨Verb.kLine_Verb, [⟨(a + b) / 2, 0⟩, ⟨b, 0⟩]⟩) := by
    rw [splitSegment_line_half _ rfl]
    simp only [PathSegment.pt, List.getD_cons_zero, List.getD_cons_succ, SkPoint.add,
      SkPoint.scale]
    norm_num
    ring
  have hd : (⟨2, [w0, w1, w2]⟩ : ScalarBezCurve K).split (1 / 2)
      = (⟨2, [w0, (w0 + w1) / 2, (w0 + 2 * w1 + w2) / 4]⟩,
          ⟨2, [(w0 + 2 * w1 + w2) / 4, (w1 + w2) / 2, w2]⟩) := by
    unfold split
    rw [Split_quad_half]
    norm_num
    refine ⟨⟨?_, ?_⟩, ?_, ?_⟩ <;> ring
  have hs : (⟨4, [s0, s1, s2, s3, s4]⟩ : ScalarBezCurve K).split (1 / 2)
      = (⟨4, [s0, (s0 + s1) / 2, (s0 + 2 * s1 + s2) / 4, (s0 + 3 * s1 + 3 * s2 + s3) / 8,
            (s0 + 4 * s1 + 6 * s2 + 4 * s3 + s4) / 16]⟩,
          ⟨4, [(s0 + 4 * s1 + 6 * s2 + 4 * s3 + s4) / 16, (s1 + 3 * s2 + 3 * s3 + s4) / 8,
            (s2 + 2 * s3 + s4) / 4, (s3 + s4) / 2, s4]⟩) := by
    unfold split
    rw [Split_quartic_half]
    norm_num
    refine ⟨⟨?_, ?_, ?_, ?_⟩, ?_, ?_, ?_, ?_⟩ <;> ring
  rw [strokeSegmentLoop]
  simp only [approximateSegment_x_axis_quad hsq a b w0 w1 w2 hab, Option.some_bind,
    errorCurve_x_axis_quad, if_pos hrej, hsplit, hd, hs]
  rfl

/-- One round of the loop of `strokeSegment` that accepts the candidate of a
line on the x-axis with a distance function of degree `2`. -/
theorem strokeSegmentLoop_x_axis_accept {sqrtf : K → K}
    (hsq : ∀ x, 0 ≤ x → 0 ≤ sqrtf x ∧ sqrtf x * sqrtf x = x) (n : Nat)
    (a b w0 w1 w2 s0 s1 s2 s3 s4 : K) (hab : a < b)
    (hacc : ¬ (|(⟨4, [w0 * w0 - s0, w0 * ((w0 + 2 * w1 + w2) / 4) - s1,
          (w0 * w2 + 2 * ((w0 + 2 * w1 + w2) / 4 * ((w0 + 2 * w1 + w2) / 4))) / 3 - s2,
          (w0 + 2 * w1 + w2) / 4 * w2 - s3, w2 * w2 - s4]⟩ : ScalarBezCurve K).extremumWeight|
      > |1 / 2 * (⟨2, [w0, w1, w2]⟩ : ScalarBezCurve K).extremumWeight|))
    (stack : List (Item K)) (result : List (PathSegment K)) :
    strokeSegmentLoop sqrtf (n + 1)
        (⟨⟨Verb.kLine_Verb, [⟨a, 0⟩, ⟨b, 0⟩]⟩, ⟨2, [w0, w1, w2]⟩, ⟨4, [s0, s1, s2, s3, s4]⟩,
          ⟨1, [a, b]⟩, ⟨1, [0, 0]⟩⟩ :: stack) result
      = strokeSegmentLoop sqrtf n stack
          (result ++ [⟨Verb.kQuad_Verb,
            [⟨a, -w0⟩, ⟨(a + b) / 2, -((w0 + 2 * w1 + w2) / 4)⟩, ⟨b, -w2⟩]⟩]) := by
  rw [strokeSegmentLoop]
  simp only [approximateSegment_x_axis_quad hsq a b w0 w1 w2 hab, Option.some_bind,
    errorCurve_x_axis_quad, if_neg hacc]

/-- The extremal weights that the stroke of the line from `(0, 0)` to `(8, 0)`
with the distance function of weights `0, 0, 4` compares. -/
theorem extremumWeight_two_quads :
    (⟨4, [0, 0, 2 / 3, 4, 0]⟩ : ScalarBezCurve K).extremumWeight = 4 ∧
    (⟨2, [0, 0, 4]⟩ : ScalarBezCurve K).extremumWeight = 4 ∧
    (⟨4, [0, 0, 1 / 24, 1 / 4, 0]⟩ : ScalarBezCurve K).extremumWeight = 1 / 4 ∧
    (⟨2, [0, 0, 1]⟩ : ScalarBezCurve K).extremumWeight = 1 ∧
    (⟨4, [0, 1 / 4, 17 / 24, 1, 0]⟩ : ScalarBezCurve K).extremumWeight = 1 ∧
    (⟨2, [1, 2, 4]⟩ : ScalarBezCurve K).extremumWeight = 4 := by
  have h1 : |(2 / 3 : K)| = 2 / 3 := abs_of_pos (by norm_num)
  have h2 : |(4 : K)| = 4 := abs_of_pos (by norm_num)
  have h3 : |(1 / 24 : K)| = 1 / 24 := abs_of_pos (by norm_num)
  have h4 : |(1 / 4 : K)| = 1 / 4 := abs_of_pos (by norm_num)
  have h5 : |(17 / 24 : K)| = 17 / 24 := abs_of_pos (by norm_num)
  have h6 : |(2 : K)| = 2 := abs_of_pos (by norm_num)
  refine ⟨?_, ?_, ?_, ?_, ?_, ?_⟩ <;>
    simp only [extremumWeight, List.foldl_cons, List.foldl_nil, abs_zero, abs_one, h1, h2, h3,
      h4, h5, h6] <;> norm_num

/-- The loop of `strokeSegment` on the line from `(0, 0)` to `(8, 0)` with the
distance function of weights `0, 0, 4`: the first candidate is rejected, the
candidates of the two halves are accepted. -/
theorem strokeSegmentLoop_two_quads {sqrtf : K → K}
    (hsq : ∀ x, 0 ≤ x → 0 ≤ sqrtf x ∧ sqrtf x * sqrtf x = x) (n : Nat) :
    strokeSegmentLoop sqrtf (n + 3)
        [⟨⟨Verb.kLine_Verb, [⟨0, 0⟩, ⟨8, 0⟩]⟩, ⟨2, [0, 0, 4]⟩, ⟨4, [0, 0, 0, 0, 16]⟩,
          ⟨1, [0, 8]⟩, ⟨1, [0, 0]⟩⟩] []
      = some [⟨Verb.kQuad_Verb, [⟨0, 0⟩, ⟨2, -(1 / 4)⟩, ⟨4, -1⟩]⟩,
          ⟨Verb.kQuad_Verb, [⟨4, -1⟩, ⟨6, -(9 / 4)⟩, ⟨8, -4⟩]⟩] := by
  obtain ⟨x1, x2, x3, x4, x5, x6⟩ := extremumWeight_two_quads (K := K)
  have hrej : |(⟨4, [(0 : K) * 0 - 0, 0 * ((0 + 2 * 0 + 4) / 4) - 0,
          (0 * 4 + 2 * ((0 + 2 * 0 + 4) / 4 * ((0 + 2 * 0 + 4) / 4))) / 3 - 0,
          (0 + 2 * 0 + 4) / 4 * 4 - 0, 4 * 4 - 16]⟩ : ScalarBezCurve K).extremumWeight|
      > |1 / 2 * (⟨2, [0, 0, 4]⟩ : ScalarBezCurve K).extremumWeight| := by
    rw [show (⟨4, [(0 : K) * 0 - 0, 0 * ((0 + 2 * 0 + 4) / 4) - 0,
          (0 * 4 + 2 * ((0 + 2 * 0 + 4) / 4 * ((0 + 2 * 0 + 4) / 4))) / 3 - 0,
          (0 + 2 * 0 + 4) / 4 * 4 - 0, 4 * 4 - 16]⟩ : ScalarBezCurve K)
        = ⟨4, [0, 0, 2 / 3, 4, 0]⟩ by norm_num, x1, x2]
    norm_num
  rw [show n + 3 = (n + 2) + 1 from rfl,
    strokeSegmentLoop_x_axis_reject hsq (n + 2) 0 8 0 0 4 0 0 0 0 16 (by norm_num) hrej]
  rw [show (⟨⟨Verb.kLine_Verb, [⟨0, 0⟩, ⟨(0 + 8) / 2, 0⟩]⟩,
      ⟨2, [0, (0 + 0) / 2, (0 + 2 * 0 + 4) / 4]⟩,
      ⟨4, [0, (0 + 0) / 2, (0 + 2 * 0 + 0) / 4, (0 + 3 * 0 + 3 * 0 + 0) / 8,
        (0 + 4 * 0 + 6 * 0 + 4 * 0 + 16) / 16]⟩,
      ⟨1, [0, (0 + 8) / 2]⟩, ⟨1, [0, 0]⟩⟩ : Item K)
    = ⟨⟨Verb.kLine_Verb, [⟨0, 0⟩, ⟨4, 0⟩]⟩, ⟨2, [0, 0, 1]⟩, ⟨4, [0, 0, 0, 0, 1]⟩,
      ⟨1, [0, 4]⟩, ⟨1, [0, 0]⟩⟩ by norm_num]
  rw [show (⟨⟨Verb.kLine_Verb, [⟨(0 + 8) / 2, 0⟩, ⟨8, 0⟩]⟩,
      ⟨2, [(0 + 2 * 0 + 4) / 4, (0 + 4) / 2, 4]⟩,
      ⟨4, [(0 + 4 * 0 + 6 * 0 + 4 * 0 + 16) / 16, (0 + 3 * 0 + 3 * 0 + 16) / 8,
        (0 + 2 * 0 + 16) / 4, (0 + 16) / 2, 16]⟩,
      ⟨1, [(0 + 8) / 2, 8]⟩, ⟨1, [0, 0]⟩⟩ : Item K)
    = ⟨⟨Verb.kLine_Verb, [⟨4, 0⟩, ⟨8, 0⟩]⟩, ⟨2, [1, 2, 4]⟩, ⟨4, [1, 2, 4, 8, 16]⟩,
      ⟨1, [4, 8]⟩, ⟨1, [0, 0]⟩⟩ by norm_num]
  have hacc1 : ¬ (|(⟨4, [(0 : K) * 0 - 0, 0 * ((0 + 2 * 0 + 1) / 4) - 0,
          (0 * 1 + 2 * ((0 + 2 * 0 + 1) / 4 * ((0 + 2 * 0 + 1) / 4))) / 3 - 0,
          (0 + 2 * 0 + 1) / 4 * 1 - 0, 1 * 1 - 1]⟩ : ScalarBezCurve K).extremumWeight|
      > |1 / 2 * (⟨2, [0, 0, 1]⟩ : ScalarBezCurve K).extremumWeight|) := by
    rw [show (⟨4, [(0 : K) * 0 - 0, 0 * ((0 + 2 * 0 + 1) / 4) - 0,
          (0 * 1 + 2 * ((0 + 2 * 0 + 1) / 4 * ((0 + 2 * 0 + 1) / 4))) / 3 - 0,
          (0 + 2 * 0 + 1) / 4 * 1 - 0, 1 * 1 - 1]⟩ : ScalarBezCurve K)
        = ⟨4, [0, 0, 1 / 24, 1 / 4, 0]⟩ by norm_num, x3, x4,
      abs_of_pos (by norm_num : (0 : K) < 1 / 4), abs_of_pos (by norm_num : (0 : K) < 1 / 2 * 1)]
    norm_num
  have hacc2 : ¬ (|(⟨4, [(1 : K) * 1 - 1, 1 * ((1 + 2 * 2 + 4) / 4) - 2,
          (1 * 4 + 2 * ((1 + 2 * 2 + 4) / 4 * ((1 + 2 * 2 + 4) / 4))) / 3 - 4,
          (1 + 2 * 2 + 4) / 4 * 4 - 8, 4 * 4 - 16]⟩ : ScalarBezCurve K).extremumWeight|
      > |1 / 2 * (⟨2, [1, 2, 4]⟩ : ScalarBezCurve K).extremumWeight|) := by
    rw [show (⟨4, [(1 : K) * 1 - 1, 1 * ((1 + 2 * 2 + 4) / 4) - 2,
          (1 * 4 + 2 * ((1 + 2 * 2 + 4) / 4 * ((1 + 2 * 2 + 4) / 4))) / 3 - 4,
          (1 + 2 * 2 + 4) / 4 * 4 - 8, 4 * 4 - 16]⟩ : ScalarBezCurve K)
        = ⟨4, [0, 1 / 4, 17 / 24, 1, 0]⟩ by norm_num, x5, x6]
    norm_num
  rw [strokeSegmentLoop_x_axis_accept hsq (n + 1) 0 4 0 0 1 0 0 0 0 1 (by norm_num) hacc1,
    strokeSegmentLoop_x_axis_accept hsq n 4 8 1 2 4 1 2 4 8 16 (by norm_num) hacc2]
  have hend : ∀ r : List (PathSegment K), strokeSegmentLoop sqrtf n [] r = some r := by
    intro r
    cases n <;> rw [strokeSegmentLoop]
  rw [hend]
  norm_num

/-- The stroke of the line from `(0, 0)` to `(8, 0)` with the distance function
of weights `0, 0, 4`: two quads, which meet at `(4, -1)`. -/
theorem strokeSegment_two_quads {sqrtf : K → K}
    (hsq : ∀ x, 0 ≤ x → 0 ≤ sqrtf x ∧ sqrtf x * sqrtf x = x) :
    strokeSegment sqrtf ⟨Verb.kLine_Verb, [⟨0, 0⟩, ⟨8, 0⟩]⟩ ⟨2, [0, 0, 4]⟩
      = some [⟨Verb.kQuad_Verb, [⟨0, 0⟩, ⟨2, -(1 / 4)⟩, ⟨4, -1⟩]⟩,
          ⟨Verb.kQuad_Verb, [⟨4, -1⟩, ⟨6, -(9 / 4)⟩, ⟨8, -4⟩]⟩] := by
  have hitem : Item.make (⟨Verb.kLine_Verb, [⟨0, 0⟩, ⟨8, 0⟩]⟩ : PathSegment K)
      ⟨2, [0, 0, 4]⟩ ⟨4, [0, 0, 0, 0, 16]⟩
      = some ⟨⟨Verb.kLine_Verb, [⟨0, 0⟩, ⟨8, 0⟩]⟩, ⟨2, [0, 0, 4]⟩, ⟨4, [0, 0, 0, 0, 16]⟩,
          ⟨1, [0, 8]⟩, ⟨1, [0, 0]⟩⟩ := rfl
  unfold strokeSegment
  rw [Mul_quad_last, show (4 : K) * 4 = 16 by norm_num, hitem]
  simp only [Option.some_bind]
  rw [show kMaxIters = 4997 + 3 from rfl, strokeSegmentLoop_two_quads hsq 4997]
  simp

/-! ## The skipped join, the chain of quads, the reversed path and the bounds of the curve algebra -/

/-- C31: when `1 - before . after` is nearly zero for the unit normals of `prev`
at `1` and of `curr` at `0`, in particular when the two unit normals are equal,
`join` appends nothing: it returns the state it was given, with `fOuter` and
`fInner` unchanged. -/
theorem join_skipped_unchanged (sqrtf : K → K) (st : SkVarWidthStroker K)
    (prev curr : PathSegment K) (nb tb na ta : SkPoint K)
    (hb : unitNormal sqrtf prev 1 = some (nb, tb))
    (ha : unitNormal sqrtf curr 0 = some (na, ta)) :
    (SkScalarNearlyZero (1 - nb.dot na) = true → join sqrtf st prev curr = some st) ∧
    (nb = na → nb.dot nb = 1 → join sqrtf st prev curr = some st) := by
  have key : SkScalarNearlyZero (1 - nb.dot na) = true → join sqrtf st prev curr = some st := by
    intro hz
    rw [join_eq_miterJoin]
    unfold miterJoin
    simp only [hb, ha, Option.some_bind]
    cases isClockwise nb na
    · simp only [Bool.not_false, if_true, rotate180_dot, hz]
    · simp only [Bool.not_true, Bool.false_eq_true, if_false, hz, if_true]
  refine ⟨key, fun he h1 => key ?_⟩
  rw [← he, h1]
  unfold SkScalarNearlyZero
  apply decide_eq_true
  rw [sub_self, abs_zero]
  norm_num

/-- Witness of C31 over the reals: the collinear lines `(0, 0) (5, 0)` and
`(5, 0) (9, 0)`, whose unit normals are both `(0, -1)`, joined in a state with
the radius `10` and two accumulators that hold a contour. -/
theorem join_skipped_unchanged_witness :
    unitNormal Real.sqrt ⟨Verb.kLine_Verb, [⟨0, 0⟩, ⟨5, 0⟩]⟩ 1
      = some ((⟨0, -1⟩ : SkPoint ℝ), ⟨1, 0⟩) ∧
    unitNormal Real.sqrt ⟨Verb.kLine_Verb, [⟨5, 0⟩, ⟨9, 0⟩]⟩ 0
      = some ((⟨0, -1⟩ : SkPoint ℝ), ⟨1, 0⟩) ∧
    join Real.sqrt
        ⟨10, Cap.kButt_Cap, Join.kMiter_Join,
          (SkPath.empty.moveTo ⟨0, 10⟩).lineTo ⟨5, 10⟩,
          (SkPath.empty.moveTo ⟨0, -10⟩).lineTo ⟨5, -10⟩, mkWeights 0 [10], mkWeights 0 [10], 0⟩
        ⟨Verb.kLine_Verb, [⟨0, 0⟩, ⟨5, 0⟩]⟩ ⟨Verb.kLine_Verb, [⟨5, 0⟩, ⟨9, 0⟩]⟩
      = some ⟨10, Cap.kButt_Cap, Join.kMiter_Join,
          (SkPath.empty.moveTo ⟨0, 10⟩).lineTo ⟨5, 10⟩,
          (SkPath.empty.moveTo ⟨0, -10⟩).lineTo ⟨5, -10⟩, mkWeights 0 [10], mkWeights 0 [10], 0⟩ :=
  ⟨unitNormal_example_prev, unitNormal_collinear_curr,
    (join_skipped_unchanged Real.sqrt _ _ _ ⟨0, -1⟩ ⟨1, 0⟩ ⟨0, -1⟩ ⟨1, 0⟩ unitNormal_example_prev
      unitNormal_collinear_curr).2 rfl (by simp only [SkPoint.dot]; norm_num)⟩

/-- C32: in exact arithmetic, for a line or a quad and a distance function with
its weights in bounds, the quads that `strokeSegment(seg, d)` returns form a
connected chain in the order of the list: there is a first quad, it starts at
`seg.start + d(0) * n(0)` with `n(0)` the unit normal of the segment at `0`, and
of every two quads that follow one another in the list the earlier one ends
(`fPoints[2]`) where the later one starts (`fPoints[0]`). -/
theorem strokeSegment_chain {sqrtf : K → K}
    (hsq : ∀ x, 0 ≤ x → 0 ≤ sqrtf x ∧ sqrtf x * sqrtf x = x) (seg : PathSegment K)
    (d : ScalarBezCurve K) (out : List (PathSegment K))
    (hv : seg.fVerb = Verb.kLine_Verb ∨ seg.fVerb = Verb.kQuad_Verb) (hd : InBounds d)
    (h : strokeSegment sqrtf seg d = some out) :
    ∃ ns q rest, unitNormal sqrtf seg 0 = some ns ∧ out = q :: rest ∧
      q.pt 0 = (seg.pt 0).add (ns.1.scale (d.eval 0)) ∧
      ∀ (i : Nat) (a b : PathSegment K),
        out.get? i = some a → out.get? (i + 1) = some b → a.pt 2 = b.pt 0 := by
  unfold strokeSegment at h
  cases hitem : Item.make seg d (ScalarBezCurve.Mul d d) with
  | none => rw [hitem] at h; simp at h
  | some item =>
    rw [hitem] at h
    simp only [Option.some_bind] at h
    obtain ⟨-, -, hs, hdd, -, -⟩ := Item_make_spec _ _ _ _ hitem
    cases hloop : strokeSegmentLoop sqrtf kMaxIters [item] [] with
    | none => rw [hloop] at h; simp at h
    | some result =>
      rw [hloop] at h
      simp only [Option.some_bind] at h
      by_cases hr : result = []
      · rw [if_pos hr] at h; simp at h
      · rw [if_neg hr] at h
        simp only [Option.some.injEq] at h
        subst h
        have hQ : ∃ Q, approximateSegment sqrtf seg d = some Q := by
          have h1 := hloop
          rw [show kMaxIters = 4999 + 1 from rfl, strokeSegmentLoop, hs, hdd] at h1
          cases hq : approximateSegment sqrtf seg d with
          | none => rw [hq] at h1; simp at h1
          | some Q => exact ⟨Q, rfl⟩
        obtain ⟨Q, hQ⟩ := hQ
        obtain ⟨ns, ne, h0, -, q0, -⟩ := approximateSegment_ends sqrtf seg d Q hv hQ
        have hseg : (seg.fVerb = Verb.kLine_Verb ∧ seg.pt 0 ≠ seg.pt 1)
            ∨ seg.fVerb = Verb.kQuad_Verb := by
          rcases hv with h1 | h1
          · exact Or.inl ⟨h1, unitNormal_line_distinct sqrtf seg 0 ns h1 h0⟩
          · exact Or.inr h1
        obtain ⟨ext, hout, hch, hhead⟩ := strokeSegmentLoop_chain hsq kMaxIters [item] [] result
          (Q.pt 0)
          (by
            intro it hit
            rw [List.mem_singleton] at hit
            subst hit
            exact ⟨by rw [hs]; exact hseg, by rw [hdd]; exact hd⟩)
          ⟨Q, by rw [hs, hdd]; exact hQ, rfl, trivial⟩ hloop
        rw [List.nil_append] at hout
        subst hout
        cases result with
        | nil => exact absurd rfl hr
        | cons q rest =>
          refine ⟨ns, q, rest, h0, rfl, ?_, chain_get _ _ hch⟩
          rw [hhead q rfl, q0, unitNormal_setLength_scale hsq seg 0 ns hv h0]

/-- Witness of C32 over the reals: the line from `(0, 0)` to `(8, 0)` with the
distance function of degree `2` with the weights `0, 0, 4`.  The first candidate
is rejected and the candidates of the two halves are accepted, so that two quads
are returned; they meet at `(4, -1)`. -/
theorem strokeSegment_chain_witness :
    InBounds (⟨2, [0, 0, 4]⟩ : ScalarBezCurve ℝ) ∧
    ∃ out, strokeSegment Real.sqrt ⟨Verb.kLine_Verb, [⟨0, 0⟩, ⟨8, 0⟩]⟩ ⟨2, [0, 0, 4]⟩ = some out ∧
      out.length = 2 ∧
      ∃ ns q rest, unitNormal Real.sqrt ⟨Verb.kLine_Verb, [⟨0, 0⟩, ⟨8, 0⟩]⟩ 0 = some ns ∧
        out = q :: rest ∧
        q.pt 0 = ((⟨Verb.kLine_Verb, [⟨0, 0⟩, ⟨8, 0⟩]⟩ : PathSegment ℝ).pt 0).add
          (ns.1.scale ((⟨2, [0, 0, 4]⟩ : ScalarBezCurve ℝ).eval 0)) ∧
        ∀ (i : Nat) (a b : PathSegment ℝ),
          out.get? i = some a → out.get? (i + 1) = some b → a.pt 2 = b.pt 0 := by
  have hb : InBounds (⟨2, [0, 0, 4]⟩ : ScalarBezCurve ℝ) := by
    unfold InBounds; simp
  have hs := strokeSegment_two_quads (K := ℝ) real_sqrt_spec
  exact ⟨hb, _, hs, rfl, strokeSegment_chain real_sqrt_spec _ _ _ (Or.inl rfl) hb hs⟩

/-- The stroke of a line with a distance function of degree at most one over an
ordered field, where no operation rounds: for every line `p0 -> p1` with
`p0 ≠ p1` and every distance function `d`
of degree `0` or `1`, the error curve of the first candidate has the weights
zero, `strokeSegment` accepts it in its first round without splitting, and
returns exactly one quad, with the control points `p0 + d(0) * n`,
`(p0 + p1) / 2 + d(0.5) * n` and `p1 + d(1) * n`, where `n` is the unit normal of
the line. -/
theorem strokeSegment_line_degree_le_one {sqrtf : K → K}
    (hsq : ∀ x, 0 ≤ x → 0 ≤ sqrtf x ∧ sqrtf x * sqrtf x = x) (p0 p1 : SkPoint K)
    (d : ScalarBezCurve K) (h01 : p0 ≠ p1)
    (hd : (d.fDegree = 0 ∧ 1 ≤ d.fWeights.length) ∨ (d.fDegree = 1 ∧ 2 ≤ d.fWeights.length)) :
    ∃ (n tg : SkPoint K) (Q : PathSegment K),
      (∀ t, unitNormal sqrtf ⟨Verb.kLine_Verb, [p0, p1]⟩ t = some (n, tg)) ∧ n.dot n = 1 ∧
      Q = ⟨Verb.kQuad_Verb, [p0.add (n.scale (d.eval 0)),
        ((p0.add p1).scale (1 / 2)).add (n.scale (d.eval (1 / 2))),
        p1.add (n.scale (d.eval 1))]⟩ ∧
      (∃ item dsq, Item.make (⟨Verb.kLine_Verb, [p0, p1]⟩ : PathSegment K) d
          (ScalarBezCurve.Mul d d) = some item ∧
        errorCurve item Q = some (⟨4, [0, 0, 0, 0, 0]⟩, dsq)) ∧
      strokeSegmentIters sqrtf ⟨Verb.kLine_Verb, [p0, p1]⟩ d = 1 ∧
      strokeSegment sqrtf ⟨Verb.kLine_Verb, [p0, p1]⟩ d = some [Q] := by
  obtain ⟨u, hu1, -, hu, -⟩ := unitNormal_line hsq p0 p1 h01 [] 0
  have hnorm : ∀ t, unitNormal sqrtf ⟨Verb.kLine_Verb, [p0, p1]⟩ t
      = some (rotate90 u, u) := by
    intro t
    obtain ⟨u2, -, -, hu2, h⟩ := unitNormal_line hsq p0 p1 h01 [] t
    rw [h, hu2, ← hu]
  have hnn : (rotate90 u).fX * (rotate90 u).fX + (rotate90 u).fY * (rotate90 u).fY = 1 := by
    rw [← hu1]
    simp only [rotate90, SkPoint.dot]
    ring
  cases d with
  | mk deg ws =>
    rcases hd with ⟨h0, hl⟩ | ⟨h1, hl⟩
    · simp only at h0 hl
      subst h0
      obtain ⟨c, rest, rfl⟩ : ∃ c rest, ws = c :: rest := by
        cases ws with
        | nil => simp at hl
        | cons c rest => exact ⟨c, rest, rfl⟩
      obtain ⟨a1, a2, a3⟩ := strokeSegment_line_const hsq p0 p1 (rotate90 u) u c rest hnorm hnn
      exact ⟨rotate90 u, u, _, hnorm, hnn, by rw [eval_const, eval_const, eval_const], a1, a2,
        a3⟩
    · simp only at h1 hl
      subst h1
      obtain ⟨x, y, rest, rfl⟩ : ∃ x y rest, ws = x :: y :: rest := by
        cases ws with
        | nil => simp at hl
        | cons x r =>
          cases r with
          | nil => simp at hl
          | cons y rest => exact ⟨x, y, rest, rfl⟩
      obtain ⟨e0, eh, e1⟩ := eval_linear x y rest
      obtain ⟨a1, a2, a3⟩ := strokeSegment_line_linear hsq p0 p1 (rotate90 u) u x y rest hnorm hnn
      exact ⟨rotate90 u, u, _, hnorm, hnn, by rw [e0, eh, e1], a1, a2, a3⟩

/-- Instance of `strokeSegment_line_degree_le_one` over the reals: the line from
`(0, 0)` to `(100, 0)` with the distance function `ScalarBezCurve(1, {10, 20})`. -/
theorem strokeSegment_line_degree_le_one_witness :
    (⟨0, 0⟩ : SkPoint ℝ) ≠ ⟨100, 0⟩ ∧
    ((mkWeights 1 [10, 20] : ScalarBezCurve ℝ).fDegree = 1 ∧
      2 ≤ (mkWeights 1 [10, 20] : ScalarBezCurve ℝ).fWeights.length) ∧
    ∃ (n tg : SkPoint ℝ) (Q : PathSegment ℝ),
      (∀ t, unitNormal Real.sqrt ⟨Verb.kLine_Verb, [⟨0, 0⟩, ⟨100, 0⟩]⟩ t = some (n, tg)) ∧
      n.dot n = 1 ∧
      Q = ⟨Verb.kQuad_Verb, [(⟨0, 0⟩ : SkPoint ℝ).add (n.scale ((mkWeights 1 [10, 20]).eval 0)),
        (((⟨0, 0⟩ : SkPoint ℝ).add ⟨100, 0⟩).scale (1 / 2)).add
          (n.scale ((mkWeights 1 [10, 20]).eval (1 / 2))),
        (⟨100, 0⟩ : SkPoint ℝ).add (n.scale ((mkWeights 1 [10, 20]).eval 1))]⟩ ∧
      (∃ item dsq, Item.make (⟨Verb.kLine_Verb, [⟨0, 0⟩, ⟨100, 0⟩]⟩ : PathSegment ℝ)
          (mkWeights 1 [10, 20])
          (ScalarBezCurve.Mul (mkWeights 1 [10, 20]) (mkWeights 1 [10, 20])) = some item ∧
        errorCurve item Q = some (⟨4, [0, 0, 0, 0, 0]⟩, dsq)) ∧
      strokeSegmentIters Real.sqrt ⟨Verb.kLine_Verb, [⟨0, 0⟩, ⟨100, 0⟩]⟩
        (mkWeights 1 [10, 20]) = 1 ∧
      strokeSegment Real.sqrt ⟨Verb.kLine_Verb, [⟨0, 0⟩, ⟨100, 0⟩]⟩ (mkWeights 1 [10, 20])
        = some [Q] := by
  have h01 : (⟨0, 0⟩ : SkPoint ℝ) ≠ ⟨100, 0⟩ := by simp
  have hd : (mkWeights 1 [10, 20] : ScalarBezCurve ℝ).fDegree = 1 ∧
      2 ≤ (mkWeights 1 [10, 20] : ScalarBezCurve ℝ).fWeights.length := by
    constructor
    · rfl
    · simp [mkWeights, mkDegree]
  exact ⟨h01, hd, strokeSegment_line_degree_le_one real_sqrt_spec _ _ _ h01 (Or.inr hd)⟩

/-- C34: for a path of one move followed by the line and quad verbs `vs`, with
the points that these verbs take, `appendPathReversed(path, result)` returns,
and the path it returns is `result` after, for the segments of the path from the
last to the first, a line to the start of the segment or a quad with the control
point of the segment to its start has been appended; the move is not copied and,
when there is a segment, the last point is the first point of the path.  On a
`result` with an open contour these are exactly the verbs `vs` in reverse order,
`vs.length` of them, and the points of the path in reverse order without its
last point. -/
theorem appendPathReversed_reverses (path result : SkPath K) (vs : List Verb)
    (hv : path.fVerbs = Verb.kMove_Verb :: vs)
    (hk : ∀ v ∈ vs, v = Verb.kLine_Verb ∨ v = Verb.kQuad_Verb)
    (hp : path.fPts.length = 1 + (vs.map fun v => if v = Verb.kQuad_Verb then 2 else 1).sum) :
    ∃ out, appendPathReversed path result = some out ∧
      out = appendSegmentsReversed (iterSegments path.fVerbs path.fPts ⟨0, 0⟩ ⟨0, 0⟩) result ∧
      (vs ≠ [] → out.getLastPt = path.fPts.getD 0 ⟨0, 0⟩) ∧
      (0 ≤ result.fLastMoveToIndex →
        out.fVerbs = result.fVerbs ++ vs.reverse ∧
        out.fVerbs.length = result.fVerbs.length + vs.length ∧
        out.fPts = result.fPts ++ path.fPts.dropLast.reverse ∧
        out.fLastMoveToIndex = result.fLastMoveToIndex) := by
  obtain ⟨p0, pts, hpts⟩ : ∃ p0 pts, path.fPts = p0 :: pts := by
    cases h : path.fPts with
    | nil => rw [h] at hp; simp at hp; omega
    | cons p0 pts => exact ⟨p0, pts, rfl⟩
  have hl : pts.length = (vs.map fun v => if v = Verb.kQuad_Verb then 2 else 1).sum := by
    rw [hpts] at hp; simp only [List.length_cons] at hp; omega
  have hloop := appendReversedLoop_segments vs hk pts [] p0 p0 [Verb.kMove_Verb] result hl
  have hsegs : appendSegmentsReversed (iterSegments path.fVerbs path.fPts ⟨0, 0⟩ ⟨0, 0⟩) result
      = appendSegmentsReversed (iterSegments vs pts p0 p0) result := by
    rw [hv, hpts]
    by_cases hne : vs = []
    · subst hne
      simp [iterSegments, appendSegmentsReversed]
    · rw [iterSegments, if_neg hne]
      simp [appendSegmentsReversed]
  refine ⟨appendSegmentsReversed (iterSegments vs pts p0 p0) result, ?_, hsegs.symm, ?_, ?_⟩
  · unfold appendPathReversed SkPath.countPoints
    rw [hv, hpts, List.reverse_cons]
    simp only [List.nil_append, List.length_nil, Nat.zero_add, List.length_cons] at hloop
    rw [show (p0 :: pts).length = 1 + pts.length by simp; omega, hloop]
    simp [appendReversedLoop]
  · intro hne
    rw [hpts, appendSegmentsReversed_getLastPt vs hk hne]
    simp
  · intro ho
    obtain ⟨e1, e2, e3⟩ := appendSegmentsReversed_open vs hk pts p0 p0 result hl ho
    refine ⟨e1, ?_, ?_, e3⟩
    · rw [e1]; simp
    · rw [e2, hpts]

/-- Witness of C34 over the rationals: the path with a move to `(0, 0)`, a line
to `(4, 0)` and a quad over `(6, 2)` to `(8, 0)`, appended in reverse to a path
that holds a move and a line. -/
theorem appendPathReversed_reverses_witness :
    ∃ out, appendPathReversed
        (⟨[Verb.kMove_Verb, Verb.kLine_Verb, Verb.kQuad_Verb],
          [⟨0, 0⟩, ⟨4, 0⟩, ⟨6, 2⟩, ⟨8, 0⟩], 0⟩ : SkPath ℚ)
        ⟨[Verb.kMove_Verb, Verb.kLine_Verb], [⟨0, 5⟩, ⟨8, 5⟩], 0⟩ = some out ∧
      out.fVerbs = [Verb.kMove_Verb, Verb.kLine_Verb, Verb.kQuad_Verb, Verb.kLine_Verb] ∧
      out.fPts = [⟨0, 5⟩, ⟨8, 5⟩, ⟨6, 2⟩, ⟨4, 0⟩, ⟨0, 0⟩] ∧
      out.getLastPt = ⟨0, 0⟩ :=
  let ⟨out, h1, _, h3, h4⟩ := appendPathReversed_reverses
    (⟨[Verb.kMove_Verb, Verb.kLine_Verb, Verb.kQuad_Verb],
      [⟨0, 0⟩, ⟨4, 0⟩, ⟨6, 2⟩, ⟨8, 0⟩], 0⟩ : SkPath ℚ)
    ⟨[Verb.kMove_Verb, Verb.kLine_Verb], [⟨0, 5⟩, ⟨8, 5⟩], 0⟩
    [Verb.kLine_Verb, Verb.kQuad_Verb] rfl (by decide) rfl
  ⟨out, h1, (h4 (by decide)).1, (h4 (by decide)).2.2.1, h3 (by decide)⟩

/-- C35: every operation of the algebra keeps the invariant
`weights.size() == degree + 1` with the documented degree.  For inputs that
satisfy it: both halves of `Split` have the degree of the input; a curve that
`ElevateDegree(C, d)` returns has the degree `d`; `Mul(a, b)` and
`AddSquares(a, b)` have the degree `deg(a) + deg(b)`; `Mul(C, f)` and a curve that
`Sub(a, b)` returns keep the degree; and every result satisfies the invariant
again.  `Split`, `Mul(a, b)` and `AddSquares(a, b)` build their results with
the constructor `ScalarBezCurve(degree)`, which asserts `degree >= 0`.  The
results of `Mul(a, b)`, `AddSquares(a, b)` and `Sub(a, b)` do not depend on the
size of the vector of `b`. -/
theorem operations_keep_size (a b : ScalarBezCurve K) (t f : K) (d : Int)
    (ha : (a.fWeights.length : Int) = a.fDegree + 1) :
    (0 ≤ a.fDegree →
      (Split a t).1.fDegree = a.fDegree ∧ (Split a t).2.fDegree = a.fDegree ∧
      ((Split a t).1.fWeights.length : Int) = (Split a t).1.fDegree + 1 ∧
      ((Split a t).2.fWeights.length : Int) = (Split a t).2.fDegree + 1) ∧
    (∀ E, ElevateDegree a d = some E →
      E.fDegree = d ∧ (E.fWeights.length : Int) = E.fDegree + 1) ∧
    (0 ≤ a.fDegree + b.fDegree →
      (ScalarBezCurve.Mul a b).fDegree = a.fDegree + b.fDegree ∧
      ((ScalarBezCurve.Mul a b).fWeights.length : Int) = (ScalarBezCurve.Mul a b).fDegree + 1 ∧
      (AddSquares a b).fDegree = a.fDegree + b.fDegree ∧
      ((AddSquares a b).fWeights.length : Int) = (AddSquares a b).fDegree + 1) ∧
    ((MulScalar a f).fDegree = a.fDegree ∧
      ((MulScalar a f).fWeights.length : Int) = (MulScalar a f).fDegree + 1) ∧
    (∀ r, ScalarBezCurve.Sub a b = some r →
      r.fDegree = a.fDegree ∧ (r.fWeights.length : Int) = r.fDegree + 1) := by
  refine ⟨fun h0 => ?_, fun E hE => ?_, fun h0 => ?_, ?_, fun r hr => ?_⟩
  · obtain ⟨l1, l2⟩ := Split_length a t ⟨h0, by omega⟩
    obtain ⟨-, -, d1, d2, -, -⟩ := Split_spec a t ⟨h0, by omega⟩
    refine ⟨d1, d2, ?_, ?_⟩
    · rw [l1, d1]; omega
    · rw [l2, d2]; omega
  · obtain ⟨hd, h⟩ := ElevateDegree_length a d E hE
    refine ⟨hd, ?_⟩
    rcases h with h | ⟨hlt, hl⟩
    · rw [h]; exact ha
    · rw [hl, hd]; omega
  · have hm : (ScalarBezCurve.Mul a b).fDegree = a.fDegree + b.fDegree := rfl
    have hs : (AddSquares a b).fDegree = a.fDegree + b.fDegree := rfl
    refine ⟨hm, ?_, hs, ?_⟩
    · rw [Mul_length, hm]; omega
    · rw [AddSquares_length, hs]; omega
  · refine ⟨rfl, ?_⟩
    rw [(MulScalar_sub_length a b f).1]
    exact ha
  · obtain ⟨hd, hl⟩ := (MulScalar_sub_length a b f).2 r hr
    exact ⟨hd, by rw [hl, hd]; exact ha⟩

/-- Witness of C35: the curves `[1, 2]` and `[3, 4]` of degree `1` over the
rationals, split at `1/2`, elevated to the degree `3` and
multiplied by `4`. -/
theorem operations_keep_size_witness :
    (([1, 2] : List ℚ).length : Int) = 1 + 1 ∧
    ((0 : Int) ≤ 1 →
      (Split (⟨1, [1, 2]⟩ : ScalarBezCurve ℚ) (1 / 2)).1.fDegree = 1 ∧
      (Split (⟨1, [1, 2]⟩ : ScalarBezCurve ℚ) (1 / 2)).2.fDegree = 1 ∧
      ((Split (⟨1, [1, 2]⟩ : ScalarBezCurve ℚ) (1 / 2)).1.fWeights.length : Int)
        = (Split (⟨1, [1, 2]⟩ : ScalarBezCurve ℚ) (1 / 2)).1.fDegree + 1 ∧
      ((Split (⟨1, [1, 2]⟩ : ScalarBezCurve ℚ) (1 / 2)).2.fWeights.length : Int)
        = (Split (⟨1, [1, 2]⟩ : ScalarBezCurve ℚ) (1 / 2)).2.fDegree + 1) ∧
    (∀ E, ElevateDegree (⟨1, [1, 2]⟩ : ScalarBezCurve ℚ) 3 = some E →
      E.fDegree = 3 ∧ (E.fWeights.length : Int) = E.fDegree + 1) ∧
    ((0 : Int) ≤ 1 + 1 →
      (ScalarBezCurve.Mul (⟨1, [1, 2]⟩ : ScalarBezCurve ℚ) ⟨1, [3, 4]⟩).fDegree = 1 + 1 ∧
      ((ScalarBezCurve.Mul (⟨1, [1, 2]⟩ : ScalarBezCurve ℚ) ⟨1, [3, 4]⟩).fWeights.length : Int)
        = (ScalarBezCurve.Mul (⟨1, [1, 2]⟩ : ScalarBezCurve ℚ) ⟨1, [3, 4]⟩).fDegree + 1 ∧
      (AddSquares (⟨1, [1, 2]⟩ : ScalarBezCurve ℚ) ⟨1, [3, 4]⟩).fDegree = 1 + 1 ∧
      ((AddSquares (⟨1, [1, 2]⟩ : ScalarBezCurve ℚ) ⟨1, [3, 4]⟩).fWeights.length : Int)
        = (AddSquares (⟨1, [1, 2]⟩ : ScalarBezCurve ℚ) ⟨1, [3, 4]⟩).fDegree + 1) ∧
    ((MulScalar (⟨1, [1, 2]⟩ : ScalarBezCurve ℚ) 4).fDegree = 1 ∧
      ((MulScalar (⟨1, [1, 2]⟩ : ScalarBezCurve ℚ) 4).fWeights.length : Int)
        = (MulScalar (⟨1, [1, 2]⟩ : ScalarBezCurve ℚ) 4).fDegree + 1) ∧
    (∀ r, ScalarBezCurve.Sub (⟨1, [1, 2]⟩ : ScalarBezCurve ℚ) ⟨1, [3, 4]⟩ = some r →
      r.fDegree = 1 ∧ (r.fWeights.length : Int) = r.fDegree + 1) :=
  ⟨rfl, operations_keep_size (⟨1, [1, 2]⟩ : ScalarBezCurve ℚ) ⟨1, [3, 4]⟩ (1 / 2) 4 3 rfl⟩

/-- C36: with the `uint64_t` arithmetic of the source, `choose(n, k)` is the
binomial coefficient for all `k ≤ n ≤ 62`, and no product
`result * (n + 1 - i)` of its loop, `i = 1 .. k`, where `result` is the value
`choose(n, i - 1)` of the rounds before, reaches `2 ^ 64`. -/
theorem choose_exact_below_63 (n k : Nat) (hn : n ≤ 62) (hk : k ≤ n) :
    choose n k = n.choose k ∧
    ∀ i, 1 ≤ i → i ≤ k → choose n (i - 1) * (n + 1 - i) < 2 ^ 64 := by
  refine ⟨choose_eq_binom n hn k hk, fun i h1 hi => ?_⟩
  obtain ⟨m, rfl⟩ : ∃ m, i = m + 1 := ⟨i - 1, by omega⟩
  rw [Nat.add_sub_cancel, choose_eq_binom n hn m (by omega),
    show n + 1 - (m + 1) = n - m by omega, ← Nat.choose_succ_right_eq]
  exact choose_mul_lt n m hn (by omega)

/-- Witness of C36: `choose(62, 31)`. -/
theorem choose_exact_below_63_witness :
    62 ≤ 62 ∧ 31 ≤ 62 ∧ choose 62 31 = Nat.choose 62 31 ∧
    ∀ i, 1 ≤ i → i ≤ 31 → choose 62 (i - 1) * (62 + 1 - i) < 2 ^ 64 :=
  ⟨le_rfl, by decide, choose_exact_below_63 62 31 le_rfl (by decide)⟩

/-- C37: `ZeroSet` terminates on every curve: started on `[0, 1]`, `ZeroSetRec`
returns within the levels `0 .. 12` of the recursion (the depth `13` of the
embedding), because an interval of width at most `1/4096` is never split; the
list that it returns has at most `4096` values, and a larger depth allowed to
the recursion gives the same list. -/
theorem ZeroSet_depth_bound (c : ScalarBezCurve K) :
    (∀ (curve : ScalarBezCurve K) (a b tol : K) (acc : List K),
      |b - a| ≤ 1 / 4096 → ∃ out, ZeroSetRec 1 curve a b tol acc = some out) ∧
    ∃ out, ZeroSet 13 c = some out ∧ out.length ≤ 4096 ∧
      ∀ fuel, 13 ≤ fuel → ZeroSet fuel c = some out := by
  constructor
  · intro curve a b tol acc hw
    have hz : SkScalarNearlyZero (b - a) = true := by
      unfold SkScalarNearlyZero
      exact decide_eq_true hw
    rw [ZeroSetRec]
    simp only []
    by_cases h1 : (zeroSetScan curve).1 ≤ tol
    · rw [if_pos h1]
      exact ⟨_, rfl⟩
    · rw [if_neg h1]
      by_cases h2 : ((zeroSetScan curve).2.1 || (zeroSetScan curve).2.2) = true
      · rw [if_pos h2]
        exact ⟨_, rfl⟩
      · rw [if_neg h2, if_pos hz]
        exact ⟨_, rfl⟩
  · obtain ⟨out, h, hl⟩ := ZeroSetRec_bounded (kTol : K) 12 c 0 1 [] (by norm_num)
    refine ⟨out, h, by simpa using hl, fun fuel hf => ?_⟩
    exact ZeroSetRec_mono_le c 0 1 kTol [] out 13 fuel hf h

/-! ## The tapered stroke of degree 32: every round of `strokeSegment` rejects -/

set_option maxRecDepth 100000 in
/-- The values of `choose` read by the elevation of a quartic to the degree `64`
at the weights `1` and `63`. -/
theorem choose_values_elevation :
    u64 (choose 4 0 * choose 60 1) = 60 ∧ u64 (choose 4 1 * choose 60 0) = 4 ∧
    u64 (choose 4 3 * choose 60 60) = 4 ∧ u64 (choose 4 4 * choose 60 59) = 60 ∧
    choose (4 + 60) 1 = 64 ∧ choose (4 + 60) 63 = 12 := by
  decide

/-- The blending factors of the elevation of a quartic to the degree `64` at the
weights `1` and `63`; the last two are divided by the wrapped `choose(64, 63) = 12`. -/
theorem blend_elevation :
    (blend 4 0 60 1 1 : K) = 60 / 64 ∧ (blend 4 1 60 0 1 : K) = 4 / 64 ∧
    (blend 4 3 60 60 63 : K) = 4 / 12 ∧ (blend 4 4 60 59 63 : K) = 60 / 12 := by
  obtain ⟨h1, h2, h3, h4, c1, c63⟩ := choose_values_elevation
  refine ⟨?_, ?_, ?_, ?_⟩ <;> unfold blend
  · rw [h1, c1]; norm_num
  · rw [h2, c1]; norm_num
  · rw [h3, c63]; norm_num
  · rw [h4, c63]; norm_num

/-- The tail of `errorCurve` for a quartic `E0` and a squared distance function
of degree `64`: the elevation of `E0` to the degree `64` and the subtraction
succeed, and the weights `1` and `63` of the error curve are those of the
elevation formula with the values of `choose` in `uint64_t`. -/
theorem errorCurve_tail_64 (E0 Sq : ScalarBezCurve K) (hE : E0.fDegree = 4)
    (hd : Sq.fDegree = 64) :
    ∃ E2 : ScalarBezCurve K,
      ((Sq.elevateDegree (max Sq.fDegree E0.fDegree)).bind fun s =>
        (E0.elevateDegree (max Sq.fDegree E0.fDegree)).bind fun E1 =>
        (E1.sub s).map fun E2 => (E2, s)) = some (E2, Sq) ∧
      65 ≤ E2.fWeights.length ∧
      E2.fWeights.getD 1 0
        = E0.fWeights.getD 0 0 * (60 / 64) + E0.fWeights.getD 1 0 * (4 / 64)
          - Sq.fWeights.getD 1 0 ∧
      E2.fWeights.getD 63 0
        = E0.fWeights.getD 3 0 * (4 / 12) + E0.fWeights.getD 4 0 * (60 / 12)
          - Sq.fWeights.getD 63 0 := by
  have hmax : max Sq.fDegree E0.fDegree = 64 := by rw [hd, hE]; decide
  have hSq : Sq.elevateDegree 64 = some Sq := by
    unfold elevateDegree
    rw [if_pos hd.symm]
  obtain ⟨E1, hE1, hdeg1, hlen1, hw1⟩ := ElevateDegree_spec E0 64 (by rw [hE]; decide)
    (by rw [hE]; decide)
  have hEl : E0.elevateDegree 64 = some ⟨64, E1.fWeights⟩ := by
    unfold elevateDegree
    rw [if_neg (by rw [hE]; decide), hE1]
    rfl
  obtain ⟨r, hr, -, hrlen, hrw⟩ := sub_spec (⟨64, E1.fWeights⟩ : ScalarBezCurve K) Sq hd
    (by show (64 : Int) + 1 ≤ (E1.fWeights.length : Int); rw [hlen1]; decide)
  have t1 : (64 - E0.fDegree).toNat = 60 := by rw [hE]; rfl
  have t2 : E0.fDegree.toNat = 4 := by rw [hE]; rfl
  obtain ⟨b1, b2, b3, b4⟩ := blend_elevation (K := K)
  refine ⟨r, ?_, ?_, ?_, ?_⟩
  · rw [hmax, hSq, Option.some_bind, hEl, Option.some_bind, hr, Option.map_some']
  · rw [hrlen]
    show 65 ≤ E1.fWeights.length
    rw [hlen1]
    decide
  · have h := hrw 1
    have c : ((1 : Nat) : Int) ≤ (⟨64, E1.fWeights⟩ : ScalarBezCurve K).fDegree := by
      norm_num
    rw [if_pos c] at h
    have h1 := hw1 1 (by decide)
    rw [t1, t2, show Finset.Ico (1 - 60) (min 4 1 + 1) = {0, 1} by decide,
      Finset.sum_pair (by decide), b1, b2] at h1
    unfold seqOf at h h1
    rw [h, h1]
  · have h := hrw 63
    have c : ((63 : Nat) : Int) ≤ (⟨64, E1.fWeights⟩ : ScalarBezCurve K).fDegree := by
      norm_num
    rw [if_pos c] at h
    have h1 := hw1 63 (by decide)
    rw [t1, t2, show Finset.Ico (63 - 60) (min 4 63 + 1) = {3, 4} by decide,
      Finset.sum_pair (by decide), b3, b4] at h1
    unfold seqOf at h h1
    rw [h, h1]

/-- The error curve of a candidate below the line from `(0, 0)` to `(x, 0)`
against a squared distance function of degree `64`: the candidate has the
control points `(0, -w0)`, `(x / 2, -m)`, `(x, -w2)`.  The weights `1` and `63`
of the error curve come from the elevation of the quartic
`w0^2, w0 m, (w0 w2 + 2 m^2) / 3, m w2, w2^2` to the degree `64`. -/
theorem errorCurve_x_axis_64 (seg : PathSegment K) (D Sq : ScalarBezCurve K) (x w0 m w2 : K)
    (hd : Sq.fDegree = 64) :
    ∃ E2 : ScalarBezCurve K,
      errorCurve ⟨seg, D, Sq, ⟨1, [0, x]⟩, ⟨1, [0, 0]⟩⟩
          ⟨Verb.kQuad_Verb, [⟨0, -w0⟩, ⟨(0 + x) / 2, -m⟩, ⟨x, -w2⟩]⟩ = some (E2, Sq) ∧
      65 ≤ E2.fWeights.length ∧
      E2.fWeights.getD 1 0 = (60 * (w0 * w0) + 4 * (w0 * m)) / 64 - Sq.fWeights.getD 1 0 ∧
      E2.fWeights.getD 63 0 = (4 * (m * w2) + 60 * (w2 * w2)) / 12 - Sq.fWeights.getD 63 0 := by
  have hmax1 : max (2 : Int) 1 = 2 := by decide
  have key : errorCurve ⟨seg, D, Sq, ⟨1, [0, x]⟩, ⟨1, [0, 0]⟩⟩
        ⟨Verb.kQuad_Verb, [⟨0, -w0⟩, ⟨(0 + x) / 2, -m⟩, ⟨x, -w2⟩]⟩
      = ((Sq.elevateDegree (max Sq.fDegree
            (AddSquares (⟨2, [0 - 0, (0 + x) / 2 - (0 + x) * (1 / 2), x - x]⟩ : ScalarBezCurve K)
              ⟨2, [-w0 - 0, -m - (0 + 0) * (1 / 2), -w2 - 0]⟩).fDegree)).bind fun s =>
          ((AddSquares (⟨2, [0 - 0, (0 + x) / 2 - (0 + x) * (1 / 2), x - x]⟩ : ScalarBezCurve K)
              ⟨2, [-w0 - 0, -m - (0 + 0) * (1 / 2), -w2 - 0]⟩).elevateDegree
            (max Sq.fDegree
              (AddSquares (⟨2, [0 - 0, (0 + x) / 2 - (0 + x) * (1 / 2), x - x]⟩ :
                  ScalarBezCurve K)
                ⟨2, [-w0 - 0, -m - (0 + 0) * (1 / 2), -w2 - 0]⟩).fDegree)).bind fun E1 =>
          (E1.sub s).map fun E2 => (E2, s)) := by
    unfold errorCurve
    simp only [coordCurve_quad, degree, hmax1, elevateDegree_line, Option.some_bind]
    rw [show (⟨2, [(0 : K), (0 + x) / 2, x]⟩ : ScalarBezCurve K).elevateDegree 2 = some _
      from elevateDegree_same _]
    rw [show (⟨2, [-w0, -m, -w2]⟩ : ScalarBezCurve K).elevateDegree 2 = some _
      from elevateDegree_same _]
    simp only [Option.some_bind, Sub_quad]
  obtain ⟨E2, h, hl, h1, h63⟩ := errorCurve_tail_64
    (AddSquares (⟨2, [0 - 0, (0 + x) / 2 - (0 + x) * (1 / 2), x - x]⟩ : ScalarBezCurve K)
      ⟨2, [-w0 - 0, -m - (0 + 0) * (1 / 2), -w2 - 0]⟩) Sq rfl hd
  refine ⟨E2, by rw [key, h], hl, ?_, ?_⟩
  · rw [h1, AddSquares_quad]
    simp only [List.getD_cons_zero, List.getD_cons_succ]
    ring
  · rw [h63, AddSquares_quad]
    simp only [List.getD_cons_zero, List.getD_cons_succ]
    ring

/-- The quad that `approximateSegment` returns for the line from `(0, 0)` to
`(x, 0)`, `x > 0`, and any distance function. -/
theorem approximateSegment_x_axis_any {sqrtf : K → K}
    (hsq : ∀ x, 0 ≤ x → 0 ≤ sqrtf x ∧ sqrtf x * sqrtf x = x) (x : K) (D : ScalarBezCurve K)
    (hx : 0 < x) :
    approximateSegment sqrtf ⟨Verb.kLine_Verb, [⟨0, 0⟩, ⟨x, 0⟩]⟩ D
      = some ⟨Verb.kQuad_Verb,
          [⟨0, -D.eval 0⟩, ⟨(0 + x) / 2, -D.eval (1 / 2)⟩, ⟨x, -D.eval 1⟩]⟩ := by
  rw [approximateSegment_line_any hsq _ _ ⟨0, -1⟩ ⟨1, 0⟩ _
    (fun t => unitNormal_x_axis hsq x t hx) (by norm_num)]
  congr 2
  simp only [SkPoint.add, SkPoint.scale, List.cons.injEq, SkPoint.mk.injEq, and_true]
  refine ⟨⟨by ring, by ring⟩, ⟨by ring, by ring⟩, ⟨by ring, by ring⟩⟩

/-- At `t = 0` the de Casteljau triangle returns the first weight it reads. -/
theorem dc_at_zero (w : Nat → K) : ∀ k i, dc w 0 k i = w i := by
  intro k
  induction k with
  | zero => intro i; rfl
  | succ k ih =>
    intro i
    rw [dc, ih i, ih (i + 1)]
    ring

/-- The values at `0`, `1/2` and `1` of a curve of degree `n` with the weights
`a β^i`, `a ≥ 0`, `β ≥ 0`: the first weight, a non-negative number, and the last
weight. -/
theorem eval_geometric (c : ScalarBezCurve K) (n : Nat) (a β : K) (hdeg : c.fDegree = n)
    (hlen : n + 1 ≤ c.fWeights.length) (hw : ∀ i, i ≤ n → c.fWeights.getD i 0 = a * β ^ i)
    (ha : 0 ≤ a) (hβ : 0 ≤ β) :
    c.eval 0 = a ∧ 0 ≤ c.eval (1 / 2) ∧ c.eval 1 = a * β ^ n := by
  have hIn : InBounds c := ⟨by rw [hdeg]; omega, by rw [hdeg]; omega⟩
  have hn : c.fDegree.toNat = n := by rw [hdeg]; omega
  refine ⟨?_, ?_, ?_⟩
  · unfold eval
    rw [Eval_eq_dc c 0 hIn, dc_at_zero]
    unfold seqOf
    rw [hw 0 (Nat.zero_le n), pow_zero, mul_one]
  · unfold eval
    rw [Eval_eq_bernstein c _ hIn, hn]
    unfold bernstein
    apply Finset.sum_nonneg
    intro i hi
    rw [Finset.mem_range] at hi
    unfold seqOf
    rw [hw i (by omega)]
    have h2 : (0 : K) ≤ 1 - 1 / 2 := by norm_num
    have h3 : (0 : K) ≤ 1 / 2 := by norm_num
    have h4 : (0 : K) ≤ (n.choose i : K) := Nat.cast_nonneg _
    exact mul_nonneg (mul_nonneg (mul_nonneg (mul_nonneg ha (pow_nonneg hβ i)) h4)
      (pow_nonneg h3 i)) (pow_nonneg h2 _)
  · unfold eval
    rw [Eval_one c hIn, hn]
    unfold seqOf
    exact hw n le_rfl

/-- The left half of a curve of degree `n` with the weights `a β^i`, split at
`1/2`: the weights are `a ((1 + β) / 2)^i`. -/
theorem split_geometric (c : ScalarBezCurve K) (n : Nat) (a β : K) (hdeg : c.fDegree = n)
    (hlen : n + 1 ≤ c.fWeights.length) (hw : ∀ i, i ≤ n → c.fWeights.getD i 0 = a * β ^ i) :
    (c.split (1 / 2)).1.fDegree = n ∧ (c.split (1 / 2)).1.fWeights.length = n + 1 ∧
    ∀ i, i ≤ n → (c.split (1 / 2)).1.fWeights.getD i 0 = a * ((1 + β) / 2) ^ i := by
  have hIn : InBounds c := ⟨by rw [hdeg]; omega, by rw [hdeg]; omega⟩
  have hn : c.fDegree.toNat = n := by rw [hdeg]; omega
  obtain ⟨-, -, d1, -, hl, -⟩ := Split_spec c (1 / 2) hIn
  obtain ⟨l1, -⟩ := Split_length c (1 / 2) hIn
  refine ⟨by unfold split; rw [d1, hdeg], by unfold split; rw [l1, hn], fun i hi => ?_⟩
  have h := hl i (by rw [hn]; exact hi)
  unfold seqOf at h
  unfold split
  rw [h, dc_eq_sum, show (1 + β) / 2 = β / 2 + 1 / 2 by ring, add_pow, Finset.mul_sum]
  apply Finset.sum_congr rfl
  intro j hj
  rw [Finset.mem_range] at hj
  rw [Nat.zero_add, hw j (by omega), show (1 : K) - 1 / 2 = 1 / 2 by norm_num, div_pow β 2 j,
    one_div, inv_pow, inv_pow]
  ring

/-- The extremal weight of a distance function with the weights `100 β^i`,
`0 ≤ β ≤ 1`, followed by zeros, is at most `100` in absolute value. -/
theorem extremumWeight_geometric_le (c : ScalarBezCurve K) (β : K) (hβ : 0 ≤ β) (hβ1 : β ≤ 1)
    (hlen : 33 ≤ c.fWeights.length)
    (hw : ∀ i, i ≤ 32 → c.fWeights.getD i 0 = 100 * β ^ i)
    (hz : ∀ i, 32 < i → c.fWeights.getD i 0 = 0) :
    |c.extremumWeight| ≤ 100 := by
  have hne : c.fWeights ≠ [] := by
    intro h0
    rw [h0] at hlen
    simp at hlen
  obtain ⟨j, -, he, -, -⟩ := extremumWeight_aux c hne
  rw [he]
  by_cases hj : j ≤ 32
  · rw [hw j hj, abs_of_nonneg (mul_nonneg (by norm_num) (pow_nonneg hβ j))]
    have := pow_le_one₀ hβ hβ1 (n := j)
    linarith
  · rw [hz j (by omega), abs_zero]
    norm_num

/-- The candidate of a work item of the tapered stroke is rejected: the weight
`1` of the error curve is above the tolerance while `β ≤ 59/64`, and the weight
`63`, which the elevation divides by the wrapped `choose(64, 63) = 12`, is above
it from there on. -/
theorem tapered_reject (D E2 : ScalarBezCurve K) (β m : K) (hβ : 0 ≤ β) (hm : 0 ≤ m)
    (hD : |D.extremumWeight| ≤ 100) (hl : 65 ≤ E2.fWeights.length)
    (h1 : E2.fWeights.getD 1 0
      = (60 * (100 * 100) + 4 * (100 * m)) / 64 - 10000 * β ^ 1)
    (h63 : E2.fWeights.getD 63 0
      = (4 * (m * (100 * β ^ 32)) + 60 * (100 * β ^ 32 * (100 * β ^ 32))) / 12
        - 10000 * β ^ 63) :
    |E2.extremumWeight| > |1 / 2 * D.extremumWeight| := by
  have htol : |1 / 2 * D.extremumWeight| ≤ 50 := by
    rw [abs_mul, abs_of_pos (by norm_num : (0 : K) < 1 / 2)]
    linarith
  have hne : E2.fWeights ≠ [] := by
    intro h0
    rw [h0] at hl
    simp at hl
  obtain ⟨j, -, he, hmax, -⟩ := extremumWeight_aux E2 hne
  rw [he]
  by_cases hc : β ≤ 59 / 64
  · have h := hmax 1 (by omega)
    rw [h1] at h
    have hv : (50 : K) < (60 * (100 * 100) + 4 * (100 * m)) / 64 - 10000 * β ^ 1 := by
      rw [pow_one]
      linarith
    have ha := le_abs_self ((60 * (100 * 100) + 4 * (100 * m)) / 64 - 10000 * β ^ 1)
    linarith
  · have hc1 : (59 / 64 : K) ≤ β := le_of_lt (not_le.mp hc)
    have h := hmax 63 (by omega)
    rw [h63] at h
    have hP : (59 / 64 : K) ^ 63 ≤ β ^ 63 := pow_le_pow_left₀ (by norm_num) hc1 63
    have hnum : (50 : K) < 10000 * ((59 / 64 : K) ^ 63 * (231 / 64)) := by norm_num
    have hprod : (59 / 64 : K) ^ 63 * (231 / 64) ≤ β ^ 63 * (5 * β - 1) :=
      mul_le_mul hP (by linarith) (by norm_num) (pow_nonneg hβ 63)
    have hmb : 0 ≤ m * β ^ 32 := mul_nonneg hm (pow_nonneg hβ 32)
    have e : (4 * (m * (100 * β ^ 32)) + 60 * (100 * β ^ 32 * (100 * β ^ 32))) / 12
        - 10000 * β ^ 63 = 100 / 3 * (m * β ^ 32) + 10000 * (β ^ 63 * (5 * β - 1)) := by
      ring
    rw [e] at h
    have ha := le_abs_self (100 / 3 * (m * β ^ 32) + 10000 * (β ^ 63 * (5 * β - 1)))
    linarith

/-- The loop of `strokeSegment` accepts no candidate when the item on top of the
stack is one of the tapered stroke: the candidate is rejected, and the left half
that comes on top is again such an item, with `(1 + β) / 2` for `β` and `x / 2`
for `x`. -/
theorem strokeSegmentLoop_tapered {sqrtf : K → K}
    (hsq : ∀ x, 0 ≤ x → 0 ≤ sqrtf x ∧ sqrtf x * sqrtf x = x) :
    ∀ (n : Nat) (β x : K) (item : Item K) (stack : List (Item K)),
      0 ≤ β → β < 1 → 0 < x → Item.Tapered β x item →
      strokeSegmentLoop sqrtf n (item :: stack) [] = some [] := by
  intro n
  induction n with
  | zero => intro β x item stack _ _ _ _; rfl
  | succ n ih =>
    intro β x item stack hβ hβ1 hx hT
    obtain ⟨seg, D, Sq, sx, sy⟩ := item
    obtain ⟨hseg, hsx, hsy, hDd, hDl, hDw, hDz, hSd, hSl, hSw⟩ := hT
    simp only at hseg hsx hsy hDd hDl hDw hDz hSd hSl hSw
    subst hseg hsx hsy
    obtain ⟨e0, em, e1⟩ := eval_geometric D 32 100 β (by rw [hDd]; rfl) hDl hDw (by norm_num) hβ
    obtain ⟨E2, hE, hEl, hE1, hE63⟩ := errorCurve_x_axis_64
      (⟨Verb.kLine_Verb, [⟨0, 0⟩, ⟨x, 0⟩]⟩ : PathSegment K) D Sq x (D.eval 0) (D.eval (1 / 2))
      (D.eval 1) hSd
    have hrej : |E2.extremumWeight| > |1 / 2 * D.extremumWeight| := by
      apply tapered_reject D E2 β (D.eval (1 / 2)) hβ em
        (extremumWeight_geometric_le D β hβ hβ1.le hDl hDw hDz) hEl
      · rw [hE1, e0, hSw 1 (by omega)]
      · rw [hE63, e1, hSw 63 (by omega)]
    obtain ⟨dd, dl, dw⟩ := split_geometric D 32 100 β (by rw [hDd]; rfl) hDl hDw
    obtain ⟨sd, sl, sw⟩ := split_geometric Sq 64 10000 β (by rw [hSd]; rfl) hSl hSw
    have hleft : Item.make (⟨Verb.kLine_Verb, [⟨0, 0⟩, ⟨x / 2, 0⟩]⟩ : PathSegment K)
        (D.split (1 / 2)).1 (Sq.split (1 / 2)).1
        = some ⟨⟨Verb.kLine_Verb, [⟨0, 0⟩, ⟨x / 2, 0⟩]⟩, (D.split (1 / 2)).1,
            (Sq.split (1 / 2)).1, ⟨1, [0, x / 2]⟩, ⟨1, [0, 0]⟩⟩ := rfl
    obtain ⟨right, hright⟩ : ∃ right, Item.make
        (⟨Verb.kLine_Verb, [⟨x / 2, 0⟩, ⟨x, 0⟩]⟩ : PathSegment K)
        (D.split (1 / 2)).2 (Sq.split (1 / 2)).2 = some right := ⟨_, rfl⟩
    rw [strokeSegmentLoop]
    simp only [approximateSegment_x_axis_any hsq x D hx, Option.some_bind, hE, if_pos hrej,
      splitSegment_x_axis, hright, hleft]
    exact ih ((1 + β) / 2) (x / 2) _ _ (by linarith) (by linarith) (by linarith)
      ⟨rfl, rfl, rfl, dd, by rw [dl], dw,
        fun i hi => List.getD_eq_default _ _ (by rw [dl]; omega), sd, by rw [sl], sw⟩

/-- The weights of `ScalarBezCurve(32, {100, 0, .., 0})`, the distance function
`100 (1 - t)^32`: the value `100` followed by zeros. -/
theorem tapered_weights (i : Nat) :
    (mkWeights 32 (100 :: List.replicate 32 (0 : K)) : ScalarBezCurve K).fWeights.getD i 0
      = 100 * 0 ^ i := by
  have hw : (mkWeights 32 (100 :: List.replicate 32 (0 : K)) : ScalarBezCurve K).fWeights
      = 100 :: List.replicate 65 0 := rfl
  rw [hw]
  cases i with
  | zero => simp
  | succ i =>
    rw [List.getD_cons_succ, List.getD_eq_getElem?_getD, List.getElem?_replicate,
      zero_pow (Nat.succ_ne_zero i), mul_zero]
    split <;> rfl

/-- The root item of the tapered stroke: the line from `(0, 0)` to `(1, 0)` with
the distance function `ScalarBezCurve(32, {100, 0, .., 0})` and its square
`Mul(d, d)`, whose weights are `10000` followed by zeros. -/
theorem tapered_root :
    Item.Tapered (0 : K) 1
      ⟨⟨Verb.kLine_Verb, [⟨0, 0⟩, ⟨1, 0⟩]⟩, mkWeights 32 (100 :: List.replicate 32 0),
        ScalarBezCurve.Mul (mkWeights 32 (100 :: List.replicate 32 0))
          (mkWeights 32 (100 :: List.replicate 32 0)),
        ⟨1, [0, 1]⟩, ⟨1, [0, 0]⟩⟩ := by
  obtain ⟨-, hl, hv⟩ := Mul_spec (mkWeights 32 (100 :: List.replicate 32 (0 : K)))
    (mkWeights 32 (100 :: List.replicate 32 (0 : K))) (show (0 : Int) ≤ 32 by decide)
    (show (0 : Int) ≤ 32 by decide)
  refine ⟨rfl, rfl, rfl, rfl, ?_, fun i _ => tapered_weights i, ?_, rfl, ?_, ?_⟩
  · show 33 ≤ ((100 : K) :: List.replicate 32 0 ++ List.replicate 33 0).length
    simp
  · intro i hi
    rw [tapered_weights, zero_pow (by omega), mul_zero]
  · show 65 ≤ (ScalarBezCurve.Mul (mkWeights 32 (100 :: List.replicate 32 (0 : K)))
      (mkWeights 32 (100 :: List.replicate 32 (0 : K)))).fWeights.length
    rw [hl]
    show 65 ≤ (32 : Int).toNat + (32 : Int).toNat + 1
    decide
  · intro k hk
    have h := hv k hk
    unfold seqOf at h
    show (ScalarBezCurve.Mul (mkWeights 32 (100 :: List.replicate 32 (0 : K)))
      (mkWeights 32 (100 :: List.replicate 32 (0 : K)))).fWeights.getD k 0 = 10000 * 0 ^ k
    rw [h]
    have e32 : (mkWeights 32 (100 :: List.replicate 32 (0 : K)) : ScalarBezCurve K).fDegree.toNat
        = 32 := rfl
    rw [e32]
    cases k with
    | zero =>
      rw [show Finset.Ico (0 - 32) (min 0 32 + 1) = {0} by decide, Finset.sum_singleton,
        tapered_weights]
      have hb : (blend 32 0 32 (0 - 0) 0 : K) = 1 := by
        have h1 : u64 (choose 32 0 * choose 32 (0 - 0)) = 1 := by decide
        have h2 : choose (32 + 32) 0 = 1 := by decide
        unfold blend
        rw [h1, h2]
        norm_num
      rw [hb]
      norm_num
    | succ k =>
      rw [zero_pow (Nat.succ_ne_zero k), mul_zero]
      apply Finset.sum_eq_zero
      intro i _
      rw [tapered_weights, tapered_weights]
      cases i with
      | zero =>
        rw [Nat.sub_zero, zero_pow (Nat.succ_ne_zero k)]
        ring
      | succ i =>
        rw [zero_pow (Nat.succ_ne_zero i)]
        ring

/-- On the line from `(0, 0)` to `(1, 0)` with the distance function
`ScalarBezCurve(32, {100, 0, .., 0})`, every round of the loop of `strokeSegment`
rejects its candidate, whatever the number of rounds allowed. -/
theorem strokeSegmentLoop_tapered_root {sqrtf : K → K}
    (hsq : ∀ x, 0 ≤ x → 0 ≤ sqrtf x ∧ sqrtf x * sqrtf x = x) (n : Nat) :
    Item.make (⟨Verb.kLine_Verb, [⟨0, 0⟩, ⟨1, 0⟩]⟩ : PathSegment K)
        (mkWeights 32 (100 :: List.replicate 32 0))
        (ScalarBezCurve.Mul (mkWeights 32 (100 :: List.replicate 32 0))
          (mkWeights 32 (100 :: List.replicate 32 0)))
      = some ⟨⟨Verb.kLine_Verb, [⟨0, 0⟩, ⟨1, 0⟩]⟩, mkWeights 32 (100 :: List.replicate 32 0),
          ScalarBezCurve.Mul (mkWeights 32 (100 :: List.replicate 32 0))
            (mkWeights 32 (100 :: List.replicate 32 0)),
          ⟨1, [0, 1]⟩, ⟨1, [0, 0]⟩⟩ ∧
    strokeSegmentLoop sqrtf n
        [⟨⟨Verb.kLine_Verb, [⟨0, 0⟩, ⟨1, 0⟩]⟩, mkWeights 32 (100 :: List.replicate 32 0),
          ScalarBezCurve.Mul (mkWeights 32 (100 :: List.replicate 32 0))
            (mkWeights 32 (100 :: List.replicate 32 0)),
          ⟨1, [0, 1]⟩, ⟨1, [0, 0]⟩⟩] [] = some [] :=
  ⟨rfl, strokeSegmentLoop_tapered hsq n 0 1 _ [] le_rfl zero_lt_one one_pos
    tapered_root⟩

/-- C21, the code at a failing input: the line from `(0, 0)` to `(1, 0)`, whose
end points differ and whose unit tangent is `(1, 0)` at both ends, with the
distance function `ScalarBezCurve(32, {100, 0, .., 0})` of degree `32`, which is
`100 (1 - t)^32`.  Every one of the `kMaxIters = 5000` rounds of the loop rejects
its candidate, the loop ends with an empty list, and `strokeSegment` fails its
final assertion `SkASSERT(!result.empty())`. -/
theorem strokeSegment_degree_32_fails :
    (mkWeights 32 (100 :: List.replicate 32 0) : ScalarBezCurve ℝ).fDegree = 32 ∧
    (⟨0, 0⟩ : SkPoint ℝ) ≠ ⟨1, 0⟩ ∧
    unitNormal Real.sqrt ⟨Verb.kLine_Verb, [⟨0, 0⟩, ⟨1, 0⟩]⟩ 0
      = some ((⟨0, -1⟩ : SkPoint ℝ), ⟨1, 0⟩) ∧
    unitNormal Real.sqrt ⟨Verb.kLine_Verb, [⟨0, 0⟩, ⟨1, 0⟩]⟩ 1
      = some ((⟨0, -1⟩ : SkPoint ℝ), ⟨1, 0⟩) ∧
    (∃ item, Item.make (⟨Verb.kLine_Verb, [⟨0, 0⟩, ⟨1, 0⟩]⟩ : PathSegment ℝ)
        (mkWeights 32 (100 :: List.replicate 32 0))
        (ScalarBezCurve.Mul (mkWeights 32 (100 :: List.replicate 32 0))
          (mkWeights 32 (100 :: List.replicate 32 0))) = some item ∧
      strokeSegmentLoop Real.sqrt kMaxIters [item] [] = some []) ∧
    strokeSegmentIters Real.sqrt ⟨Verb.kLine_Verb, [⟨0, 0⟩, ⟨1, 0⟩]⟩
      (mkWeights 32 (100 :: List.replicate 32 0)) = kMaxIters ∧
    strokeSegment Real.sqrt ⟨Verb.kLine_Verb, [⟨0, 0⟩, ⟨1, 0⟩]⟩
      (mkWeights 32 (100 :: List.replicate 32 0)) = none := by
  obtain ⟨hitem, hloop⟩ := strokeSegmentLoop_tapered_root real_sqrt_spec kMaxIters
  refine ⟨rfl, by simp, unitNormal_x_axis real_sqrt_spec 1 0 one_pos,
    unitNormal_x_axis real_sqrt_spec 1 1 one_pos, ⟨_, hitem, hloop⟩, ?_, ?_⟩
  · unfold strokeSegmentIters
    rw [hitem]
    exact strokeSegmentLoop_nil_rounds Real.sqrt kMaxIters _ [] (List.cons_ne_nil _ _) hloop
  · unfold strokeSegment
    rw [hitem]
    simp only [Option.some_bind, hloop, if_true]

end Theorems

end VarWidthStroker
